import Mathlib

/-!
# Apportionment methods and the distortion estimator of `238.cpp`

A shallow embedding of the five apportionment procedures and of the sampling
estimator, followed by the properties proved about them.

Conventions of the embedding.

* `std::map<std::string, StateData>` is the list of its entries in iteration
  order (ascending key).  The functions below work on any list; the theorems
  that need the container's invariant (keys strictly ascending) assume
  `KeysAscending`.
* `int` is `Int` (no overflow is modelled).
* `float` and `double` arithmetic is given in two readings.  The definitions
  that carry the plain source names (`quota`, `exact_seats`, `round_rule`,
  `ceil_rule`, `priority`, `process_sample` and the functions built on them)
  are the exact reading: every floating-point operation is the rational
  operation, without rounding.  The definitions with the suffix `_f32` are the
  machine reading: every conversion and operation is rounded to binary32, or
  to binary64 where the source computes in `double`, to nearest with halves to
  even.  Properties that the rounding can decide are stated about the machine
  reading.
* Where the source divides floats by zero the IEEE outcome is followed as far
  as a finite value results, and a cast of an infinity or a NaN to `int`
  (undefined in C++) is reported as a failure.
* Integer division by zero (undefined in C++) is reported as a failure.
* Loops whose trip count is not bounded by their header carry a fuel argument.
-/

namespace Apportion

/-! ## Data model -/

/-- The record `struct StateData`. -/
structure StateData where
  abbreviation : String
  population : Int
  seats : Int
  residual : ℚ
deriving DecidableEq

/-- The default constructor `StateData()`. -/
def StateData.empty : StateData := ⟨"", 0, 0, 0⟩

/-- The entries of a `std::map<std::string, StateData>` in iteration order. -/
abbrev StateMap := List (String × StateData)

/-- The container invariant of `std::map`: keys strictly ascending. -/
def KeysAscending (state_map : StateMap) : Prop :=
  (state_map.map Prod.fst).Pairwise (fun a b => a < b)

/-- The data-model invariant: every population is non-negative. -/
def PopulationsNonneg (state_map : StateMap) : Prop :=
  ∀ e ∈ state_map, 0 ≤ e.2.population

/-- The access `state_map[key]` followed by an update `f` of the referenced
record: the record under `key` is updated in place; when the key is absent a
default record is inserted at its place in key order first. -/
def at_key : StateMap → String → (StateData → StateData) → StateMap
  | [], key, f => [(key, f StateData.empty)]
  | (k, d) :: rest, key, f =>
    if key = k then (k, f d) :: rest
    else if key < k then (key, f StateData.empty) :: (k, d) :: rest
    else (k, d) :: at_key rest key f

/-- The function `get_total_population`. -/
def get_total_population (state_map : StateMap) : Int :=
  state_map.foldl (fun total e => total + e.2.population) 0

/-- The sum of the `seats` fields, as `print_results` accumulates it. -/
def seat_total (state_map : StateMap) : Int :=
  state_map.foldl (fun total e => total + e.2.seats) 0

/-- The scan shared by `hamiltons_method` and `huntington_hill_method`:
`for (state, data) : state_map) if (score > max) { max = score; best = state; }`
started from the given `best` and `max`. -/
def scan_max (score : StateData → ℚ) : StateMap → String → ℚ → String × ℚ
  | [], best, mx => (best, mx)
  | (state, data) :: rest, best, mx =>
    if score data > mx then scan_max score rest state (score data)
    else scan_max score rest best mx

/-! ## Hamilton's method -/

/-- A float that may be infinite or NaN, as `quota` can be. -/
inductive Quota where
  | finite (q : ℚ)
  | infinite
  | nan
deriving DecidableEq

/-- The value `float quota = (float)total_pop / total_seats` in the exact
reading, the quotient without rounding; `quota_f32` is the binary32 value. -/
def quota (total_pop total_seats : Int) : Quota :=
  if total_seats ≠ 0 then Quota.finite ((total_pop : ℚ) / (total_seats : ℚ))
  else if total_pop = 0 then Quota.nan
  else Quota.infinite

/-- The value `float exact_seats = data.population / quota` in the exact
reading, `none` when it is an infinity or a NaN (its cast to `int` is
undefined); `exact_seats_f32` is the binary32 value. -/
def exact_seats (population : Int) : Quota → Option ℚ
  | Quota.finite q => if q = 0 then none else some ((population : ℚ) / q)
  | Quota.infinite => some 0
  | Quota.nan => none

/-- The cast `(int)x` of a finite float: truncation toward zero. -/
def truncate (x : ℚ) : Int := if 0 ≤ x then ⌊x⌋ else ⌈x⌉

/-- The first loop of `hamiltons_method` in the exact reading: initial seats
and residuals; returns the table and `seats_assigned`. -/
def hamilton_first_pass (q : Quota) : StateMap → Option (StateMap × Int)
  | [] => some ([], 0)
  | (state, data) :: rest =>
    match exact_seats data.population q with
    | none => none
    | some x =>
      match hamilton_first_pass q rest with
      | none => none
      | some (rest', seats_assigned) =>
        some ((state, { data with seats := truncate x, residual := x - (truncate x : ℚ) }) :: rest',
              truncate x + seats_assigned)

/-- One iteration of the `while (seats_assigned < total_seats)` loop. -/
def hamilton_step (state_map : StateMap) : StateMap :=
  let best_state := (scan_max (fun d => d.residual) state_map "" (-1)).1
  let m1 := at_key state_map best_state (fun d => { d with seats := d.seats + 1 })
  at_key m1 best_state (fun d => { d with residual := -1 })

/-- The loop `while (seats_assigned < total_seats)`, by its number of
iterations `total_seats - seats_assigned`. -/
def hamilton_remaining : Nat → StateMap → StateMap
  | 0, state_map => state_map
  | k + 1, state_map => hamilton_remaining k (hamilton_step state_map)

/-- The function `hamiltons_method` in the exact reading;
`hamiltons_method_f32` is the function on binary32 values. -/
def hamiltons_method (state_map : StateMap) (total_seats : Int) : Option StateMap :=
  let total_pop := get_total_population state_map
  match hamilton_first_pass (quota total_pop total_seats) state_map with
  | none => none
  | some (m, seats_assigned) =>
    some (hamilton_remaining (total_seats - seats_assigned).toNat m)

/-! ## The divisor methods (Jefferson, Webster, Adams) -/

/-- Why a run of the model stops without a result. -/
inductive Fault where
  | division_by_zero
  | out_of_fuel
deriving DecidableEq

/-- Jefferson's quotient `data.population / divisor`: `int` division, which
truncates toward zero. -/
def floor_rule (population divisor : Int) : Int := Int.tdiv population divisor

/-- The C function `round` on a finite value: to nearest, halves away from zero. -/
def c_round (x : ℚ) : Int := if 0 ≤ x then ⌊x + 1 / 2⌋ else -⌊-x + 1 / 2⌋

/-- Webster's quotient `(int)round((float)data.population / divisor)` in the
exact reading, the rounding of the exact quotient; `round_rule_f32` rounds the
binary32 quotient. -/
def round_rule (population divisor : Int) : Int :=
  c_round ((population : ℚ) / (divisor : ℚ))

/-- One pass `for (state, data) : state_map) { data.seats = rule; seats_assigned += data.seats; }`
of a divisor method; returns the table and `seats_assigned`.  A division by a
zero divisor is a fault: undefined for `int`, and for floats an infinity or
NaN that is then cast to `int`. -/
def divisor_pass (rule : Int → Int → Int) (divisor : Int) : StateMap → Except Fault (StateMap × Int)
  | [] => Except.ok ([], 0)
  | (state, data) :: rest =>
    if divisor = 0 then Except.error Fault.division_by_zero
    else
      match divisor_pass rule divisor rest with
      | Except.error e => Except.error e
      | Except.ok (rest', seats_assigned) =>
        Except.ok ((state, { data with seats := rule data.population divisor }) :: rest',
                   rule data.population divisor + seats_assigned)

/-- The loop `while (rem != 0)` of a divisor method: `diff rem` is added to the
divisor, all seats are recomputed, and `rem` is updated.  Returns the final
divisor and table. -/
def divisor_search (rule : Int → Int → Int) (diff : Int → Int) (total_seats : Int) :
    Nat → Int → StateMap → Int → Except Fault (Int × StateMap)
  | 0, divisor, state_map, rem =>
    if rem = 0 then Except.ok (divisor, state_map) else Except.error Fault.out_of_fuel
  | fuel + 1, divisor, state_map, rem =>
    if rem = 0 then Except.ok (divisor, state_map)
    else
      match divisor_pass rule (divisor + diff rem) state_map with
      | Except.error e => Except.error e
      | Except.ok (m, seats_assigned) =>
        divisor_search rule diff total_seats fuel (divisor + diff rem) m (total_seats - seats_assigned)

/-- A divisor method from its start: `divisor = total_pop / total_seats`, the
initial assignment, then the search.  Returns the final divisor and table. -/
def divisor_method (rule : Int → Int → Int) (diff : Int → Int) (fuel : Nat)
    (state_map : StateMap) (total_seats : Int) : Except Fault (Int × StateMap) :=
  let total_pop := get_total_population state_map
  if total_seats = 0 then Except.error Fault.division_by_zero
  else
    let divisor := Int.tdiv total_pop total_seats
    match divisor_pass rule divisor state_map with
    | Except.error e => Except.error e
    | Except.ok (m, seats_assigned) =>
      divisor_search rule diff total_seats fuel divisor m (total_seats - seats_assigned)

/-- Jefferson's adjustment `divisor = divisor - 1`. -/
def jefferson_diff (_rem : Int) : Int := -1

/-- Webster's and Adams' adjustment `int diff = (rem < 0) ? 1 : -1`. -/
def two_way_diff (rem : Int) : Int := if rem < 0 then 1 else -1

/-- The function `jeffersons_method`, with the final divisor. -/
def jefferson_run (fuel : Nat) (state_map : StateMap) (total_seats : Int) :
    Except Fault (Int × StateMap) :=
  divisor_method floor_rule jefferson_diff fuel state_map total_seats

/-- The function `jeffersons_method`. -/
def jeffersons_method (fuel : Nat) (state_map : StateMap) (total_seats : Int) :
    Except Fault StateMap :=
  (jefferson_run fuel state_map total_seats).map Prod.snd

/-- The seat total a rule yields at a divisor, `Σ rule population divisor`. -/
def seats_at (rule : Int → Int → Int) (state_map : StateMap) (divisor : Int) : Int :=
  (state_map.map (fun e => rule e.2.population divisor)).sum

/-- The divisors the loop `while (rem != 0)` of a divisor method divides by, in
order: the trace of `divisor_search`. -/
def search_divisors (rule : Int → Int → Int) (diff : Int → Int) (total_seats : Int) :
    Nat → Int → StateMap → Int → List Int
  | 0, _, _, _ => []
  | fuel + 1, divisor, state_map, rem =>
    if rem = 0 then []
    else
      (divisor + diff rem) ::
        match divisor_pass rule (divisor + diff rem) state_map with
        | Except.error _ => []
        | Except.ok (m, seats_assigned) =>
          search_divisors rule diff total_seats fuel (divisor + diff rem) m
            (total_seats - seats_assigned)

/-- The divisors a divisor method divides by: `total_seats` itself for the
first divisor, which is listed next, then those of the search: the trace of
`divisor_method`. -/
def method_divisors (rule : Int → Int → Int) (diff : Int → Int) (fuel : Nat)
    (state_map : StateMap) (total_seats : Int) : List Int :=
  if total_seats = 0 then []
  else
    let divisor := Int.tdiv (get_total_population state_map) total_seats
    divisor ::
      match divisor_pass rule divisor state_map with
      | Except.error _ => []
      | Except.ok (m, seats_assigned) =>
        search_divisors rule diff total_seats fuel divisor m (total_seats - seats_assigned)

/-! ## The Huntington-Hill method -/

/-- The priority `data.population / sqrt(data.seats * (data.seats + 1.0))` in
the exact reading, carried as its signed square `p * |p| / (n * (n + 1))`.
The map `x ↦ x * |x|` is strictly increasing, so comparing signed squares is
comparing the unrounded priorities; the start value `max_priority = -1` is its
own signed square.  Meant for `seats * (seats + 1) > 0`, which holds throughout
the method (every record has at least one seat when its priority is taken).
The `float` the machine stores and compares is `priority_f32`. -/
def priority (data : StateData) : ℚ :=
  ((data.population : ℚ) * |(data.population : ℚ)|) /
    ((data.seats : ℚ) * ((data.seats : ℚ) + 1))

/-- One iteration of the `while (rem > 0)` loop in the exact reading. -/
def hh_step (state_map : StateMap) : StateMap :=
  let best_state := (scan_max priority state_map "" (-1)).1
  at_key state_map best_state (fun d => { d with seats := d.seats + 1 })

/-- The loop `while (rem > 0) { ...; rem--; }`, by its counter `rem`; the second
component counts the executions of `state_map[best_state].seats++`. -/
def hh_remaining : Nat → StateMap → Nat → StateMap × Nat
  | 0, state_map, increments => (state_map, increments)
  | rem + 1, state_map, increments => hh_remaining rem (hh_step state_map) (increments + 1)

/-- What `huntington_hill_method` leaves behind: the table, whether the error
line was printed, and how many seat increments ran. -/
structure HHOutcome where
  table : StateMap
  error_reported : Bool
  increments : Nat

/-- The function `huntington_hill_method` in the exact reading;
`huntington_hill_method_f32` compares the `float` priorities. -/
def huntington_hill_method (state_map : StateMap) (total_seats : Int) : HHOutcome :=
  let m := state_map.map (fun e => (e.1, { e.2 with seats := 1 }))
  let seats_assigned : Int := (m.length : Int)
  let rem := total_seats - seats_assigned
  if rem < 0 then { table := m, error_reported := true, increments := 0 }
  else
    let r := hh_remaining rem.toNat m 0
    { table := r.1, error_reported := false, increments := r.2 }

/-! ## The sampling estimator -/

/-- The variables the sampling loop updates. -/
structure SamplerState where
  min_alpha : ℚ
  worst_mask : Nat
  worst_pop_prop : ℚ
  worst_seat_prop : ℚ
deriving DecidableEq

/-- The values before the first sample. -/
def SamplerState.initial : SamplerState := ⟨1, 0, 0, 0⟩

/-- The loop `for (i = 0; i < n; i++) if (mask & (1LL << i)) sum += values[i]`,
from index `i` on. -/
def subset_sum_from (mask : Nat) : Nat → List Int → Int
  | _, [] => 0
  | i, v :: rest =>
    (if mask &&& (1 <<< i) ≠ 0 then v else 0) + subset_sum_from mask (i + 1) rest

/-- The subset total of `values` selected by `mask`. -/
def subset_sum (mask : Nat) (values : List Int) : Int := subset_sum_from mask 0 values

/-- The body of the sampling loop for one mask in the exact reading: the
shares and the ratio are exact quotients and the cut is `1 / 10000`;
`process_sample_f32` has the binary32 shares and the `double` literal.  The
masks are `long long` values below `2 ^ n` for `n <= 62`, taken here as
natural numbers.  With `total_pop = 0` the float `pop_proportion` is NaN or
negative infinity for a subset total `<= 0` (the test `> 0.0001` is false, the
sample is passed over) and positive infinity otherwise; that case, and an
accepted sample with `total_seats = 0`, leave the finite values and give
`none`. -/
def process_sample (state_pops state_seats : List Int) (total_pop total_seats : Int)
    (st : SamplerState) (mask : Nat) : Option SamplerState :=
  let n := state_pops.length
  if mask = 0 ∨ mask = 2 ^ n - 1 then some st
  else
    let subset_pop := subset_sum mask state_pops
    let subset_seats := subset_sum mask state_seats
    if total_pop = 0 then
      if 0 < subset_pop then none else some st
    else
      let pop_proportion : ℚ := (subset_pop : ℚ) / (total_pop : ℚ)
      if pop_proportion > 1 / 10000 then
        if total_seats = 0 then none
        else
          let seat_proportion : ℚ := (subset_seats : ℚ) / (total_seats : ℚ)
          let alpha : ℚ := seat_proportion / pop_proportion
          if alpha < st.min_alpha then
            some { min_alpha := alpha, worst_mask := mask,
                   worst_pop_prop := pop_proportion, worst_seat_prop := seat_proportion }
          else some st
      else some st

/-- The sampling loop over the masks drawn, in order, in the exact reading. -/
def process_samples (state_pops state_seats : List Int) (total_pop total_seats : Int) :
    List Nat → SamplerState → Option SamplerState
  | [], st => some st
  | mask :: rest, st =>
    match process_sample state_pops state_seats total_pop total_seats st mask with
    | none => none
    | some st' => process_samples state_pops state_seats total_pop total_seats rest st'

/-- The estimator on a given sequence of masks in the exact reading: the arrays
are filled from the table, then the loop runs. -/
def sample_masks (state_map : StateMap) (total_seats : Int) (masks : List Nat) :
    Option SamplerState :=
  let state_pops := state_map.map (fun e => e.2.population)
  let state_seats := state_map.map (fun e => e.2.seats)
  let total_pop := get_total_population state_map
  process_samples state_pops state_seats total_pop total_seats masks SamplerState.initial

/-- The mask loop `for (i = 0; i < n; i++) if (included) mask |= (1LL << i)`;
`rand k` is the value of the `k`-th call of `std::rand()`, and the sample
starts at call `first`. -/
def draw_mask (included : Nat → Bool) (rand : Nat → Nat) (n first : Nat) : Nat :=
  (List.range n).foldl
    (fun mask i => if included (rand (first + i)) then mask ||| (1 <<< i) else mask) 0

/-- The masks of `num_samples` successive samples. -/
def drawn_masks (included : Nat → Bool) (rand : Nat → Nat) (n num_samples : Nat) : List Nat :=
  (List.range num_samples).map (fun sample => draw_mask included rand n (sample * n))

/-- The inclusion test of the first overload, `std::rand() % 2 == 1`. -/
def uniform_included (r : Nat) : Bool := decide (r % 2 = 1)

/-- The inclusion test of the second overload,
`std::rand() > (1 - threshold) * RAND_MAX`. -/
def threshold_included (rand_max : Nat) (threshold : ℚ) (r : Nat) : Bool :=
  decide ((r : ℚ) > (1 - threshold) * (rand_max : ℚ))

/-- The function `calculate_alpha_sampling(state_map, total_seats)`; the
sample count (`num_samples`, 100000000 in the source) and the random values
are arguments.  Returns the final loop variables. -/
def sampling_run (state_map : StateMap) (total_seats : Int) (rand : Nat → Nat)
    (num_samples : Nat) : Option SamplerState :=
  sample_masks state_map total_seats
    (drawn_masks uniform_included rand state_map.length num_samples)

/-- The value `calculate_alpha_sampling(state_map, total_seats)` returns. -/
def calculate_alpha_sampling (state_map : StateMap) (total_seats : Int) (rand : Nat → Nat)
    (num_samples : Nat) : Option ℚ :=
  (sampling_run state_map total_seats rand num_samples).map (fun st => st.min_alpha)

/-- The function `calculate_alpha_sampling(state_map, total_seats, threshold)`;
`RAND_MAX` is an argument too.  Returns the final loop variables. -/
def sampling_run_threshold (state_map : StateMap) (total_seats : Int) (threshold : ℚ)
    (rand_max : Nat) (rand : Nat → Nat) (num_samples : Nat) : Option SamplerState :=
  sample_masks state_map total_seats
    (drawn_masks (threshold_included rand_max threshold) rand state_map.length num_samples)

/-- The value `calculate_alpha_sampling(state_map, total_seats, threshold)` returns. -/
def calculate_alpha_sampling_threshold (state_map : StateMap) (total_seats : Int)
    (threshold : ℚ) (rand_max : Nat) (rand : Nat → Nat) (num_samples : Nat) : Option ℚ :=
  (sampling_run_threshold state_map total_seats threshold rand_max rand num_samples).map
    (fun st => st.min_alpha)

/-! ## Notions used in the statements -/

/-- The exact share `population * S / P` of an entity (the value the claims call
`exact_seats`). -/
def exact_share (total_pop total_seats population : Int) : ℚ :=
  ((population : ℚ) * (total_seats : ℚ)) / (total_pop : ℚ)

/-- The part of a record no apportionment method writes. -/
def frame (e : String × StateData) : String × String × Int :=
  (e.1, e.2.abbreviation, e.2.population)

/-- The state of Hamilton's remainder loop: every record is either untouched
since the first pass (floor seats, true residual) or has received its extra
seat (residual `-1`), and every record that has received it precedes, in the
order "larger residual first, then smaller key", every record that has not. -/
def HamiltonInv (total_pop total_seats : Int) (m : StateMap) : Prop :=
  (∀ e ∈ m,
    (e.2.residual = Int.fract (exact_share total_pop total_seats e.2.population) ∧
      e.2.seats = ⌊exact_share total_pop total_seats e.2.population⌋) ∨
    (e.2.residual = -1 ∧
      e.2.seats = ⌊exact_share total_pop total_seats e.2.population⌋ + 1)) ∧
  (∀ e1 ∈ m, ∀ e2 ∈ m, e1.2.residual = -1 → e2.2.residual ≠ -1 →
    Int.fract (exact_share total_pop total_seats e2.2.population) <
        Int.fract (exact_share total_pop total_seats e1.2.population) ∨
    (Int.fract (exact_share total_pop total_seats e2.2.population) =
        Int.fract (exact_share total_pop total_seats e1.2.population) ∧ e1.1 < e2.1))

/-- The keys and seats of a table. -/
def seats_view (m : StateMap) : List (String × Int) := m.map (fun e => (e.1, e.2.seats))

/-- The table a pass of a divisor method leaves: every `seats` is the rule's
quotient at the divisor. -/
def assigned (rule : Int → Int → Int) (divisor : Int) (m : StateMap) : StateMap :=
  m.map (fun e => (e.1, { e.2 with seats := rule e.2.population divisor }))

/-! ## Notions used in the statements about the estimator -/

/-- The exact population share `subset_pop / total_pop` of the subset a mask
selects. -/
def pop_share (state_map : StateMap) (mask : Nat) : ℚ :=
  ((subset_sum mask (state_map.map (fun e => e.2.population)) : Int) : ℚ) /
    (get_total_population state_map : ℚ)

/-- The exact seat share `subset_seats / total_seats` of the subset a mask
selects. -/
def seat_share (state_map : StateMap) (total_seats : Int) (mask : Nat) : ℚ :=
  ((subset_sum mask (state_map.map (fun e => e.2.seats)) : Int) : ℚ) / (total_seats : ℚ)

/-- The exact ratio `seat_share / pop_share` of the subset a mask selects. -/
def alpha_of (state_map : StateMap) (total_seats : Int) (mask : Nat) : ℚ :=
  seat_share state_map total_seats mask / pop_share state_map mask

/-- A mask accepted by its exact share: not the empty set, not the full set,
and an exact population share above `0.0001`; `accepted_f32` is the test the
machine makes. -/
def accepted (state_map : StateMap) (mask : Nat) : Prop :=
  ¬ (mask = 0 ∨ mask = 2 ^ state_map.length - 1) ∧ pop_share state_map mask > 1 / 10000

/-- The subsets the exact minimum ranges over: the masks below `2 ^ n` that are
not the empty set, not the full set, and select a positive population. -/
def candidate_masks (state_map : StateMap) : List Nat :=
  (List.range (2 ^ state_map.length)).filter (fun mask =>
    decide (mask ≠ 0 ∧ mask ≠ 2 ^ state_map.length - 1 ∧
      0 < subset_sum mask (state_map.map (fun e => e.2.population))))

/-- The exact minimum of `seat_share / pop_share` over all non-empty, non-full
subsets with positive population, the quantity the estimator approximates;
`none` when there is no such subset. -/
def exact_min_alpha (state_map : StateMap) (total_seats : Int) : Option ℚ :=
  ((candidate_masks state_map).map (alpha_of state_map total_seats)).min?

/-! ## Concrete tables -/

/-- The table of the scenario A = 100, B = 100, C = 300. -/
def scenario_abc : StateMap :=
  [("A", ⟨"A", 100, 0, 0⟩), ("B", ⟨"B", 100, 0, 0⟩), ("C", ⟨"C", 300, 0, 0⟩)]

/-- A table whose shares leave remainders: A = 10, B = 20, C = 31. -/
def scenario_rem : StateMap :=
  [("A", ⟨"A", 10, 0, 0⟩), ("B", ⟨"B", 20, 0, 0⟩), ("C", ⟨"C", 31, 0, 0⟩)]

/-- A table of six entities, for the scenario "6 entities, 5 seats". -/
def scenario_six : StateMap :=
  [("A", ⟨"A", 10, 0, 0⟩), ("B", ⟨"B", 20, 0, 0⟩), ("C", ⟨"C", 30, 0, 0⟩),
   ("D", ⟨"D", 40, 0, 0⟩), ("E", ⟨"E", 50, 0, 0⟩), ("F", ⟨"F", 60, 0, 0⟩)]

/-- Two entities of equal population: A = 3, B = 3. -/
def scenario_tie : StateMap := [("A", ⟨"A", 3, 0, 0⟩), ("B", ⟨"B", 3, 0, 0⟩)]

/-- A table with seats assigned: A and B one seat each, C three. -/
def scenario_apportioned : StateMap :=
  [("A", ⟨"A", 100, 1, 0⟩), ("B", ⟨"B", 100, 1, 0⟩), ("C", ⟨"C", 300, 3, 0⟩)]

/-- A single entity: A = 3. -/
def scenario_single : StateMap := [("A", ⟨"A", 3, 0, 0⟩)]

/-- Seats 3 and 1 for populations 100 and 300. -/
def scenario_over : StateMap := [("A", ⟨"A", 100, 3, 0⟩), ("B", ⟨"B", 300, 1, 0⟩)]

/-- The priority condition on a table: no entity's next-seat priority
`p_i / sqrt(s_i * (s_i + 1))` exceeds the priority `p_j / sqrt((s_j - 1) * s_j)`
at which an entity with at least 2 seats won its last seat, in the squared,
cross-multiplied form `p_i^2 * (s_j - 1) * s_j <= p_j^2 * s_i * (s_i + 1)`. -/
def PriorityOptimal (m : StateMap) : Prop :=
  ∀ ei ∈ m, ∀ ej ∈ m, 2 ≤ ej.2.seats →
    ei.2.population ^ 2 * ((ej.2.seats - 1) * ej.2.seats) ≤
      ej.2.population ^ 2 * (ei.2.seats * (ei.2.seats + 1))

/-! ## Binary floating point

The source computes in `float` (IEEE 754 binary32) and, where an operand is a
`double`, in binary64, rounding every operation to nearest, halves to even.
The definitions below give that rounding on the rationals.  The exponent range
is not bounded: overflow and subnormal numbers are left out, the values the
methods form from `int` inputs stay within the normal range of both formats. -/

/-- Rounding of a rational to the nearest integer, halves to the even
neighbour. -/
def round_even (q : ℚ) : Int :=
  if Int.fract q < 1 / 2 then ⌊q⌋
  else if 1 / 2 < Int.fract q then ⌊q⌋ + 1
  else if ⌊q⌋ % 2 = 0 then ⌊q⌋ else ⌊q⌋ + 1

/-- The exponent of the last place of a binary floating-point number of
precision `prec` in the binade of `x`. -/
def ulp_exponent (prec : Nat) (x : ℚ) : Int := Int.log 2 |x| - ((prec : Int) - 1)

/-- Rounding to the nearest binary floating-point number of precision `prec`,
halves to even. -/
def fp_round (prec : Nat) (x : ℚ) : ℚ :=
  ((round_even (x / (2 : ℚ) ^ ulp_exponent prec x) : Int) : ℚ) * (2 : ℚ) ^ ulp_exponent prec x

/-- Rounding to `float`: 24 bits of precision.  Conversions `(float)n` of an
`int` and every `float` operation round their exact result this way. -/
def f32 (x : ℚ) : ℚ := fp_round 24 x

/-- Rounding to `double`: 53 bits of precision. -/
def f64 (x : ℚ) : ℚ := fp_round 53 x

/-- The neighbour of `sqrt q` among `m` and `m + 1`, for `m = floor (sqrt q)`:
the nearer one, halves to even. -/
def sqrt_nearest (m : Nat) (q : ℚ) : Nat :=
  if q < ((m : ℚ) + 1 / 2) ^ 2 then m
  else if ((m : ℚ) + 1 / 2) ^ 2 < q then m + 1
  else if m % 2 = 0 then m else m + 1

/-- The square root rounded to the nearest binary floating-point number of
precision `prec` (IEEE 754 requires `sqrt` to be correctly rounded): the
radicand is scaled by a power of 4 so that its integer square root has `prec`
bits.  The value for `x <= 0` is 0; the square root of a negative number is a
NaN, which the methods never form. -/
def fp_sqrt (prec : Nat) (x : ℚ) : ℚ :=
  if x ≤ 0 then 0
  else
    ((sqrt_nearest (Nat.sqrt ⌊x / (2 : ℚ) ^ (2 * (Int.log 2 x / 2 - ((prec : Int) - 1)))⌋₊)
        (x / (2 : ℚ) ^ (2 * (Int.log 2 x / 2 - ((prec : Int) - 1)))) : Nat) : ℚ) *
      (2 : ℚ) ^ (Int.log 2 x / 2 - ((prec : Int) - 1))

/-- The function `sqrt` on `double`. -/
def f64_sqrt (x : ℚ) : ℚ := fp_sqrt 53 x

/-! ## The methods in binary32

The same functions with every `float` and `double` operation rounded as the
machine rounds it.  Control flow, integer arithmetic and the faults are those
of the definitions above. -/

/-- The value `float quota = (float)total_pop / total_seats` in binary32: both
operands are converted to `float`, then divided. -/
def quota_f32 (total_pop total_seats : Int) : Quota :=
  if total_seats ≠ 0 then Quota.finite (f32 (f32 (total_pop : ℚ) / f32 (total_seats : ℚ)))
  else if total_pop = 0 then Quota.nan
  else Quota.infinite

/-- The value `float exact_seats = data.population / quota` in binary32,
`none` when it is an infinity or a NaN. -/
def exact_seats_f32 (population : Int) : Quota → Option ℚ
  | Quota.finite q => if q = 0 then none else some (f32 (f32 (population : ℚ) / q))
  | Quota.infinite => some 0
  | Quota.nan => none

/-- The first loop of `hamiltons_method` in binary32; the residual
`exact_seats - data.seats` converts the seats to `float` and subtracts. -/
def hamilton_first_pass_f32 (q : Quota) : StateMap → Option (StateMap × Int)
  | [] => some ([], 0)
  | (state, data) :: rest =>
    match exact_seats_f32 data.population q with
    | none => none
    | some x =>
      match hamilton_first_pass_f32 q rest with
      | none => none
      | some (rest', seats_assigned) =>
        some ((state, { data with seats := truncate x,
                                  residual := f32 (x - f32 (truncate x : ℚ)) }) :: rest',
              truncate x + seats_assigned)

/-- The function `hamiltons_method` in binary32. -/
def hamiltons_method_f32 (state_map : StateMap) (total_seats : Int) : Option StateMap :=
  let total_pop := get_total_population state_map
  match hamilton_first_pass_f32 (quota_f32 total_pop total_seats) state_map with
  | none => none
  | some (m, seats_assigned) =>
    some (hamilton_remaining (total_seats - seats_assigned).toNat m)

/-- Webster's quotient `(int)round((float)data.population / divisor)` in
binary32: the divisor is converted to `float` for the division. -/
def round_rule_f32 (population divisor : Int) : Int :=
  c_round (f32 (f32 (population : ℚ) / f32 (divisor : ℚ)))

/-- Adams' quotient `(int)ceil((float)data.population / divisor)` in binary32. -/
def ceil_rule_f32 (population divisor : Int) : Int :=
  ⌈f32 (f32 (population : ℚ) / f32 (divisor : ℚ))⌉

/-- The function `websters_method` in binary32, with the final divisor. -/
def webster_run_f32 (fuel : Nat) (state_map : StateMap) (total_seats : Int) :
    Except Fault (Int × StateMap) :=
  divisor_method round_rule_f32 two_way_diff fuel state_map total_seats

/-- The function `websters_method` in binary32. -/
def websters_method_f32 (fuel : Nat) (state_map : StateMap) (total_seats : Int) :
    Except Fault StateMap :=
  (webster_run_f32 fuel state_map total_seats).map Prod.snd

/-- The function `adams_method` in binary32, with the final divisor. -/
def adams_run_f32 (fuel : Nat) (state_map : StateMap) (total_seats : Int) :
    Except Fault (Int × StateMap) :=
  divisor_method ceil_rule_f32 two_way_diff fuel state_map total_seats

/-- The function `adams_method` in binary32. -/
def adams_method_f32 (fuel : Nat) (state_map : StateMap) (total_seats : Int) :
    Except Fault StateMap :=
  (adams_run_f32 fuel state_map total_seats).map Prod.snd

/-- The value `float priority = data.population / sqrt(data.seats * (data.seats + 1.0))`
as the machine computes it: the sum, the product, the square root and the
quotient are `double` operations, and the quotient is then stored in a
`float`.  Meant for `seats >= 1`, which holds whenever the method takes a
priority. -/
def priority_f32 (data : StateData) : ℚ :=
  f32 (f64 (f64 (data.population : ℚ) /
    f64_sqrt (f64 (f64 (data.seats : ℚ) * f64 (f64 (data.seats : ℚ) + 1)))))

/-- One iteration of the `while (rem > 0)` loop in binary32. -/
def hh_step_f32 (state_map : StateMap) : StateMap :=
  let best_state := (scan_max priority_f32 state_map "" (-1)).1
  at_key state_map best_state (fun d => { d with seats := d.seats + 1 })

/-- The loop `while (rem > 0) { ...; rem--; }` in binary32, by its counter. -/
def hh_remaining_f32 : Nat → StateMap → Nat → StateMap × Nat
  | 0, state_map, increments => (state_map, increments)
  | rem + 1, state_map, increments =>
    hh_remaining_f32 rem (hh_step_f32 state_map) (increments + 1)

/-- The function `huntington_hill_method` in binary32. -/
def huntington_hill_method_f32 (state_map : StateMap) (total_seats : Int) : HHOutcome :=
  let m := state_map.map (fun e => (e.1, { e.2 with seats := 1 }))
  let seats_assigned : Int := (m.length : Int)
  let rem := total_seats - seats_assigned
  if rem < 0 then { table := m, error_reported := true, increments := 0 }
  else
    let r := hh_remaining_f32 rem.toNat m 0
    { table := r.1, error_reported := false, increments := r.2 }

/-- The body of the sampling loop for one mask in binary32: the two shares and
the ratio are `float` quotients, and the share is compared, as a `double`,
with the `double` literal `0.0001`.  The cases that leave the finite values
are those of `process_sample`. -/
def process_sample_f32 (state_pops state_seats : List Int) (total_pop total_seats : Int)
    (st : SamplerState) (mask : Nat) : Option SamplerState :=
  let n := state_pops.length
  if mask = 0 ∨ mask = 2 ^ n - 1 then some st
  else
    let subset_pop := subset_sum mask state_pops
    let subset_seats := subset_sum mask state_seats
    if total_pop = 0 then
      if 0 < subset_pop then none else some st
    else
      let pop_proportion : ℚ := f32 (f32 (subset_pop : ℚ) / f32 (total_pop : ℚ))
      if pop_proportion > f64 (1 / 10000) then
        if total_seats = 0 then none
        else
          let seat_proportion : ℚ := f32 (f32 (subset_seats : ℚ) / f32 (total_seats : ℚ))
          let alpha : ℚ := f32 (seat_proportion / pop_proportion)
          if alpha < st.min_alpha then
            some { min_alpha := alpha, worst_mask := mask,
                   worst_pop_prop := pop_proportion, worst_seat_prop := seat_proportion }
          else some st
      else some st

/-- The sampling loop over the masks drawn, in binary32. -/
def process_samples_f32 (state_pops state_seats : List Int) (total_pop total_seats : Int) :
    List Nat → SamplerState → Option SamplerState
  | [], st => some st
  | mask :: rest, st =>
    match process_sample_f32 state_pops state_seats total_pop total_seats st mask with
    | none => none
    | some st' => process_samples_f32 state_pops state_seats total_pop total_seats rest st'

/-- The estimator on a given sequence of masks, in binary32. -/
def sample_masks_f32 (state_map : StateMap) (total_seats : Int) (masks : List Nat) :
    Option SamplerState :=
  let state_pops := state_map.map (fun e => e.2.population)
  let state_seats := state_map.map (fun e => e.2.seats)
  let total_pop := get_total_population state_map
  process_samples_f32 state_pops state_seats total_pop total_seats masks SamplerState.initial

/-- The value `calculate_alpha_sampling(state_map, total_seats)` returns, in
binary32. -/
def calculate_alpha_sampling_f32 (state_map : StateMap) (total_seats : Int) (rand : Nat → Nat)
    (num_samples : Nat) : Option ℚ :=
  (sample_masks_f32 state_map total_seats
    (drawn_masks uniform_included rand state_map.length num_samples)).map (fun st => st.min_alpha)

/-! ## Notions used in the statements about the methods in binary32 -/

/-- The binary32 value of `exact_seats` for a population: the `float` quotient
of the population by the `float` quota. -/
def quotient_f32 (total_pop total_seats population : Int) : ℚ :=
  f32 (f32 (population : ℚ) / f32 (f32 (total_pop : ℚ) / f32 (total_seats : ℚ)))

/-- The residual `exact_seats - data.seats` the first pass stores, in binary32. -/
def residual_f32 (total_pop total_seats population : Int) : ℚ :=
  f32 (quotient_f32 total_pop total_seats population -
    f32 ((truncate (quotient_f32 total_pop total_seats population) : Int) : ℚ))

/-- The state of Hamilton's remainder loop, from the seats `seats0 p` and the
residual `residual0 p` the first pass gives a population `p`: every record is
either untouched since the first pass or has received its extra seat (residual
`-1`), and every record that has received it precedes, in the order "larger
residual first, then smaller key", every record that has not. -/
def HamiltonInvOf (seats0 : Int → Int) (residual0 : Int → ℚ) (m : StateMap) : Prop :=
  (∀ e ∈ m,
    (e.2.residual = residual0 e.2.population ∧ e.2.seats = seats0 e.2.population) ∨
    (e.2.residual = -1 ∧ e.2.seats = seats0 e.2.population + 1)) ∧
  (∀ e1 ∈ m, ∀ e2 ∈ m, e1.2.residual = -1 → e2.2.residual ≠ -1 →
    residual0 e2.2.population < residual0 e1.2.population ∨
    (residual0 e2.2.population = residual0 e1.2.population ∧ e1.1 < e2.1))

/-- The priority condition on a table in the priorities the code compares: no
entity's next-seat priority, as a `float`, exceeds the `float` priority at
which an entity with at least 2 seats won its last seat. -/
def PriorityOptimal_f32 (m : StateMap) : Prop :=
  ∀ ei ∈ m, ∀ ej ∈ m, 2 ≤ ej.2.seats →
    priority_f32 ei.2 ≤ priority_f32 { ej.2 with seats := ej.2.seats - 1 }

/-! ## Notions used in the statements about the estimator in binary32 -/

/-- The value `(float)part / total` stored in a `float`: the conversion of
each operand and the quotient are rounded to binary32. -/
def share_f32 (part total : Int) : ℚ := f32 (f32 (part : ℚ) / f32 (total : ℚ))

/-- The `float pop_proportion` the loop computes for a mask. -/
def pop_share_f32 (state_map : StateMap) (mask : Nat) : ℚ :=
  share_f32 (subset_sum mask (state_map.map (fun e => e.2.population)))
    (get_total_population state_map)

/-- The `float seat_proportion` the loop computes for a mask. -/
def seat_share_f32 (state_map : StateMap) (total_seats : Int) (mask : Nat) : ℚ :=
  share_f32 (subset_sum mask (state_map.map (fun e => e.2.seats))) total_seats

/-- The `float alpha = seat_proportion / pop_proportion` the loop computes for
a mask. -/
def alpha_of_f32 (state_map : StateMap) (total_seats : Int) (mask : Nat) : ℚ :=
  f32 (seat_share_f32 state_map total_seats mask / pop_share_f32 state_map mask)

/-- A mask the sampling loop accepts as the machine decides it: not the empty
set, not the full set, and a `float` population share above the `double`
literal `0.0001`. -/
def accepted_f32 (state_map : StateMap) (mask : Nat) : Prop :=
  ¬ (mask = 0 ∨ mask = 2 ^ state_map.length - 1) ∧
    pop_share_f32 state_map mask > f64 (1 / 10000)

/-- What the loop variables hold after the masks `masks`, in the values the
machine computes: the minimum is at most 1 and at most the `float` ratio of
every accepted mask seen; and either nothing was recorded, or the minimum is
below 1 and the recorded mask is an accepted mask seen, recorded with its
`float` shares, whose `float` ratio is the minimum. -/
def SamplerInv_f32 (state_map : StateMap) (total_seats : Int) (masks : List Nat)
    (st : SamplerState) : Prop :=
  st.min_alpha ≤ 1 ∧
  (∀ mask ∈ masks, accepted_f32 state_map mask →
    st.min_alpha ≤ alpha_of_f32 state_map total_seats mask) ∧
  (st = SamplerState.initial ∨
    (st.min_alpha < 1 ∧ st.worst_mask ∈ masks ∧ accepted_f32 state_map st.worst_mask ∧
      st.worst_pop_prop = pop_share_f32 state_map st.worst_mask ∧
      st.worst_seat_prop = seat_share_f32 state_map total_seats st.worst_mask ∧
      st.min_alpha = alpha_of_f32 state_map total_seats st.worst_mask))

/-! ## Concrete tables for the binary32 reading -/

/-- A single entity whose population is not a binary32 number: A = 16777217,
which is `2^24 + 1`. -/
def scenario_wide : StateMap := [("A", ⟨"A", 16777217, 0, 0⟩)]

/-- Two entities whose quotient by 313241 rounds to a half in binary32:
A = 38372008, B = 15192188. -/
def scenario_skew : StateMap :=
  [("A", ⟨"A", 38372008, 0, 0⟩), ("B", ⟨"B", 15192188, 0, 0⟩)]

/-- A total population that is not a binary32 number: A = 1, B = 33554433,
with total `2^25 + 2`. -/
def scenario_big : StateMap :=
  [("A", ⟨"A", 1, 0, 0⟩), ("B", ⟨"B", 33554433, 0, 0⟩)]

/-- Three entities with equal exact residuals: A = 2, B = 2, C = 26. -/
def scenario_thirds : StateMap :=
  [("A", ⟨"A", 2, 0, 0⟩), ("B", ⟨"B", 2, 0, 0⟩), ("C", ⟨"C", 26, 0, 0⟩)]

/-- A single entity of population 1. -/
def scenario_unit : StateMap := [("A", ⟨"A", 1, 0, 0⟩)]

/-- Two entities whose priorities agree in binary32: A = 30000000,
B = 30000001. -/
def scenario_close : StateMap :=
  [("A", ⟨"A", 30000000, 0, 0⟩), ("B", ⟨"B", 30000001, 0, 0⟩)]

/-- Populations 10000 and 99989999 with seats 0 and 1: the share of A is above
`0.0001` exactly and below it in binary32. -/
def scenario_cut : StateMap :=
  [("A", ⟨"A", 10000, 0, 0⟩), ("B", ⟨"B", 99989999, 1, 0⟩)]

/-- Equal populations with seats 7 and 13. -/
def scenario_sevens : StateMap := [("A", ⟨"A", 1, 7, 0⟩), ("B", ⟨"B", 1, 13, 0⟩)]

/-- Populations 23818217 and 29203205 with seats 460 and 564: both `float`
ratios are above 1. -/
def scenario_level : StateMap :=
  [("A", ⟨"A", 23818217, 460, 0⟩), ("B", ⟨"B", 29203205, 564, 0⟩)]

/-- Populations 49999998 and 30000000: the divisor 20000000 is exact for the
rational quotients and not for the binary32 ones. -/
def scenario_near : StateMap :=
  [("A", ⟨"A", 49999998, 0, 0⟩), ("B", ⟨"B", 30000000, 0, 0⟩)]

/-! # Properties -/

/-! ## Sums over the table -/

theorem foldl_add_eq_sum (f : String × StateData → Int) (m : StateMap) (a : Int) :
    m.foldl (fun total e => total + f e) a = a + (m.map f).sum := by
  induction m generalizing a with
  | nil => simp
  | cons e rest ih => simp [List.foldl_cons, ih, add_assoc]

theorem get_total_population_eq_sum (m : StateMap) :
    get_total_population m = (m.map (fun e => e.2.population)).sum := by
  simp [get_total_population, foldl_add_eq_sum (fun e => e.2.population)]

theorem seat_total_eq_sum (m : StateMap) :
    seat_total m = (m.map (fun e => e.2.seats)).sum := by
  simp [seat_total, foldl_add_eq_sum (fun e => e.2.seats)]

/-! ## The scan for the first maximum -/

/-- The scan either keeps its start values (no score exceeds `mx`) or returns
the first record whose score is maximal. -/
theorem scan_max_spec (score : StateData → ℚ) (m : StateMap) (best : String) (mx : ℚ) :
    ((∀ e ∈ m, score e.2 ≤ mx) ∧ scan_max score m best mx = (best, mx)) ∨
    (∃ l1 k d l2, m = l1 ++ (k, d) :: l2 ∧ scan_max score m best mx = (k, score d) ∧
      mx < score d ∧ (∀ e ∈ l1, score e.2 < score d) ∧ (∀ e ∈ l2, score e.2 ≤ score d)) := by
  induction m generalizing best mx with
  | nil => left; simp [scan_max]
  | cons hd rest ih =>
    obtain ⟨s, data⟩ := hd
    by_cases h : score data > mx
    · simp only [scan_max, h, if_true]
      right
      rcases ih s (score data) with ⟨hall, heq⟩ | ⟨l1, k, d, l2, hm, heq, hlt, h1, h2⟩
      · exact ⟨[], s, data, rest, by simp, heq, h, by simp, hall⟩
      · refine ⟨(s, data) :: l1, k, d, l2, by simp [hm], heq, lt_trans h hlt, ?_, h2⟩
        intro e he
        rcases List.mem_cons.mp he with rfl | he
        · exact hlt
        · exact h1 e he
    · simp only [scan_max, h, if_false]
      have hle : score data ≤ mx := not_lt.mp h
      rcases ih best mx with ⟨hall, heq⟩ | ⟨l1, k, d, l2, hm, heq, hlt, h1, h2⟩
      · left
        refine ⟨?_, heq⟩
        intro e he
        rcases List.mem_cons.mp he with rfl | he
        · exact hle
        · exact hall e he
      · right
        refine ⟨(s, data) :: l1, k, d, l2, by simp [hm], heq, hlt, ?_, h2⟩
        intro e he
        rcases List.mem_cons.mp he with rfl | he
        · exact lt_of_le_of_lt hle hlt
        · exact h1 e he

/-! ## Access by key -/

theorem at_key_of_split (l1 : StateMap) (k : String) (d : StateData) (l2 : StateMap)
    (f : StateData → StateData) (h : KeysAscending (l1 ++ (k, d) :: l2)) :
    at_key (l1 ++ (k, d) :: l2) k f = l1 ++ (k, f d) :: l2 := by
  induction l1 with
  | nil => simp [at_key]
  | cons hd rest ih =>
    obtain ⟨k', d'⟩ := hd
    have hk : k' < k := by
      unfold KeysAscending at h
      simp only [List.cons_append, List.map_cons, List.map_append, List.pairwise_cons] at h
      exact h.1 k (by simp)
    have hrest : KeysAscending (rest ++ (k, d) :: l2) := by
      unfold KeysAscending at h ⊢
      simp only [List.cons_append, List.map_cons, List.pairwise_cons] at h
      exact h.2
    have hne : k ≠ k' := ne_of_gt hk
    have hnlt : ¬ k < k' := not_lt_of_gt hk
    simp [at_key, hne, hnlt, ih hrest]

theorem keysAscending_of_map_fst_eq {m m' : StateMap} (h : m'.map Prod.fst = m.map Prod.fst)
    (hm : KeysAscending m) : KeysAscending m' := by
  unfold KeysAscending at *
  rw [h]; exact hm

/-! ## Hamilton's method: the first pass -/

theorem exact_share_nonneg {P S p : Int} (hP : 0 < P) (hS : 0 < S) (hp : 0 ≤ p) :
    0 ≤ exact_share P S p := by
  unfold exact_share
  have h1 : (0 : ℚ) ≤ (p : ℚ) := by exact_mod_cast hp
  have h2 : (0 : ℚ) < (S : ℚ) := by exact_mod_cast hS
  have h3 : (0 : ℚ) < (P : ℚ) := by exact_mod_cast hP
  positivity

theorem exact_seats_quota {P S : Int} (hP : P ≠ 0) (hS : S ≠ 0) (p : Int) :
    exact_seats p (quota P S) = some (exact_share P S p) := by
  have h2 : (S : ℚ) ≠ 0 := by exact_mod_cast hS
  have h3 : (P : ℚ) ≠ 0 := by exact_mod_cast hP
  have hq : (P : ℚ) / (S : ℚ) ≠ 0 := div_ne_zero h3 h2
  simp only [quota, hS, ne_eq, not_false_eq_true, if_true, exact_seats, hq, if_false,
    exact_share]
  congr 1
  field_simp

theorem truncate_of_nonneg {x : ℚ} (h : 0 ≤ x) : truncate x = ⌊x⌋ := by
  simp [truncate, h]

/-- The first pass gives every record its floor and its true residual. -/
theorem hamilton_first_pass_spec {P S : Int} (hP : 0 < P) (hS : 0 < S) (m : StateMap)
    (hp : PopulationsNonneg m) :
    hamilton_first_pass (quota P S) m =
      some (m.map (fun e => (e.1, { e.2 with
                seats := ⌊exact_share P S e.2.population⌋,
                residual := Int.fract (exact_share P S e.2.population) })),
            (m.map (fun e => ⌊exact_share P S e.2.population⌋)).sum) := by
  induction m with
  | nil => simp [hamilton_first_pass]
  | cons hd rest ih =>
    obtain ⟨s, data⟩ := hd
    have hp' : PopulationsNonneg rest := fun e he => hp e (List.mem_cons_of_mem _ he)
    have h0 : 0 ≤ data.population := hp (s, data) (List.mem_cons_self _ _)
    have hx := exact_share_nonneg hP hS h0
    simp only [hamilton_first_pass, exact_seats_quota (ne_of_gt hP) (ne_of_gt hS), ih hp',
      truncate_of_nonneg hx, List.map_cons, List.sum_cons]
    rfl

/-- The exact shares add up to the number of seats. -/
theorem sum_exact_share (m : StateMap) {P : Int} (S : Int) (hP : P ≠ 0)
    (hm : get_total_population m = P) :
    (m.map (fun e => exact_share P S e.2.population)).sum = (S : ℚ) := by
  have h3 : (P : ℚ) ≠ 0 := by exact_mod_cast hP
  have key : ∀ l : StateMap, (l.map (fun e => exact_share P S e.2.population)).sum =
      (((l.map (fun e => e.2.population)).sum : Int) : ℚ) * (S : ℚ) / (P : ℚ) := by
    intro l
    induction l with
    | nil => simp
    | cons hd rest ih =>
      simp only [List.map_cons, List.sum_cons, ih, Int.cast_add]
      unfold exact_share
      ring
  rw [key, ← get_total_population_eq_sum, hm]
  field_simp

/-- The floors fall short of the seat number by the sum of the residuals, which
is at most the number of records. -/
theorem sum_floor_bounds (m : StateMap) {P : Int} (S : Int) (hP : P ≠ 0)
    (hm : get_total_population m = P) :
    (m.map (fun e => ⌊exact_share P S e.2.population⌋)).sum ≤ S ∧
    S - (m.map (fun e => ⌊exact_share P S e.2.population⌋)).sum ≤ (m.length : Int) := by
  have key : ∀ l : StateMap,
      (((l.map (fun e => ⌊exact_share P S e.2.population⌋)).sum : Int) : ℚ) ≤
        (l.map (fun e => exact_share P S e.2.population)).sum ∧
      (l.map (fun e => exact_share P S e.2.population)).sum ≤
        (((l.map (fun e => ⌊exact_share P S e.2.population⌋)).sum : Int) : ℚ) + (l.length : ℚ) := by
    intro l
    induction l with
    | nil => simp
    | cons hd rest ih =>
      simp only [List.map_cons, List.sum_cons, List.length_cons]
      have h1 := Int.floor_le (exact_share P S hd.2.population)
      have h2 := Int.lt_floor_add_one (exact_share P S hd.2.population)
      simp only [Int.cast_add, Nat.cast_add, Nat.cast_one]
      constructor
      · linarith [ih.1]
      · linarith [ih.2]
  have h := key m
  rw [sum_exact_share m S hP hm] at h
  constructor
  · exact_mod_cast h.1
  · have : (S : ℚ) - (((m.map (fun e => ⌊exact_share P S e.2.population⌋)).sum : Int) : ℚ) ≤
        (m.length : ℚ) := by linarith [h.2]
    exact_mod_cast this

/-! ## Hamilton's method: the remainder loop -/

theorem keysAscending_split_right {l1 : StateMap} {k : String} {d : StateData} {l2 : StateMap}
    (h : KeysAscending (l1 ++ (k, d) :: l2)) : ∀ e ∈ l2, k < e.1 := by
  intro e he
  unfold KeysAscending at h
  rw [List.map_append, List.map_cons, List.pairwise_append] at h
  have h2 := (List.pairwise_cons.mp h.2.1).1
  exact h2 e.1 (List.mem_map_of_mem Prod.fst he)

/-- One iteration of the loop, when some record is still unused: the first
record of maximal residual gets one more seat and the mark `-1`. -/
theorem hamilton_step_split (m : StateMap) (hk : KeysAscending m)
    (hex : ∃ e ∈ m, (-1 : ℚ) < e.2.residual) :
    ∃ l1 k d l2, m = l1 ++ (k, d) :: l2 ∧
      hamilton_step m = l1 ++ (k, { d with seats := d.seats + 1, residual := -1 }) :: l2 ∧
      (-1 : ℚ) < d.residual ∧ (∀ e ∈ l1, e.2.residual < d.residual) ∧
      (∀ e ∈ l2, e.2.residual ≤ d.residual) := by
  rcases scan_max_spec (fun d => d.residual) m "" (-1) with
    ⟨hall, _⟩ | ⟨l1, k, d, l2, hm, heq, hlt, h1, h2⟩
  · obtain ⟨e, he, hlt⟩ := hex
    exact absurd (hall e he) (not_le.mpr hlt)
  · refine ⟨l1, k, d, l2, hm, ?_, hlt, h1, h2⟩
    have hk1 : KeysAscending (l1 ++ (k, d) :: l2) := hm ▸ hk
    have hk2 : KeysAscending (l1 ++ (k, { d with seats := d.seats + 1 }) :: l2) :=
      keysAscending_of_map_fst_eq (by simp) hk1
    unfold hamilton_step
    simp only [heq]
    rw [hm, at_key_of_split l1 k d l2 _ hk1, at_key_of_split l1 k _ l2 _ hk2]

theorem hamilton_step_inv {P S : Int} (m : StateMap) (hk : KeysAscending m)
    (hinv : HamiltonInv P S m) (hex : ∃ e ∈ m, (-1 : ℚ) < e.2.residual) :
    KeysAscending (hamilton_step m) ∧ HamiltonInv P S (hamilton_step m) ∧
    (hamilton_step m).map frame = m.map frame ∧
    seat_total (hamilton_step m) = seat_total m + 1 ∧
    (hamilton_step m).countP (fun e => decide ((-1 : ℚ) < e.2.residual)) + 1 =
      m.countP (fun e => decide ((-1 : ℚ) < e.2.residual)) := by
  obtain ⟨l1, k, d, l2, hm, hstep, hd, h1, h2⟩ := hamilton_step_split m hk hex
  have hk1 : KeysAscending (l1 ++ (k, d) :: l2) := hm ▸ hk
  have hkr := keysAscending_split_right hk1
  rw [hstep]
  subst hm
  obtain ⟨hb, hc⟩ := hinv
  have hdne : d.residual ≠ -1 := ne_of_gt hd
  have hdb : d.residual = Int.fract (exact_share P S d.population) ∧
      d.seats = ⌊exact_share P S d.population⌋ := by
    rcases hb (k, d) (by simp) with h | h
    · exact h
    · exact absurd h.1 hdne
  refine ⟨keysAscending_of_map_fst_eq (by simp) hk1, ⟨?_, ?_⟩, by simp [frame], ?_, ?_⟩
  · intro e he
    rcases List.mem_append.mp he with he | he
    · exact hb e (by simp [he])
    · rcases List.mem_cons.mp he with rfl | he
      · right; simp [hdb.2]
      · exact hb e (by simp [he])
  · have unusedRes : ∀ e ∈ l1 ++ (k, d) :: l2, e.2.residual ≠ -1 →
        e.2.residual = Int.fract (exact_share P S e.2.population) := by
      intro e he hne
      rcases hb e he with h | h
      · exact h.1
      · exact absurd h.1 hne
    intro e1 he1 e2 he2 hu1 hu2
    have he2' : e2 ∈ l1 ∨ e2 ∈ l2 := by
      rcases List.mem_append.mp he2 with h | h
      · exact Or.inl h
      · rcases List.mem_cons.mp h with rfl | h
        · exact absurd rfl hu2
        · exact Or.inr h
    have he2m : e2 ∈ l1 ++ (k, d) :: l2 := by
      rcases he2' with h | h <;> simp [h]
    have hr2 := unusedRes e2 he2m hu2
    have he1' : e1 ∈ l1 ∨ e1 = (k, { d with seats := d.seats + 1, residual := -1 }) ∨ e1 ∈ l2 := by
      rcases List.mem_append.mp he1 with h | h
      · exact Or.inl h
      · rcases List.mem_cons.mp h with h | h
        · exact Or.inr (Or.inl h)
        · exact Or.inr (Or.inr h)
    rcases he1' with h | rfl | h
    · exact hc e1 (by simp [h]) e2 he2m hu1 hu2
    · simp only
      rw [← hdb.1, ← hr2]
      rcases he2' with h | h
      · exact Or.inl (h1 e2 h)
      · rcases lt_or_eq_of_le (h2 e2 h) with hlt | heq
        · exact Or.inl hlt
        · exact Or.inr ⟨heq, hkr e2 h⟩
    · exact hc e1 (by simp [h]) e2 he2m hu1 hu2
  · simp only [seat_total_eq_sum, List.map_append, List.map_cons, List.sum_append, List.sum_cons]
    ring
  · simp only [List.countP_append, List.countP_cons, hd, decide_True, if_true]
    simp
    omega

theorem hamilton_remaining_inv {P S : Int} (j : Nat) (m : StateMap) (hk : KeysAscending m)
    (hinv : HamiltonInv P S m)
    (hj : j ≤ m.countP (fun e => decide ((-1 : ℚ) < e.2.residual))) :
    KeysAscending (hamilton_remaining j m) ∧ HamiltonInv P S (hamilton_remaining j m) ∧
    (hamilton_remaining j m).map frame = m.map frame ∧
    seat_total (hamilton_remaining j m) = seat_total m + j := by
  induction j generalizing m with
  | zero => simp [hamilton_remaining, hk, hinv]
  | succ j ih =>
    have hpos : 0 < m.countP (fun e => decide ((-1 : ℚ) < e.2.residual)) := by omega
    have hex : ∃ e ∈ m, (-1 : ℚ) < e.2.residual := by
      obtain ⟨e, he, hd⟩ := List.countP_pos_iff.mp hpos
      exact ⟨e, he, by simpa using hd⟩
    obtain ⟨hk', hinv', hfr, hst, hcnt⟩ := hamilton_step_inv m hk hinv hex
    obtain ⟨a, b, c, d⟩ := ih (hamilton_step m) hk' hinv' (by omega)
    refine ⟨a, b, c.trans hfr, ?_⟩
    simp only [hamilton_remaining]
    rw [d, hst]
    push_cast
    ring

/-- Hamilton's method on a well-formed table: it returns, the frame is kept, the
loop invariant holds at the end and the seats add up to `S`. -/
theorem hamilton_spec (m : StateMap) (S : Int) (hk : KeysAscending m)
    (hp : PopulationsNonneg m) (hS : 0 < S) (hP : 0 < get_total_population m) :
    ∃ m', hamiltons_method m S = some m' ∧ KeysAscending m' ∧
      HamiltonInv (get_total_population m) S m' ∧ m'.map frame = m.map frame ∧
      seat_total m' = S := by
  set P := get_total_population m with hPdef
  have hfp := hamilton_first_pass_spec hP hS m hp
  obtain ⟨hle, hlen⟩ := sum_floor_bounds m S (ne_of_gt hP) hPdef.symm
  set m1 : StateMap := m.map (fun e => (e.1, { e.2 with
                seats := ⌊exact_share P S e.2.population⌋,
                residual := Int.fract (exact_share P S e.2.population) })) with hm1
  set sa : Int := (m.map (fun e => ⌊exact_share P S e.2.population⌋)).sum with hsa
  have hk1 : KeysAscending m1 :=
    keysAscending_of_map_fst_eq (by simp [hm1, List.map_map, Function.comp_def]) hk
  have hres : ∀ e ∈ m1, e.2.residual = Int.fract (exact_share P S e.2.population) ∧
      e.2.seats = ⌊exact_share P S e.2.population⌋ := by
    intro e he
    obtain ⟨e0, _, rfl⟩ := List.mem_map.mp he
    exact ⟨rfl, rfl⟩
  have hinv1 : HamiltonInv P S m1 := by
    refine ⟨fun e he => Or.inl (hres e he), ?_⟩
    intro e1 he1 e2 _ hu1 _
    have h := (hres e1 he1).1
    rw [hu1] at h
    have := Int.fract_nonneg (exact_share P S e1.2.population)
    linarith
  have hcnt : m1.countP (fun e => decide ((-1 : ℚ) < e.2.residual)) = m1.length := by
    rw [List.countP_eq_length]
    intro e he
    have h := (hres e he).1
    have := Int.fract_nonneg (exact_share P S e.2.population)
    simp only [decide_eq_true_eq]
    linarith
  have hlen1 : m1.length = m.length := by simp [hm1]
  have hj : (S - sa).toNat ≤ m1.countP (fun e => decide ((-1 : ℚ) < e.2.residual)) := by
    rw [hcnt, hlen1]; omega
  obtain ⟨a, b, c, d⟩ := hamilton_remaining_inv (S - sa).toNat m1 hk1 hinv1 hj
  refine ⟨hamilton_remaining (S - sa).toNat m1, ?_, a, b, ?_, ?_⟩
  · simp only [hamiltons_method]
    rw [← hPdef, hfp]
  · rw [c]; simp [hm1, List.map_map, Function.comp_def, frame]
  · rw [d]
    have : seat_total m1 = sa := by
      simp [seat_total_eq_sum, hm1, hsa, List.map_map, Function.comp_def]
    rw [this]; omega

/-! ## The scenarios -/

theorem scenario_abc_keys : KeysAscending scenario_abc := by
  simp [KeysAscending, scenario_abc, String.lt_iff_toList_lt]
  decide

theorem scenario_abc_nonneg : PopulationsNonneg scenario_abc := by
  unfold PopulationsNonneg scenario_abc
  decide

theorem scenario_rem_keys : KeysAscending scenario_rem := by
  simp [KeysAscending, scenario_rem, String.lt_iff_toList_lt]
  decide

theorem scenario_rem_nonneg : PopulationsNonneg scenario_rem := by
  unfold PopulationsNonneg scenario_rem
  decide

/-! ## Hamilton's method: the claims -/

/-- C1. On a table with non-negative populations (keys ascending, as in any
`std::map`), `S > 0` and total population `P > 0` (so the table has at least
one entity), `hamiltons_method` returns and the seats it assigns add up to
exactly `S`. -/
theorem hamiltons_method_seat_total (m : StateMap) (S : Int) (hk : KeysAscending m)
    (hp : PopulationsNonneg m) (hS : 0 < S)
    (hP : 0 < get_total_population m) :
    ∃ m', hamiltons_method m S = some m' ∧ seat_total m' = S := by
  obtain ⟨m', h1, _, _, _, h5⟩ := hamilton_spec m S hk hp hS hP
  exact ⟨m', h1, h5⟩

theorem hamiltons_method_seat_total_witness :
    KeysAscending scenario_rem ∧ PopulationsNonneg scenario_rem ∧
    (0 : Int) < 7 ∧ 0 < get_total_population scenario_rem ∧
    ∃ m', hamiltons_method scenario_rem 7 = some m' ∧ seat_total m' = 7 :=
  ⟨scenario_rem_keys, scenario_rem_nonneg, by decide, by decide,
    hamiltons_method_seat_total scenario_rem 7 scenario_rem_keys scenario_rem_nonneg
      (by decide) (by decide)⟩

theorem exact_share_of_dvd {P S p : Int} (hP : P ≠ 0) (h : P ∣ p * S) :
    exact_share P S p = ((p * S / P : Int) : ℚ) := by
  have h3 : (P : ℚ) ≠ 0 := by exact_mod_cast hP
  unfold exact_share
  rw [Int.cast_div h h3]
  push_cast
  rfl

theorem truncate_intCast (k : Int) : truncate (k : ℚ) = k := by
  unfold truncate
  split_ifs <;> simp

/-! ## The Huntington-Hill method -/

/-- The access `state_map[key].seats++` adds one seat to the table, whether the
key is present or a record is inserted, keeps every seat count at least 1, and
keeps the records that were there. -/
theorem at_key_incr (m : StateMap) (key : String) :
    seat_total (at_key m key (fun d => { d with seats := d.seats + 1 })) = seat_total m + 1 ∧
    ((∀ e ∈ m, 1 ≤ e.2.seats) →
      ∀ e ∈ at_key m key (fun d => { d with seats := d.seats + 1 }), 1 ≤ e.2.seats) ∧
    (m.map frame).Sublist
      ((at_key m key (fun d => { d with seats := d.seats + 1 })).map frame) := by
  induction m with
  | nil =>
    refine ⟨by simp [at_key, seat_total, StateData.empty], ?_, by simp⟩
    intro _ e he
    simp only [at_key, List.mem_singleton] at he
    subst he
    simp [StateData.empty]
  | cons hd rest ih =>
    obtain ⟨k, d⟩ := hd
    obtain ⟨ih1, ih2, ih3⟩ := ih
    by_cases h1 : key = k
    · simp only [at_key, h1, if_true]
      refine ⟨by simp only [seat_total_eq_sum, List.map_cons, List.sum_cons]; ring, ?_, ?_⟩
      · intro hall e he
        rcases List.mem_cons.mp he with rfl | he
        · have := hall (k, d) (List.mem_cons_self _ _)
          simp only at this ⊢
          omega
        · exact hall e (List.mem_cons_of_mem _ he)
      · simp [frame]
    · by_cases h2 : key < k
      · simp only [at_key, h1, h2, if_true, if_false]
        refine ⟨by simp only [seat_total_eq_sum, List.map_cons, List.sum_cons, StateData.empty];
                   ring, ?_, ?_⟩
        · intro hall e he
          rcases List.mem_cons.mp he with rfl | he
          · simp [StateData.empty]
          · exact hall e he
        · simp only [List.map_cons]
          exact List.sublist_cons_self _ _
      · simp only [at_key, h1, h2, if_false]
        refine ⟨?_, ?_, ?_⟩
        · have := ih1
          simp only [seat_total_eq_sum, List.map_cons, List.sum_cons] at this ⊢
          rw [this]; ring
        · intro hall e he
          rcases List.mem_cons.mp he with rfl | he
          · exact hall _ (List.mem_cons_self _ _)
          · exact ih2 (fun e he => hall e (List.mem_cons_of_mem _ he)) e he
        · simp only [List.map_cons]
          exact List.Sublist.cons₂ _ ih3

theorem hh_remaining_spec (rem : Nat) (m : StateMap) (c : Nat) :
    (hh_remaining rem m c).2 = c + rem ∧
    seat_total (hh_remaining rem m c).1 = seat_total m + rem ∧
    ((∀ e ∈ m, 1 ≤ e.2.seats) → ∀ e ∈ (hh_remaining rem m c).1, 1 ≤ e.2.seats) ∧
    (m.map frame).Sublist ((hh_remaining rem m c).1.map frame) := by
  induction rem generalizing m c with
  | zero => simp [hh_remaining]
  | succ rem ih =>
    obtain ⟨a1, a2, a3⟩ := at_key_incr m (scan_max priority m "" (-1)).1
    obtain ⟨b1, b2, b3, b4⟩ := ih (hh_step m) (c + 1)
    simp only [hh_remaining]
    refine ⟨by rw [b1]; omega, ?_, ?_, ?_⟩
    · rw [b2]
      have : seat_total (hh_step m) = seat_total m + 1 := a1
      rw [this]; push_cast; ring
    · intro hall
      exact b3 (a2 hall)
    · exact List.Sublist.trans a3 b4

theorem seat_total_all_one (m : StateMap) :
    seat_total (m.map (fun e => (e.1, { e.2 with seats := 1 }))) = (m.length : Int) := by
  rw [seat_total_eq_sum]
  induction m with
  | nil => simp
  | cons hd rest ih =>
    simp only [List.map_cons, List.sum_cons, List.length_cons, ih]
    push_cast; ring

/-- C5. `huntington_hill_method` with entity count `n <= S`: the method returns
without the error report after exactly `S - n` seat increments, every record
of the input is still in the table, every record has at least 1 seat, and the
seats add up to exactly `S`. -/
theorem huntington_hill_seat_total (m : StateMap) (S : Int)
    (hn : (m.length : Int) ≤ S) :
    (huntington_hill_method m S).error_reported = false ∧
    ((huntington_hill_method m S).increments : Int) = S - (m.length : Int) ∧
    (m.map frame).Sublist ((huntington_hill_method m S).table.map frame) ∧
    (∀ e ∈ (huntington_hill_method m S).table, 1 ≤ e.2.seats) ∧
    seat_total (huntington_hill_method m S).table = S := by
  have hrem : ¬ S - ((m.map (fun e => (e.1, { e.2 with seats := 1 }))).length : Int) < 0 := by
    simp only [List.length_map]; omega
  obtain ⟨b1, b2, b3, b4⟩ := hh_remaining_spec
    (S - ((m.map (fun e => (e.1, { e.2 with seats := (1 : Int) }))).length : Int)).toNat
    (m.map (fun e => (e.1, { e.2 with seats := 1 }))) 0
  simp only [huntington_hill_method, hrem, if_false]
  refine ⟨trivial, ?_, ?_, ?_, ?_⟩
  · rw [b1]; simp only [List.length_map]; omega
  · have : (m.map (fun e => (e.1, { e.2 with seats := (1 : Int) }))).map frame = m.map frame := by
      simp [List.map_map, Function.comp_def, frame]
    rw [← this]; exact b4
  · apply b3
    intro e he
    obtain ⟨e0, _, rfl⟩ := List.mem_map.mp he
    simp
  · rw [b2, seat_total_all_one]
    simp only [List.length_map]; omega

theorem huntington_hill_seat_total_witness :
    ((scenario_rem.length : Int) ≤ 7) ∧
    (huntington_hill_method scenario_rem 7).error_reported = false ∧
    ((huntington_hill_method scenario_rem 7).increments : Int) = 7 - (scenario_rem.length : Int) ∧
    (scenario_rem.map frame).Sublist ((huntington_hill_method scenario_rem 7).table.map frame) ∧
    (∀ e ∈ (huntington_hill_method scenario_rem 7).table, 1 ≤ e.2.seats) ∧
    seat_total (huntington_hill_method scenario_rem 7).table = 7 :=
  ⟨by decide, huntington_hill_seat_total scenario_rem 7 (by decide)⟩

/-- C6. `huntington_hill_method` with more entities than seats (`n > S`): the
method takes its error branch, performs no seat increment and leaves every
entity with exactly 1 seat, so the seats add up to `n`, not to `S`. -/
theorem huntington_hill_too_many_entities (m : StateMap) (S : Int)
    (hn : S < (m.length : Int)) :
    (huntington_hill_method m S).error_reported = true ∧
    (huntington_hill_method m S).increments = 0 ∧
    (huntington_hill_method m S).table = m.map (fun e => (e.1, { e.2 with seats := 1 })) ∧
    (∀ e ∈ (huntington_hill_method m S).table, e.2.seats = 1) ∧
    seat_total (huntington_hill_method m S).table = (m.length : Int) ∧
    seat_total (huntington_hill_method m S).table ≠ S := by
  have hrem : S - ((m.map (fun e => (e.1, { e.2 with seats := (1 : Int) }))).length : Int) < 0 := by
    simp only [List.length_map]; omega
  simp only [huntington_hill_method, hrem, if_true]
  refine ⟨trivial, trivial, trivial, ?_, seat_total_all_one m, ?_⟩
  · intro e he
    obtain ⟨e0, _, rfl⟩ := List.mem_map.mp he
    rfl
  · rw [seat_total_all_one]; omega

theorem huntington_hill_too_many_entities_witness :
    ((5 : Int) < (scenario_six.length : Int)) ∧
    (huntington_hill_method scenario_six 5).error_reported = true ∧
    (huntington_hill_method scenario_six 5).increments = 0 ∧
    (∀ e ∈ (huntington_hill_method scenario_six 5).table, e.2.seats = 1) ∧
    seat_total (huntington_hill_method scenario_six 5).table = 6 ∧
    seat_total (huntington_hill_method scenario_six 5).table ≠ 5 :=
  have h := huntington_hill_too_many_entities scenario_six 5 (by decide)
  ⟨by decide, h.1, h.2.1, h.2.2.2.1, h.2.2.2.2.1, h.2.2.2.2.2⟩

/-! ## The divisor methods -/

theorem divisor_pass_spec (rule : Int → Int → Int) {divisor : Int} (hd : divisor ≠ 0)
    (m : StateMap) :
    divisor_pass rule divisor m = Except.ok (assigned rule divisor m, seats_at rule m divisor) := by
  induction m with
  | nil => simp [divisor_pass, assigned, seats_at]
  | cons hd' rest ih =>
    obtain ⟨s, data⟩ := hd'
    simp only [divisor_pass, hd, if_false, ih]
    simp [assigned, seats_at]

theorem assigned_assigned (rule : Int → Int → Int) (d d' : Int) (m : StateMap) :
    assigned rule d' (assigned rule d m) = assigned rule d' m := by
  simp [assigned, List.map_map, Function.comp_def]

theorem seats_at_assigned (rule : Int → Int → Int) (d d' : Int) (m : StateMap) :
    seats_at rule (assigned rule d m) d' = seats_at rule m d' := by
  simp [assigned, seats_at, List.map_map, Function.comp_def]

theorem seat_total_assigned (rule : Int → Int → Int) (d : Int) (m : StateMap) :
    seat_total (assigned rule d m) = seats_at rule m d := by
  simp [seat_total_eq_sum, assigned, seats_at, List.map_map, Function.comp_def]

theorem assigned_frame (rule : Int → Int → Int) (d : Int) (m : StateMap) :
    (assigned rule d m).map frame = m.map frame := by
  simp [assigned, List.map_map, Function.comp_def, frame]

/-- The downward search: started at a divisor `d >= 1` below which (or at
which) some divisor `>= 1` gives exactly `S` seats, it stops at the largest
such divisor. -/
theorem search_down (rule : Int → Int → Int) (diff : Int → Int) (m : StateMap) (S : Int)
    (hdiff : ∀ d, 1 ≤ d → seats_at rule m d ≠ S →
      (∃ d', 1 ≤ d' ∧ d' ≤ d ∧ seats_at rule m d' = S) → diff (S - seats_at rule m d) = -1)
    (fuel : Nat) (d : Int) (hd : 1 ≤ d) (hfuel : d ≤ (fuel : Int) + 1)
    (hex : ∃ d', 1 ≤ d' ∧ d' ≤ d ∧ seats_at rule m d' = S) :
    ∃ d', 1 ≤ d' ∧ d' ≤ d ∧ seats_at rule m d' = S ∧
      (∀ d'', d' < d'' → d'' ≤ d → seats_at rule m d'' ≠ S) ∧
      divisor_search rule diff S fuel d (assigned rule d m) (S - seats_at rule m d) =
        Except.ok (d', assigned rule d' m) := by
  induction fuel generalizing d with
  | zero =>
    have hd1 : d = 1 := by omega
    obtain ⟨d', h1, h2, h3⟩ := hex
    have : d' = 1 := by omega
    subst this; subst hd1
    refine ⟨1, le_refl _, le_refl _, h3, fun d'' h h' => by omega, ?_⟩
    simp [divisor_search, h3]
  | succ fuel ih =>
    by_cases hS : seats_at rule m d = S
    · refine ⟨d, hd, le_refl _, hS, fun d'' h h' => by omega, ?_⟩
      simp [divisor_search, hS]
    · obtain ⟨d', h1, h2, h3⟩ := hex
      have hlt : d' < d := by
        rcases lt_or_eq_of_le h2 with h | h
        · exact h
        · subst h; exact absurd h3 hS
      have hdf := hdiff d hd hS ⟨d', h1, h2, h3⟩
      have hrem : S - seats_at rule m d ≠ 0 := by omega
      have hd1 : d + -1 ≠ 0 := by omega
      obtain ⟨e, e1, e2, e3, e4, e5⟩ := ih (d + -1) (by omega) (by push_cast at hfuel; omega)
        ⟨d', h1, by omega, h3⟩
      refine ⟨e, e1, by omega, e3, ?_, ?_⟩
      · intro d'' h h'
        by_cases hdd : d'' = d
        · subst hdd; exact hS
        · exact e4 d'' h (by omega)
      · simp only [divisor_search, hrem, if_false, hdf, divisor_pass_spec rule hd1,
          assigned_assigned, seats_at_assigned]
        exact e5

/-- The upward search: started at a divisor `d >= 1` at or above which some
divisor gives exactly `S` seats, it stops at the smallest such divisor. -/
theorem search_up (rule : Int → Int → Int) (diff : Int → Int) (m : StateMap) (S : Int)
    (hdiff : ∀ d, 1 ≤ d → seats_at rule m d ≠ S →
      (∃ d', d ≤ d' ∧ seats_at rule m d' = S) → diff (S - seats_at rule m d) = 1)
    (fuel : Nat) (d dstar : Int) (hd : 1 ≤ d) (hle : d ≤ dstar)
    (hfuel : dstar - d ≤ (fuel : Int)) (hstar : seats_at rule m dstar = S) :
    ∃ d', d ≤ d' ∧ d' ≤ dstar ∧ seats_at rule m d' = S ∧
      divisor_search rule diff S fuel d (assigned rule d m) (S - seats_at rule m d) =
        Except.ok (d', assigned rule d' m) := by
  induction fuel generalizing d with
  | zero =>
    have hd1 : d = dstar := by push_cast at hfuel; omega
    subst hd1
    refine ⟨d, le_refl _, le_refl _, hstar, ?_⟩
    simp [divisor_search, hstar]
  | succ fuel ih =>
    by_cases hS : seats_at rule m d = S
    · refine ⟨d, le_refl _, hle, hS, ?_⟩
      simp [divisor_search, hS]
    · have hlt : d < dstar := by
        rcases lt_or_eq_of_le hle with h | h
        · exact h
        · subst h; exact absurd hstar hS
      have hdf := hdiff d hd hS ⟨dstar, hle, hstar⟩
      have hrem : S - seats_at rule m d ≠ 0 := by omega
      have hd1 : d + 1 ≠ 0 := by omega
      obtain ⟨e, e1, e2, e3, e5⟩ := ih (d + 1) (by omega) (by omega)
        (by push_cast at hfuel; omega)
      refine ⟨e, by omega, e2, e3, ?_⟩
      simp only [divisor_search, hrem, if_false, hdf, divisor_pass_spec rule hd1,
        assigned_assigned, seats_at_assigned]
      exact e5

/-- A divisor method from its start, when the first divisor is not zero. -/
theorem divisor_method_unfold (rule : Int → Int → Int) (diff : Int → Int) (fuel : Nat)
    (m : StateMap) {S : Int} (hS : S ≠ 0) (hd : Int.tdiv (get_total_population m) S ≠ 0) :
    divisor_method rule diff fuel m S =
      divisor_search rule diff S fuel (Int.tdiv (get_total_population m) S)
        (assigned rule (Int.tdiv (get_total_population m) S) m)
        (S - seats_at rule m (Int.tdiv (get_total_population m) S)) := by
  simp only [divisor_method, hS, if_false, divisor_pass_spec rule hd]

/-! ### Jefferson -/

/-- C7, as the code has it. `jeffersons_method` converges when an exact divisor
exists: for every table and `S > 0` such that some integer divisor `d` with
`1 <= d <= floor(P / S)` makes the floors `population / d` add up to `S`, the
downward search returns (with enough fuel) at a divisor `>= 1`, never dividing
by zero, and the seats of the returned table add up to `S`. -/
theorem jeffersons_method_converges (m : StateMap) (S : Int) (hS : 0 < S)
    (hex : ∃ d, 1 ≤ d ∧ d ≤ Int.tdiv (get_total_population m) S ∧
      seats_at floor_rule m d = S) :
    ∃ fuel d m', jefferson_run fuel m S = Except.ok (d, m') ∧ 1 ≤ d ∧
      seats_at floor_rule m d = S ∧
      jeffersons_method fuel m S = Except.ok m' ∧ seat_total m' = S := by
  obtain ⟨d0, h1, h2, h3⟩ := hex
  have hd : 1 ≤ Int.tdiv (get_total_population m) S := le_trans h1 h2
  obtain ⟨d', e1, _, e3, _, e5⟩ := search_down floor_rule jefferson_diff m S
    (fun _ _ _ _ => rfl) (Int.tdiv (get_total_population m) S).toNat
    (Int.tdiv (get_total_population m) S) hd (by omega) ⟨d0, h1, h2, h3⟩
  have hrun : jefferson_run (Int.tdiv (get_total_population m) S).toNat m S =
      Except.ok (d', assigned floor_rule d' m) := by
    unfold jefferson_run
    rw [divisor_method_unfold floor_rule jefferson_diff _ m (ne_of_gt hS) (by omega)]
    exact e5
  refine ⟨(Int.tdiv (get_total_population m) S).toNat, d', assigned floor_rule d' m,
    hrun, e1, e3, ?_, ?_⟩
  · simp [jeffersons_method, hrun, Except.map]
  · rw [seat_total_assigned]; exact e3

theorem jeffersons_method_converges_witness :
    (0 : Int) < 5 ∧
    (∃ d, 1 ≤ d ∧ d ≤ Int.tdiv (get_total_population scenario_abc) 5 ∧
      seats_at floor_rule scenario_abc d = 5) ∧
    ∃ fuel d m', jefferson_run fuel scenario_abc 5 = Except.ok (d, m') ∧ 1 ≤ d ∧
      seats_at floor_rule scenario_abc d = 5 ∧
      jeffersons_method fuel scenario_abc 5 = Except.ok m' ∧ seat_total m' = 5 :=
  ⟨by decide, ⟨100, by decide, by decide, by decide⟩,
    jeffersons_method_converges scenario_abc 5 (by decide)
      ⟨100, by decide, by decide, by decide⟩⟩

/-- C7, the claim as stated fails. The table A = 3, B = 3 with `S = 3` is a
valid input (2 entities, 3 seats, positive populations), yet the divisors 2
and 1 give 2 and 6 seats, the next divisor is 0, and `jeffersons_method`
never returns a table: it divides by zero. -/
theorem jeffersons_method_tie_counterexample :
    (scenario_tie.length : Int) ≤ 3 ∧ (0 : Int) < 3 ∧
    (∃ e ∈ scenario_tie, 0 < e.2.population) ∧
    Int.tdiv (get_total_population scenario_tie) 3 = 2 ∧
    seats_at floor_rule scenario_tie 2 = 2 ∧ seats_at floor_rule scenario_tie 1 = 6 ∧
    jeffersons_method 2 scenario_tie 3 = Except.error Fault.division_by_zero ∧
    ¬ ∃ fuel m', jeffersons_method fuel scenario_tie 3 = Except.ok m' := by
  refine ⟨by decide, by decide, by decide, by decide, by decide, by decide, rfl, ?_⟩
  rintro ⟨fuel, m', h⟩
  match fuel, h with
  | 0, h =>
    have : jeffersons_method 0 scenario_tie 3 = Except.error Fault.out_of_fuel := rfl
    rw [this] at h
    exact absurd h (by simp)
  | 1, h =>
    have : jeffersons_method 1 scenario_tie 3 = Except.error Fault.out_of_fuel := rfl
    rw [this] at h
    exact absurd h (by simp)
  | n + 2, h =>
    have : jeffersons_method (n + 2) scenario_tie 3 = Except.error Fault.division_by_zero := rfl
    rw [this] at h
    exact absurd h (by simp)

/-! ### Webster and Adams -/

theorem seats_at_antitone (rule : Int → Int → Int)
    (hrule : ∀ p d1 d2 : Int, 0 ≤ p → 1 ≤ d1 → d1 ≤ d2 → rule p d2 ≤ rule p d1)
    (m : StateMap) (hp : PopulationsNonneg m) {d1 d2 : Int} (h1 : 1 ≤ d1) (h12 : d1 ≤ d2) :
    seats_at rule m d2 ≤ seats_at rule m d1 := by
  unfold seats_at
  induction m with
  | nil => simp
  | cons hd rest ih =>
    have hp' : PopulationsNonneg rest := fun e he => hp e (List.mem_cons_of_mem _ he)
    have h0 : 0 ≤ hd.2.population := hp hd (List.mem_cons_self _ _)
    simp only [List.map_cons, List.sum_cons]
    exact add_le_add (hrule _ _ _ h0 h1 h12) (ih hp')

/-- The two-way search converges as soon as some divisor `>= 1` is exact,
provided the seat total does not grow with the divisor. -/
theorem two_way_converges (rule : Int → Int → Int) (m : StateMap) (S : Int)
    (hanti : ∀ d1 d2 : Int, 1 ≤ d1 → d1 ≤ d2 → seats_at rule m d2 ≤ seats_at rule m d1)
    (d0 : Int) (hd0 : 1 ≤ d0) (hex : ∃ d, 1 ≤ d ∧ seats_at rule m d = S) :
    ∃ fuel d', 1 ≤ d' ∧ seats_at rule m d' = S ∧
      divisor_search rule two_way_diff S fuel d0 (assigned rule d0 m)
        (S - seats_at rule m d0) = Except.ok (d', assigned rule d' m) := by
  obtain ⟨ds, hds, hS⟩ := hex
  rcases le_total ds d0 with hle | hle
  · obtain ⟨d', e1, _, e3, _, e5⟩ := search_down rule two_way_diff m S
      (by
        intro d hd hne ⟨d', h1, h2, h3⟩
        have := hanti d' d h1 h2
        have hlt : seats_at rule m d < S := by omega
        have : ¬ S - seats_at rule m d < 0 := by omega
        simp [two_way_diff, this])
      d0.toNat d0 hd0 (by omega) ⟨ds, hds, hle, hS⟩
    exact ⟨d0.toNat, d', e1, e3, e5⟩
  · obtain ⟨d', e1, _, e3, e5⟩ := search_up rule two_way_diff m S
      (by
        intro d hd hne ⟨d', h1, h3⟩
        have := hanti d d' hd h1
        have : S - seats_at rule m d < 0 := by omega
        simp [two_way_diff, this])
      (ds - d0).toNat d0 ds hd0 hle (by omega) hS
    exact ⟨(ds - d0).toNat, d', by omega, e3, e5⟩

/-- The two-way search runs forever between two neighbouring divisors when the
seat total jumps over `S` between them. -/
theorem two_way_oscillates (rule : Int → Int → Int) (m : StateMap) (S d : Int) (hd : 1 ≤ d)
    (h1 : S < seats_at rule m d) (h2 : seats_at rule m (d + 1) < S) (fuel : Nat) :
    divisor_search rule two_way_diff S fuel d (assigned rule d m) (S - seats_at rule m d) =
      Except.error Fault.out_of_fuel ∧
    divisor_search rule two_way_diff S fuel (d + 1) (assigned rule (d + 1) m)
      (S - seats_at rule m (d + 1)) = Except.error Fault.out_of_fuel := by
  have r1 : S - seats_at rule m d ≠ 0 := by omega
  have r2 : S - seats_at rule m (d + 1) ≠ 0 := by omega
  have f1 : two_way_diff (S - seats_at rule m d) = 1 := by
    have : S - seats_at rule m d < 0 := by omega
    simp [two_way_diff, this]
  have f2 : two_way_diff (S - seats_at rule m (d + 1)) = -1 := by
    have : ¬ S - seats_at rule m (d + 1) < 0 := by omega
    simp [two_way_diff, this]
  induction fuel with
  | zero => simp [divisor_search, r1, r2]
  | succ fuel ih =>
    have n1 : d + 1 ≠ 0 := by omega
    have n2 : d + 1 + -1 ≠ 0 := by omega
    have e2 : d + 1 + -1 = d := by omega
    constructor
    · simp only [divisor_search, r1, if_false, f1, divisor_pass_spec rule n1,
        assigned_assigned, seats_at_assigned]
      exact ih.2
    · simp only [divisor_search, r2, if_false, f2, divisor_pass_spec rule n2,
        assigned_assigned, seats_at_assigned]
      rw [e2]
      exact ih.1

theorem two_way_method_oscillates (rule : Int → Int → Int) (m : StateMap) (S : Int)
    (hS : S ≠ 0) (hd : 1 ≤ Int.tdiv (get_total_population m) S)
    (h1 : S < seats_at rule m (Int.tdiv (get_total_population m) S))
    (h2 : seats_at rule m (Int.tdiv (get_total_population m) S + 1) < S) (fuel : Nat) :
    divisor_method rule two_way_diff fuel m S = Except.error Fault.out_of_fuel := by
  rw [divisor_method_unfold rule two_way_diff _ m hS (by omega)]
  exact (two_way_oscillates rule m S _ hd h1 h2 fuel).1

theorem scenario_tie_nonneg : PopulationsNonneg scenario_tie := by
  unfold PopulationsNonneg scenario_tie
  decide

/-! ## The sampling estimator -/

theorem subset_sum_from_bounds (mask i : Nat) (values : List Int) (h : ∀ v ∈ values, 0 ≤ v) :
    0 ≤ subset_sum_from mask i values ∧ subset_sum_from mask i values ≤ values.sum := by
  induction values generalizing i with
  | nil => simp [subset_sum_from]
  | cons v rest ih =>
    have hv : 0 ≤ v := h v (List.mem_cons_self _ _)
    obtain ⟨h1, h2⟩ := ih (i + 1) (fun w hw => h w (List.mem_cons_of_mem _ hw))
    simp only [subset_sum_from, List.sum_cons]
    by_cases hb : mask &&& (1 <<< i) ≠ 0
    · rw [if_pos hb]
      constructor <;> omega
    · rw [if_neg hb]
      constructor <;> omega

/-- The two outcomes of a processed sample: the variables are kept, or the
sample is accepted (not the empty or the full set, population share above
`0.0001`) with a ratio below the minimum, and is recorded. -/
theorem process_sample_cases (pops seats : List Int) (P S : Int) (st st' : SamplerState)
    (mask : Nat) (h : process_sample pops seats P S st mask = some st') :
    st' = st ∨
    (¬ (mask = 0 ∨ mask = 2 ^ pops.length - 1) ∧ P ≠ 0 ∧ S ≠ 0 ∧
      ((subset_sum mask pops : Int) : ℚ) / (P : ℚ) > 1 / 10000 ∧
      ((subset_sum mask seats : Int) : ℚ) / (S : ℚ) /
        (((subset_sum mask pops : Int) : ℚ) / (P : ℚ)) < st.min_alpha ∧
      st' = { min_alpha := ((subset_sum mask seats : Int) : ℚ) / (S : ℚ) /
                (((subset_sum mask pops : Int) : ℚ) / (P : ℚ)),
              worst_mask := mask,
              worst_pop_prop := ((subset_sum mask pops : Int) : ℚ) / (P : ℚ),
              worst_seat_prop := ((subset_sum mask seats : Int) : ℚ) / (S : ℚ) }) := by
  unfold process_sample at h
  simp only at h
  by_cases h1 : mask = 0 ∨ mask = 2 ^ pops.length - 1
  · rw [if_pos h1] at h
    exact Or.inl (Option.some.inj h).symm
  · rw [if_neg h1] at h
    by_cases h2 : P = 0
    · rw [if_pos h2] at h
      by_cases h3 : 0 < subset_sum mask pops
      · rw [if_pos h3] at h; exact absurd h (by simp)
      · rw [if_neg h3] at h
        exact Or.inl (Option.some.inj h).symm
    · rw [if_neg h2] at h
      by_cases h4 : ((subset_sum mask pops : Int) : ℚ) / (P : ℚ) > 1 / 10000
      · rw [if_pos h4] at h
        by_cases h5 : S = 0
        · rw [if_pos h5] at h; exact absurd h (by simp)
        · rw [if_neg h5] at h
          by_cases h6 : ((subset_sum mask seats : Int) : ℚ) / (S : ℚ) /
              (((subset_sum mask pops : Int) : ℚ) / (P : ℚ)) < st.min_alpha
          · rw [if_pos h6] at h
            exact Or.inr ⟨h1, h2, h5, h4, h6, (Option.some.inj h).symm⟩
          · rw [if_neg h6] at h
            exact Or.inl (Option.some.inj h).symm
      · rw [if_neg h4] at h
        exact Or.inl (Option.some.inj h).symm

/-- A sample never raises the minimum. -/
theorem process_sample_le (pops seats : List Int) (P S : Int) (st st' : SamplerState)
    (mask : Nat) (h : process_sample pops seats P S st mask = some st') :
    st'.min_alpha ≤ st.min_alpha := by
  rcases process_sample_cases pops seats P S st st' mask h with rfl | ⟨_, _, _, _, h6, rfl⟩
  · exact le_refl _
  · exact le_of_lt h6

theorem process_samples_le (pops seats : List Int) (P S : Int) (masks : List Nat)
    (st st' : SamplerState) (h : process_samples pops seats P S masks st = some st') :
    st'.min_alpha ≤ st.min_alpha := by
  induction masks generalizing st with
  | nil =>
    simp only [process_samples] at h
    cases h; exact le_refl _
  | cons mask rest ih =>
    simp only [process_samples] at h
    cases hps : process_sample pops seats P S st mask with
    | none => rw [hps] at h; exact absurd h (by simp)
    | some st1 =>
      rw [hps] at h
      exact le_trans (ih st1 h) (process_sample_le pops seats P S st st1 mask hps)

/-- A sample is processed within the exact reading when `total_seats` is not
zero and either `total_pop` is not zero or no population is negative. -/
theorem process_sample_defined (pops seats : List Int) (P S : Int) (st : SamplerState)
    (mask : Nat) (hS : S ≠ 0) (hdef : P ≠ 0 ∨ ((∀ v ∈ pops, 0 ≤ v) ∧ pops.sum = P)) :
    ∃ st', process_sample pops seats P S st mask = some st' := by
  unfold process_sample
  simp only
  by_cases h1 : mask = 0 ∨ mask = 2 ^ pops.length - 1
  · rw [if_pos h1]; exact ⟨_, rfl⟩
  · rw [if_neg h1]
    by_cases h2 : P = 0
    · rw [if_pos h2]
      have h3 : ¬ 0 < subset_sum mask pops := by
        rcases hdef with hd | ⟨hd1, hd2⟩
        · exact absurd h2 hd
        · have := (subset_sum_from_bounds mask 0 pops hd1).2
          unfold subset_sum
          omega
      rw [if_neg h3]; exact ⟨_, rfl⟩
    · rw [if_neg h2, if_neg hS]
      by_cases h4 : ((subset_sum mask pops : Int) : ℚ) / (P : ℚ) > 1 / 10000
      · rw [if_pos h4]
        by_cases h6 : ((subset_sum mask seats : Int) : ℚ) / (S : ℚ) /
            (((subset_sum mask pops : Int) : ℚ) / (P : ℚ)) < st.min_alpha
        · rw [if_pos h6]; exact ⟨_, rfl⟩
        · rw [if_neg h6]; exact ⟨_, rfl⟩
      · rw [if_neg h4]; exact ⟨_, rfl⟩

theorem process_samples_defined (pops seats : List Int) (P S : Int) (masks : List Nat)
    (st : SamplerState) (hS : S ≠ 0)
    (hdef : P ≠ 0 ∨ ((∀ v ∈ pops, 0 ≤ v) ∧ pops.sum = P)) :
    ∃ st', process_samples pops seats P S masks st = some st' := by
  induction masks generalizing st with
  | nil => exact ⟨st, rfl⟩
  | cons mask rest ih =>
    obtain ⟨st1, h1⟩ := process_sample_defined pops seats P S st mask hS hdef
    obtain ⟨st2, h2⟩ := ih st1
    exact ⟨st2, by simp only [process_samples, h1, h2]⟩

theorem process_samples_append (pops seats : List Int) (P S : Int) (a b : List Nat)
    (st : SamplerState) :
    process_samples pops seats P S (a ++ b) st =
      (process_samples pops seats P S a st).bind (process_samples pops seats P S b) := by
  induction a generalizing st with
  | nil => simp [process_samples]
  | cons mask rest ih =>
    simp only [List.cons_append, process_samples]
    cases process_sample pops seats P S st mask with
    | none => simp
    | some st1 => simp [ih]

/-- A sample keeps the minimum within `[0, 1]` when seats are non-negative and
`total_seats` is positive. -/
theorem process_sample_range (pops seats : List Int) (P S : Int) (st st' : SamplerState)
    (mask : Nat) (hS : 0 < S) (hseats : ∀ v ∈ seats, 0 ≤ v)
    (hr : 0 ≤ st.min_alpha ∧ st.min_alpha ≤ 1)
    (h : process_sample pops seats P S st mask = some st') :
    0 ≤ st'.min_alpha ∧ st'.min_alpha ≤ 1 := by
  have hle := process_sample_le pops seats P S st st' mask h
  refine ⟨?_, le_trans hle hr.2⟩
  rcases process_sample_cases pops seats P S st st' mask h with rfl | ⟨_, _, _, h4, _, rfl⟩
  · exact hr.1
  · have hs : (0 : ℚ) ≤ ((subset_sum mask seats : Int) : ℚ) := by
      exact_mod_cast (subset_sum_from_bounds mask 0 seats hseats).1
    have hS' : (0 : ℚ) < (S : ℚ) := by exact_mod_cast hS
    have hpp : (0 : ℚ) < ((subset_sum mask pops : Int) : ℚ) / (P : ℚ) := by
      have : (0 : ℚ) < 1 / 10000 := by norm_num
      exact lt_trans this h4
    exact div_nonneg (div_nonneg hs (le_of_lt hS')) (le_of_lt hpp)

theorem process_samples_range (pops seats : List Int) (P S : Int) (masks : List Nat)
    (st st' : SamplerState) (hS : 0 < S) (hseats : ∀ v ∈ seats, 0 ≤ v)
    (hr : 0 ≤ st.min_alpha ∧ st.min_alpha ≤ 1)
    (h : process_samples pops seats P S masks st = some st') :
    0 ≤ st'.min_alpha ∧ st'.min_alpha ≤ 1 := by
  induction masks generalizing st with
  | nil =>
    simp only [process_samples] at h
    cases h; exact hr
  | cons mask rest ih =>
    simp only [process_samples] at h
    cases hps : process_sample pops seats P S st mask with
    | none => rw [hps] at h; exact absurd h (by simp)
    | some st1 =>
      rw [hps] at h
      exact ih st1 (process_sample_range pops seats P S st st1 mask hS hseats hr hps) h

theorem initial_range : 0 ≤ SamplerState.initial.min_alpha ∧ SamplerState.initial.min_alpha ≤ 1 := by
  simp [SamplerState.initial]

/-- The estimator on any sequence of masks, for a table with non-negative seats
and populations and `S > 0`: it returns, with a minimum in `[0, 1]`. -/
theorem sample_masks_range (m : StateMap) (S : Int) (hseats : ∀ e ∈ m, 0 ≤ e.2.seats)
    (hp : PopulationsNonneg m) (hS : 0 < S) (masks : List Nat) :
    ∃ st, sample_masks m S masks = some st ∧ 0 ≤ st.min_alpha ∧ st.min_alpha ≤ 1 := by
  have hpops : ∀ v ∈ m.map (fun e => e.2.population), 0 ≤ v := by
    intro v hv
    obtain ⟨e, he, rfl⟩ := List.mem_map.mp hv
    exact hp e he
  have hsts : ∀ v ∈ m.map (fun e => e.2.seats), 0 ≤ v := by
    intro v hv
    obtain ⟨e, he, rfl⟩ := List.mem_map.mp hv
    exact hseats e he
  obtain ⟨st, hst⟩ := process_samples_defined (m.map (fun e => e.2.population))
    (m.map (fun e => e.2.seats)) (get_total_population m) S masks SamplerState.initial
    (ne_of_gt hS) (Or.inr ⟨hpops, (get_total_population_eq_sum m).symm⟩)
  exact ⟨st, hst, process_samples_range _ _ _ _ masks _ st hS hsts initial_range hst⟩

/-- C9. The estimate is within `[0, 1]`: for every table of at most 62 entities
with non-negative seats and populations, every `S > 0` and every sequence of
sampled masks, the estimator returns an alpha with `0 <= alpha <= 1`; so do
both overloads of `calculate_alpha_sampling`, whatever the random values, the
sample count, the threshold and `RAND_MAX`. -/
theorem sampling_alpha_range (m : StateMap) (S : Int) (_hlen : m.length ≤ 62)
    (hseats : ∀ e ∈ m, 0 ≤ e.2.seats) (hp : PopulationsNonneg m) (hS : 0 < S) :
    (∀ masks : List Nat, ∃ st, sample_masks m S masks = some st ∧
      0 ≤ st.min_alpha ∧ st.min_alpha ≤ 1) ∧
    (∀ (rand : Nat → Nat) (num_samples : Nat), ∃ alpha,
      calculate_alpha_sampling m S rand num_samples = some alpha ∧ 0 ≤ alpha ∧ alpha ≤ 1) ∧
    (∀ (threshold : ℚ) (rand_max : Nat) (rand : Nat → Nat) (num_samples : Nat), ∃ alpha,
      calculate_alpha_sampling_threshold m S threshold rand_max rand num_samples = some alpha ∧
      0 ≤ alpha ∧ alpha ≤ 1) := by
  refine ⟨sample_masks_range m S hseats hp hS, ?_, ?_⟩
  · intro rand num_samples
    obtain ⟨st, h1, h2, h3⟩ := sample_masks_range m S hseats hp hS
      (drawn_masks uniform_included rand m.length num_samples)
    exact ⟨st.min_alpha, by simp [calculate_alpha_sampling, sampling_run, h1], h2, h3⟩
  · intro threshold rand_max rand num_samples
    obtain ⟨st, h1, h2, h3⟩ := sample_masks_range m S hseats hp hS
      (drawn_masks (threshold_included rand_max threshold) rand m.length num_samples)
    exact ⟨st.min_alpha,
      by simp [calculate_alpha_sampling_threshold, sampling_run_threshold, h1], h2, h3⟩

theorem sampling_alpha_range_witness :
    scenario_apportioned.length ≤ 62 ∧ (∀ e ∈ scenario_apportioned, 0 ≤ e.2.seats) ∧
    PopulationsNonneg scenario_apportioned ∧ (0 : Int) < 5 ∧
    (∃ st, sample_masks scenario_apportioned 5 [0, 1, 2, 3, 4, 5, 6, 7] = some st ∧
      0 ≤ st.min_alpha ∧ st.min_alpha ≤ 1) ∧
    (∃ alpha, calculate_alpha_sampling scenario_apportioned 5 (fun k => k * k + k / 3) 10 =
      some alpha ∧ 0 ≤ alpha ∧ alpha ≤ 1) ∧
    (∃ alpha, calculate_alpha_sampling_threshold scenario_apportioned 5 (7 / 10) 32767
      (fun k => (k * 7919) % 32768) 10 = some alpha ∧ 0 ≤ alpha ∧ alpha ≤ 1) :=
  have h := sampling_alpha_range scenario_apportioned 5 (by decide) (by decide)
    (by unfold PopulationsNonneg; decide) (by decide)
  ⟨by decide, by decide, by unfold PopulationsNonneg; decide, by decide,
    h.1 [0, 1, 2, 3, 4, 5, 6, 7], h.2.1 (fun k => k * k + k / 3) 10,
    h.2.2 (7 / 10) 32767 (fun k => (k * 7919) % 32768) 10⟩

theorem drawn_masks_add (included : Nat → Bool) (rand : Nat → Nat) (n k j : Nat) :
    drawn_masks included rand n (k + j) =
      drawn_masks included rand n k ++
        (List.range j).map (fun s => draw_mask included rand n ((k + s) * n)) := by
  simp [drawn_masks, List.range_add, List.map_map, Function.comp_def]

/-- The estimator on a prefix of the masks and on the whole sequence. -/
theorem sample_masks_monotone (m : StateMap) (S : Int) (a b : List Nat) (hS : 0 < S)
    (hdef : get_total_population m ≠ 0 ∨ PopulationsNonneg m) :
    ∃ st1 st2, sample_masks m S a = some st1 ∧ sample_masks m S (a ++ b) = some st2 ∧
      st2.min_alpha ≤ st1.min_alpha := by
  have hdef' : get_total_population m ≠ 0 ∨
      ((∀ v ∈ m.map (fun e => e.2.population), 0 ≤ v) ∧
        (m.map (fun e => e.2.population)).sum = get_total_population m) := by
    rcases hdef with h | h
    · exact Or.inl h
    · refine Or.inr ⟨?_, (get_total_population_eq_sum m).symm⟩
      intro v hv
      obtain ⟨e, he, rfl⟩ := List.mem_map.mp hv
      exact h e he
  obtain ⟨st1, h1⟩ := process_samples_defined (m.map (fun e => e.2.population))
    (m.map (fun e => e.2.seats)) (get_total_population m) S a SamplerState.initial
    (ne_of_gt hS) hdef'
  obtain ⟨st2, h2⟩ := process_samples_defined (m.map (fun e => e.2.population))
    (m.map (fun e => e.2.seats)) (get_total_population m) S b st1 (ne_of_gt hS) hdef'
  refine ⟨st1, st2, h1, ?_, process_samples_le _ _ _ _ b st1 st2 h2⟩
  simp only [sample_masks, process_samples_append]
  rw [h1]
  exact h2

/-- C10. The estimate is monotone in the samples: for every table (total
population not zero, or no negative population) and `S > 0`, the estimator
returns on the masks `a` and on `a` followed by `b`, and the alpha after
`a ++ b` is at most the alpha after `a`; likewise `calculate_alpha_sampling`
with `k + j` samples returns at most what it returns with `k` samples of the
same random values. -/
theorem sampling_monotone (m : StateMap) (S : Int) (hS : 0 < S)
    (hdef : get_total_population m ≠ 0 ∨ PopulationsNonneg m) :
    (∀ a b : List Nat, ∃ st1 st2, sample_masks m S a = some st1 ∧
      sample_masks m S (a ++ b) = some st2 ∧ st2.min_alpha ≤ st1.min_alpha) ∧
    (∀ (rand : Nat → Nat) (k j : Nat), ∃ alpha1 alpha2,
      calculate_alpha_sampling m S rand k = some alpha1 ∧
      calculate_alpha_sampling m S rand (k + j) = some alpha2 ∧ alpha2 ≤ alpha1) := by
  refine ⟨fun a b => sample_masks_monotone m S a b hS hdef, ?_⟩
  intro rand k j
  obtain ⟨st1, st2, h1, h2, h3⟩ := sample_masks_monotone m S
    (drawn_masks uniform_included rand m.length k)
    ((List.range j).map (fun s => draw_mask uniform_included rand m.length ((k + s) * m.length)))
    hS hdef
  refine ⟨st1.min_alpha, st2.min_alpha, ?_, ?_, h3⟩
  · simp [calculate_alpha_sampling, sampling_run, h1]
  · simp [calculate_alpha_sampling, sampling_run, drawn_masks_add, h2]

theorem sampling_monotone_witness :
    (0 : Int) < 5 ∧
    (get_total_population scenario_apportioned ≠ 0 ∨ PopulationsNonneg scenario_apportioned) ∧
    (∃ st1 st2, sample_masks scenario_apportioned 5 [1, 6] = some st1 ∧
      sample_masks scenario_apportioned 5 ([1, 6] ++ [3, 4]) = some st2 ∧
      st2.min_alpha ≤ st1.min_alpha) ∧
    (∃ alpha1 alpha2,
      calculate_alpha_sampling scenario_apportioned 5 (fun k => k * k + k / 3) 4 = some alpha1 ∧
      calculate_alpha_sampling scenario_apportioned 5 (fun k => k * k + k / 3) (4 + 6) =
        some alpha2 ∧ alpha2 ≤ alpha1) :=
  have h := sampling_monotone scenario_apportioned 5 (by decide) (Or.inl (by decide))
  ⟨by decide, Or.inl (by decide), h.1 [1, 6] [3, 4], h.2 (fun k => k * k + k / 3) 4 6⟩

/-! ## Monotonicity in the divisor -/

theorem floor_rule_of_nonneg {p d : Int} (hp : 0 ≤ p) (hd : 1 ≤ d) :
    floor_rule p d = p / d := by
  unfold floor_rule
  exact Int.tdiv_eq_ediv hp (by omega)

theorem floor_rule_eq_floor {p d : Int} (hp : 0 ≤ p) (hd : 1 ≤ d) :
    floor_rule p d = ⌊(p : ℚ) / (d : ℚ)⌋ := by
  rw [floor_rule_of_nonneg hp hd]
  have h := Rat.floor_intCast_div_natCast p d.toNat
  have hd' : ((d.toNat : Nat) : Int) = d := Int.toNat_of_nonneg (by omega)
  rw [hd'] at h
  rw [← h]
  congr 2
  have : ((d.toNat : Nat) : ℚ) = (((d.toNat : Nat) : Int) : ℚ) := by push_cast; rfl
  rw [this, hd']

/-- C18. `jeffersons_method` returns the first hit of its downward search: for
every table and `S > 0` such that some integer divisor `d` with
`1 <= d <= floor(P / S)` makes the quotients `population / d` add up to `S`,
the method returns (with enough fuel) without dividing by zero, its final
divisor is the largest such divisor, the entities are unchanged and every
entity's seats are `population / d` at that divisor, which is
`floor(population / d)` when no population is negative. -/
theorem jeffersons_method_first_hit (m : StateMap) (S : Int) (hS : 0 < S)
    (hex : ∃ d, 1 ≤ d ∧ d ≤ Int.tdiv (get_total_population m) S ∧
      seats_at floor_rule m d = S) :
    ∃ fuel d m', jefferson_run fuel m S = Except.ok (d, m') ∧
      jeffersons_method fuel m S = Except.ok m' ∧
      1 ≤ d ∧ d ≤ Int.tdiv (get_total_population m) S ∧ seats_at floor_rule m d = S ∧
      (∀ d', d < d' → d' ≤ Int.tdiv (get_total_population m) S →
        seats_at floor_rule m d' ≠ S) ∧
      m'.map frame = m.map frame ∧
      (∀ e ∈ m', e.2.seats = floor_rule e.2.population d) ∧
      (PopulationsNonneg m → ∀ e ∈ m', e.2.seats = ⌊(e.2.population : ℚ) / (d : ℚ)⌋) := by
  obtain ⟨d0, h1, h2, h3⟩ := hex
  have hd : 1 ≤ Int.tdiv (get_total_population m) S := le_trans h1 h2
  obtain ⟨d', e1, e2, e3, e4, e5⟩ := search_down floor_rule jefferson_diff m S
    (fun _ _ _ _ => rfl) (Int.tdiv (get_total_population m) S).toNat
    (Int.tdiv (get_total_population m) S) hd (by omega) ⟨d0, h1, h2, h3⟩
  have hrun : jefferson_run (Int.tdiv (get_total_population m) S).toNat m S =
      Except.ok (d', assigned floor_rule d' m) := by
    unfold jefferson_run
    rw [divisor_method_unfold floor_rule jefferson_diff _ m (ne_of_gt hS) (by omega)]
    exact e5
  refine ⟨(Int.tdiv (get_total_population m) S).toNat, d', assigned floor_rule d' m,
    hrun, ?_, e1, e2, e3, e4, assigned_frame floor_rule d' m, ?_, ?_⟩
  · simp [jeffersons_method, hrun, Except.map]
  · intro e he
    obtain ⟨e0, _, rfl⟩ := List.mem_map.mp he
    rfl
  · intro hp e he
    obtain ⟨e0, he0, rfl⟩ := List.mem_map.mp he
    exact floor_rule_eq_floor (hp e0 he0) e1

theorem jeffersons_method_first_hit_witness :
    (0 : Int) < 7 ∧
    (∃ d, 1 ≤ d ∧ d ≤ Int.tdiv (get_total_population scenario_rem) 7 ∧
      seats_at floor_rule scenario_rem d = 7) ∧
    ∃ fuel d m', jefferson_run fuel scenario_rem 7 = Except.ok (d, m') ∧
      jeffersons_method fuel scenario_rem 7 = Except.ok m' ∧
      1 ≤ d ∧ d ≤ Int.tdiv (get_total_population scenario_rem) 7 ∧
      seats_at floor_rule scenario_rem d = 7 ∧
      (∀ d', d < d' → d' ≤ Int.tdiv (get_total_population scenario_rem) 7 →
        seats_at floor_rule scenario_rem d' ≠ 7) ∧
      m'.map frame = scenario_rem.map frame ∧
      (∀ e ∈ m', e.2.seats = floor_rule e.2.population d) ∧
      (PopulationsNonneg scenario_rem →
        ∀ e ∈ m', e.2.seats = ⌊(e.2.population : ℚ) / (d : ℚ)⌋) :=
  ⟨by decide, ⟨7, by decide, by decide, by decide⟩,
    jeffersons_method_first_hit scenario_rem 7 (by decide)
      ⟨7, by decide, by decide, by decide⟩⟩

/-! ### The two-way searches stay at positive divisors -/

theorem two_way_diff_cases (rem : Int) :
    (rem < 0 ∧ two_way_diff rem = 1) ∨ (0 ≤ rem ∧ two_way_diff rem = -1) := by
  unfold two_way_diff
  by_cases h : rem < 0
  · left; exact ⟨h, by simp [h]⟩
  · right; exact ⟨by omega, by simp [h]⟩

/-- A two-way search started at a divisor `>= 1`, on a table whose total
population is at least `S` and is the seat total at divisor 1: every divisor
it divides by is `>= 1`, it never divides by zero, and when it returns its
table is the assignment at the final divisor, which gives exactly `S`. -/
theorem two_way_search_sound (rule : Int → Int → Int) (m : StateMap) (S : Int)
    (hone : S ≤ seats_at rule m 1) (fuel : Nat) (d : Int) (hd : 1 ≤ d) :
    (∀ x ∈ search_divisors rule two_way_diff S fuel d (assigned rule d m)
        (S - seats_at rule m d), 1 ≤ x) ∧
    divisor_search rule two_way_diff S fuel d (assigned rule d m) (S - seats_at rule m d) ≠
      Except.error Fault.division_by_zero ∧
    (∀ d' m', divisor_search rule two_way_diff S fuel d (assigned rule d m)
        (S - seats_at rule m d) = Except.ok (d', m') →
      1 ≤ d' ∧ seats_at rule m d' = S ∧ m' = assigned rule d' m) := by
  induction fuel generalizing d with
  | zero =>
    refine ⟨by simp [search_divisors], ?_, ?_⟩
    · simp only [divisor_search]
      split_ifs <;> simp
    · intro d' m' h
      simp only [divisor_search] at h
      by_cases hr : S - seats_at rule m d = 0
      · rw [if_pos hr] at h
        cases h
        exact ⟨hd, by omega, rfl⟩
      · rw [if_neg hr] at h
        exact absurd h (by simp)
  | succ fuel ih =>
    by_cases hr : S - seats_at rule m d = 0
    · refine ⟨by simp [search_divisors, hr], by simp [divisor_search, hr], ?_⟩
      intro d' m' h
      simp only [divisor_search, hr, if_true] at h
      cases h
      exact ⟨hd, by omega, rfl⟩
    · have hnext : 1 ≤ d + two_way_diff (S - seats_at rule m d) := by
        rcases two_way_diff_cases (S - seats_at rule m d) with ⟨_, h2⟩ | ⟨h1, h2⟩
        · rw [h2]; omega
        · rw [h2]
          by_cases hd1 : d = 1
          · subst hd1; omega
          · omega
      have hne : d + two_way_diff (S - seats_at rule m d) ≠ 0 := by omega
      obtain ⟨i1, i2, i3⟩ := ih (d + two_way_diff (S - seats_at rule m d)) hnext
      refine ⟨?_, ?_, ?_⟩
      · simp only [search_divisors, hr, if_false, divisor_pass_spec rule hne,
          assigned_assigned, seats_at_assigned]
        intro x hx
        rcases List.mem_cons.mp hx with rfl | hx
        · exact hnext
        · exact i1 x hx
      · simp only [divisor_search, hr, if_false, divisor_pass_spec rule hne,
          assigned_assigned, seats_at_assigned]
        exact i2
      · intro d' m' h
        simp only [divisor_search, hr, if_false, divisor_pass_spec rule hne,
          assigned_assigned, seats_at_assigned] at h
        exact i3 d' m' h

/-! ## What the methods leave untouched -/

theorem truncate_bounds (x : ℚ) : x - 1 < (truncate x : ℚ) ∧ (truncate x : ℚ) < x + 1 := by
  unfold truncate
  by_cases h : 0 ≤ x
  · rw [if_pos h]
    have h1 := Int.floor_le x
    have h2 := Int.lt_floor_add_one x
    constructor <;> linarith
  · rw [if_neg h]
    have h1 := Int.le_ceil x
    have h2 := Int.ceil_lt_add_one x
    constructor <;> linarith

/-- The first pass without a sign condition: truncated shares and their
residuals. -/
theorem hamilton_first_pass_general {P S : Int} (hP : P ≠ 0) (hS : S ≠ 0) (m : StateMap) :
    hamilton_first_pass (quota P S) m =
      some (m.map (fun e => (e.1, { e.2 with
                seats := truncate (exact_share P S e.2.population),
                residual := exact_share P S e.2.population -
                  (truncate (exact_share P S e.2.population) : ℚ) })),
            (m.map (fun e => truncate (exact_share P S e.2.population))).sum) := by
  induction m with
  | nil => simp [hamilton_first_pass]
  | cons hd rest ih =>
    obtain ⟨s, data⟩ := hd
    simp only [hamilton_first_pass, exact_seats_quota hP hS, ih, List.map_cons, List.sum_cons]

theorem exists_pos_of_sum_pos (l : List Int) (h : 0 < l.sum) : ∃ v ∈ l, 0 < v := by
  induction l with
  | nil => simp at h
  | cons a t ih =>
    by_cases ha : 0 < a
    · exact ⟨a, List.mem_cons_self _ _, ha⟩
    · rw [List.sum_cons] at h
      obtain ⟨v, hv, hpos⟩ := ih (by omega)
      exact ⟨v, List.mem_cons_of_mem _ hv, hpos⟩

theorem exists_positive_population (m : StateMap) (hP : 0 < get_total_population m) :
    ∃ e ∈ m, 0 < e.2.population := by
  rw [get_total_population_eq_sum] at hP
  obtain ⟨v, hv, hpos⟩ := exists_pos_of_sum_pos _ hP
  obtain ⟨e, he, rfl⟩ := List.mem_map.mp hv
  exact ⟨e, he, hpos⟩

theorem divisor_pass_frame (rule : Int → Int → Int) (divisor : Int) (m m' : StateMap)
    (sa : Int) (h : divisor_pass rule divisor m = Except.ok (m', sa)) :
    m'.map frame = m.map frame := by
  cases m with
  | nil =>
    simp only [divisor_pass] at h
    cases h; rfl
  | cons hd rest =>
    by_cases hd0 : divisor = 0
    · simp [divisor_pass, hd0] at h
    · rw [divisor_pass_spec rule hd0] at h
      cases h
      exact assigned_frame rule divisor _

theorem divisor_search_frame (rule : Int → Int → Int) (diff : Int → Int) (S : Int) (fuel : Nat)
    (d : Int) (m : StateMap) (rem : Int) (d' : Int) (m' : StateMap)
    (h : divisor_search rule diff S fuel d m rem = Except.ok (d', m')) :
    m'.map frame = m.map frame := by
  induction fuel generalizing d m rem with
  | zero =>
    simp only [divisor_search] at h
    split_ifs at h
    cases h; rfl
  | succ fuel ih =>
    simp only [divisor_search] at h
    split_ifs at h
    · cases h; rfl
    · cases hp : divisor_pass rule (d + diff rem) m with
      | error e => rw [hp] at h; exact absurd h (by simp)
      | ok r =>
        obtain ⟨m1, sa⟩ := r
        rw [hp] at h
        rw [ih _ _ _ h, divisor_pass_frame rule _ m m1 sa hp]

theorem divisor_method_frame (rule : Int → Int → Int) (diff : Int → Int) (fuel : Nat)
    (m : StateMap) (S : Int) (d' : Int) (m' : StateMap)
    (h : divisor_method rule diff fuel m S = Except.ok (d', m')) :
    m'.map frame = m.map frame := by
  unfold divisor_method at h
  simp only at h
  split_ifs at h
  cases hp : divisor_pass rule (Int.tdiv (get_total_population m) S) m with
  | error e => rw [hp] at h; exact absurd h (by simp)
  | ok r =>
    obtain ⟨m1, sa⟩ := r
    rw [hp] at h
    rw [divisor_search_frame rule diff S fuel _ m1 _ d' m' h,
      divisor_pass_frame rule _ m m1 sa hp]

/-! ## The inclusion test of the threshold overload -/

/-- C17, as the code has it. Threshold-mode inclusion test at the boundaries,
for draws `r` in `0..RAND_MAX`: at threshold 0 the test
`r > (1 - threshold) * RAND_MAX` includes the entity for no draw value, and at
threshold 1 it includes the entity for every draw value except `r = 0`. -/
theorem threshold_boundaries (rand_max r : Nat) (hr : r ≤ rand_max) :
    threshold_included rand_max 0 r = false ∧
    (threshold_included rand_max 1 r = true ↔ 1 ≤ r) := by
  constructor
  · unfold threshold_included
    have h : ¬ ((r : ℚ) > (1 - 0) * (rand_max : ℚ)) := by
      have : (r : ℚ) ≤ (rand_max : ℚ) := by exact_mod_cast hr
      simp only [sub_zero, one_mul, gt_iff_lt, not_lt]
      exact this
    simp only [h, decide_False]
  · unfold threshold_included
    simp only [sub_self, zero_mul, gt_iff_lt, decide_eq_true_eq]
    constructor
    · intro h
      have : (0 : Nat) < r := by exact_mod_cast h
      omega
    · intro h
      have : (0 : Nat) < r := by omega
      exact_mod_cast this

theorem threshold_boundaries_witness :
    (5 : Nat) ≤ 32767 ∧ threshold_included 32767 0 5 = false ∧
    (threshold_included 32767 1 5 = true ↔ 1 ≤ 5) :=
  ⟨by decide, threshold_boundaries 32767 5 (by decide)⟩

/-- C17, the claim as stated fails. At threshold 1 the draw value `r = 0`, one
of the values `0..RAND_MAX`, does not include the entity: the test is
`0 > 0 * RAND_MAX`. -/
theorem threshold_one_draw_zero_counterexample :
    (0 : Nat) ≤ 2147483647 ∧ threshold_included 2147483647 1 0 = false := by
  refine ⟨by decide, ?_⟩
  simp [threshold_included]

/-! ## Malformed input -/

theorem hamilton_empty_table :
    hamiltons_method [] 2 = some [("", ⟨"", 0, 2, -1⟩)] := by
  have h0 : hamilton_step [] = [("", ⟨"", 0, 1, -1⟩)] := by
    simp [hamilton_step, scan_max, at_key, StateData.empty]
  have h1 : hamilton_step [("", ⟨"", 0, 1, -1⟩)] = [("", ⟨"", 0, 2, -1⟩)] := by
    simp [hamilton_step, scan_max, at_key]
  have h2 : hamiltons_method [] 2 = some (hamilton_remaining 2 []) := by
    simp [hamiltons_method, hamilton_first_pass]
  rw [h2]
  simp only [hamilton_remaining, h0, h1]

theorem hamilton_negative_seats :
    hamiltons_method scenario_single (-3) = some [("A", ⟨"A", 3, -3, 0⟩)] := by
  have hP : get_total_population scenario_single = 3 := by decide
  have hx : exact_share 3 (-3) 3 = ((-3 : Int) : ℚ) := by
    unfold exact_share; norm_num
  have hfp := hamilton_first_pass_general (P := 3) (S := -3) (by decide) (by decide)
    scenario_single
  simp only [scenario_single, List.map_cons, List.map_nil, hx, truncate_intCast, sub_self,
    List.sum_cons, List.sum_nil] at hfp
  simp only [hamiltons_method, hP]
  simp only [scenario_single, hfp]
  simp [hamilton_remaining]

theorem hh_empty_table :
    (huntington_hill_method [] 2).error_reported = false ∧
    (huntington_hill_method [] 2).table = [("", ⟨"", 0, 2, 0⟩)] := by
  have h0 : hh_step [] = [("", ⟨"", 0, 1, 0⟩)] := by
    simp [hh_step, scan_max, at_key, StateData.empty]
  have h1 : hh_step [("", ⟨"", 0, 1, 0⟩)] = [("", ⟨"", 0, 2, 0⟩)] := by
    simp [hh_step, scan_max, at_key, priority]
  have h2 : huntington_hill_method [] 2 =
      { table := (hh_remaining 2 [] 0).1, error_reported := false,
        increments := (hh_remaining 2 [] 0).2 } := by
    simp [huntington_hill_method]
  rw [h2]
  simp only [hh_remaining, h0, h1]
  exact ⟨trivial, trivial⟩

/-- C14, the claim as stated fails. With zero entities and `S = 2`,
`hamiltons_method` and `huntington_hill_method` return normally, report
nothing and leave a table with one new record, key `""`, that holds both
seats; with `S = -3` and the single entity A = 3, `hamiltons_method` and
`jeffersons_method` return normally with `-3` seats for A. -/
theorem malformed_input_counterexample :
    hamiltons_method [] 2 = some [("", ⟨"", 0, 2, -1⟩)] ∧
    (huntington_hill_method [] 2).error_reported = false ∧
    (huntington_hill_method [] 2).table = [("", ⟨"", 0, 2, 0⟩)] ∧
    hamiltons_method scenario_single (-3) = some [("A", ⟨"A", 3, -3, 0⟩)] ∧
    jeffersons_method 0 scenario_single (-3) = Except.ok [("A", ⟨"A", 3, -3, 0⟩)] :=
  ⟨hamilton_empty_table, hh_empty_table.1, hh_empty_table.2, hamilton_negative_seats, rfl⟩

/-- C14, as the code has it. The one input check is the entity-count gate of
`huntington_hill_method`: for every non-empty table and `S <= 0` the method
reports its error, performs no seat increment and leaves every entity at the
baseline of 1 seat, a total that is not `S`. -/
theorem huntington_hill_reports_nonpositive_seats (m : StateMap) (S : Int) (hne : m ≠ [])
    (hS : S ≤ 0) :
    (huntington_hill_method m S).error_reported = true ∧
    (huntington_hill_method m S).increments = 0 ∧
    (huntington_hill_method m S).table = m.map (fun e => (e.1, { e.2 with seats := 1 })) ∧
    seat_total (huntington_hill_method m S).table ≠ S := by
  have hlen : 0 < m.length := List.length_pos.mpr hne
  have hrem : S - ((m.map (fun e => (e.1, { e.2 with seats := (1 : Int) }))).length : Int) < 0 := by
    simp only [List.length_map]; omega
  simp only [huntington_hill_method, hrem, if_true]
  refine ⟨trivial, trivial, trivial, ?_⟩
  rw [seat_total_all_one]; omega

theorem huntington_hill_reports_nonpositive_seats_witness :
    scenario_single ≠ [] ∧ (-3 : Int) ≤ 0 ∧
    (huntington_hill_method scenario_single (-3)).error_reported = true ∧
    (huntington_hill_method scenario_single (-3)).increments = 0 ∧
    (huntington_hill_method scenario_single (-3)).table =
      scenario_single.map (fun e => (e.1, { e.2 with seats := 1 })) ∧
    seat_total (huntington_hill_method scenario_single (-3)).table ≠ -3 :=
  ⟨by decide, by decide,
    huntington_hill_reports_nonpositive_seats scenario_single (-3) (by decide) (by decide)⟩

/-! ## Exact shares and subset totals -/

theorem scenario_over_mask_one :
    accepted scenario_over 1 ∧ alpha_of scenario_over 4 1 = 3 := by
  have hp : subset_sum 1 (scenario_over.map (fun e => e.2.population)) = 100 := by decide
  have hs : subset_sum 1 (scenario_over.map (fun e => e.2.seats)) = 3 := by decide
  have hP : get_total_population scenario_over = 400 := by decide
  have hps : pop_share scenario_over 1 = 1 / 4 := by
    unfold pop_share; rw [hp, hP]; norm_num
  have hss : seat_share scenario_over 4 1 = 3 / 4 := by
    unfold seat_share; rw [hs]; norm_num
  refine ⟨⟨by decide, ?_⟩, ?_⟩
  · rw [hps]; norm_num
  · unfold alpha_of; rw [hps, hss]; norm_num

theorem subset_sum_pair (mask : Nat) (x y : Int) :
    subset_sum mask [x, y] =
      (if mask &&& (1 <<< 0) ≠ 0 then x else 0) + (if mask &&& (1 <<< 1) ≠ 0 then y else 0) := by
  simp [subset_sum, subset_sum_from]

/-! ## The exact minimum over the subsets -/

theorem foldl_min_le (l : List ℚ) (a : ℚ) :
    l.foldl min a ≤ a ∧ ∀ x ∈ l, l.foldl min a ≤ x := by
  induction l generalizing a with
  | nil => simp
  | cons b t ih =>
    obtain ⟨h1, h2⟩ := ih (min a b)
    simp only [List.foldl_cons]
    refine ⟨le_trans h1 (min_le_left _ _), ?_⟩
    intro x hx
    rcases List.mem_cons.mp hx with rfl | hx
    · exact le_trans h1 (min_le_right _ _)
    · exact h2 x hx

/-- The minimum of a list with a member exists and is at most every member. -/
theorem min_of_mem (l : List ℚ) (x : ℚ) (hx : x ∈ l) :
    ∃ mn, l.min? = some mn ∧ ∀ y ∈ l, mn ≤ y := by
  cases l with
  | nil => exact absurd hx (List.not_mem_nil _)
  | cons a t =>
    refine ⟨t.foldl min a, List.min?_cons', ?_⟩
    intro y hy
    rcases List.mem_cons.mp hy with rfl | hy
    · exact (foldl_min_le t _).1
    · exact (foldl_min_le t a).2 y hy

theorem two_pow_and_shift (i j : Nat) : 2 ^ i &&& (1 <<< j) ≠ 0 ↔ i = j := by
  rw [Nat.one_shiftLeft]
  constructor
  · intro h
    by_contra hne
    apply h
    apply Nat.eq_of_testBit_eq
    intro k
    simp only [Nat.testBit_and, Nat.testBit_two_pow, Nat.zero_testBit]
    by_cases h1 : i = k
    · have : ¬ j = k := fun h2 => hne (h1.trans h2.symm)
      simp [this]
    · simp [h1]
  · rintro rfl
    rw [Nat.and_self]
    exact Nat.pos_iff_ne_zero.mp (Nat.two_pow_pos i)

/-- The subset total of a singleton mask is the value at its index. -/
theorem subset_sum_from_two_pow (i : Nat) (values : List Int) (j : Nat) :
    subset_sum_from (2 ^ i) j values = if j ≤ i then values.getD (i - j) 0 else 0 := by
  induction values generalizing j with
  | nil => simp [subset_sum_from]
  | cons v rest ih =>
    simp only [subset_sum_from, ih (j + 1)]
    by_cases hij : i = j
    · subst hij
      rw [if_pos ((two_pow_and_shift i i).mpr rfl)]
      simp
    · rw [if_neg (fun h => hij ((two_pow_and_shift i j).mp h))]
      by_cases hle : j ≤ i
      · have h1 : j + 1 ≤ i := by omega
        rw [if_pos h1, if_pos hle]
        have : i - j = (i - (j + 1)) + 1 := by omega
        rw [this, List.getD_cons_succ]
        simp
      · have h1 : ¬ j + 1 ≤ i := by omega
        rw [if_neg h1, if_neg hle]
        simp

theorem subset_sum_two_pow (i : Nat) (values : List Int) :
    subset_sum (2 ^ i) values = values.getD i 0 := by
  simp [subset_sum, subset_sum_from_two_pow]

theorem two_pow_ne_full {i n : Nat} (hn : 2 ≤ n) : 2 ^ i ≠ 2 ^ n - 1 := by
  intro h
  by_cases hi : i = 0
  · have h1 := congrArg (fun x => Nat.testBit x 1) h
    simp only [Nat.testBit_two_pow, Nat.testBit_two_pow_sub_one] at h1
    subst hi
    simp at h1
    omega
  · have h1 := congrArg (fun x => Nat.testBit x 0) h
    simp only [Nat.testBit_two_pow, Nat.testBit_two_pow_sub_one] at h1
    simp [hi] at h1
    omega

/-- Some entity of positive population has a seat share at most its
population share: otherwise the seats would add up to more than `S`. -/
theorem exists_fair_entity (m : StateMap) (S : Int) (hP : 0 < get_total_population m)
    (hseats : ∀ e ∈ m, 0 ≤ e.2.seats) (hsum : seat_total m = S) (hS : 0 < S) :
    ∃ e ∈ m, 0 < e.2.population ∧
      e.2.seats * get_total_population m ≤ e.2.population * S := by
  by_contra hcon
  have hall : ∀ e ∈ m, 0 < e.2.population →
      e.2.population * S < e.2.seats * get_total_population m := by
    intro e he hp
    by_contra hlt
    exact hcon ⟨e, he, hp, not_lt.mp hlt⟩
  set P := get_total_population m with hPdef
  have key : ∀ l : StateMap, (∀ e ∈ l, e ∈ m) →
      (l.map (fun e => e.2.population)).sum * S ≤ (l.map (fun e => e.2.seats)).sum * P ∧
      ((∃ e ∈ l, 0 < e.2.population) →
        (l.map (fun e => e.2.population)).sum * S < (l.map (fun e => e.2.seats)).sum * P) := by
    intro l
    induction l with
    | nil => intro _; simp
    | cons hd rest ih =>
      intro hsub
      obtain ⟨ih1, ih2⟩ := ih (fun e he => hsub e (List.mem_cons_of_mem _ he))
      have hmem : hd ∈ m := hsub hd (List.mem_cons_self _ _)
      have hs0 : 0 ≤ hd.2.seats * P := Int.mul_nonneg (hseats hd hmem) (le_of_lt hP)
      simp only [List.map_cons, List.sum_cons, add_mul]
      by_cases hp : 0 < hd.2.population
      · have h1 := hall hd hmem hp
        exact ⟨by omega, fun _ => by omega⟩
      · have h1 : hd.2.population * S ≤ 0 :=
          Int.mul_nonpos_of_nonpos_of_nonneg (by omega) (le_of_lt hS)
        refine ⟨by omega, ?_⟩
        rintro ⟨e, he, hpe⟩
        rcases List.mem_cons.mp he with rfl | he
        · exact absurd hpe hp
        · have := ih2 ⟨e, he, hpe⟩
          omega
  obtain ⟨_, k2⟩ := key m (fun e he => he)
  have hlt := k2 (exists_positive_population m hP)
  rw [← get_total_population_eq_sum, ← seat_total_eq_sum, hsum, ← hPdef] at hlt
  have : P * S = S * P := Int.mul_comm P S
  omega

/-- A candidate subset with ratio at most 1, for a table of at least two
entities with positive total population and non-negative seats that add up to
`S > 0`. -/
theorem exists_candidate_le_one (m : StateMap) (S : Int) (hn : 2 ≤ m.length)
    (hP : 0 < get_total_population m) (hseats : ∀ e ∈ m, 0 ≤ e.2.seats)
    (hsum : seat_total m = S) (hS : 0 < S) :
    ∃ mask ∈ candidate_masks m, alpha_of m S mask ≤ 1 := by
  obtain ⟨e, he, hp, hfair⟩ := exists_fair_entity m S hP hseats hsum hS
  obtain ⟨i, hi, rfl⟩ := List.getElem_of_mem he
  have hpop : subset_sum (2 ^ i) (m.map (fun e => e.2.population)) = m[i].2.population := by
    rw [subset_sum_two_pow]
    simp [List.getD_eq_getElem?_getD, hi]
  have hseat : subset_sum (2 ^ i) (m.map (fun e => e.2.seats)) = m[i].2.seats := by
    rw [subset_sum_two_pow]
    simp [List.getD_eq_getElem?_getD, hi]
  refine ⟨2 ^ i, ?_, ?_⟩
  · unfold candidate_masks
    rw [List.mem_filter, List.mem_range]
    refine ⟨Nat.pow_lt_pow_right (by decide) hi, ?_⟩
    rw [decide_eq_true_eq]
    exact ⟨Nat.pos_iff_ne_zero.mp (Nat.two_pow_pos i), two_pow_ne_full hn, by rw [hpop]; exact hp⟩
  · unfold alpha_of seat_share pop_share
    rw [hpop, hseat]
    have hPq : (0 : ℚ) < (get_total_population m : ℚ) := by exact_mod_cast hP
    have hSq : (0 : ℚ) < (S : ℚ) := by exact_mod_cast hS
    have hpq : (0 : ℚ) < (m[i].2.population : ℚ) := by exact_mod_cast hp
    have hf : (m[i].2.seats : ℚ) * (get_total_population m : ℚ) ≤
        (m[i].2.population : ℚ) * (S : ℚ) := by exact_mod_cast hfair
    rw [div_le_one (div_pos hpq hPq), div_le_div_iff₀ hSq hPq]
    exact hf

theorem draw_mask_lt (included : Nat → Bool) (rand : Nat → Nat) (n first : Nat) :
    draw_mask included rand n first < 2 ^ n := by
  unfold draw_mask
  have key : ∀ (l : List Nat) (acc : Nat), (∀ i ∈ l, i < n) → acc < 2 ^ n →
      l.foldl (fun mask i => if included (rand (first + i)) then mask ||| (1 <<< i) else mask)
        acc < 2 ^ n := by
    intro l
    induction l with
    | nil => intro acc _ h; exact h
    | cons i t ih =>
      intro acc hl hacc
      simp only [List.foldl_cons]
      apply ih _ (fun j hj => hl j (List.mem_cons_of_mem _ hj))
      split_ifs
      · apply Nat.or_lt_two_pow hacc
        rw [Nat.one_shiftLeft]
        exact Nat.pow_lt_pow_right (by decide) (hl i (List.mem_cons_self _ _))
      · exact hacc
  exact key _ 0 (fun i hi => List.mem_range.mp hi) (Nat.two_pow_pos n)

theorem drawn_masks_lt (included : Nat → Bool) (rand : Nat → Nat) (n num_samples : Nat) :
    ∀ mask ∈ drawn_masks included rand n num_samples, mask < 2 ^ n := by
  intro mask hm
  unfold drawn_masks at hm
  obtain ⟨s, _, rfl⟩ := List.mem_map.mp hm
  exact draw_mask_lt included rand n _

/-! ## The Huntington-Hill method: priorities -/

/-- One iteration of the Huntington-Hill loop, when some priority exceeds the
start value `-1`: the first record of maximal priority gets one more seat. -/
theorem hh_step_split (m : StateMap) (hk : KeysAscending m)
    (hex : ∃ e ∈ m, (-1 : ℚ) < priority e.2) :
    ∃ l1 k d l2, m = l1 ++ (k, d) :: l2 ∧
      hh_step m = l1 ++ (k, { d with seats := d.seats + 1 }) :: l2 ∧
      (∀ e ∈ l1, priority e.2 < priority d) ∧ (∀ e ∈ l2, priority e.2 ≤ priority d) := by
  rcases scan_max_spec priority m "" (-1) with ⟨hall, _⟩ | ⟨l1, k, d, l2, hm, heq, _, h1, h2⟩
  · obtain ⟨e, he, hlt⟩ := hex
    exact absurd (hall e he) (not_le.mpr hlt)
  · refine ⟨l1, k, d, l2, hm, ?_, h1, h2⟩
    have hk1 : KeysAscending (l1 ++ (k, d) :: l2) := hm ▸ hk
    unfold hh_step
    simp only [heq]
    rw [hm, at_key_of_split l1 k d l2 _ hk1]

theorem priority_nonneg {d : StateData} (hp : 0 ≤ d.population) (hs : 1 ≤ d.seats) :
    0 ≤ priority d := by
  unfold priority
  have h1 : (0 : ℚ) ≤ (d.population : ℚ) := by exact_mod_cast hp
  have h2 : (0 : ℚ) < (d.seats : ℚ) := by exact_mod_cast (by omega : 0 < d.seats)
  positivity

/-- Comparing priorities is comparing the cross-multiplied squares. -/
theorem priority_le_cross {a b : StateData} (hpa : 0 ≤ a.population) (hpb : 0 ≤ b.population)
    (hsa : 1 ≤ a.seats) (hsb : 1 ≤ b.seats) (h : priority a ≤ priority b) :
    a.population ^ 2 * (b.seats * (b.seats + 1)) ≤
      b.population ^ 2 * (a.seats * (a.seats + 1)) := by
  unfold priority at h
  have ha : (0 : ℚ) ≤ (a.population : ℚ) := by exact_mod_cast hpa
  have hb : (0 : ℚ) ≤ (b.population : ℚ) := by exact_mod_cast hpb
  have hsa' : (0 : ℚ) < (a.seats : ℚ) := by exact_mod_cast (by omega : 0 < a.seats)
  have hsb' : (0 : ℚ) < (b.seats : ℚ) := by exact_mod_cast (by omega : 0 < b.seats)
  have hda : (0 : ℚ) < (a.seats : ℚ) * ((a.seats : ℚ) + 1) := by positivity
  have hdb : (0 : ℚ) < (b.seats : ℚ) * ((b.seats : ℚ) + 1) := by positivity
  rw [abs_of_nonneg ha, abs_of_nonneg hb, div_le_div_iff₀ hda hdb] at h
  have h' : ((a.population ^ 2 * (b.seats * (b.seats + 1)) : Int) : ℚ) ≤
      ((b.population ^ 2 * (a.seats * (a.seats + 1)) : Int) : ℚ) := by
    push_cast
    nlinarith [h]
  exact_mod_cast h'

/-- One iteration of the loop on a non-empty table with non-negative
populations and at least one seat everywhere: an existing record gets the
seat, and the priority condition is kept. -/
theorem hh_step_inv (m : StateMap) (hk : KeysAscending m) (hne : m ≠ [])
    (hp : PopulationsNonneg m) (hs : ∀ e ∈ m, 1 ≤ e.2.seats) (hopt : PriorityOptimal m) :
    (∃ l1 k d l2, m = l1 ++ (k, d) :: l2 ∧
      hh_step m = l1 ++ (k, { d with seats := d.seats + 1 }) :: l2) ∧
    KeysAscending (hh_step m) ∧ hh_step m ≠ [] ∧ PopulationsNonneg (hh_step m) ∧
    (∀ e ∈ hh_step m, 1 ≤ e.2.seats) ∧ PriorityOptimal (hh_step m) := by
  have hex : ∃ e ∈ m, (-1 : ℚ) < priority e.2 := by
    obtain ⟨e, he⟩ := List.exists_mem_of_ne_nil m hne
    have := priority_nonneg (hp e he) (hs e he)
    exact ⟨e, he, by linarith⟩
  obtain ⟨l1, k, d, l2, hm, hstep, h1, h2⟩ := hh_step_split m hk hex
  have hk1 : KeysAscending (l1 ++ (k, d) :: l2) := hm ▸ hk
  have hdm : (k, d) ∈ m := by rw [hm]; simp
  have hl1 : ∀ e ∈ l1, e ∈ m := fun e he => by rw [hm]; simp [he]
  have hl2 : ∀ e ∈ l2, e ∈ m := fun e he => by rw [hm]; simp [he]
  have hpd : 0 ≤ d.population := hp (k, d) hdm
  have hsd : 1 ≤ d.seats := hs (k, d) hdm
  -- every record's priority is at most the selected one's
  have hmax : ∀ e ∈ m, e.2.population ^ 2 * (d.seats * (d.seats + 1)) ≤
      d.population ^ 2 * (e.2.seats * (e.2.seats + 1)) := by
    intro e he
    apply priority_le_cross (hp e he) hpd (hs e he) hsd
    rw [hm] at he
    rcases List.mem_append.mp he with h | h
    · exact le_of_lt (h1 e h)
    · rcases List.mem_cons.mp h with rfl | h
      · exact le_refl _
      · exact h2 e h
  have hmem : ∀ e ∈ hh_step m, e ∈ m ∨ e = (k, { d with seats := d.seats + 1 }) := by
    intro e he
    rw [hstep] at he
    rcases List.mem_append.mp he with h | h
    · exact Or.inl (hl1 e h)
    · rcases List.mem_cons.mp h with h | h
      · exact Or.inr h
      · exact Or.inl (hl2 e h)
  refine ⟨⟨l1, k, d, l2, hm, hstep⟩, ?_, ?_, ?_, ?_, ?_⟩
  · rw [hstep]
    exact keysAscending_of_map_fst_eq (by simp) hk1
  · rw [hstep]; simp
  · intro e he
    rcases hmem e he with h | rfl
    · exact hp e h
    · exact hpd
  · intro e he
    rcases hmem e he with h | rfl
    · exact hs e h
    · simp only; omega
  · intro ei hei ej hej hj2
    rcases hmem ei hei with hi | rfl <;> rcases hmem ej hej with hj | rfl
    · exact hopt ei hi ej hj hj2
    · simp only
      have := hmax ei hi
      have e1 : d.seats + 1 - 1 = d.seats := by omega
      rw [e1]
      exact this
    · simp only
      have h3 := hopt (k, d) hdm ej hj hj2
      simp only at h3
      have h4 : d.seats * (d.seats + 1) ≤ (d.seats + 1) * (d.seats + 1 + 1) := by nlinarith
      have h5 : 0 ≤ ej.2.population ^ 2 := by positivity
      calc d.population ^ 2 * ((ej.2.seats - 1) * ej.2.seats)
          ≤ ej.2.population ^ 2 * (d.seats * (d.seats + 1)) := h3
        _ ≤ ej.2.population ^ 2 * ((d.seats + 1) * (d.seats + 1 + 1)) :=
            Int.mul_le_mul_of_nonneg_left h4 h5
    · simp only
      have h4 : (d.seats + 1 - 1) * (d.seats + 1) ≤ (d.seats + 1) * (d.seats + 1 + 1) := by
        nlinarith
      have h5 : 0 ≤ d.population ^ 2 := by positivity
      exact Int.mul_le_mul_of_nonneg_left h4 h5

/-- The loop run one iteration longer is one more step on its result. -/
theorem hh_remaining_succ (rem : Nat) (m : StateMap) (c : Nat) :
    hh_remaining (rem + 1) m c =
      (hh_step (hh_remaining rem m c).1, (hh_remaining rem m c).2 + 1) := by
  induction rem generalizing m c with
  | zero => simp [hh_remaining]
  | succ rem ih =>
    have h : hh_remaining (rem + 1 + 1) m c = hh_remaining (rem + 1) (hh_step m) (c + 1) := rfl
    rw [h, ih (hh_step m) (c + 1)]
    rfl

theorem hh_remaining_inv (rem : Nat) (m : StateMap) (c : Nat) (hk : KeysAscending m)
    (hne : m ≠ []) (hp : PopulationsNonneg m) (hs : ∀ e ∈ m, 1 ≤ e.2.seats)
    (hopt : PriorityOptimal m) :
    KeysAscending (hh_remaining rem m c).1 ∧ (hh_remaining rem m c).1 ≠ [] ∧
    PopulationsNonneg (hh_remaining rem m c).1 ∧
    (∀ e ∈ (hh_remaining rem m c).1, 1 ≤ e.2.seats) ∧
    PriorityOptimal (hh_remaining rem m c).1 := by
  induction rem generalizing m c with
  | zero => exact ⟨hk, hne, hp, hs, hopt⟩
  | succ rem ih =>
    obtain ⟨_, a1, a2, a3, a4, a5⟩ := hh_step_inv m hk hne hp hs hopt
    exact ih (hh_step m) (c + 1) a1 a2 a3 a4 a5

/-- The table after the baseline of one seat each satisfies the loop's
conditions. -/
theorem hh_baseline_inv (m : StateMap) (hk : KeysAscending m) (hne : m ≠ [])
    (hp : PopulationsNonneg m) :
    KeysAscending (m.map (fun e => (e.1, { e.2 with seats := (1 : Int) }))) ∧
    m.map (fun e => (e.1, { e.2 with seats := (1 : Int) })) ≠ [] ∧
    PopulationsNonneg (m.map (fun e => (e.1, { e.2 with seats := (1 : Int) }))) ∧
    (∀ e ∈ m.map (fun e => (e.1, { e.2 with seats := (1 : Int) })), 1 ≤ e.2.seats) ∧
    PriorityOptimal (m.map (fun e => (e.1, { e.2 with seats := (1 : Int) }))) := by
  refine ⟨keysAscending_of_map_fst_eq (by simp [List.map_map, Function.comp_def]) hk,
    by simpa using hne, ?_, ?_, ?_⟩
  · intro e he
    obtain ⟨e0, he0, rfl⟩ := List.mem_map.mp he
    exact hp e0 he0
  · intro e he
    obtain ⟨e0, _, rfl⟩ := List.mem_map.mp he
    simp
  · intro ei _ ej hej hj2
    obtain ⟨e0, _, rfl⟩ := List.mem_map.mp hej
    simp at hj2

/-- C22. `huntington_hill_method` is house-monotone: for every non-empty table
(keys ascending, populations non-negative) and every `S` with entity count
`n <= S`, both runs return without the error report, and the table for `S + 1`
seats is the table for `S` seats with the seats of exactly one record
increased by one and nothing else changed, so no entity loses a seat when the
total grows. -/
theorem huntington_hill_house_monotone (m : StateMap) (S : Int) (hk : KeysAscending m)
    (hne : m ≠ []) (hp : PopulationsNonneg m) (hn : (m.length : Int) ≤ S) :
    (huntington_hill_method m S).error_reported = false ∧
    (huntington_hill_method m (S + 1)).error_reported = false ∧
    ∃ l1 k d l2, (huntington_hill_method m S).table = l1 ++ (k, d) :: l2 ∧
      (huntington_hill_method m (S + 1)).table =
        l1 ++ (k, { d with seats := d.seats + 1 }) :: l2 := by
  have hrem : ¬ S - ((m.map (fun e => (e.1, { e.2 with seats := (1 : Int) }))).length : Int) < 0 := by
    simp only [List.length_map]; omega
  have hrem1 : ¬ S + 1 -
      ((m.map (fun e => (e.1, { e.2 with seats := (1 : Int) }))).length : Int) < 0 := by
    simp only [List.length_map]; omega
  have hk1 : (S + 1 -
      ((m.map (fun e => (e.1, { e.2 with seats := (1 : Int) }))).length : Int)).toNat =
      (S - ((m.map (fun e => (e.1, { e.2 with seats := (1 : Int) }))).length : Int)).toNat + 1 := by
    simp only [List.length_map]; omega
  obtain ⟨b1, b2, b3, b4, b5⟩ := hh_baseline_inv m hk hne hp
  obtain ⟨c1, c2, c3, c4, c5⟩ := hh_remaining_inv
    (S - ((m.map (fun e => (e.1, { e.2 with seats := (1 : Int) }))).length : Int)).toNat
    (m.map (fun e => (e.1, { e.2 with seats := 1 }))) 0 b1 b2 b3 b4 b5
  obtain ⟨⟨l1, k, d, l2, h1, h2⟩, _⟩ := hh_step_inv _ c1 c2 c3 c4 c5
  simp only [huntington_hill_method, hrem, hrem1, if_false, hk1, hh_remaining_succ]
  exact ⟨trivial, trivial, l1, k, d, l2, h1, h2⟩

theorem huntington_hill_house_monotone_witness :
    KeysAscending scenario_rem ∧ scenario_rem ≠ [] ∧ PopulationsNonneg scenario_rem ∧
    ((scenario_rem.length : Int) ≤ 7) ∧
    (huntington_hill_method scenario_rem 7).error_reported = false ∧
    (huntington_hill_method scenario_rem (7 + 1)).error_reported = false ∧
    ∃ l1 k d l2, (huntington_hill_method scenario_rem 7).table = l1 ++ (k, d) :: l2 ∧
      (huntington_hill_method scenario_rem (7 + 1)).table =
        l1 ++ (k, { d with seats := d.seats + 1 }) :: l2 :=
  ⟨scenario_rem_keys, by decide, scenario_rem_nonneg, by decide,
    huntington_hill_house_monotone scenario_rem 7 scenario_rem_keys (by decide)
      scenario_rem_nonneg (by decide)⟩

/-! ## Binary floating point: the rounding -/

theorem round_even_cases (q : ℚ) :
    (round_even q = ⌊q⌋ ∧ Int.fract q ≤ 1 / 2) ∨ (round_even q = ⌊q⌋ + 1 ∧ 1 / 2 ≤ Int.fract q) := by
  unfold round_even
  split_ifs with h1 h2 h3
  · exact Or.inl ⟨rfl, le_of_lt h1⟩
  · exact Or.inr ⟨rfl, le_of_lt h2⟩
  · exact Or.inl ⟨rfl, not_lt.mp h2⟩
  · exact Or.inr ⟨rfl, not_lt.mp h1⟩

theorem round_even_sub_le (q : ℚ) : |((round_even q : Int) : ℚ) - q| ≤ 1 / 2 := by
  have h0 := Int.fract_nonneg q
  have h1 := Int.fract_lt_one q
  have hf : Int.fract q = q - (⌊q⌋ : ℚ) := rfl
  rw [abs_le]
  rcases round_even_cases q with ⟨h, hh⟩ | ⟨h, hh⟩
  · rw [h]; constructor <;> linarith
  · rw [h]; push_cast; constructor <;> linarith

theorem round_even_intCast (n : Int) : round_even (n : ℚ) = n := by
  unfold round_even
  simp

theorem round_even_mono {a b : ℚ} (h : a ≤ b) : round_even a ≤ round_even b := by
  have hfl : ⌊a⌋ ≤ ⌊b⌋ := Int.floor_le_floor h
  rcases lt_or_eq_of_le hfl with hlt | heq
  · have h1 : round_even a ≤ ⌊a⌋ + 1 := by
      rcases round_even_cases a with ⟨h, _⟩ | ⟨h, _⟩ <;> omega
    have h2 : ⌊b⌋ ≤ round_even b := by
      rcases round_even_cases b with ⟨h, _⟩ | ⟨h, _⟩ <;> omega
    omega
  · have hfr : Int.fract a ≤ Int.fract b := by
      unfold Int.fract; rw [heq]; linarith
    unfold round_even
    rw [heq]
    split_ifs <;> first | omega | (exfalso; linarith)

theorem le_round_even {n : Int} {q : ℚ} (h : (n : ℚ) ≤ q) : n ≤ round_even q := by
  have := round_even_mono h
  rwa [round_even_intCast] at this

theorem round_even_le {n : Int} {q : ℚ} (h : q ≤ (n : ℚ)) : round_even q ≤ n := by
  have := round_even_mono h
  rwa [round_even_intCast] at this

theorem two_zpow_pos (e : Int) : (0 : ℚ) < (2 : ℚ) ^ e := zpow_pos (by norm_num) e

/-- The binade of `x` fixes the exponent of the last place. -/
theorem ulp_exponent_eq (prec : Nat) {x : ℚ} {k : Int} (h1 : (2 : ℚ) ^ k ≤ |x|)
    (h2 : |x| < (2 : ℚ) ^ (k + 1)) : ulp_exponent prec x = k - ((prec : Int) - 1) := by
  have hpos : 0 < |x| := lt_of_lt_of_le (two_zpow_pos k) h1
  have a1 : k ≤ Int.log 2 |x| := by
    rw [← Int.zpow_le_iff_le_log (by norm_num) hpos]
    simpa using h1
  have a2 : Int.log 2 |x| < k + 1 := by
    rw [← Int.lt_zpow_iff_log_lt (by norm_num) hpos]
    simpa using h2
  unfold ulp_exponent
  omega

/-- The scaled magnitude lies in `[2^(prec-1), 2^prec)`. -/
theorem scaled_bounds (prec : Nat) {x : ℚ} (hx : x ≠ 0) :
    (2 : ℚ) ^ ((prec : Int) - 1) ≤ |x| / (2 : ℚ) ^ ulp_exponent prec x ∧
      |x| / (2 : ℚ) ^ ulp_exponent prec x < (2 : ℚ) ^ (prec : Int) := by
  have hpos : 0 < |x| := abs_pos.mpr hx
  have h1 := Int.zpow_log_le_self (b := 2) (by norm_num) hpos
  have h2 := Int.lt_zpow_succ_log_self (b := 2) (by norm_num) |x|
  simp only [Nat.cast_ofNat] at h1 h2
  unfold ulp_exponent
  rw [le_div_iff₀ (two_zpow_pos _), div_lt_iff₀ (two_zpow_pos _), ← zpow_add₀ (by norm_num),
    ← zpow_add₀ (by norm_num)]
  constructor
  · convert h1 using 2; ring
  · convert h2 using 2; ring

theorem fp_round_zero (prec : Nat) : fp_round prec 0 = 0 := by
  unfold fp_round
  simp [round_even]

theorem fp_round_nonneg (prec : Nat) {x : ℚ} (hx : 0 ≤ x) : 0 ≤ fp_round prec x := by
  unfold fp_round
  have h : (0 : ℚ) ≤ x / (2 : ℚ) ^ ulp_exponent prec x := div_nonneg hx (le_of_lt (two_zpow_pos _))
  have h' : (0 : Int) ≤ round_even (x / (2 : ℚ) ^ ulp_exponent prec x) :=
    le_round_even (by exact_mod_cast h)
  have h'' : (0 : ℚ) ≤ ((round_even (x / (2 : ℚ) ^ ulp_exponent prec x) : Int) : ℚ) := by
    exact_mod_cast h'
  exact mul_nonneg h'' (le_of_lt (two_zpow_pos _))

theorem zpow_pred_eq {prec : Nat} (h : 1 ≤ prec) :
    (2 : ℚ) ^ ((prec : Int) - 1) = (((2 : Int) ^ (prec - 1) : Int) : ℚ) := by
  have : (prec : Int) - 1 = ((prec - 1 : Nat) : Int) := by omega
  rw [this, zpow_natCast]
  push_cast
  rfl

theorem zpow_prec_eq (prec : Nat) :
    (2 : ℚ) ^ (prec : Int) = (((2 : Int) ^ prec : Int) : ℚ) := by
  rw [zpow_natCast]
  push_cast
  rfl

/-- The rounded value stays in the closed binade of `x`. -/
theorem fp_round_binade {prec : Nat} (hprec : 1 ≤ prec) {x : ℚ} (hx : 0 < x) {k : Int}
    (h1 : (2 : ℚ) ^ k ≤ x) (h2 : x < (2 : ℚ) ^ (k + 1)) :
    (2 : ℚ) ^ k ≤ fp_round prec x ∧ fp_round prec x ≤ (2 : ℚ) ^ (k + 1) := by
  have hax : |x| = x := abs_of_pos hx
  have he := ulp_exponent_eq prec (x := x) (k := k) (by rwa [hax]) (by rwa [hax])
  unfold fp_round
  rw [he]
  set e := k - ((prec : Int) - 1) with hedef
  have hpe := two_zpow_pos e
  have hlo : ((2 : ℚ) ^ ((prec : Int) - 1)) ≤ x / (2 : ℚ) ^ e := by
    rw [le_div_iff₀ hpe, ← zpow_add₀ (by norm_num)]
    convert h1 using 2; rw [hedef]; ring
  have hhi : x / (2 : ℚ) ^ e ≤ (2 : ℚ) ^ (prec : Int) := by
    rw [div_le_iff₀ hpe, ← zpow_add₀ (by norm_num)]
    convert le_of_lt h2 using 2; rw [hedef]; ring
  rw [zpow_pred_eq hprec] at hlo
  rw [zpow_prec_eq] at hhi
  have a1 := le_round_even hlo
  have a2 := round_even_le hhi
  have b1 : (((2 : Int) ^ (prec - 1) : Int) : ℚ) ≤ ((round_even (x / (2 : ℚ) ^ e) : Int) : ℚ) := by
    exact_mod_cast a1
  have b2 : ((round_even (x / (2 : ℚ) ^ e) : Int) : ℚ) ≤ (((2 : Int) ^ prec : Int) : ℚ) := by
    exact_mod_cast a2
  rw [← zpow_pred_eq hprec] at b1
  rw [← zpow_prec_eq] at b2
  have hk : (2 : ℚ) ^ k = (2 : ℚ) ^ ((prec : Int) - 1) * (2 : ℚ) ^ e := by
    rw [← zpow_add₀ (by norm_num)]; congr 1; rw [hedef]; ring
  have hk1 : (2 : ℚ) ^ (k + 1) = (2 : ℚ) ^ (prec : Int) * (2 : ℚ) ^ e := by
    rw [← zpow_add₀ (by norm_num)]; congr 1; rw [hedef]; ring
  rw [hk, hk1]
  exact ⟨mul_le_mul_of_nonneg_right b1 (le_of_lt hpe), mul_le_mul_of_nonneg_right b2 (le_of_lt hpe)⟩

/-- Every positive rational lies in a binade. -/
theorem binade_of_pos {x : ℚ} (hx : 0 < x) :
    (2 : ℚ) ^ Int.log 2 x ≤ x ∧ x < (2 : ℚ) ^ (Int.log 2 x + 1) := by
  have h1 := Int.zpow_log_le_self (b := 2) (by norm_num) hx
  have h2 := Int.lt_zpow_succ_log_self (b := 2) (by norm_num) x
  simp only [Nat.cast_ofNat] at h1 h2
  exact ⟨h1, h2⟩

theorem fp_round_pos {prec : Nat} (hprec : 1 ≤ prec) {x : ℚ} (hx : 0 < x) :
    0 < fp_round prec x := by
  obtain ⟨h1, h2⟩ := binade_of_pos hx
  exact lt_of_lt_of_le (two_zpow_pos _) (fp_round_binade hprec hx h1 h2).1

/-- Rounding is monotone on the non-negative rationals. -/
theorem fp_round_mono {prec : Nat} (hprec : 1 ≤ prec) {x y : ℚ} (hx : 0 ≤ x) (hxy : x ≤ y) :
    fp_round prec x ≤ fp_round prec y := by
  rcases eq_or_lt_of_le hx with h0 | hpos
  · rw [← h0, fp_round_zero]
    exact fp_round_nonneg prec (le_trans hx hxy)
  · have hypos : 0 < y := lt_of_lt_of_le hpos hxy
    obtain ⟨x1, x2⟩ := binade_of_pos hpos
    obtain ⟨y1, y2⟩ := binade_of_pos hypos
    have hlog : Int.log 2 x ≤ Int.log 2 y := Int.log_mono_right hpos hxy
    rcases lt_or_eq_of_le hlog with hlt | heq
    · have a := (fp_round_binade hprec hpos x1 x2).2
      have b := (fp_round_binade hprec hypos y1 y2).1
      have c : (2 : ℚ) ^ (Int.log 2 x + 1) ≤ (2 : ℚ) ^ Int.log 2 y :=
        zpow_le_zpow_right₀ (by norm_num) (by omega)
      linarith
    · have ex := ulp_exponent_eq prec (x := x) (k := Int.log 2 x)
        (by rwa [abs_of_pos hpos]) (by rwa [abs_of_pos hpos])
      have ey := ulp_exponent_eq prec (x := y) (k := Int.log 2 x)
        (by rw [abs_of_pos hypos, heq]; exact y1) (by rw [abs_of_pos hypos, heq]; exact y2)
      unfold fp_round
      rw [ex, ey]
      have hpe := two_zpow_pos (Int.log 2 x - ((prec : Int) - 1))
      have hq : x / (2 : ℚ) ^ (Int.log 2 x - ((prec : Int) - 1)) ≤
          y / (2 : ℚ) ^ (Int.log 2 x - ((prec : Int) - 1)) :=
        div_le_div_of_nonneg_right hxy (le_of_lt hpe)
      have hr := round_even_mono hq
      have hr' : ((round_even (x / (2 : ℚ) ^ (Int.log 2 x - ((prec : Int) - 1))) : Int) : ℚ) ≤
          ((round_even (y / (2 : ℚ) ^ (Int.log 2 x - ((prec : Int) - 1))) : Int) : ℚ) := by
        exact_mod_cast hr
      exact mul_le_mul_of_nonneg_right hr' (le_of_lt hpe)

/-- The rounding error is at most half a unit in the last place, hence at most
`|x| / 2^prec`. -/
theorem fp_round_error (prec : Nat) (x : ℚ) :
    |fp_round prec x - x| ≤ |x| / (2 : ℚ) ^ prec := by
  rcases eq_or_ne x 0 with h0 | hx
  · rw [h0, fp_round_zero]; simp
  · obtain ⟨hlo, _⟩ := scaled_bounds prec hx
    set e := ulp_exponent prec x with hedef
    have hpe := two_zpow_pos e
    have herr := round_even_sub_le (x / (2 : ℚ) ^ e)
    have heq : fp_round prec x - x =
        (((round_even (x / (2 : ℚ) ^ e) : Int) : ℚ) - x / (2 : ℚ) ^ e) * (2 : ℚ) ^ e := by
      unfold fp_round
      rw [← hedef]
      field_simp
    rw [heq, abs_mul, abs_of_pos hpe]
    have h2e : (2 : ℚ) ^ e ≤ |x| / (2 : ℚ) ^ ((prec : Int) - 1) := by
      rw [le_div_iff₀ (two_zpow_pos _)]
      rw [le_div_iff₀ hpe] at hlo
      linarith
    have hp2 : (2 : ℚ) ^ ((prec : Int) - 1) * 2 = (2 : ℚ) ^ prec := by
      rw [← zpow_add_one₀ (by norm_num)]
      rw [← zpow_natCast]; congr 1; ring
    calc |((round_even (x / (2 : ℚ) ^ e) : Int) : ℚ) - x / (2 : ℚ) ^ e| * (2 : ℚ) ^ e
        ≤ (1 / 2) * (2 : ℚ) ^ e := mul_le_mul_of_nonneg_right herr (le_of_lt hpe)
      _ ≤ (1 / 2) * (|x| / (2 : ℚ) ^ ((prec : Int) - 1)) := by
          exact mul_le_mul_of_nonneg_left h2e (by norm_num)
      _ = |x| / (2 : ℚ) ^ prec := by
          rw [← hp2, div_mul_eq_div_div]
          ring

/-- A value whose scaled magnitude is an integer is kept by the rounding. -/
theorem fp_round_of_scaled_int (prec : Nat) (x : ℚ) (z : Int)
    (h : x / (2 : ℚ) ^ ulp_exponent prec x = (z : ℚ)) : fp_round prec x = x := by
  unfold fp_round
  rw [h, round_even_intCast, ← h]
  have := two_zpow_pos (ulp_exponent prec x)
  field_simp

/-- The floating-point numbers of precision `prec` are kept by the rounding:
`n * 2^j` with `|n| <= 2^prec`. -/
theorem fp_round_exact {prec : Nat} (hprec : 1 ≤ prec) (n j : Int) (hn : |n| ≤ 2 ^ prec) :
    fp_round prec ((n : ℚ) * (2 : ℚ) ^ j) = (n : ℚ) * (2 : ℚ) ^ j := by
  rcases eq_or_ne n 0 with h0 | hn0
  · rw [h0]; simp [fp_round_zero]
  · have hx : (n : ℚ) * (2 : ℚ) ^ j ≠ 0 :=
      mul_ne_zero (by exact_mod_cast hn0) (ne_of_gt (two_zpow_pos j))
    obtain ⟨hlo, hhi⟩ := scaled_bounds prec hx
    set e := ulp_exponent prec ((n : ℚ) * (2 : ℚ) ^ j) with hedef
    have hpe := two_zpow_pos e
    have hsc : (n : ℚ) * (2 : ℚ) ^ j / (2 : ℚ) ^ e = (n : ℚ) * (2 : ℚ) ^ (j - e) := by
      rw [zpow_sub₀ (by norm_num)]; ring
    have habs : |(n : ℚ) * (2 : ℚ) ^ j| / (2 : ℚ) ^ e = |(n : ℚ)| * (2 : ℚ) ^ (j - e) := by
      rw [abs_mul, abs_of_pos (two_zpow_pos j), zpow_sub₀ (by norm_num)]; ring
    rw [habs] at hlo hhi
    have hnq : |(n : ℚ)| ≤ (2 : ℚ) ^ (prec : Int) := by
      rw [zpow_natCast]; exact_mod_cast hn
    rcases le_or_lt 0 (j - e) with ht | ht
    · obtain ⟨u, hu⟩ := Int.eq_ofNat_of_zero_le ht
      apply fp_round_of_scaled_int prec _ (n * 2 ^ u)
      rw [← hedef, hsc, hu, zpow_natCast]
      push_cast
      rfl
    · have hpt := two_zpow_pos (j - e)
      have h1 : (2 : ℚ) ^ ((prec : Int) - 1) ≤ (2 : ℚ) ^ ((prec : Int) + (j - e)) := by
        rw [zpow_add₀ (by norm_num)]
        exact le_trans hlo (mul_le_mul_of_nonneg_right hnq (le_of_lt hpt))
      rw [zpow_le_zpow_iff_right₀ (by norm_num)] at h1
      have ht1 : j - e = -1 := by omega
      rw [ht1] at hlo
      have h2 : (2 : ℚ) ^ (prec : Int) ≤ |(n : ℚ)| := by
        have : (2 : ℚ) ^ (prec : Int) = (2 : ℚ) ^ ((prec : Int) - 1) * 2 := by
          rw [← zpow_add_one₀ (by norm_num)]; congr 1; ring
        rw [this]
        have h3 : (2 : ℚ) ^ (-1 : Int) = 1 / 2 := by norm_num
        rw [h3] at hlo
        linarith
      have h4 : |(n : ℚ)| = (2 : ℚ) ^ (prec : Int) := le_antisymm hnq h2
      have h5 : (n : ℚ) = (2 : ℚ) ^ (prec : Int) ∨ (n : ℚ) = -(2 : ℚ) ^ (prec : Int) := by
        rcases abs_cases (n : ℚ) with ⟨hc, _⟩ | ⟨hc, _⟩
        · left; rw [← hc, h4]
        · right; rw [← h4, hc]; ring
      have h6 : (2 : ℚ) ^ (prec : Int) * (2 : ℚ) ^ (-1 : Int) = (2 : ℚ) ^ ((prec : Int) - 1) := by
        rw [← zpow_add₀ (by norm_num)]; congr 1
      rcases h5 with h5 | h5
      · apply fp_round_of_scaled_int prec _ (2 ^ (prec - 1))
        rw [← hedef, hsc, ht1, h5, h6, zpow_pred_eq hprec]
      · apply fp_round_of_scaled_int prec _ (-(2 ^ (prec - 1)))
        rw [← hedef, hsc, ht1, h5, neg_mul, h6, zpow_pred_eq hprec]
        push_cast
        rfl

/-- An integer of magnitude at most `2^prec` is a floating-point number. -/
theorem fp_round_intCast {prec : Nat} (hprec : 1 ≤ prec) (n : Int) (hn : |n| ≤ 2 ^ prec) :
    fp_round prec (n : ℚ) = (n : ℚ) := by
  have := fp_round_exact hprec n 0 hn
  simpa using this

/-- The result of a rounding is a floating-point number. -/
theorem fp_round_idem {prec : Nat} (hprec : 1 ≤ prec) (x : ℚ) :
    fp_round prec (fp_round prec x) = fp_round prec x := by
  rcases eq_or_ne x 0 with h0 | hx
  · rw [h0, fp_round_zero, fp_round_zero]
  · obtain ⟨hlo, hhi⟩ := scaled_bounds prec hx
    have hpe := two_zpow_pos (ulp_exponent prec x)
    have hq : |x / (2 : ℚ) ^ ulp_exponent prec x| ≤ (2 : ℚ) ^ (prec : Int) := by
      rw [abs_div, abs_of_pos hpe]; exact le_of_lt hhi
    rw [zpow_prec_eq, abs_le] at hq
    have a1 : -(2 : Int) ^ prec ≤ round_even (x / (2 : ℚ) ^ ulp_exponent prec x) :=
      le_round_even (by push_cast at hq ⊢; exact hq.1)
    have a2 : round_even (x / (2 : ℚ) ^ ulp_exponent prec x) ≤ (2 : Int) ^ prec :=
      round_even_le hq.2
    have := fp_round_exact hprec (round_even (x / (2 : ℚ) ^ ulp_exponent prec x))
      (ulp_exponent prec x) (abs_le.mpr ⟨a1, a2⟩)
    exact this

theorem round_even_eq_of_lt {q : ℚ} {n : Int} (h1 : (n : ℚ) - 1 / 2 < q) (h2 : q < (n : ℚ) + 1 / 2) :
    round_even q = n := by
  have h := abs_le.mp (round_even_sub_le q)
  have a : ((round_even q : Int) : ℚ) < (n : ℚ) + 1 := by linarith [h.2]
  have b : (n : ℚ) - 1 < ((round_even q : Int) : ℚ) := by linarith [h.1]
  have a' : round_even q < n + 1 := by exact_mod_cast a
  have b' : n - 1 < round_even q := by exact_mod_cast b
  omega

theorem round_even_half_even {n : Int} (h : n % 2 = 0) : round_even ((n : ℚ) + 1 / 2) = n := by
  have hf : ⌊(n : ℚ) + 1 / 2⌋ = n := by
    rw [Int.floor_eq_iff]; constructor <;> linarith
  have hfr : Int.fract ((n : ℚ) + 1 / 2) = 1 / 2 := by
    unfold Int.fract; rw [hf]; ring
  unfold round_even
  rw [hfr, hf]
  simp [h]

theorem round_even_half_odd {n : Int} (h : n % 2 = 1) : round_even ((n : ℚ) + 1 / 2) = n + 1 := by
  have hf : ⌊(n : ℚ) + 1 / 2⌋ = n := by
    rw [Int.floor_eq_iff]; constructor <;> linarith
  have hfr : Int.fract ((n : ℚ) + 1 / 2) = 1 / 2 := by
    unfold Int.fract; rw [hf]; ring
  unfold round_even
  rw [hfr, hf]
  simp [h]

/-- Evaluation of a rounding from the binade of its argument. -/
theorem fp_round_eval (prec : Nat) {x : ℚ} (k n : Int) (h1 : (2 : ℚ) ^ k ≤ |x|)
    (h2 : |x| < (2 : ℚ) ^ (k + 1))
    (hn : round_even (x / (2 : ℚ) ^ (k - ((prec : Int) - 1))) = n) :
    fp_round prec x = (n : ℚ) * (2 : ℚ) ^ (k - ((prec : Int) - 1)) := by
  unfold fp_round
  rw [ulp_exponent_eq prec h1 h2, hn]

/-- Evaluation of a rounding of a positive value away from a tie. -/
theorem fp_round_eval_pos (prec : Nat) {x : ℚ} (k n : Int) (h1 : (2 : ℚ) ^ k ≤ x)
    (h2 : x < (2 : ℚ) ^ (k + 1))
    (hn1 : (n : ℚ) - 1 / 2 < x / (2 : ℚ) ^ (k - ((prec : Int) - 1)))
    (hn2 : x / (2 : ℚ) ^ (k - ((prec : Int) - 1)) < (n : ℚ) + 1 / 2) :
    fp_round prec x = (n : ℚ) * (2 : ℚ) ^ (k - ((prec : Int) - 1)) := by
  have hx : 0 < x := lt_of_lt_of_le (two_zpow_pos k) h1
  exact fp_round_eval prec k n (by rwa [abs_of_pos hx]) (by rwa [abs_of_pos hx])
    (round_even_eq_of_lt hn1 hn2)


theorem sqrt_nearest_bounds (m : Nat) (q : ℚ) :
    m ≤ sqrt_nearest m q ∧ sqrt_nearest m q ≤ m + 1 := by
  unfold sqrt_nearest
  split_ifs <;> omega

theorem sqrt_nearest_mono (m : Nat) {q q' : ℚ} (h : q ≤ q') :
    sqrt_nearest m q ≤ sqrt_nearest m q' := by
  unfold sqrt_nearest
  split_ifs <;> first | omega | (exfalso; linarith)

/-- The scaled radicand lies in `[4^(prec-1), 4^prec)`. -/
theorem sqrt_scaled_bounds (prec : Nat) {x : ℚ} {h : Int}
    (h1 : (2 : ℚ) ^ (2 * h) ≤ x) (h2 : x < (2 : ℚ) ^ (2 * h + 2)) :
    (2 : ℚ) ^ (2 * ((prec : Int) - 1)) ≤ x / (2 : ℚ) ^ (2 * (h - ((prec : Int) - 1))) ∧
      x / (2 : ℚ) ^ (2 * (h - ((prec : Int) - 1))) < (2 : ℚ) ^ (2 * (prec : Int)) := by
  rw [le_div_iff₀ (two_zpow_pos _), div_lt_iff₀ (two_zpow_pos _), ← zpow_add₀ (by norm_num),
    ← zpow_add₀ (by norm_num)]
  constructor
  · convert h1 using 2; ring
  · convert h2 using 2; ring

/-- The binade of the square root, from the logarithm of the radicand. -/
theorem sqrt_binade {x : ℚ} (hx : 0 < x) :
    (2 : ℚ) ^ (2 * (Int.log 2 x / 2)) ≤ x ∧ x < (2 : ℚ) ^ (2 * (Int.log 2 x / 2) + 2) := by
  obtain ⟨h1, h2⟩ := binade_of_pos hx
  constructor
  · exact le_trans (zpow_le_zpow_right₀ (by norm_num) (by omega)) h1
  · exact lt_of_lt_of_le h2 (zpow_le_zpow_right₀ (by norm_num) (by omega))

/-- The integer square root of the scaled radicand has `prec` bits. -/
theorem sqrt_mantissa_bounds {prec : Nat} (hprec : 1 ≤ prec) {q : ℚ}
    (h1 : (2 : ℚ) ^ (2 * ((prec : Int) - 1)) ≤ q) (h2 : q < (2 : ℚ) ^ (2 * (prec : Int))) :
    2 ^ (prec - 1) ≤ Nat.sqrt ⌊q⌋₊ ∧ Nat.sqrt ⌊q⌋₊ < 2 ^ prec := by
  have hq0 : 0 ≤ q := le_trans (le_of_lt (two_zpow_pos _)) h1
  have e1 : (2 : ℚ) ^ (2 * ((prec : Int) - 1)) = (((2 ^ (prec - 1)) ^ 2 : Nat) : ℚ) := by
    have : 2 * ((prec : Int) - 1) = ((2 * (prec - 1) : Nat) : Int) := by omega
    rw [this, zpow_natCast]
    push_cast
    rw [← pow_mul, mul_comm]
  have e2 : (2 : ℚ) ^ (2 * (prec : Int)) = (((2 ^ prec) ^ 2 : Nat) : ℚ) := by
    have : 2 * (prec : Int) = ((2 * prec : Nat) : Int) := by omega
    rw [this, zpow_natCast]
    push_cast
    rw [← pow_mul, mul_comm]
  rw [e1] at h1
  rw [e2] at h2
  constructor
  · rw [Nat.le_sqrt']
    exact Nat.le_floor h1
  · rw [Nat.sqrt_lt']
    exact (Nat.floor_lt hq0).mpr h2

theorem fp_sqrt_binade {prec : Nat} (hprec : 1 ≤ prec) {x : ℚ} (hx : 0 < x) :
    (2 : ℚ) ^ (Int.log 2 x / 2) ≤ fp_sqrt prec x ∧
      fp_sqrt prec x ≤ (2 : ℚ) ^ (Int.log 2 x / 2 + 1) := by
  obtain ⟨b1, b2⟩ := sqrt_binade hx
  obtain ⟨s1, s2⟩ := sqrt_scaled_bounds prec b1 b2
  obtain ⟨m1, m2⟩ := sqrt_mantissa_bounds hprec s1 s2
  unfold fp_sqrt
  rw [if_neg (not_le.mpr hx)]
  set e := Int.log 2 x / 2 - ((prec : Int) - 1) with hedef
  set q := x / (2 : ℚ) ^ (2 * e) with hqdef
  obtain ⟨n1, n2⟩ := sqrt_nearest_bounds (Nat.sqrt ⌊q⌋₊) q
  have hpe := two_zpow_pos e
  have c1 : (2 : ℚ) ^ ((prec : Int) - 1) ≤ ((sqrt_nearest (Nat.sqrt ⌊q⌋₊) q : Nat) : ℚ) := by
    rw [zpow_pred_eq hprec]
    have : 2 ^ (prec - 1) ≤ sqrt_nearest (Nat.sqrt ⌊q⌋₊) q := le_trans m1 n1
    exact_mod_cast this
  have c2 : ((sqrt_nearest (Nat.sqrt ⌊q⌋₊) q : Nat) : ℚ) ≤ (2 : ℚ) ^ (prec : Int) := by
    rw [zpow_prec_eq]
    have : sqrt_nearest (Nat.sqrt ⌊q⌋₊) q ≤ 2 ^ prec := by omega
    exact_mod_cast this
  have hk : (2 : ℚ) ^ (Int.log 2 x / 2) = (2 : ℚ) ^ ((prec : Int) - 1) * (2 : ℚ) ^ e := by
    rw [← zpow_add₀ (by norm_num)]; congr 1; rw [hedef]; ring
  have hk1 : (2 : ℚ) ^ (Int.log 2 x / 2 + 1) = (2 : ℚ) ^ (prec : Int) * (2 : ℚ) ^ e := by
    rw [← zpow_add₀ (by norm_num)]; congr 1; rw [hedef]; ring
  rw [hk, hk1]
  exact ⟨mul_le_mul_of_nonneg_right c1 (le_of_lt hpe), mul_le_mul_of_nonneg_right c2 (le_of_lt hpe)⟩

theorem fp_sqrt_pos {prec : Nat} (hprec : 1 ≤ prec) {x : ℚ} (hx : 0 < x) : 0 < fp_sqrt prec x :=
  lt_of_lt_of_le (two_zpow_pos _) (fp_sqrt_binade hprec hx).1

/-- The rounded square root is monotone. -/
theorem fp_sqrt_mono {prec : Nat} (hprec : 1 ≤ prec) {x y : ℚ} (hx : 0 < x) (hxy : x ≤ y) :
    fp_sqrt prec x ≤ fp_sqrt prec y := by
  have hy : 0 < y := lt_of_lt_of_le hx hxy
  have hlog : Int.log 2 x / 2 ≤ Int.log 2 y / 2 :=
    Int.ediv_le_ediv (by norm_num) (Int.log_mono_right hx hxy)
  rcases lt_or_eq_of_le hlog with hlt | heq
  · have a := (fp_sqrt_binade hprec hx).2
    have b := (fp_sqrt_binade hprec hy).1
    have c : (2 : ℚ) ^ (Int.log 2 x / 2 + 1) ≤ (2 : ℚ) ^ (Int.log 2 y / 2) :=
      zpow_le_zpow_right₀ (by norm_num) (by omega)
    linarith
  · unfold fp_sqrt
    rw [if_neg (not_le.mpr hx), if_neg (not_le.mpr hy), ← heq]
    set e := Int.log 2 x / 2 - ((prec : Int) - 1) with hedef
    have hpe := two_zpow_pos e
    have hq : x / (2 : ℚ) ^ (2 * e) ≤ y / (2 : ℚ) ^ (2 * e) :=
      div_le_div_of_nonneg_right hxy (le_of_lt (two_zpow_pos _))
    have hm : Nat.sqrt ⌊x / (2 : ℚ) ^ (2 * e)⌋₊ ≤ Nat.sqrt ⌊y / (2 : ℚ) ^ (2 * e)⌋₊ :=
      Nat.sqrt_le_sqrt (Nat.floor_mono hq)
    have hn : sqrt_nearest (Nat.sqrt ⌊x / (2 : ℚ) ^ (2 * e)⌋₊) (x / (2 : ℚ) ^ (2 * e)) ≤
        sqrt_nearest (Nat.sqrt ⌊y / (2 : ℚ) ^ (2 * e)⌋₊) (y / (2 : ℚ) ^ (2 * e)) := by
      rcases lt_or_eq_of_le hm with hmlt | hmeq
      · have a := (sqrt_nearest_bounds (Nat.sqrt ⌊x / (2 : ℚ) ^ (2 * e)⌋₊) (x / (2 : ℚ) ^ (2 * e))).2
        have b := (sqrt_nearest_bounds (Nat.sqrt ⌊y / (2 : ℚ) ^ (2 * e)⌋₊) (y / (2 : ℚ) ^ (2 * e))).1
        omega
      · rw [← hmeq]
        exact sqrt_nearest_mono _ hq
    have hn' : ((sqrt_nearest (Nat.sqrt ⌊x / (2 : ℚ) ^ (2 * e)⌋₊) (x / (2 : ℚ) ^ (2 * e)) : Nat) : ℚ) ≤
        ((sqrt_nearest (Nat.sqrt ⌊y / (2 : ℚ) ^ (2 * e)⌋₊) (y / (2 : ℚ) ^ (2 * e)) : Nat) : ℚ) := by
      exact_mod_cast hn
    exact mul_le_mul_of_nonneg_right hn' (le_of_lt hpe)

/-- Evaluation of a rounded square root away from a tie, rounding down. -/
theorem fp_sqrt_eval_down (prec : Nat) {x : ℚ} (h : Int) (m : Nat)
    (h1 : (2 : ℚ) ^ (2 * h) ≤ x) (h2 : x < (2 : ℚ) ^ (2 * h + 2))
    (hm1 : ((m : ℚ)) ^ 2 ≤ x / (2 : ℚ) ^ (2 * (h - ((prec : Int) - 1))))
    (hm2 : x / (2 : ℚ) ^ (2 * (h - ((prec : Int) - 1))) < ((m : ℚ) + 1 / 2) ^ 2) :
    fp_sqrt prec x = (m : ℚ) * (2 : ℚ) ^ (h - ((prec : Int) - 1)) := by
  have hx : 0 < x := lt_of_lt_of_le (two_zpow_pos _) h1
  have a1 : 2 * h ≤ Int.log 2 x := by
    rw [← Int.zpow_le_iff_le_log (by norm_num) hx]; simpa using h1
  have a2 : Int.log 2 x < 2 * h + 2 := by
    rw [← Int.lt_zpow_iff_log_lt (by norm_num) hx]; simpa using h2
  have hh : Int.log 2 x / 2 = h := by omega
  unfold fp_sqrt
  rw [if_neg (not_le.mpr hx), hh]
  set q := x / (2 : ℚ) ^ (2 * (h - ((prec : Int) - 1))) with hqdef
  have hq0 : 0 ≤ q := le_trans (by positivity) hm1
  have hs : Nat.sqrt ⌊q⌋₊ = m := by
    symm
    rw [Nat.eq_sqrt']
    constructor
    · apply Nat.le_floor; push_cast; exact hm1
    · rw [Nat.floor_lt hq0]; push_cast
      have : ((m : ℚ) + 1 / 2) ^ 2 ≤ ((m : ℚ) + 1) ^ 2 := by
        have : (0 : ℚ) ≤ (m : ℚ) := Nat.cast_nonneg m
        nlinarith
      linarith
  rw [hs]
  unfold sqrt_nearest
  rw [if_pos hm2]

/-- Evaluation of a rounded square root away from a tie, rounding up. -/
theorem fp_sqrt_eval_up (prec : Nat) {x : ℚ} (h : Int) (m : Nat)
    (h1 : (2 : ℚ) ^ (2 * h) ≤ x) (h2 : x < (2 : ℚ) ^ (2 * h + 2))
    (hm1 : ((m : ℚ) + 1 / 2) ^ 2 < x / (2 : ℚ) ^ (2 * (h - ((prec : Int) - 1))))
    (hm2 : x / (2 : ℚ) ^ (2 * (h - ((prec : Int) - 1))) < ((m : ℚ) + 1) ^ 2) :
    fp_sqrt prec x = ((m : ℚ) + 1) * (2 : ℚ) ^ (h - ((prec : Int) - 1)) := by
  have hx : 0 < x := lt_of_lt_of_le (two_zpow_pos _) h1
  have a1 : 2 * h ≤ Int.log 2 x := by
    rw [← Int.zpow_le_iff_le_log (by norm_num) hx]; simpa using h1
  have a2 : Int.log 2 x < 2 * h + 2 := by
    rw [← Int.lt_zpow_iff_log_lt (by norm_num) hx]; simpa using h2
  have hh : Int.log 2 x / 2 = h := by omega
  unfold fp_sqrt
  rw [if_neg (not_le.mpr hx), hh]
  set q := x / (2 : ℚ) ^ (2 * (h - ((prec : Int) - 1))) with hqdef
  have hm0 : (0 : ℚ) ≤ (m : ℚ) := Nat.cast_nonneg m
  have hq0 : 0 ≤ q := le_trans (by positivity) (le_of_lt hm1)
  have hs : Nat.sqrt ⌊q⌋₊ = m := by
    symm
    rw [Nat.eq_sqrt']
    constructor
    · apply Nat.le_floor; push_cast
      have : ((m : ℚ)) ^ 2 ≤ ((m : ℚ) + 1 / 2) ^ 2 := by nlinarith
      linarith
    · rw [Nat.floor_lt hq0]; push_cast; exact hm2
  rw [hs]
  unfold sqrt_nearest
  rw [if_neg (not_lt.mpr (le_of_lt hm1)), if_pos hm1]
  push_cast
  rfl


/-! ## Binary floating point: `float` and `double` -/

theorem f32_zero : f32 0 = 0 := fp_round_zero 24

theorem f32_nonneg {x : ℚ} (hx : 0 ≤ x) : 0 ≤ f32 x := fp_round_nonneg 24 hx

theorem f32_pos {x : ℚ} (hx : 0 < x) : 0 < f32 x := fp_round_pos (by decide) hx

theorem f32_mono {x y : ℚ} (hx : 0 ≤ x) (hxy : x ≤ y) : f32 x ≤ f32 y :=
  fp_round_mono (by decide) hx hxy

theorem f32_error (x : ℚ) : |f32 x - x| ≤ |x| / (2 : ℚ) ^ 24 := fp_round_error 24 x

theorem f32_idem (x : ℚ) : f32 (f32 x) = f32 x := fp_round_idem (by decide) x

/-- The integers up to `2^24` in magnitude are binary32 numbers. -/
theorem f32_intCast (n : Int) (hn : |n| ≤ 2 ^ 24) : f32 (n : ℚ) = (n : ℚ) :=
  fp_round_intCast (by decide) n hn

theorem f32_one : f32 1 = 1 := by
  have := f32_intCast 1 (by decide)
  simpa using this

theorem f64_nonneg {x : ℚ} (hx : 0 ≤ x) : 0 ≤ f64 x := fp_round_nonneg 53 hx

theorem f64_pos {x : ℚ} (hx : 0 < x) : 0 < f64 x := fp_round_pos (by decide) hx

theorem f64_mono {x y : ℚ} (hx : 0 ≤ x) (hxy : x ≤ y) : f64 x ≤ f64 y :=
  fp_round_mono (by decide) hx hxy

theorem f64_intCast (n : Int) (hn : |n| ≤ 2 ^ 53) : f64 (n : ℚ) = (n : ℚ) :=
  fp_round_intCast (by decide) n hn

/-- The conversion of an `int` to `float` is an integer. -/
theorem f32_intCast_isInt (n : Int) : ∃ z : Int, f32 (n : ℚ) = (z : ℚ) := by
  rcases le_or_lt |n| (2 ^ 24) with h | h
  · exact ⟨n, f32_intCast n h⟩
  · have hq : (2 : ℚ) ^ (24 : Int) ≤ |(n : ℚ)| := by
      have h' : ((2 ^ 24 : Int) : ℚ) ≤ ((|n| : Int) : ℚ) := by exact_mod_cast le_of_lt h
      rw [Int.cast_abs] at h'
      have e : (2 : ℚ) ^ (24 : Int) = ((2 ^ 24 : Int) : ℚ) := by norm_num
      rw [e]; exact h'
    have hpos : 0 < |(n : ℚ)| := lt_of_lt_of_le (two_zpow_pos 24) hq
    have hlog : (24 : Int) ≤ Int.log 2 |(n : ℚ)| := by
      rw [← Int.zpow_le_iff_le_log (by norm_num) hpos]
      simpa using hq
    have he : 0 ≤ ulp_exponent 24 (n : ℚ) := by
      unfold ulp_exponent; push_cast; omega
    obtain ⟨u, hu⟩ := Int.eq_ofNat_of_zero_le he
    refine ⟨round_even ((n : ℚ) / (2 : ℚ) ^ ulp_exponent 24 (n : ℚ)) * 2 ^ u, ?_⟩
    unfold f32 fp_round
    rw [hu, zpow_natCast]
    push_cast
    rfl

theorem c_round_intCast (z : Int) : c_round (z : ℚ) = z := by
  unfold c_round
  by_cases h : (0 : ℚ) ≤ (z : ℚ)
  · rw [if_pos h, Int.floor_eq_iff]
    constructor <;> linarith
  · rw [if_neg h]
    have : ⌊-(z : ℚ) + 1 / 2⌋ = -z := by
      rw [Int.floor_eq_iff]
      constructor <;> push_cast <;> linarith
    rw [this]; ring

/-- At divisor 1 the binary32 quotient is the population converted to `float`,
for Webster and for Adams. -/
theorem rules_f32_one (p : Int) :
    ((round_rule_f32 p 1 : Int) : ℚ) = f32 (p : ℚ) ∧ ((ceil_rule_f32 p 1 : Int) : ℚ) = f32 (p : ℚ) := by
  obtain ⟨z, hz⟩ := f32_intCast_isInt p
  have h1 : f32 (f32 (p : ℚ) / f32 ((1 : Int) : ℚ)) = (z : ℚ) := by
    have : f32 ((1 : Int) : ℚ) = 1 := by simpa using f32_one
    rw [this, div_one, f32_idem, hz]
  unfold round_rule_f32 ceil_rule_f32
  rw [h1, c_round_intCast, Int.ceil_intCast, hz]
  exact ⟨rfl, rfl⟩

/-! ## The two-way searches in binary32: positive divisors -/

/-- A two-way method from its start, when `S > 0`, the total population is at
least `S` and the seat total at divisor 1 is at least `S`. -/
theorem two_way_method_sound_of_one (rule : Int → Int → Int) (m : StateMap) (S : Int)
    (hS : 0 < S) (hPS : S ≤ get_total_population m) (h1 : S ≤ seats_at rule m 1) (fuel : Nat) :
    (∀ x ∈ method_divisors rule two_way_diff fuel m S, 1 ≤ x) ∧
    divisor_method rule two_way_diff fuel m S ≠ Except.error Fault.division_by_zero ∧
    (∀ d' m', divisor_method rule two_way_diff fuel m S = Except.ok (d', m') →
      1 ≤ d' ∧ seats_at rule m d' = S ∧ m' = assigned rule d' m) := by
  have hd0 : 1 ≤ Int.tdiv (get_total_population m) S := by
    rw [Int.tdiv_eq_ediv (by omega) (by omega)]
    exact Int.le_ediv_of_mul_le hS (by omega)
  have hne : Int.tdiv (get_total_population m) S ≠ 0 := by omega
  obtain ⟨i1, i2, i3⟩ := two_way_search_sound rule m S h1 fuel _ hd0
  refine ⟨?_, ?_, ?_⟩
  · simp only [method_divisors, ne_of_gt hS, if_false, divisor_pass_spec rule hne]
    intro x hx
    rcases List.mem_cons.mp hx with rfl | hx
    · exact hd0
    · exact i1 x hx
  · rw [divisor_method_unfold rule two_way_diff fuel m (ne_of_gt hS) hne]
    exact i2
  · intro d' m' h
    rw [divisor_method_unfold rule two_way_diff fuel m (ne_of_gt hS) hne] at h
    exact i3 d' m' h

/-- The seat total at divisor 1 is the sum of the populations converted to
`float`. -/
theorem seats_at_one_f32 (m : StateMap) :
    ((seats_at round_rule_f32 m 1 : Int) : ℚ) = (m.map (fun e => f32 (e.2.population : ℚ))).sum ∧
    ((seats_at ceil_rule_f32 m 1 : Int) : ℚ) = (m.map (fun e => f32 (e.2.population : ℚ))).sum := by
  unfold seats_at
  induction m with
  | nil => simp
  | cons hd rest ih =>
    simp only [List.map_cons, List.sum_cons, Int.cast_add, ih.1, ih.2,
      (rules_f32_one hd.2.population).1, (rules_f32_one hd.2.population).2]
    exact ⟨trivial, trivial⟩

/-- The populations converted to `float` add up to at least `S` when each is a
binary32 number, or when `S` leaves the relative margin `2^-24` below `P`. -/
theorem sum_f32_population_ge (m : StateMap) (S : Int) (hp : PopulationsNonneg m)
    (hPS : S ≤ get_total_population m)
    (hb : (∀ e ∈ m, e.2.population ≤ 2 ^ 24) ∨
      S * 2 ^ 24 ≤ get_total_population m * (2 ^ 24 - 1)) :
    (S : ℚ) ≤ (m.map (fun e => f32 (e.2.population : ℚ))).sum := by
  rcases hb with hb | hb
  · have key : ∀ l : StateMap, (∀ e ∈ l, 0 ≤ e.2.population ∧ e.2.population ≤ 2 ^ 24) →
        (l.map (fun e => f32 (e.2.population : ℚ))).sum =
          (((l.map (fun e => e.2.population)).sum : Int) : ℚ) := by
      intro l
      induction l with
      | nil => intro _; simp
      | cons hd rest ih =>
        intro h
        obtain ⟨a, b⟩ := h hd (List.mem_cons_self _ _)
        simp only [List.map_cons, List.sum_cons, Int.cast_add,
          ih (fun e he => h e (List.mem_cons_of_mem _ he)),
          f32_intCast hd.2.population (abs_le.mpr ⟨by omega, b⟩)]
    rw [key m (fun e he => ⟨hp e he, hb e he⟩), ← get_total_population_eq_sum]
    exact_mod_cast hPS
  · have key : ∀ l : StateMap, (∀ e ∈ l, 0 ≤ e.2.population) →
        (((l.map (fun e => e.2.population)).sum : Int) : ℚ) * (1 - 1 / (2 : ℚ) ^ 24) ≤
          (l.map (fun e => f32 (e.2.population : ℚ))).sum := by
      intro l
      induction l with
      | nil => intro _; simp
      | cons hd rest ih =>
        intro h
        have h0 : (0 : ℚ) ≤ (hd.2.population : ℚ) := by
          exact_mod_cast h hd (List.mem_cons_self _ _)
        have herr := abs_le.mp (f32_error (hd.2.population : ℚ))
        rw [abs_of_nonneg h0] at herr
        have ih' := ih (fun e he => h e (List.mem_cons_of_mem _ he))
        simp only [List.map_cons, List.sum_cons, Int.cast_add]
        linarith [herr.1]
    have h := key m hp
    rw [← get_total_population_eq_sum] at h
    have hq : (S : ℚ) * (2 : ℚ) ^ 24 ≤ (get_total_population m : ℚ) * ((2 : ℚ) ^ 24 - 1) := by
      exact_mod_cast hb
    have h2 : (S : ℚ) ≤ (get_total_population m : ℚ) * (1 - 1 / (2 : ℚ) ^ 24) := by
      have h24 : (0 : ℚ) < (2 : ℚ) ^ 24 := by positivity
      have e : (get_total_population m : ℚ) * (1 - 1 / (2 : ℚ) ^ 24) =
          (get_total_population m : ℚ) * ((2 : ℚ) ^ 24 - 1) / (2 : ℚ) ^ 24 := by
        field_simp
      rw [e, le_div_iff₀ h24]
      exact hq
    linarith

/-- C20, as the code has it. The divisor stays positive in the two-way
searches when the quotients at divisor 1 still reach `S`: for every table of
non-negative populations and `S > 0` with total population `P >= S`, where
either every population is at most `2^24` (so that its conversion to `float`
is exact) or `S * 2^24 <= P * (2^24 - 1)` (the margin that the conversion can
lose), every divisor that `websters_method` or `adams_method` divides by in
binary32, the initial `floor(P / S)` and each adjusted value, is at least 1,
whatever the number of iterations, and neither method divides by zero. -/
theorem two_way_divisors_positive_f32 (m : StateMap) (S : Int) (hp : PopulationsNonneg m)
    (hS : 0 < S) (hPS : S ≤ get_total_population m)
    (hb : (∀ e ∈ m, e.2.population ≤ 2 ^ 24) ∨
      S * 2 ^ 24 ≤ get_total_population m * (2 ^ 24 - 1)) (fuel : Nat) :
    (∀ d ∈ method_divisors round_rule_f32 two_way_diff fuel m S, 1 ≤ d) ∧
    (∀ d ∈ method_divisors ceil_rule_f32 two_way_diff fuel m S, 1 ≤ d) ∧
    webster_run_f32 fuel m S ≠ Except.error Fault.division_by_zero ∧
    adams_run_f32 fuel m S ≠ Except.error Fault.division_by_zero := by
  have hsum := sum_f32_population_ge m S hp hPS hb
  have h1 : S ≤ seats_at round_rule_f32 m 1 := by
    have := (seats_at_one_f32 m).1
    have h : (S : ℚ) ≤ ((seats_at round_rule_f32 m 1 : Int) : ℚ) := by rw [this]; exact hsum
    exact_mod_cast h
  have h2 : S ≤ seats_at ceil_rule_f32 m 1 := by
    have := (seats_at_one_f32 m).2
    have h : (S : ℚ) ≤ ((seats_at ceil_rule_f32 m 1 : Int) : ℚ) := by rw [this]; exact hsum
    exact_mod_cast h
  have hw := two_way_method_sound_of_one round_rule_f32 m S hS hPS h1 fuel
  have ha := two_way_method_sound_of_one ceil_rule_f32 m S hS hPS h2 fuel
  exact ⟨hw.1, ha.1, hw.2.1, ha.2.1⟩

theorem two_way_divisors_positive_f32_witness :
    PopulationsNonneg scenario_tie ∧ (0 : Int) < 3 ∧ (3 : Int) ≤ get_total_population scenario_tie ∧
    ((∀ e ∈ scenario_tie, e.2.population ≤ 2 ^ 24) ∨
      (3 : Int) * 2 ^ 24 ≤ get_total_population scenario_tie * (2 ^ 24 - 1)) ∧
    (∀ d ∈ method_divisors round_rule_f32 two_way_diff 10 scenario_tie 3, 1 ≤ d) ∧
    (∀ d ∈ method_divisors ceil_rule_f32 two_way_diff 10 scenario_tie 3, 1 ≤ d) ∧
    webster_run_f32 10 scenario_tie 3 ≠ Except.error Fault.division_by_zero ∧
    adams_run_f32 10 scenario_tie 3 ≠ Except.error Fault.division_by_zero :=
  ⟨scenario_tie_nonneg, by decide, by decide, Or.inl (by decide),
    two_way_divisors_positive_f32 scenario_tie 3 scenario_tie_nonneg (by decide) (by decide)
      (Or.inl (by decide)) 10⟩

theorem f32_wide : f32 (16777217 : ℚ) = 16777216 := by
  have h : round_even ((16777217 : ℚ) / (2 : ℚ) ^ ((24 : Int) - (((24 : Nat) : Int) - 1))) =
      8388608 := by
    have e : (16777217 : ℚ) / (2 : ℚ) ^ ((24 : Int) - (((24 : Nat) : Int) - 1)) =
        ((8388608 : Int) : ℚ) + 1 / 2 := by norm_num
    rw [e]
    exact round_even_half_even (by decide)
  unfold f32
  rw [fp_round_eval 24 24 8388608 (by norm_num) (by norm_num) h]
  norm_num

/-- C20, the claim as stated fails. For the single entity A = 16777217 and
`S = 16777217` (so `P >= S`, `S > 0`) the conversion `(float)16777217` is
16777216: at the first divisor 1 both methods assign 16777216 seats, one too
few, the divisor is lowered to 0, and the next pass divides by it. -/
theorem two_way_divisor_zero_counterexample :
    scenario_wide ≠ [] ∧ (0 : Int) < 16777217 ∧
    (16777217 : Int) ≤ get_total_population scenario_wide ∧
    method_divisors round_rule_f32 two_way_diff 1 scenario_wide 16777217 = [1, 0] ∧
    webster_run_f32 1 scenario_wide 16777217 = Except.error Fault.division_by_zero ∧
    method_divisors ceil_rule_f32 two_way_diff 1 scenario_wide 16777217 = [1, 0] ∧
    adams_run_f32 1 scenario_wide 16777217 = Except.error Fault.division_by_zero := by
  have hP : get_total_population scenario_wide = 16777217 := by decide
  have hd : Int.tdiv (get_total_population scenario_wide) 16777217 = 1 := by rw [hP]; decide
  have hr : round_rule_f32 16777217 1 = 16777216 := by
    have h := (rules_f32_one 16777217).1
    have e : (((16777217 : Int) : ℚ)) = (16777217 : ℚ) := by norm_num
    rw [e, f32_wide] at h
    exact_mod_cast h
  have hc : ceil_rule_f32 16777217 1 = 16777216 := by
    have h := (rules_f32_one 16777217).2
    have e : (((16777217 : Int) : ℚ)) = (16777217 : ℚ) := by norm_num
    rw [e, f32_wide] at h
    exact_mod_cast h
  have hsr : seats_at round_rule_f32 scenario_wide 1 = 16777216 := by
    simp [seats_at, scenario_wide, hr]
  have hsc : seats_at ceil_rule_f32 scenario_wide 1 = 16777216 := by
    simp [seats_at, scenario_wide, hc]
  refine ⟨by decide, by decide, by rw [hP], ?_, ?_, ?_, ?_⟩
  · simp only [method_divisors, hd, divisor_pass_spec round_rule_f32 (by decide : (1 : Int) ≠ 0),
      hsr, search_divisors]
    simp [two_way_diff, divisor_pass, assigned, scenario_wide, search_divisors]
  · unfold webster_run_f32
    rw [divisor_method_unfold round_rule_f32 two_way_diff 1 scenario_wide (by decide)
      (by rw [hd]; decide), hd, hsr]
    simp [divisor_search, two_way_diff, divisor_pass, assigned, scenario_wide]
  · simp only [method_divisors, hd, divisor_pass_spec ceil_rule_f32 (by decide : (1 : Int) ≠ 0),
      hsc, search_divisors]
    simp [two_way_diff, divisor_pass, assigned, scenario_wide, search_divisors]
  · unfold adams_run_f32
    rw [divisor_method_unfold ceil_rule_f32 two_way_diff 1 scenario_wide (by decide)
      (by rw [hd]; decide), hd, hsc]
    simp [divisor_search, two_way_diff, divisor_pass, assigned, scenario_wide]

/-! ## The two-way searches in binary32: the result -/

/-- A two-way search on a non-empty table, started at a divisor `>= 1`: a pass
at divisor 0 is a fault, so a search that returns has stayed at divisors
`>= 1`, and its table is the assignment at the final divisor, which gives
exactly `S`. -/
theorem two_way_search_result (rule : Int → Int → Int) (m : StateMap) (hne : m ≠ []) (S : Int)
    (fuel : Nat) (d : Int) (hd : 1 ≤ d) (d' : Int) (m' : StateMap)
    (h : divisor_search rule two_way_diff S fuel d (assigned rule d m)
      (S - seats_at rule m d) = Except.ok (d', m')) :
    1 ≤ d' ∧ seats_at rule m d' = S ∧ m' = assigned rule d' m := by
  induction fuel generalizing d with
  | zero =>
    simp only [divisor_search] at h
    by_cases hr : S - seats_at rule m d = 0
    · rw [if_pos hr] at h
      cases h
      exact ⟨hd, by omega, rfl⟩
    · rw [if_neg hr] at h
      exact absurd h (by simp)
  | succ fuel ih =>
    by_cases hr : S - seats_at rule m d = 0
    · simp only [divisor_search, hr, if_true] at h
      cases h
      exact ⟨hd, by omega, rfl⟩
    · by_cases h0 : d + two_way_diff (S - seats_at rule m d) = 0
      · exfalso
        obtain ⟨hd', tl, hm⟩ : ∃ hd' tl, assigned rule d m = hd' :: tl := by
          cases m with
          | nil => exact absurd rfl hne
          | cons a t => exact ⟨_, _, rfl⟩
        simp only [divisor_search, hr, if_false, h0, hm, divisor_pass, if_true] at h
        exact absurd h (by simp)
      · have hnext : 1 ≤ d + two_way_diff (S - seats_at rule m d) := by
          rcases two_way_diff_cases (S - seats_at rule m d) with ⟨_, h2⟩ | ⟨_, h2⟩
          · rw [h2]; omega
          · rw [h2] at h0 ⊢; omega
        simp only [divisor_search, hr, if_false, divisor_pass_spec rule h0,
          assigned_assigned, seats_at_assigned] at h
        exact ih _ hnext h

/-- A two-way method on a non-empty table with `S > 0` and total population at
least `S`: when it returns, its final divisor is `>= 1` and its table is the
assignment at that divisor, which gives exactly `S`. -/
theorem two_way_method_result (rule : Int → Int → Int) (m : StateMap) (hne : m ≠ []) (S : Int)
    (hS : 0 < S) (hPS : S ≤ get_total_population m) (fuel : Nat) (d' : Int) (m' : StateMap)
    (h : divisor_method rule two_way_diff fuel m S = Except.ok (d', m')) :
    1 ≤ d' ∧ seats_at rule m d' = S ∧ m' = assigned rule d' m := by
  have hd0 : 1 ≤ Int.tdiv (get_total_population m) S := by
    rw [Int.tdiv_eq_ediv (by omega) (by omega)]
    exact Int.le_ediv_of_mul_le hS (by omega)
  rw [divisor_method_unfold rule two_way_diff fuel m (ne_of_gt hS) (by omega)] at h
  exact two_way_search_result rule m hne S fuel _ hd0 d' m' h

theorem c_round_of_nonneg {x : ℚ} (h : 0 ≤ x) : c_round x = ⌊x + 1 / 2⌋ := by
  simp [c_round, h]

/-- The binary32 quotient of a non-negative population by a divisor `>= 1` is
not negative. -/
theorem quotient_f32_nonneg {p d : Int} (hp : 0 ≤ p) (hd : 1 ≤ d) :
    0 ≤ f32 (f32 (p : ℚ) / f32 (d : ℚ)) := by
  have h1 : (0 : ℚ) ≤ (p : ℚ) := by exact_mod_cast hp
  have h2 : (0 : ℚ) < (d : ℚ) := by exact_mod_cast (by omega : 0 < d)
  exact f32_nonneg (div_nonneg (f32_nonneg h1) (le_of_lt (f32_pos h2)))

/-- C19, as the code has it. The result of `websters_method` is a round-half-up
divisor apportionment of the binary32 quotients: for every non-empty table and
`S > 0` with total population `P >= S`, whenever the method returns, its final
divisor `d` is an integer `>= 1`, the entities are unchanged, every entity's
seats are the rounding (halves away from zero) of the `float` quotient
`(float)population / d` at that one divisor, which for a population that is
not negative is `floor(q + 1/2)`, and the seats add up to `S`. -/
theorem websters_method_result_f32 (m : StateMap) (S : Int) (hne : m ≠ [])
    (hS : 0 < S) (hPS : S ≤ get_total_population m) (fuel : Nat) (d : Int) (m' : StateMap)
    (hrun : webster_run_f32 fuel m S = Except.ok (d, m')) :
    websters_method_f32 fuel m S = Except.ok m' ∧ 1 ≤ d ∧ m'.map frame = m.map frame ∧
    (∀ e ∈ m', e.2.seats = c_round (f32 (f32 (e.2.population : ℚ) / f32 (d : ℚ)))) ∧
    (PopulationsNonneg m →
      ∀ e ∈ m', e.2.seats = ⌊f32 (f32 (e.2.population : ℚ) / f32 (d : ℚ)) + 1 / 2⌋) ∧
    seat_total m' = S := by
  obtain ⟨h1, h2, h3⟩ := two_way_method_result round_rule_f32 m hne S hS hPS fuel d m' hrun
  subst h3
  refine ⟨by simp [websters_method_f32, hrun, Except.map], h1,
    assigned_frame round_rule_f32 d m, ?_, ?_, ?_⟩
  · intro e he
    obtain ⟨e0, _, rfl⟩ := List.mem_map.mp he
    rfl
  · intro hp e he
    obtain ⟨e0, he0, rfl⟩ := List.mem_map.mp he
    exact c_round_of_nonneg (quotient_f32_nonneg (hp e0 he0) h1)
  · rw [seat_total_assigned]; exact h2

/-- The binary32 quotient of two binary32 integers whose exact quotient is a
binary32 integer. -/
theorem rules_f32_of_mul (p d k : Int) (hp : |p| ≤ 2 ^ 24) (hd : |d| ≤ 2 ^ 24)
    (hk : |k| ≤ 2 ^ 24) (hd0 : d ≠ 0) (h : p = k * d) :
    round_rule_f32 p d = k ∧ ceil_rule_f32 p d = k := by
  have hq : f32 (f32 (p : ℚ) / f32 (d : ℚ)) = (k : ℚ) := by
    rw [f32_intCast p hp, f32_intCast d hd]
    have hdq : (d : ℚ) ≠ 0 := by exact_mod_cast hd0
    have : (p : ℚ) / (d : ℚ) = (k : ℚ) := by
      rw [h]; push_cast; field_simp
    rw [this, f32_intCast k hk]
  unfold round_rule_f32 ceil_rule_f32
  rw [hq, c_round_intCast, Int.ceil_intCast]
  exact ⟨rfl, rfl⟩

theorem scenario_abc_round_f32 : seats_at round_rule_f32 scenario_abc 100 = 5 := by
  have h1 := (rules_f32_of_mul 100 100 1 (by decide) (by decide) (by decide) (by decide)
    (by decide)).1
  have h3 := (rules_f32_of_mul 300 100 3 (by decide) (by decide) (by decide) (by decide)
    (by decide)).1
  simp [seats_at, scenario_abc, h1, h3]

theorem scenario_abc_ceil_f32 : seats_at ceil_rule_f32 scenario_abc 100 = 5 := by
  have h1 := (rules_f32_of_mul 100 100 1 (by decide) (by decide) (by decide) (by decide)
    (by decide)).2
  have h3 := (rules_f32_of_mul 300 100 3 (by decide) (by decide) (by decide) (by decide)
    (by decide)).2
  simp [seats_at, scenario_abc, h1, h3]

theorem scenario_rem_quotients :
    round_rule_f32 10 12 = 1 ∧ round_rule_f32 20 12 = 2 ∧ round_rule_f32 31 12 = 3 ∧
    round_rule_f32 10 13 = 1 ∧ round_rule_f32 20 13 = 2 ∧ round_rule_f32 31 13 = 2 := by
  have c10 : f32 ((10 : Int) : ℚ) = 10 := by simpa using f32_intCast 10 (by decide)
  have c20 : f32 ((20 : Int) : ℚ) = 20 := by simpa using f32_intCast 20 (by decide)
  have c31 : f32 ((31 : Int) : ℚ) = 31 := by simpa using f32_intCast 31 (by decide)
  have c12 : f32 ((12 : Int) : ℚ) = 12 := by simpa using f32_intCast 12 (by decide)
  have c13 : f32 ((13 : Int) : ℚ) = 13 := by simpa using f32_intCast 13 (by decide)
  have q1 : f32 ((10 : ℚ) / 12) = 13981013 / 16777216 := by
    unfold f32
    rw [fp_round_eval_pos 24 (-1) 13981013 (by norm_num) (by norm_num) (by norm_num)
      (by norm_num)]
    norm_num
  have q2 : f32 ((20 : ℚ) / 12) = 13981013 / 8388608 := by
    unfold f32
    rw [fp_round_eval_pos 24 0 13981013 (by norm_num) (by norm_num) (by norm_num)
      (by norm_num)]
    norm_num
  have q3 : f32 ((31 : ℚ) / 12) = 10835285 / 4194304 := by
    unfold f32
    rw [fp_round_eval_pos 24 1 10835285 (by norm_num) (by norm_num) (by norm_num)
      (by norm_num)]
    norm_num
  have q4 : f32 ((10 : ℚ) / 13) = 12905551 / 16777216 := by
    unfold f32
    rw [fp_round_eval_pos 24 (-1) 12905551 (by norm_num) (by norm_num) (by norm_num)
      (by norm_num)]
    norm_num
  have q5 : f32 ((20 : ℚ) / 13) = 12905551 / 8388608 := by
    unfold f32
    rw [fp_round_eval_pos 24 0 12905551 (by norm_num) (by norm_num) (by norm_num)
      (by norm_num)]
    norm_num
  have q6 : f32 ((31 : ℚ) / 13) = 5000901 / 2097152 := by
    unfold f32
    rw [fp_round_eval_pos 24 1 10001802 (by norm_num) (by norm_num) (by norm_num)
      (by norm_num)]
    norm_num
  refine ⟨?_, ?_, ?_, ?_, ?_, ?_⟩
  · unfold round_rule_f32
    rw [c10, c12, q1, c_round_of_nonneg (by norm_num), Int.floor_eq_iff]
    norm_num
  · unfold round_rule_f32
    rw [c20, c12, q2, c_round_of_nonneg (by norm_num), Int.floor_eq_iff]
    norm_num
  · unfold round_rule_f32
    rw [c31, c12, q3, c_round_of_nonneg (by norm_num), Int.floor_eq_iff]
    norm_num
  · unfold round_rule_f32
    rw [c10, c13, q4, c_round_of_nonneg (by norm_num), Int.floor_eq_iff]
    norm_num
  · unfold round_rule_f32
    rw [c20, c13, q5, c_round_of_nonneg (by norm_num), Int.floor_eq_iff]
    norm_num
  · unfold round_rule_f32
    rw [c31, c13, q6, c_round_of_nonneg (by norm_num), Int.floor_eq_iff]
    norm_num

/-- The search of `websters_method` on `scenario_rem` with `S = 5`: divisor 12
gives 6 seats, one too many, and divisor 13 gives 5. -/
theorem scenario_rem_webster_run_f32 :
    webster_run_f32 1 scenario_rem 5 =
      Except.ok (13, assigned round_rule_f32 13 scenario_rem) := by
  have hd : Int.tdiv (get_total_population scenario_rem) 5 = 12 := by decide
  obtain ⟨a0, b0, c0, a1, b1, c1⟩ := scenario_rem_quotients
  have hs0 : seats_at round_rule_f32 scenario_rem 12 = 6 := by
    simp [seats_at, scenario_rem, a0, b0, c0]
  have hs1 : seats_at round_rule_f32 scenario_rem 13 = 5 := by
    simp [seats_at, scenario_rem, a1, b1, c1]
  unfold webster_run_f32
  rw [divisor_method_unfold round_rule_f32 two_way_diff 1 scenario_rem (by decide)
    (by rw [hd]; decide), hd, hs0]
  have e1 : (12 : Int) + two_way_diff (5 - 6) = 13 := by decide
  simp only [divisor_search]
  rw [if_neg (by decide), e1, divisor_pass_spec round_rule_f32 (by decide),
    assigned_assigned, seats_at_assigned, hs1]
  simp

theorem websters_method_result_f32_witness :
    scenario_rem ≠ [] ∧ (0 : Int) < 5 ∧ (5 : Int) ≤ get_total_population scenario_rem ∧
    webster_run_f32 1 scenario_rem 5 =
      Except.ok (13, assigned round_rule_f32 13 scenario_rem) ∧
    websters_method_f32 1 scenario_rem 5 = Except.ok (assigned round_rule_f32 13 scenario_rem) ∧
    (1 : Int) ≤ 13 ∧
    (assigned round_rule_f32 13 scenario_rem).map frame = scenario_rem.map frame ∧
    (∀ e ∈ assigned round_rule_f32 13 scenario_rem,
      e.2.seats = c_round (f32 (f32 (e.2.population : ℚ) / f32 ((13 : Int) : ℚ)))) ∧
    (PopulationsNonneg scenario_rem →
      ∀ e ∈ assigned round_rule_f32 13 scenario_rem,
        e.2.seats = ⌊f32 (f32 (e.2.population : ℚ) / f32 ((13 : Int) : ℚ)) + 1 / 2⌋) ∧
    seat_total (assigned round_rule_f32 13 scenario_rem) = 5 :=
  ⟨by decide, by decide, by decide, scenario_rem_webster_run_f32,
    websters_method_result_f32 scenario_rem 5 (by decide) (by decide) (by decide) 1 13
      (assigned round_rule_f32 13 scenario_rem) scenario_rem_webster_run_f32⟩

theorem f32_skew_a : f32 ((38372008 : Int) : ℚ) = 38372008 := by
  have h := @fp_round_exact 24 (by decide) 9593002 2 (by decide)
  unfold f32
  norm_num at h ⊢
  exact h

theorem skew_quotients :
    round_rule_f32 38372008 313240 = 123 ∧ round_rule_f32 15192188 313240 = 49 ∧
    round_rule_f32 38372008 313241 = 122 ∧ round_rule_f32 15192188 313241 = 49 := by
  have hb : f32 ((15192188 : Int) : ℚ) = 15192188 := by
    simpa using f32_intCast 15192188 (by decide)
  have hd0 : f32 ((313240 : Int) : ℚ) = 313240 := by
    simpa using f32_intCast 313240 (by decide)
  have hd1 : f32 ((313241 : Int) : ℚ) = 313241 := by
    simpa using f32_intCast 313241 (by decide)
  have q1 : f32 ((38372008 : ℚ) / 313240) = 16056365 / 131072 := by
    unfold f32
    rw [fp_round_eval_pos 24 6 16056365 (by norm_num) (by norm_num) (by norm_num) (by norm_num)]
    norm_num
  have q2 : f32 ((15192188 : ℚ) / 313240) = 1589253 / 32768 := by
    unfold f32
    rw [fp_round_eval_pos 24 5 12714024 (by norm_num) (by norm_num) (by norm_num) (by norm_num)]
    norm_num
  have q3 : f32 ((38372008 : ℚ) / 313241) = 8028157 / 65536 := by
    unfold f32
    rw [fp_round_eval_pos 24 6 16056314 (by norm_num) (by norm_num) (by norm_num) (by norm_num)]
    norm_num
  have q4 : f32 ((15192188 : ℚ) / 313241) = 97 / 2 := by
    unfold f32
    rw [fp_round_eval_pos 24 5 12713984 (by norm_num) (by norm_num) (by norm_num) (by norm_num)]
    norm_num
  refine ⟨?_, ?_, ?_, ?_⟩
  · unfold round_rule_f32
    rw [f32_skew_a, hd0, q1, c_round_of_nonneg (by norm_num), Int.floor_eq_iff]
    norm_num
  · unfold round_rule_f32
    rw [hb, hd0, q2, c_round_of_nonneg (by norm_num), Int.floor_eq_iff]
    norm_num
  · unfold round_rule_f32
    rw [f32_skew_a, hd1, q3, c_round_of_nonneg (by norm_num), Int.floor_eq_iff]
    norm_num
  · unfold round_rule_f32
    rw [hb, hd1, q4, c_round_of_nonneg (by norm_num), Int.floor_eq_iff]
    norm_num

/-- C19, the claim as stated fails. For A = 38372008, B = 15192188 and
`S = 171` (so `P >= S`) the search starts at divisor 313240 (123 and 49 seats,
one too many) and returns at divisor 313241 with 122 and 49 seats: the exact
quotient of B, 48.4999984, is 48.5 in binary32 and is rounded up.  No integer
divisor gives both `floor(38372008 / d + 1/2) = 122`, which needs
`d >= 313241`, and `floor(15192188 / d + 1/2) = 49`, which needs `d <= 313240`. -/
theorem websters_method_no_divisor_counterexample :
    scenario_skew ≠ [] ∧ (0 : Int) < 171 ∧ (171 : Int) ≤ get_total_population scenario_skew ∧
    (websters_method_f32 1 scenario_skew 171).map seats_view =
      Except.ok [("A", 122), ("B", 49)] ∧
    ¬ ∃ d : Int, 1 ≤ d ∧ ⌊(38372008 : ℚ) / (d : ℚ) + 1 / 2⌋ = 122 ∧
      ⌊(15192188 : ℚ) / (d : ℚ) + 1 / 2⌋ = 49 := by
  have hP : get_total_population scenario_skew = 53564196 := by decide
  have hd : Int.tdiv (get_total_population scenario_skew) 171 = 313240 := by rw [hP]; decide
  obtain ⟨a0, b0, a1, b1⟩ := skew_quotients
  have hs0 : seats_at round_rule_f32 scenario_skew 313240 = 172 := by
    simp [seats_at, scenario_skew, a0, b0]
  have hs1 : seats_at round_rule_f32 scenario_skew 313241 = 171 := by
    simp [seats_at, scenario_skew, a1, b1]
  have hrun : webster_run_f32 1 scenario_skew 171 =
      Except.ok (313241, assigned round_rule_f32 313241 scenario_skew) := by
    unfold webster_run_f32
    rw [divisor_method_unfold round_rule_f32 two_way_diff 1 scenario_skew (by decide)
      (by rw [hd]; decide), hd, hs0]
    have e1 : (313240 : Int) + two_way_diff (171 - 172) = 313241 := by decide
    simp only [divisor_search]
    rw [if_neg (by decide), e1, divisor_pass_spec round_rule_f32 (by decide),
      assigned_assigned, seats_at_assigned, hs1]
    simp
  refine ⟨by decide, by decide, by rw [hP]; decide, ?_, ?_⟩
  · unfold websters_method_f32
    rw [hrun]
    simp [Except.map, assigned, scenario_skew, seats_view, a1, b1]
  · rintro ⟨d, hd1, h1, h2⟩
    have hdq : (0 : ℚ) < (d : ℚ) := by exact_mod_cast (by omega : 0 < d)
    have a := (Int.floor_eq_iff.mp h1).2
    have b := (Int.floor_eq_iff.mp h2).1
    have a' : (38372008 : ℚ) / (d : ℚ) < 245 / 2 := by push_cast at a; linarith
    have b' : (97 : ℚ) / 2 ≤ (15192188 : ℚ) / (d : ℚ) := by push_cast at b; linarith
    rw [div_lt_iff₀ hdq] at a'
    rw [le_div_iff₀ hdq] at b'
    have a'' : ((2 * 38372008 : Int) : ℚ) < ((245 * d : Int) : ℚ) := by push_cast; linarith
    have b'' : ((97 * d : Int) : ℚ) ≤ ((2 * 15192188 : Int) : ℚ) := by push_cast; linarith
    have a3 : 2 * 38372008 < 245 * d := by exact_mod_cast a''
    have b3 : 97 * d ≤ 2 * 15192188 := by exact_mod_cast b''
    omega

/-! ## The two-way searches in binary32: convergence -/

theorem quotient_f32_antitone {p d1 d2 : Int} (hp : 0 ≤ p) (h1 : 1 ≤ d1) (h12 : d1 ≤ d2) :
    f32 (f32 (p : ℚ) / f32 (d2 : ℚ)) ≤ f32 (f32 (p : ℚ) / f32 (d1 : ℚ)) := by
  have hp' : (0 : ℚ) ≤ (p : ℚ) := by exact_mod_cast hp
  have hd1 : (0 : ℚ) < (d1 : ℚ) := by exact_mod_cast (by omega : 0 < d1)
  have hd12 : (d1 : ℚ) ≤ (d2 : ℚ) := by exact_mod_cast h12
  have hd2 : (0 : ℚ) < (d2 : ℚ) := lt_of_lt_of_le hd1 hd12
  have a : f32 (d1 : ℚ) ≤ f32 (d2 : ℚ) := f32_mono (le_of_lt hd1) hd12
  have b : f32 (p : ℚ) / f32 (d2 : ℚ) ≤ f32 (p : ℚ) / f32 (d1 : ℚ) :=
    div_le_div_of_nonneg_left (f32_nonneg hp') (f32_pos hd1) a
  exact f32_mono (div_nonneg (f32_nonneg hp') (le_of_lt (f32_pos hd2))) b

theorem round_rule_f32_antitone {p d1 d2 : Int} (hp : 0 ≤ p) (h1 : 1 ≤ d1) (h12 : d1 ≤ d2) :
    round_rule_f32 p d2 ≤ round_rule_f32 p d1 := by
  unfold round_rule_f32
  rw [c_round_of_nonneg (quotient_f32_nonneg hp (le_trans h1 h12)),
    c_round_of_nonneg (quotient_f32_nonneg hp h1)]
  apply Int.floor_le_floor
  linarith [quotient_f32_antitone hp h1 h12]

theorem ceil_rule_f32_antitone {p d1 d2 : Int} (hp : 0 ≤ p) (h1 : 1 ≤ d1) (h12 : d1 ≤ d2) :
    ceil_rule_f32 p d2 ≤ ceil_rule_f32 p d1 := by
  unfold ceil_rule_f32
  exact Int.ceil_le_ceil (quotient_f32_antitone hp h1 h12)

/-- A two-way method from its start, when the total population is at least
`S > 0`, the seat total does not grow with the divisor and some divisor `>= 1`
is exact. -/
theorem two_way_method_converges_of_ge (rule : Int → Int → Int)
    (hrule : ∀ p d1 d2 : Int, 0 ≤ p → 1 ≤ d1 → d1 ≤ d2 → rule p d2 ≤ rule p d1)
    (m : StateMap) (S : Int) (hp : PopulationsNonneg m)
    (hS : 0 < S) (hPS : S ≤ get_total_population m)
    (hex : ∃ d, 1 ≤ d ∧ seats_at rule m d = S) :
    ∃ fuel d m', divisor_method rule two_way_diff fuel m S = Except.ok (d, m') ∧ 1 ≤ d ∧
      seats_at rule m d = S ∧ seat_total m' = S := by
  have hanti : ∀ d1 d2 : Int, 1 ≤ d1 → d1 ≤ d2 → seats_at rule m d2 ≤ seats_at rule m d1 :=
    fun d1 d2 h1 h12 => seats_at_antitone rule hrule m hp h1 h12
  have hd0 : 1 ≤ Int.tdiv (get_total_population m) S := by
    rw [Int.tdiv_eq_ediv (by omega) (by omega)]
    exact Int.le_ediv_of_mul_le hS (by omega)
  obtain ⟨fuel, d', e1, e3, e5⟩ := two_way_converges rule m S hanti _ hd0 hex
  refine ⟨fuel, d', assigned rule d' m, ?_, e1, e3, ?_⟩
  · rw [divisor_method_unfold rule two_way_diff _ m (ne_of_gt hS) (by omega)]
    exact e5
  · rw [seat_total_assigned]; exact e3

/-- C8, as the code has it. `websters_method` and `adams_method` converge when
a divisor exists that is exact for the quotients the code computes: for every
table with non-negative populations, `S > 0` and total population `P >= S`, if
some integer divisor `d >= 1` makes the rounded (Webster) or ceiling (Adams)
binary32 quotients `(float)population / d` add up to `S`, the search from
`floor(P / S)` by steps of `+1` and `-1` returns (with enough fuel) at a
divisor `>= 1` that gives exactly `S`, and the seats of the returned table add
up to `S`. -/
theorem two_way_methods_converge_f32 (m : StateMap) (S : Int) (hp : PopulationsNonneg m)
    (hS : 0 < S) (hPS : S ≤ get_total_population m) :
    ((∃ d, 1 ≤ d ∧ seats_at round_rule_f32 m d = S) →
      ∃ fuel d m', webster_run_f32 fuel m S = Except.ok (d, m') ∧ 1 ≤ d ∧
        seats_at round_rule_f32 m d = S ∧
        websters_method_f32 fuel m S = Except.ok m' ∧ seat_total m' = S) ∧
    ((∃ d, 1 ≤ d ∧ seats_at ceil_rule_f32 m d = S) →
      ∃ fuel d m', adams_run_f32 fuel m S = Except.ok (d, m') ∧ 1 ≤ d ∧
        seats_at ceil_rule_f32 m d = S ∧
        adams_method_f32 fuel m S = Except.ok m' ∧ seat_total m' = S) := by
  constructor
  · intro hex
    obtain ⟨fuel, d, m', h1, h2, h3, h4⟩ := two_way_method_converges_of_ge round_rule_f32
      (fun _ _ _ => round_rule_f32_antitone) m S hp hS hPS hex
    refine ⟨fuel, d, m', h1, h2, h3, ?_, h4⟩
    have : webster_run_f32 fuel m S = Except.ok (d, m') := h1
    simp [websters_method_f32, this, Except.map]
  · intro hex
    obtain ⟨fuel, d, m', h1, h2, h3, h4⟩ := two_way_method_converges_of_ge ceil_rule_f32
      (fun _ _ _ => ceil_rule_f32_antitone) m S hp hS hPS hex
    refine ⟨fuel, d, m', h1, h2, h3, ?_, h4⟩
    have : adams_run_f32 fuel m S = Except.ok (d, m') := h1
    simp [adams_method_f32, this, Except.map]

theorem two_way_methods_converge_f32_witness :
    PopulationsNonneg scenario_abc ∧ (0 : Int) < 5 ∧
    (5 : Int) ≤ get_total_population scenario_abc ∧
    (∃ d, 1 ≤ d ∧ seats_at round_rule_f32 scenario_abc d = 5) ∧
    (∃ d, 1 ≤ d ∧ seats_at ceil_rule_f32 scenario_abc d = 5) ∧
    (∃ fuel d m', webster_run_f32 fuel scenario_abc 5 = Except.ok (d, m') ∧ 1 ≤ d ∧
        seats_at round_rule_f32 scenario_abc d = 5 ∧
        websters_method_f32 fuel scenario_abc 5 = Except.ok m' ∧ seat_total m' = 5) ∧
    (∃ fuel d m', adams_run_f32 fuel scenario_abc 5 = Except.ok (d, m') ∧ 1 ≤ d ∧
        seats_at ceil_rule_f32 scenario_abc d = 5 ∧
        adams_method_f32 fuel scenario_abc 5 = Except.ok m' ∧ seat_total m' = 5) :=
  ⟨scenario_abc_nonneg, by decide, by decide, ⟨100, by decide, scenario_abc_round_f32⟩,
    ⟨100, by decide, scenario_abc_ceil_f32⟩,
    (two_way_methods_converge_f32 scenario_abc 5 scenario_abc_nonneg (by decide) (by decide)).1
      ⟨100, by decide, scenario_abc_round_f32⟩,
    (two_way_methods_converge_f32 scenario_abc 5 scenario_abc_nonneg (by decide) (by decide)).2
      ⟨100, by decide, scenario_abc_ceil_f32⟩⟩

theorem f32_three_halves : f32 (f32 ((3 : Int) : ℚ) / f32 ((2 : Int) : ℚ)) = 3 / 2 := by
  have h3 : f32 ((3 : Int) : ℚ) = 3 := by simpa using f32_intCast 3 (by decide)
  have h2 : f32 ((2 : Int) : ℚ) = 2 := by simpa using f32_intCast 2 (by decide)
  have h := @fp_round_exact 24 (by decide) 3 (-1) (by decide)
  rw [h3, h2]
  unfold f32
  norm_num at h ⊢
  exact h

theorem scenario_tie_round_f32 :
    seats_at round_rule_f32 scenario_tie 2 = 4 ∧ seats_at round_rule_f32 scenario_tie 3 = 2 := by
  have h2 : round_rule_f32 3 2 = 2 := by
    unfold round_rule_f32
    rw [f32_three_halves, c_round_of_nonneg (by norm_num), Int.floor_eq_iff]
    norm_num
  have h3 := (rules_f32_of_mul 3 3 1 (by decide) (by decide) (by decide) (by decide)
    (by decide)).1
  simp [seats_at, scenario_tie, h2, h3]

theorem scenario_tie_ceil_f32 :
    seats_at ceil_rule_f32 scenario_tie 2 = 4 ∧ seats_at ceil_rule_f32 scenario_tie 3 = 2 := by
  have h2 : ceil_rule_f32 3 2 = 2 := by
    unfold ceil_rule_f32
    rw [f32_three_halves, Int.ceil_eq_iff]
    norm_num
  have h3 := (rules_f32_of_mul 3 3 1 (by decide) (by decide) (by decide) (by decide)
    (by decide)).2
  simp [seats_at, scenario_tie, h2, h3]

/-- C8, the claim as stated fails. The table A = 3, B = 3 with `S = 3` is a
valid input, yet both searches start at divisor 2 (4 seats, too many), move to
divisor 3 (2 seats, too few), back to 2, and so on: neither `websters_method`
nor `adams_method` ever returns.  The quotients 1.5 and 1 are binary32 numbers,
so the rounding of the machine plays no part. -/
theorem two_way_methods_tie_counterexample_f32 :
    (scenario_tie.length : Int) ≤ 3 ∧ (0 : Int) < 3 ∧
    (∃ e ∈ scenario_tie, 0 < e.2.population) ∧
    Int.tdiv (get_total_population scenario_tie) 3 = 2 ∧
    seats_at round_rule_f32 scenario_tie 2 = 4 ∧ seats_at round_rule_f32 scenario_tie 3 = 2 ∧
    seats_at ceil_rule_f32 scenario_tie 2 = 4 ∧ seats_at ceil_rule_f32 scenario_tie 3 = 2 ∧
    (¬ ∃ fuel m', websters_method_f32 fuel scenario_tie 3 = Except.ok m') ∧
    (¬ ∃ fuel m', adams_method_f32 fuel scenario_tie 3 = Except.ok m') := by
  have hd : Int.tdiv (get_total_population scenario_tie) 3 = 2 := by decide
  refine ⟨by decide, by decide, by decide, hd, scenario_tie_round_f32.1,
    scenario_tie_round_f32.2, scenario_tie_ceil_f32.1, scenario_tie_ceil_f32.2, ?_, ?_⟩
  · rintro ⟨fuel, m', h⟩
    have hw : webster_run_f32 fuel scenario_tie 3 = Except.error Fault.out_of_fuel :=
      two_way_method_oscillates round_rule_f32 scenario_tie 3 (by decide) (by rw [hd]; decide)
        (by rw [hd, scenario_tie_round_f32.1]; decide)
        (by rw [hd, show (2 : Int) + 1 = 3 from rfl, scenario_tie_round_f32.2]; decide) fuel
    simp [websters_method_f32, hw, Except.map] at h
  · rintro ⟨fuel, m', h⟩
    have hw : adams_run_f32 fuel scenario_tie 3 = Except.error Fault.out_of_fuel :=
      two_way_method_oscillates ceil_rule_f32 scenario_tie 3 (by decide) (by rw [hd]; decide)
        (by rw [hd, scenario_tie_ceil_f32.1]; decide)
        (by rw [hd, show (2 : Int) + 1 = 3 from rfl, scenario_tie_ceil_f32.2]; decide) fuel
    simp [adams_method_f32, hw, Except.map] at h

/-- An exact divisor for the rational quotients need not be one for the
quotients the code computes: for A = 49999998, B = 30000000 the divisor
20000000 gives the exact roundings 2 and 2, while the conversion
`(float)49999998` is 50000000 and the binary32 quotients 2.5 and 1.5 round to
3 and 2. -/
theorem scenario_near_seats :
    seats_at round_rule scenario_near 20000000 = 4 ∧
    seats_at round_rule_f32 scenario_near 20000000 = 5 := by
  have cA : f32 ((49999998 : Int) : ℚ) = 50000000 := by
    have h : round_even ((((49999998 : Int) : ℚ)) /
        (2 : ℚ) ^ ((25 : Int) - (((24 : Nat) : Int) - 1))) = 12499999 + 1 := by
      have e : (((49999998 : Int) : ℚ)) / (2 : ℚ) ^ ((25 : Int) - (((24 : Nat) : Int) - 1)) =
          ((12499999 : Int) : ℚ) + 1 / 2 := by norm_num
      rw [e]
      exact round_even_half_odd (by decide)
    unfold f32
    rw [fp_round_eval 24 25 (12499999 + 1) (by norm_num) (by norm_num) h]
    norm_num
  have cB : f32 ((30000000 : Int) : ℚ) = 30000000 := by
    unfold f32
    rw [fp_round_eval_pos 24 24 15000000 (by norm_num) (by norm_num) (by norm_num)
      (by norm_num)]
    norm_num
  have cD : f32 ((20000000 : Int) : ℚ) = 20000000 := by
    unfold f32
    rw [fp_round_eval_pos 24 24 10000000 (by norm_num) (by norm_num) (by norm_num)
      (by norm_num)]
    norm_num
  have qA : f32 ((50000000 : ℚ) / 20000000) = 5 / 2 := by
    unfold f32
    rw [fp_round_eval_pos 24 1 10485760 (by norm_num) (by norm_num) (by norm_num)
      (by norm_num)]
    norm_num
  have qB : f32 ((30000000 : ℚ) / 20000000) = 3 / 2 := by
    unfold f32
    rw [fp_round_eval_pos 24 0 12582912 (by norm_num) (by norm_num) (by norm_num)
      (by norm_num)]
    norm_num
  have rA : round_rule_f32 49999998 20000000 = 3 := by
    unfold round_rule_f32
    rw [cA, cD, qA, c_round_of_nonneg (by norm_num), Int.floor_eq_iff]
    norm_num
  have rB : round_rule_f32 30000000 20000000 = 2 := by
    unfold round_rule_f32
    rw [cB, cD, qB, c_round_of_nonneg (by norm_num), Int.floor_eq_iff]
    norm_num
  have xA : round_rule 49999998 20000000 = 2 := by
    unfold round_rule
    rw [c_round_of_nonneg (by norm_num), Int.floor_eq_iff]
    norm_num
  have xB : round_rule 30000000 20000000 = 2 := by
    unfold round_rule
    rw [c_round_of_nonneg (by norm_num), Int.floor_eq_iff]
    norm_num
  constructor
  · simp [seats_at, scenario_near, xA, xB]
  · simp [seats_at, scenario_near, rA, rB]

/-! ## Hamilton's method in binary32: the remainder loop -/

theorem hamilton_step_inv_of {t : Int → Int} {r : Int → ℚ} (m : StateMap)
    (hk : KeysAscending m) (hinv : HamiltonInvOf t r m)
    (hex : ∃ e ∈ m, (-1 : ℚ) < e.2.residual) :
    KeysAscending (hamilton_step m) ∧ HamiltonInvOf t r (hamilton_step m) ∧
    (hamilton_step m).map frame = m.map frame ∧
    seat_total (hamilton_step m) = seat_total m + 1 ∧
    (hamilton_step m).countP (fun e => decide ((-1 : ℚ) < e.2.residual)) + 1 =
      m.countP (fun e => decide ((-1 : ℚ) < e.2.residual)) := by
  obtain ⟨l1, k, d, l2, hm, hstep, hd, h1, h2⟩ := hamilton_step_split m hk hex
  have hk1 : KeysAscending (l1 ++ (k, d) :: l2) := hm ▸ hk
  have hkr := keysAscending_split_right hk1
  rw [hstep]
  subst hm
  obtain ⟨hb, hc⟩ := hinv
  have hdne : d.residual ≠ -1 := ne_of_gt hd
  have hdb : d.residual = r d.population ∧ d.seats = t d.population := by
    rcases hb (k, d) (by simp) with h | h
    · exact h
    · exact absurd h.1 hdne
  refine ⟨keysAscending_of_map_fst_eq (by simp) hk1, ⟨?_, ?_⟩, by simp [frame], ?_, ?_⟩
  · intro e he
    rcases List.mem_append.mp he with he | he
    · exact hb e (by simp [he])
    · rcases List.mem_cons.mp he with rfl | he
      · right; simp [hdb.2]
      · exact hb e (by simp [he])
  · have unusedRes : ∀ e ∈ l1 ++ (k, d) :: l2, e.2.residual ≠ -1 →
        e.2.residual = r e.2.population := by
      intro e he hne
      rcases hb e he with h | h
      · exact h.1
      · exact absurd h.1 hne
    intro e1 he1 e2 he2 hu1 hu2
    have he2' : e2 ∈ l1 ∨ e2 ∈ l2 := by
      rcases List.mem_append.mp he2 with h | h
      · exact Or.inl h
      · rcases List.mem_cons.mp h with rfl | h
        · exact absurd rfl hu2
        · exact Or.inr h
    have he2m : e2 ∈ l1 ++ (k, d) :: l2 := by
      rcases he2' with h | h <;> simp [h]
    have hr2 := unusedRes e2 he2m hu2
    have he1' : e1 ∈ l1 ∨ e1 = (k, { d with seats := d.seats + 1, residual := -1 }) ∨ e1 ∈ l2 := by
      rcases List.mem_append.mp he1 with h | h
      · exact Or.inl h
      · rcases List.mem_cons.mp h with h | h
        · exact Or.inr (Or.inl h)
        · exact Or.inr (Or.inr h)
    rcases he1' with h | rfl | h
    · exact hc e1 (by simp [h]) e2 he2m hu1 hu2
    · simp only
      rw [← hdb.1, ← hr2]
      rcases he2' with h | h
      · exact Or.inl (h1 e2 h)
      · rcases lt_or_eq_of_le (h2 e2 h) with hlt | heq
        · exact Or.inl hlt
        · exact Or.inr ⟨heq, hkr e2 h⟩
    · exact hc e1 (by simp [h]) e2 he2m hu1 hu2
  · simp only [seat_total_eq_sum, List.map_append, List.map_cons, List.sum_append, List.sum_cons]
    ring
  · simp only [List.countP_append, List.countP_cons, hd, decide_True, if_true]
    simp
    omega

theorem hamilton_remaining_inv_of {t : Int → Int} {r : Int → ℚ} (j : Nat) (m : StateMap)
    (hk : KeysAscending m) (hinv : HamiltonInvOf t r m)
    (hj : j ≤ m.countP (fun e => decide ((-1 : ℚ) < e.2.residual))) :
    KeysAscending (hamilton_remaining j m) ∧ HamiltonInvOf t r (hamilton_remaining j m) ∧
    (hamilton_remaining j m).map frame = m.map frame ∧
    seat_total (hamilton_remaining j m) = seat_total m + j := by
  induction j generalizing m with
  | zero => simp [hamilton_remaining, hk, hinv]
  | succ j ih =>
    have hpos : 0 < m.countP (fun e => decide ((-1 : ℚ) < e.2.residual)) := by omega
    have hex : ∃ e ∈ m, (-1 : ℚ) < e.2.residual := by
      obtain ⟨e, he, hd⟩ := List.countP_pos_iff.mp hpos
      exact ⟨e, he, by simpa using hd⟩
    obtain ⟨hk', hinv', hfr, hst, hcnt⟩ := hamilton_step_inv_of m hk hinv hex
    obtain ⟨a, b, c, d⟩ := ih (hamilton_step m) hk' hinv' (by omega)
    refine ⟨a, b, c.trans hfr, ?_⟩
    simp only [hamilton_remaining]
    rw [d, hst]
    push_cast
    ring

theorem sum_of_frame_eq (t : Int → Int) {m m' : StateMap} (h : m'.map frame = m.map frame) :
    (m'.map (fun e => t e.2.population)).sum = (m.map (fun e => t e.2.population)).sum := by
  have key : ∀ l : StateMap, l.map (fun e => t e.2.population) =
      (l.map frame).map (fun f => t f.2.2) := by
    intro l; simp [List.map_map, Function.comp_def, frame]
  rw [key m', key m, h]

theorem seat_total_eq_base_add_count (t : Int → Int) (l : StateMap)
    (h : ∀ e ∈ l, e.2.seats = t e.2.population ∨ e.2.seats = t e.2.population + 1) :
    seat_total l = (l.map (fun e => t e.2.population)).sum +
      (l.countP (fun e => decide (e.2.seats = t e.2.population + 1)) : Int) := by
  rw [seat_total_eq_sum]
  induction l with
  | nil => simp
  | cons hd rest ih =>
    have ih' := ih (fun e he => h e (List.mem_cons_of_mem _ he))
    simp only [List.map_cons, List.sum_cons, List.countP_cons, ih']
    rcases h hd (List.mem_cons_self _ _) with h1 | h1
    · have : ¬ hd.2.seats = t hd.2.population + 1 := by omega
      simp only [this, decide_False]
      simp
      omega
    · simp only [h1, decide_True, if_true]
      push_cast
      ring

/-! ## Hamilton's method in binary32: the first pass -/

/-- The relative error of a rounding to `float` is at most `2^-24`. -/
theorem f32_bounds {x : ℚ} (hx : 0 ≤ x) :
    x * (1 - 1 / (2 : ℚ) ^ 24) ≤ f32 x ∧ f32 x ≤ x * (1 + 1 / (2 : ℚ) ^ 24) := by
  have h := abs_le.mp (f32_error x)
  rw [abs_of_nonneg hx] at h
  constructor <;> linarith [h.1, h.2]

theorem quota_f32_pos {P S : Int} (hP : 0 < P) (hS : 0 < S) :
    0 < f32 (f32 (P : ℚ) / f32 (S : ℚ)) := by
  have h1 : (0 : ℚ) < (P : ℚ) := by exact_mod_cast hP
  have h2 : (0 : ℚ) < (S : ℚ) := by exact_mod_cast hS
  exact f32_pos (div_pos (f32_pos h1) (f32_pos h2))

theorem exact_seats_quota_f32 {P S : Int} (hP : 0 < P) (hS : 0 < S) (p : Int) :
    exact_seats_f32 p (quota_f32 P S) = some (quotient_f32 P S p) := by
  have hq := ne_of_gt (quota_f32_pos hP hS)
  simp only [quota_f32, ne_of_gt hS, ne_eq, not_false_eq_true, if_true, exact_seats_f32, hq,
    if_false, quotient_f32]

/-- The first pass in binary32 gives every record its truncated `float`
quotient and the `float` residual. -/
theorem hamilton_first_pass_f32_spec {P S : Int} (hP : 0 < P) (hS : 0 < S) (m : StateMap) :
    hamilton_first_pass_f32 (quota_f32 P S) m =
      some (m.map (fun e => (e.1, { e.2 with
                seats := truncate (quotient_f32 P S e.2.population),
                residual := residual_f32 P S e.2.population })),
            (m.map (fun e => truncate (quotient_f32 P S e.2.population))).sum) := by
  induction m with
  | nil => simp [hamilton_first_pass_f32]
  | cons hd rest ih =>
    obtain ⟨s, data⟩ := hd
    simp only [hamilton_first_pass_f32, exact_seats_quota_f32 hP hS, ih, List.map_cons,
      List.sum_cons, residual_f32]

theorem quotient_f32_nonneg' {P S p : Int} (hP : 0 < P) (hS : 0 < S) (hp : 0 ≤ p) :
    0 ≤ quotient_f32 P S p := by
  have h1 : (0 : ℚ) ≤ (p : ℚ) := by exact_mod_cast hp
  exact f32_nonneg (div_nonneg (f32_nonneg h1) (le_of_lt (quota_f32_pos hP hS)))

/-- The stored residual of a non-negative population is not negative. -/
theorem residual_f32_nonneg {P S p : Int} (hP : 0 < P) (hS : 0 < S) (hp : 0 ≤ p) :
    0 ≤ residual_f32 P S p := by
  have hq := quotient_f32_nonneg' hP hS hp
  unfold residual_f32
  apply f32_nonneg
  rw [truncate_of_nonneg hq]
  have h0 : (0 : ℚ) ≤ ((⌊quotient_f32 P S p⌋ : Int) : ℚ) := by
    exact_mod_cast Int.floor_nonneg.mpr hq
  have h1 := f32_mono h0 (Int.floor_le (quotient_f32 P S p))
  have h2 : f32 (quotient_f32 P S p) = quotient_f32 P S p := by
    unfold quotient_f32; exact f32_idem _
  rw [h2] at h1
  linarith

/-- The `float` quota lies within two roundings of `P / S`. -/
theorem quota_f32_bounds {P S : Int} (hP : 0 < P) (hS : 0 < S) (hS24 : S ≤ 2 ^ 24) :
    (P : ℚ) / (S : ℚ) * (1 - 1 / (2 : ℚ) ^ 24) ^ 2 ≤ f32 (f32 (P : ℚ) / f32 (S : ℚ)) ∧
    f32 (f32 (P : ℚ) / f32 (S : ℚ)) ≤ (P : ℚ) / (S : ℚ) * (1 + 1 / (2 : ℚ) ^ 24) ^ 2 := by
  have h1 : (0 : ℚ) < (P : ℚ) := by exact_mod_cast hP
  have h2 : (0 : ℚ) < (S : ℚ) := by exact_mod_cast hS
  have hSf : f32 (S : ℚ) = (S : ℚ) := f32_intCast S (abs_le.mpr ⟨by omega, hS24⟩)
  rw [hSf]
  obtain ⟨a1, a2⟩ := f32_bounds (le_of_lt h1)
  have hq0 : (0 : ℚ) ≤ f32 (P : ℚ) / (S : ℚ) := div_nonneg (f32_nonneg (le_of_lt h1)) (le_of_lt h2)
  obtain ⟨b1, b2⟩ := f32_bounds hq0
  have c1 : (P : ℚ) * (1 - 1 / (2 : ℚ) ^ 24) / (S : ℚ) ≤ f32 (P : ℚ) / (S : ℚ) :=
    div_le_div_of_nonneg_right a1 (le_of_lt h2)
  have c2 : f32 (P : ℚ) / (S : ℚ) ≤ (P : ℚ) * (1 + 1 / (2 : ℚ) ^ 24) / (S : ℚ) :=
    div_le_div_of_nonneg_right a2 (le_of_lt h2)
  have u1 : (0 : ℚ) ≤ 1 - 1 / (2 : ℚ) ^ 24 := by norm_num
  have u2 : (0 : ℚ) ≤ 1 + 1 / (2 : ℚ) ^ 24 := by norm_num
  constructor
  · calc (P : ℚ) / (S : ℚ) * (1 - 1 / (2 : ℚ) ^ 24) ^ 2
        = (P : ℚ) * (1 - 1 / (2 : ℚ) ^ 24) / (S : ℚ) * (1 - 1 / (2 : ℚ) ^ 24) := by ring
      _ ≤ f32 (P : ℚ) / (S : ℚ) * (1 - 1 / (2 : ℚ) ^ 24) := mul_le_mul_of_nonneg_right c1 u1
      _ ≤ f32 (f32 (P : ℚ) / (S : ℚ)) := b1
  · calc f32 (f32 (P : ℚ) / (S : ℚ))
        ≤ f32 (P : ℚ) / (S : ℚ) * (1 + 1 / (2 : ℚ) ^ 24) := b2
      _ ≤ (P : ℚ) * (1 + 1 / (2 : ℚ) ^ 24) / (S : ℚ) * (1 + 1 / (2 : ℚ) ^ 24) :=
          mul_le_mul_of_nonneg_right c2 u2
      _ = (P : ℚ) / (S : ℚ) * (1 + 1 / (2 : ℚ) ^ 24) ^ 2 := by ring

/-- The `float` quotient of a non-negative population lies within two
roundings of the quotient by the `float` quota `q`. -/
theorem quotient_by_quota_bounds {q : ℚ} (hq : 0 < q) {p : Int} (hp : 0 ≤ p) :
    (p : ℚ) * ((1 - 1 / (2 : ℚ) ^ 24) ^ 2 / q) ≤ f32 (f32 (p : ℚ) / q) ∧
    f32 (f32 (p : ℚ) / q) ≤ (p : ℚ) * ((1 + 1 / (2 : ℚ) ^ 24) ^ 2 / q) := by
  have h1 : (0 : ℚ) ≤ (p : ℚ) := by exact_mod_cast hp
  obtain ⟨a1, a2⟩ := f32_bounds h1
  have hq0 : (0 : ℚ) ≤ f32 (p : ℚ) / q := div_nonneg (f32_nonneg h1) (le_of_lt hq)
  obtain ⟨b1, b2⟩ := f32_bounds hq0
  have c1 : (p : ℚ) * (1 - 1 / (2 : ℚ) ^ 24) / q ≤ f32 (p : ℚ) / q :=
    div_le_div_of_nonneg_right a1 (le_of_lt hq)
  have c2 : f32 (p : ℚ) / q ≤ (p : ℚ) * (1 + 1 / (2 : ℚ) ^ 24) / q :=
    div_le_div_of_nonneg_right a2 (le_of_lt hq)
  have u1 : (0 : ℚ) ≤ 1 - 1 / (2 : ℚ) ^ 24 := by norm_num
  have u2 : (0 : ℚ) ≤ 1 + 1 / (2 : ℚ) ^ 24 := by norm_num
  constructor
  · calc (p : ℚ) * ((1 - 1 / (2 : ℚ) ^ 24) ^ 2 / q)
        = (p : ℚ) * (1 - 1 / (2 : ℚ) ^ 24) / q * (1 - 1 / (2 : ℚ) ^ 24) := by ring
      _ ≤ f32 (p : ℚ) / q * (1 - 1 / (2 : ℚ) ^ 24) := mul_le_mul_of_nonneg_right c1 u1
      _ ≤ f32 (f32 (p : ℚ) / q) := b1
  · calc f32 (f32 (p : ℚ) / q)
        ≤ f32 (p : ℚ) / q * (1 + 1 / (2 : ℚ) ^ 24) := b2
      _ ≤ (p : ℚ) * (1 + 1 / (2 : ℚ) ^ 24) / q * (1 + 1 / (2 : ℚ) ^ 24) :=
          mul_le_mul_of_nonneg_right c2 u2
      _ = (p : ℚ) * ((1 + 1 / (2 : ℚ) ^ 24) ^ 2 / q) := by ring

/-- The `float` quotients of a table of non-negative populations add up to
between `S * ((1 - u) / (1 + u))^2` and `S * ((1 + u) / (1 - u))^2`, `u = 2^-24`. -/
theorem sum_quotient_f32_bounds (m : StateMap) {P S : Int} (hP : 0 < P) (hS : 0 < S)
    (hS24 : S ≤ 2 ^ 24) (hp : PopulationsNonneg m) (hm : get_total_population m = P) :
    (S : ℚ) * ((1 - 1 / (2 : ℚ) ^ 24) ^ 2 / (1 + 1 / (2 : ℚ) ^ 24) ^ 2) ≤
      (m.map (fun e => quotient_f32 P S e.2.population)).sum ∧
    (m.map (fun e => quotient_f32 P S e.2.population)).sum ≤
      (S : ℚ) * ((1 + 1 / (2 : ℚ) ^ 24) ^ 2 / (1 - 1 / (2 : ℚ) ^ 24) ^ 2) := by
  have h1 : (0 : ℚ) < (P : ℚ) := by exact_mod_cast hP
  have h2 : (0 : ℚ) < (S : ℚ) := by exact_mod_cast hS
  have hq := quota_f32_pos hP hS
  obtain ⟨q1, q2⟩ := quota_f32_bounds hP hS hS24
  set q := f32 (f32 (P : ℚ) / f32 (S : ℚ)) with hqdef
  have key : ∀ l : StateMap, PopulationsNonneg l →
      (((l.map (fun e => e.2.population)).sum : Int) : ℚ) *
          ((1 - 1 / (2 : ℚ) ^ 24) ^ 2 / q) ≤
        (l.map (fun e => quotient_f32 P S e.2.population)).sum ∧
      (l.map (fun e => quotient_f32 P S e.2.population)).sum ≤
        (((l.map (fun e => e.2.population)).sum : Int) : ℚ) *
          ((1 + 1 / (2 : ℚ) ^ 24) ^ 2 / q) := by
    intro l
    induction l with
    | nil => intro _; simp
    | cons hd rest ih =>
      intro hl
      obtain ⟨i1, i2⟩ := ih (fun e he => hl e (List.mem_cons_of_mem _ he))
      obtain ⟨b1, b2⟩ := quotient_by_quota_bounds hq (hl hd (List.mem_cons_self _ _))
      simp only [List.map_cons, List.sum_cons, Int.cast_add, add_mul]
      have e : quotient_f32 P S hd.2.population = f32 (f32 (hd.2.population : ℚ) / q) := rfl
      rw [e]
      constructor <;> linarith
  obtain ⟨k1, k2⟩ := key m hp
  rw [← get_total_population_eq_sum, hm] at k1 k2
  have u1 : (0 : ℚ) < (1 - 1 / (2 : ℚ) ^ 24) ^ 2 := by norm_num
  have u2 : (0 : ℚ) < (1 + 1 / (2 : ℚ) ^ 24) ^ 2 := by norm_num
  have hPS : (0 : ℚ) < (P : ℚ) / (S : ℚ) := div_pos h1 h2
  constructor
  · refine le_trans ?_ k1
    have : (S : ℚ) * ((1 - 1 / (2 : ℚ) ^ 24) ^ 2 / (1 + 1 / (2 : ℚ) ^ 24) ^ 2) =
        (P : ℚ) * ((1 - 1 / (2 : ℚ) ^ 24) ^ 2 / ((P : ℚ) / (S : ℚ) * (1 + 1 / (2 : ℚ) ^ 24) ^ 2)) := by
      field_simp
      ring
    rw [this]
    apply mul_le_mul_of_nonneg_left _ (le_of_lt h1)
    exact div_le_div_of_nonneg_left (le_of_lt u1) hq q2
  · refine le_trans k2 ?_
    have : (S : ℚ) * ((1 + 1 / (2 : ℚ) ^ 24) ^ 2 / (1 - 1 / (2 : ℚ) ^ 24) ^ 2) =
        (P : ℚ) * ((1 + 1 / (2 : ℚ) ^ 24) ^ 2 / ((P : ℚ) / (S : ℚ) * (1 - 1 / (2 : ℚ) ^ 24) ^ 2)) := by
      field_simp
      ring
    rw [this]
    apply mul_le_mul_of_nonneg_left _ (le_of_lt h1)
    exact div_le_div_of_nonneg_left (le_of_lt u2) (mul_pos hPS u1) q1

/-- With at most `2^21` seats the roundings of the first pass lose or gain
less than one seat in total: the truncated `float` quotients add up to at most
`S`, and fall short of `S` by at most the number of records. -/
theorem sum_truncate_f32_bounds (m : StateMap) {P S : Int} (hP : 0 < P) (hS : 0 < S)
    (hS21 : S ≤ 2 ^ 21) (hp : PopulationsNonneg m) (hm : get_total_population m = P) :
    (m.map (fun e => truncate (quotient_f32 P S e.2.population))).sum ≤ S ∧
    S - (m.map (fun e => truncate (quotient_f32 P S e.2.population))).sum ≤ (m.length : Int) := by
  obtain ⟨s1, s2⟩ := sum_quotient_f32_bounds m hP hS (by omega) hp hm
  have key : ∀ l : StateMap, PopulationsNonneg l →
      (((l.map (fun e => truncate (quotient_f32 P S e.2.population))).sum : Int) : ℚ) ≤
        (l.map (fun e => quotient_f32 P S e.2.population)).sum ∧
      (l.map (fun e => quotient_f32 P S e.2.population)).sum ≤
        (((l.map (fun e => truncate (quotient_f32 P S e.2.population))).sum : Int) : ℚ) +
          (l.length : ℚ) := by
    intro l
    induction l with
    | nil => intro _; simp
    | cons hd rest ih =>
      intro hl
      obtain ⟨i1, i2⟩ := ih (fun e he => hl e (List.mem_cons_of_mem _ he))
      have hq := quotient_f32_nonneg' (S := S) hP hS (hl hd (List.mem_cons_self _ _))
      have t1 : ((truncate (quotient_f32 P S hd.2.population) : Int) : ℚ) ≤
          quotient_f32 P S hd.2.population := by
        rw [truncate_of_nonneg hq]; exact Int.floor_le _
      have t2 := (truncate_bounds (quotient_f32 P S hd.2.population)).1
      simp only [List.map_cons, List.sum_cons, List.length_cons, Int.cast_add, Nat.cast_add,
        Nat.cast_one]
      constructor <;> linarith
  obtain ⟨k1, k2⟩ := key m hp
  have hSq : (0 : ℚ) < (S : ℚ) := by exact_mod_cast hS
  have hS21q : (S : ℚ) ≤ 2 ^ 21 := by exact_mod_cast hS21
  have c1 : (S : ℚ) * ((1 + 1 / (2 : ℚ) ^ 24) ^ 2 / (1 - 1 / (2 : ℚ) ^ 24) ^ 2) < (S : ℚ) + 1 := by
    have : ((1 + 1 / (2 : ℚ) ^ 24) ^ 2 / (1 - 1 / (2 : ℚ) ^ 24) ^ 2) ≤ 1 + 1 / 2 ^ 22 + 1 / 2 ^ 40 := by
      norm_num
    have h3 : (S : ℚ) * ((1 + 1 / (2 : ℚ) ^ 24) ^ 2 / (1 - 1 / (2 : ℚ) ^ 24) ^ 2) ≤
        (S : ℚ) * (1 + 1 / 2 ^ 22 + 1 / 2 ^ 40) := mul_le_mul_of_nonneg_left this (le_of_lt hSq)
    have h4 : (S : ℚ) * (1 / 2 ^ 22 + 1 / 2 ^ 40) ≤ 2 ^ 21 * (1 / 2 ^ 22 + 1 / 2 ^ 40) :=
      mul_le_mul_of_nonneg_right hS21q (by norm_num)
    have h5 : (2 : ℚ) ^ 21 * (1 / 2 ^ 22 + 1 / 2 ^ 40) < 1 := by norm_num
    linarith
  have c2 : (S : ℚ) - 1 < (S : ℚ) * ((1 - 1 / (2 : ℚ) ^ 24) ^ 2 / (1 + 1 / (2 : ℚ) ^ 24) ^ 2) := by
    have : 1 - 1 / 2 ^ 22 ≤ ((1 - 1 / (2 : ℚ) ^ 24) ^ 2 / (1 + 1 / (2 : ℚ) ^ 24) ^ 2) := by
      norm_num
    have h3 : (S : ℚ) * (1 - 1 / 2 ^ 22) ≤
        (S : ℚ) * ((1 - 1 / (2 : ℚ) ^ 24) ^ 2 / (1 + 1 / (2 : ℚ) ^ 24) ^ 2) :=
      mul_le_mul_of_nonneg_left this (le_of_lt hSq)
    have h4 : (S : ℚ) * (1 / 2 ^ 22) ≤ 2 ^ 21 * (1 / 2 ^ 22) :=
      mul_le_mul_of_nonneg_right hS21q (by norm_num)
    have h5 : (2 : ℚ) ^ 21 * (1 / 2 ^ 22) < 1 := by norm_num
    linarith
  constructor
  · have : (((m.map (fun e => truncate (quotient_f32 P S e.2.population))).sum : Int) : ℚ) <
        ((S + 1 : Int) : ℚ) := by rw [Int.cast_add, Int.cast_one]; linarith
    have := Int.cast_lt.mp this
    omega
  · have : ((S - (m.map (fun e => truncate (quotient_f32 P S e.2.population))).sum : Int) : ℚ) <
        (((m.length : Int) + 1 : Int) : ℚ) := by
      rw [Int.cast_sub, Int.cast_add, Int.cast_one, Int.cast_natCast]; linarith
    have := Int.cast_lt.mp this
    omega

/-! ## Hamilton's method in binary32: the claims -/

theorem truncate_quotient_f32 {P S p : Int} (hP : 0 < P) (hS : 0 < S) (hp : 0 ≤ p) :
    truncate (quotient_f32 P S p) = ⌊quotient_f32 P S p⌋ :=
  truncate_of_nonneg (quotient_f32_nonneg' hP hS hp)

theorem populationsNonneg_of_frame_eq {m m' : StateMap} (h : m'.map frame = m.map frame)
    (hp : PopulationsNonneg m) : PopulationsNonneg m' := by
  intro e he
  have hmem : frame e ∈ m.map frame := by
    rw [← h]; exact List.mem_map_of_mem frame he
  obtain ⟨e0, he0, hfe⟩ := List.mem_map.mp hmem
  have : e0.2.population = e.2.population := by
    have := congrArg (fun f => f.2.2) hfe
    simpa [frame] using this
  rw [← this]
  exact hp e0 he0

/-- Hamilton's method in binary32 on a table of non-negative populations with
positive total and `0 < S <= 2^21`: it returns, the frame is kept, the loop
invariant holds at the end and the seats add up to `S`. -/
theorem hamilton_f32_spec (m : StateMap) (S : Int) (hk : KeysAscending m)
    (hp : PopulationsNonneg m) (hS : 0 < S) (hS21 : S ≤ 2 ^ 21)
    (hP : 0 < get_total_population m) :
    ∃ m', hamiltons_method_f32 m S = some m' ∧ KeysAscending m' ∧
      HamiltonInvOf (fun p => truncate (quotient_f32 (get_total_population m) S p))
        (residual_f32 (get_total_population m) S) m' ∧
      m'.map frame = m.map frame ∧ seat_total m' = S := by
  set P := get_total_population m with hPdef
  have hfp := hamilton_first_pass_f32_spec hP hS m
  obtain ⟨hle, hlen⟩ := sum_truncate_f32_bounds m hP hS hS21 hp hPdef.symm
  set m1 : StateMap := m.map (fun e => (e.1, { e.2 with
                seats := truncate (quotient_f32 P S e.2.population),
                residual := residual_f32 P S e.2.population })) with hm1
  set sa : Int := (m.map (fun e => truncate (quotient_f32 P S e.2.population))).sum with hsa
  have hk1 : KeysAscending m1 :=
    keysAscending_of_map_fst_eq (by simp [hm1, List.map_map, Function.comp_def]) hk
  have hres : ∀ e ∈ m1, e.2.residual = residual_f32 P S e.2.population ∧
      e.2.seats = truncate (quotient_f32 P S e.2.population) ∧ 0 ≤ e.2.population := by
    intro e he
    obtain ⟨e0, he0, rfl⟩ := List.mem_map.mp he
    exact ⟨rfl, rfl, hp e0 he0⟩
  have hinv1 : HamiltonInvOf (fun p => truncate (quotient_f32 P S p)) (residual_f32 P S) m1 := by
    refine ⟨fun e he => Or.inl ⟨(hres e he).1, (hres e he).2.1⟩, ?_⟩
    intro e1 he1 e2 _ hu1 _
    have h := (hres e1 he1).1
    rw [hu1] at h
    have := residual_f32_nonneg hP hS (hres e1 he1).2.2
    linarith
  have hcnt : m1.countP (fun e => decide ((-1 : ℚ) < e.2.residual)) = m1.length := by
    rw [List.countP_eq_length]
    intro e he
    have h := (hres e he).1
    have := residual_f32_nonneg hP hS (hres e he).2.2
    simp only [decide_eq_true_eq]
    linarith
  have hlen1 : m1.length = m.length := by simp [hm1]
  have hj : (S - sa).toNat ≤ m1.countP (fun e => decide ((-1 : ℚ) < e.2.residual)) := by
    rw [hcnt, hlen1]; omega
  obtain ⟨a, b, c, d⟩ := hamilton_remaining_inv_of (S - sa).toNat m1 hk1 hinv1 hj
  refine ⟨hamilton_remaining (S - sa).toNat m1, ?_, a, b, ?_, ?_⟩
  · simp only [hamiltons_method_f32]
    rw [← hPdef, hfp]
  · rw [c]; simp [hm1, List.map_map, Function.comp_def, frame]
  · rw [d]
    have : seat_total m1 = sa := by
      simp [seat_total_eq_sum, hm1, hsa, List.map_map, Function.comp_def]
    rw [this]; omega

/-- C2, as the code has it. Quota rule of `hamiltons_method` for the quotient
it computes: on a valid input (keys ascending, populations non-negative,
`P > 0`) with `0 < S <= 2^21` the method returns a table with the same
entities; every entity ends with `floor(q)` or `floor(q) + 1` seats, where `q`
is the binary32 value of `exact_seats`, the `float` quotient of the population
by the `float` quota (so no entity is incremented twice), and the number of
entities with `floor(q) + 1` seats is `S` minus the sum of these floors. -/
theorem hamiltons_method_quota_rule_f32 (m : StateMap) (S : Int) (hk : KeysAscending m)
    (hp : PopulationsNonneg m) (hS : 0 < S) (hS21 : S ≤ 2 ^ 21)
    (hP : 0 < get_total_population m) :
    ∃ m', hamiltons_method_f32 m S = some m' ∧ m'.map frame = m.map frame ∧
      (∀ e ∈ m',
        e.2.seats = ⌊quotient_f32 (get_total_population m) S e.2.population⌋ ∨
        e.2.seats = ⌊quotient_f32 (get_total_population m) S e.2.population⌋ + 1) ∧
      ((m'.countP (fun e => decide
          (e.2.seats = ⌊quotient_f32 (get_total_population m) S e.2.population⌋ + 1)) : Nat) : Int)
        = S - (m.map (fun e => ⌊quotient_f32 (get_total_population m) S e.2.population⌋)).sum := by
  obtain ⟨m', h1, _, h3, h4, h5⟩ := hamilton_f32_spec m S hk hp hS hS21 hP
  have hq : ∀ e ∈ m',
      e.2.seats = ⌊quotient_f32 (get_total_population m) S e.2.population⌋ ∨
      e.2.seats = ⌊quotient_f32 (get_total_population m) S e.2.population⌋ + 1 := by
    intro e he
    have h0 := populationsNonneg_of_frame_eq h4 hp e he
    rw [← truncate_quotient_f32 hP hS h0]
    rcases h3.1 e he with h | h
    · exact Or.inl h.2
    · exact Or.inr h.2
  refine ⟨m', h1, h4, hq, ?_⟩
  have hsum := seat_total_eq_base_add_count
    (fun p => ⌊quotient_f32 (get_total_population m) S p⌋) m' hq
  rw [h5, sum_of_frame_eq (fun p => ⌊quotient_f32 (get_total_population m) S p⌋) h4] at hsum
  beta_reduce at hsum
  omega

/-- C3, as the code has it. `hamiltons_method` gives the extra seats to the
largest residuals it has stored: on a valid input with `0 < S <= 2^21`, an
entity that ends with `floor(q) + 1` seats has a binary32 residual (the `float`
value of `exact_seats - seats` after the first pass) at least that of every
entity that stays at `floor(q)`, and when the two stored residuals are equal
the one with the extra seat comes first in iteration order (smaller key). -/
theorem hamiltons_method_largest_residuals_f32 (m : StateMap) (S : Int) (hk : KeysAscending m)
    (hp : PopulationsNonneg m) (hS : 0 < S) (hS21 : S ≤ 2 ^ 21)
    (hP : 0 < get_total_population m) :
    ∃ m', hamiltons_method_f32 m S = some m' ∧ m'.map frame = m.map frame ∧
      ∀ e1 ∈ m', ∀ e2 ∈ m',
        e1.2.seats = ⌊quotient_f32 (get_total_population m) S e1.2.population⌋ + 1 →
        e2.2.seats = ⌊quotient_f32 (get_total_population m) S e2.2.population⌋ →
        residual_f32 (get_total_population m) S e2.2.population ≤
          residual_f32 (get_total_population m) S e1.2.population ∧
        (residual_f32 (get_total_population m) S e2.2.population =
          residual_f32 (get_total_population m) S e1.2.population → e1.1 < e2.1) := by
  obtain ⟨m', h1, _, h3, h4, _⟩ := hamilton_f32_spec m S hk hp hS hS21 hP
  refine ⟨m', h1, h4, ?_⟩
  intro e1 he1 e2 he2 hs1 hs2
  have p1 := populationsNonneg_of_frame_eq h4 hp e1 he1
  have p2 := populationsNonneg_of_frame_eq h4 hp e2 he2
  rw [← truncate_quotient_f32 hP hS p1] at hs1
  rw [← truncate_quotient_f32 hP hS p2] at hs2
  have hu1 : e1.2.residual = -1 := by
    rcases h3.1 e1 he1 with h | h
    · have := h.2; simp only at this; omega
    · exact h.1
  have hu2 : e2.2.residual ≠ -1 := by
    rcases h3.1 e2 he2 with h | h
    · rw [h.1]
      have := residual_f32_nonneg hP hS p2
      intro hc; linarith
    · have := h.2; simp only at this; omega
  rcases h3.2 e1 he1 e2 he2 hu1 hu2 with h | ⟨h, hlt⟩
  · exact ⟨le_of_lt h, fun heq => absurd heq (ne_of_lt h)⟩
  · exact ⟨le_of_eq h, fun _ => hlt⟩

theorem hamiltons_method_quota_rule_f32_witness :
    KeysAscending scenario_rem ∧ PopulationsNonneg scenario_rem ∧
    (0 : Int) < 7 ∧ (7 : Int) ≤ 2 ^ 21 ∧ 0 < get_total_population scenario_rem ∧
    ∃ m', hamiltons_method_f32 scenario_rem 7 = some m' ∧
      m'.map frame = scenario_rem.map frame ∧
      (∀ e ∈ m',
        e.2.seats = ⌊quotient_f32 (get_total_population scenario_rem) 7 e.2.population⌋ ∨
        e.2.seats = ⌊quotient_f32 (get_total_population scenario_rem) 7 e.2.population⌋ + 1) ∧
      ((m'.countP (fun e => decide
          (e.2.seats =
            ⌊quotient_f32 (get_total_population scenario_rem) 7 e.2.population⌋ + 1)) : Nat) : Int)
        = 7 - (scenario_rem.map
            (fun e => ⌊quotient_f32 (get_total_population scenario_rem) 7 e.2.population⌋)).sum :=
  ⟨scenario_rem_keys, scenario_rem_nonneg, by decide, by decide, by decide,
    hamiltons_method_quota_rule_f32 scenario_rem 7 scenario_rem_keys scenario_rem_nonneg
      (by decide) (by decide) (by decide)⟩

theorem hamiltons_method_largest_residuals_f32_witness :
    KeysAscending scenario_rem ∧ PopulationsNonneg scenario_rem ∧
    (0 : Int) < 7 ∧ (7 : Int) ≤ 2 ^ 21 ∧ 0 < get_total_population scenario_rem ∧
    ∃ m', hamiltons_method_f32 scenario_rem 7 = some m' ∧
      m'.map frame = scenario_rem.map frame ∧
      ∀ e1 ∈ m', ∀ e2 ∈ m',
        e1.2.seats = ⌊quotient_f32 (get_total_population scenario_rem) 7 e1.2.population⌋ + 1 →
        e2.2.seats = ⌊quotient_f32 (get_total_population scenario_rem) 7 e2.2.population⌋ →
        residual_f32 (get_total_population scenario_rem) 7 e2.2.population ≤
          residual_f32 (get_total_population scenario_rem) 7 e1.2.population ∧
        (residual_f32 (get_total_population scenario_rem) 7 e2.2.population =
          residual_f32 (get_total_population scenario_rem) 7 e1.2.population → e1.1 < e2.1) :=
  ⟨scenario_rem_keys, scenario_rem_nonneg, by decide, by decide, by decide,
    hamiltons_method_largest_residuals_f32 scenario_rem 7 scenario_rem_keys scenario_rem_nonneg
      (by decide) (by decide) (by decide)⟩

/-- Hamilton's method in binary32 from the result of its first pass. -/
theorem hamiltons_method_f32_of_first_pass (m : StateMap) (S : Int) (m1 : StateMap) (sa : Int)
    (h : hamilton_first_pass_f32 (quota_f32 (get_total_population m) S) m = some (m1, sa)) :
    hamiltons_method_f32 m S = some (hamilton_remaining (S - sa).toNat m1) := by
  simp only [hamiltons_method_f32, h]

theorem scenario_big_keys : KeysAscending scenario_big := by
  simp [KeysAscending, scenario_big, String.lt_iff_toList_lt]
  decide

theorem scenario_big_nonneg : PopulationsNonneg scenario_big := by
  unfold PopulationsNonneg scenario_big
  decide

theorem f32_big_total : f32 ((33554434 : Int) : ℚ) = 33554432 := by
  have h : round_even ((((33554434 : Int) : ℚ)) / (2 : ℚ) ^ ((25 : Int) - (((24 : Nat) : Int) - 1))) =
      8388608 := by
    have e : (((33554434 : Int) : ℚ)) / (2 : ℚ) ^ ((25 : Int) - (((24 : Nat) : Int) - 1)) =
        ((8388608 : Int) : ℚ) + 1 / 2 := by norm_num
    rw [e]
    exact round_even_half_even (by decide)
  unfold f32
  rw [fp_round_eval 24 25 8388608 (by norm_num) (by norm_num) h]
  norm_num

theorem f32_big_b : f32 ((33554433 : Int) : ℚ) = 33554432 := by
  unfold f32
  rw [fp_round_eval_pos 24 25 8388608 (by norm_num) (by norm_num) (by norm_num) (by norm_num)]
  norm_num

theorem f32_two_pow_25 : f32 (33554432 : ℚ) = 33554432 := by
  unfold f32
  rw [fp_round_eval_pos 24 25 8388608 (by norm_num) (by norm_num) (by norm_num) (by norm_num)]
  norm_num

theorem scenario_big_first_pass :
    hamilton_first_pass_f32 (quota_f32 33554434 33554434) scenario_big =
      some ([("A", ⟨"A", 1, 1, 0⟩), ("B", ⟨"B", 33554433, 33554432, 0⟩)], 33554433) := by
  have h1 : f32 ((1 : Int) : ℚ) = 1 := by simpa using f32_one
  have hq : f32 (f32 ((33554434 : Int) : ℚ) / f32 ((33554434 : Int) : ℚ)) = 1 := by
    rw [f32_big_total]; norm_num [f32_one]
  have qa : quotient_f32 33554434 33554434 1 = ((1 : Int) : ℚ) := by
    unfold quotient_f32
    rw [hq, h1]; norm_num [f32_one]
  have qb : quotient_f32 33554434 33554434 33554433 = ((33554432 : Int) : ℚ) := by
    unfold quotient_f32
    rw [hq, f32_big_b]; norm_num [f32_two_pow_25]
  have ra : residual_f32 33554434 33554434 1 = 0 := by
    unfold residual_f32
    rw [qa, truncate_intCast, h1]; norm_num [f32_zero]
  have rb : residual_f32 33554434 33554434 33554433 = 0 := by
    unfold residual_f32
    rw [qb, truncate_intCast]
    have : f32 ((33554432 : Int) : ℚ) = ((33554432 : Int) : ℚ) := by
      norm_num [f32_two_pow_25]
    rw [this]; norm_num [f32_zero]
  have hfp := hamilton_first_pass_f32_spec (P := 33554434) (S := 33554434) (by decide)
    (by decide) scenario_big
  simp only [scenario_big, List.map_cons, List.map_nil, qa, qb, ra, rb, truncate_intCast,
    List.sum_cons, List.sum_nil] at hfp
  rw [scenario_big, hfp]
  rfl

/-- C2, the claim as stated fails. For A = 1, B = 33554433 and `S = 33554434`
(a valid input; `S = P`, so the exact shares are 1 and 33554433) the
conversions `(float)P` and `(float)33554433` are both 33554432: the quota is
1.0, the first pass gives B 33554432 seats, and the one remaining seat goes to
A.  B ends one seat below `floor(exact_seats)`, A one seat above. -/
theorem hamiltons_method_quota_counterexample :
    KeysAscending scenario_big ∧ PopulationsNonneg scenario_big ∧ (0 : Int) < 33554434 ∧
    get_total_population scenario_big = 33554434 ∧
    (hamiltons_method_f32 scenario_big 33554434).map seats_view =
      some [("A", 2), ("B", 33554432)] ∧
    ⌊exact_share 33554434 33554434 33554433⌋ = 33554433 ∧
    ¬ ((33554432 : Int) = ⌊exact_share 33554434 33554434 33554433⌋ ∨
      (33554432 : Int) = ⌊exact_share 33554434 33554434 33554433⌋ + 1) := by
  have hP : get_total_population scenario_big = 33554434 := by decide
  have hx : ⌊exact_share 33554434 33554434 33554433⌋ = 33554433 := by
    unfold exact_share
    rw [Int.floor_eq_iff]
    norm_num
  refine ⟨scenario_big_keys, scenario_big_nonneg, by decide, hP, ?_, hx, ?_⟩
  · rw [hamiltons_method_f32_of_first_pass scenario_big 33554434 _ _
      (by rw [hP]; exact scenario_big_first_pass)]
    have h1 : ((33554434 : Int) - 33554433).toNat = 1 := by decide
    rw [h1]
    norm_num [hamilton_remaining, hamilton_step, scan_max, at_key, seats_view]
  · rw [hx]; decide

theorem scenario_thirds_keys : KeysAscending scenario_thirds := by
  simp [KeysAscending, scenario_thirds, String.lt_iff_toList_lt]
  decide

theorem scenario_thirds_nonneg : PopulationsNonneg scenario_thirds := by
  unfold PopulationsNonneg scenario_thirds
  decide

theorem scenario_thirds_first_pass :
    hamilton_first_pass_f32 (quota_f32 30 10) scenario_thirds =
      some ([("A", ⟨"A", 2, 0, 11184811 / 16777216⟩), ("B", ⟨"B", 2, 0, 11184811 / 16777216⟩),
             ("C", ⟨"C", 26, 8, 699051 / 1048576⟩)], 8) := by
  have h2 : f32 ((2 : Int) : ℚ) = 2 := by simpa using f32_intCast 2 (by decide)
  have h10 : f32 ((10 : Int) : ℚ) = 10 := by simpa using f32_intCast 10 (by decide)
  have h26 : f32 ((26 : Int) : ℚ) = 26 := by simpa using f32_intCast 26 (by decide)
  have h30 : f32 ((30 : Int) : ℚ) = 30 := by simpa using f32_intCast 30 (by decide)
  have h3 : f32 (3 : ℚ) = 3 := by simpa using f32_intCast 3 (by decide)
  have h8 : f32 ((8 : Int) : ℚ) = 8 := by simpa using f32_intCast 8 (by decide)
  have h0 : f32 ((0 : Int) : ℚ) = 0 := by simpa using f32_zero
  have hq : f32 (f32 ((30 : Int) : ℚ) / f32 ((10 : Int) : ℚ)) = 3 := by
    rw [h30, h10]; norm_num [h3]
  have ea : f32 ((2 : ℚ) / 3) = 11184811 / 16777216 := by
    unfold f32
    rw [fp_round_eval_pos 24 (-1) 11184811 (by norm_num) (by norm_num) (by norm_num)
      (by norm_num)]
    norm_num
  have ec : f32 ((26 : ℚ) / 3) = 9087659 / 1048576 := by
    unfold f32
    rw [fp_round_eval_pos 24 3 9087659 (by norm_num) (by norm_num) (by norm_num) (by norm_num)]
    norm_num
  have fa : f32 ((11184811 : ℚ) / 16777216) = 11184811 / 16777216 := by
    unfold f32
    rw [fp_round_eval_pos 24 (-1) 11184811 (by norm_num) (by norm_num) (by norm_num)
      (by norm_num)]
    norm_num
  have fc : f32 ((699051 : ℚ) / 1048576) = 699051 / 1048576 := by
    unfold f32
    rw [fp_round_eval_pos 24 (-1) 11184816 (by norm_num) (by norm_num) (by norm_num)
      (by norm_num)]
    norm_num
  have qa : quotient_f32 30 10 2 = 11184811 / 16777216 := by
    unfold quotient_f32
    rw [hq, h2, ea]
  have qc : quotient_f32 30 10 26 = 9087659 / 1048576 := by
    unfold quotient_f32
    rw [hq, h26, ec]
  have ta : truncate ((11184811 : ℚ) / 16777216) = 0 := by
    rw [truncate_of_nonneg (by norm_num), Int.floor_eq_iff]; norm_num
  have tc : truncate ((9087659 : ℚ) / 1048576) = 8 := by
    rw [truncate_of_nonneg (by norm_num), Int.floor_eq_iff]; norm_num
  have ra : residual_f32 30 10 2 = 11184811 / 16777216 := by
    unfold residual_f32
    rw [qa, ta, h0, sub_zero, fa]
  have rc : residual_f32 30 10 26 = 699051 / 1048576 := by
    unfold residual_f32
    rw [qc, tc, h8]
    have : (9087659 : ℚ) / 1048576 - 8 = 699051 / 1048576 := by norm_num
    rw [this, fc]
  have hfp := hamilton_first_pass_f32_spec (P := 30) (S := 10) (by decide) (by decide)
    scenario_thirds
  simp only [scenario_thirds, List.map_cons, List.map_nil, qa, qc, ra, rc, ta, tc,
    List.sum_cons, List.sum_nil] at hfp
  rw [scenario_thirds, hfp]
  rfl

/-- C3, the claim as stated fails. For A = 2, B = 2, C = 26 and `S = 10` (a
valid input) the exact residuals are 2/3 for all three, so the two extra seats
should go to A and B, the first in iteration order.  In binary32 the residual
of C is stored as 699051/1048576, above the 11184811/16777216 stored for A and
B: C and A get the extra seats, and C, which comes after B, has the extra seat
that B, of equal exact residual, has not. -/
theorem hamiltons_method_residual_counterexample :
    KeysAscending scenario_thirds ∧ PopulationsNonneg scenario_thirds ∧ (0 : Int) < 10 ∧
    get_total_population scenario_thirds = 30 ∧
    (hamiltons_method_f32 scenario_thirds 10).map seats_view =
      some [("A", 1), ("B", 0), ("C", 9)] ∧
    (9 : Int) = ⌊exact_share 30 10 26⌋ + 1 ∧ (0 : Int) = ⌊exact_share 30 10 2⌋ ∧
    exact_share 30 10 2 - ⌊exact_share 30 10 2⌋ = exact_share 30 10 26 - ⌊exact_share 30 10 26⌋ ∧
    ¬ ("C" < "B") := by
  have hP : get_total_population scenario_thirds = 30 := by decide
  have x2 : ⌊exact_share 30 10 2⌋ = 0 := by
    unfold exact_share; rw [Int.floor_eq_iff]; norm_num
  have x26 : ⌊exact_share 30 10 26⌋ = 8 := by
    unfold exact_share; rw [Int.floor_eq_iff]; norm_num
  refine ⟨scenario_thirds_keys, scenario_thirds_nonneg, by decide, hP, ?_, by rw [x26]; rfl,
    by rw [x2], ?_, ?_⟩
  · rw [hamiltons_method_f32_of_first_pass scenario_thirds 10 _ _
      (by rw [hP]; exact scenario_thirds_first_pass)]
    have h1 : ((10 : Int) - 8).toNat = 2 := by decide
    have c1 : ¬ (['C'] < ['B']) := by decide
    have c2 : ¬ (("C" : String) = "B") := by decide
    rw [h1]
    norm_num [hamilton_remaining, hamilton_step, scan_max, at_key, seats_view, c1, c2]
  · rw [x2, x26]; unfold exact_share; norm_num
  · simp only [String.lt_iff_toList_lt]
    decide

/-! ## Hamilton's method in binary32: exactly divisible input -/

/-- The `float` quotient of a non-negative population lies within four
roundings of its exact share. -/
theorem quotient_f32_rel_bounds {P S p : Int} (hP : 0 < P) (hS : 0 < S) (hS24 : S ≤ 2 ^ 24)
    (hp : 0 ≤ p) :
    exact_share P S p * ((1 - 1 / (2 : ℚ) ^ 24) ^ 2 / (1 + 1 / (2 : ℚ) ^ 24) ^ 2) ≤
      quotient_f32 P S p ∧
    quotient_f32 P S p ≤
      exact_share P S p * ((1 + 1 / (2 : ℚ) ^ 24) ^ 2 / (1 - 1 / (2 : ℚ) ^ 24) ^ 2) := by
  have h1 : (0 : ℚ) < (P : ℚ) := by exact_mod_cast hP
  have h2 : (0 : ℚ) < (S : ℚ) := by exact_mod_cast hS
  have h3 : (0 : ℚ) ≤ (p : ℚ) := by exact_mod_cast hp
  have hq := quota_f32_pos hP hS
  obtain ⟨q1, q2⟩ := quota_f32_bounds hP hS hS24
  obtain ⟨b1, b2⟩ := quotient_by_quota_bounds hq hp
  have u1 : (0 : ℚ) < (1 - 1 / (2 : ℚ) ^ 24) ^ 2 := by norm_num
  have u2 : (0 : ℚ) < (1 + 1 / (2 : ℚ) ^ 24) ^ 2 := by norm_num
  have hPS : (0 : ℚ) < (P : ℚ) / (S : ℚ) := div_pos h1 h2
  unfold quotient_f32 exact_share
  constructor
  · refine le_trans ?_ b1
    have : (p : ℚ) * (S : ℚ) / (P : ℚ) * ((1 - 1 / (2 : ℚ) ^ 24) ^ 2 / (1 + 1 / (2 : ℚ) ^ 24) ^ 2) =
        (p : ℚ) * ((1 - 1 / (2 : ℚ) ^ 24) ^ 2 / ((P : ℚ) / (S : ℚ) * (1 + 1 / (2 : ℚ) ^ 24) ^ 2)) := by
      field_simp
      ring
    rw [this]
    apply mul_le_mul_of_nonneg_left _ h3
    exact div_le_div_of_nonneg_left (le_of_lt u1) hq q2
  · refine le_trans b2 ?_
    have : (p : ℚ) * (S : ℚ) / (P : ℚ) * ((1 + 1 / (2 : ℚ) ^ 24) ^ 2 / (1 - 1 / (2 : ℚ) ^ 24) ^ 2) =
        (p : ℚ) * ((1 + 1 / (2 : ℚ) ^ 24) ^ 2 / ((P : ℚ) / (S : ℚ) * (1 - 1 / (2 : ℚ) ^ 24) ^ 2)) := by
      field_simp
      ring
    rw [this]
    apply mul_le_mul_of_nonneg_left _ h3
    exact div_le_div_of_nonneg_left (le_of_lt u2) (mul_pos hPS u1) q1

theorem f32_three_quarters : f32 (3 / 4) = 3 / 4 := by
  have h := @fp_round_exact 24 (by decide) 3 (-2) (by decide)
  unfold f32
  norm_num at h ⊢
  exact h

theorem f32_three_eighths : f32 (3 / 8) = 3 / 8 := by
  have h := @fp_round_exact 24 (by decide) 3 (-3) (by decide)
  unfold f32
  norm_num at h ⊢
  exact h

/-- The first pass on an integer share `k` of at most `2^20`: the `float`
quotient either falls short of `k`, and then the record gets `k - 1` seats and
a residual of at least 3/4, or it does not, and then the record gets `k` seats
and a residual of at most 3/8. -/
theorem first_pass_f32_of_int_share {P S p k : Int} (hP : 0 < P) (hS : 0 < S)
    (hp : 0 ≤ p) (hk : exact_share P S p = (k : ℚ)) (hk0 : 0 ≤ k) (hk20 : k ≤ 2 ^ 20)
    (hS24 : S ≤ 2 ^ 24) :
    (truncate (quotient_f32 P S p) = k - 1 ∧ 3 / 4 ≤ residual_f32 P S p) ∨
    (truncate (quotient_f32 P S p) = k ∧ residual_f32 P S p ≤ 3 / 8) := by
  obtain ⟨b1, b2⟩ := quotient_f32_rel_bounds hP hS hS24 hp
  rw [hk] at b1 b2
  have hq0 := quotient_f32_nonneg' hP hS hp
  have hkq0 : (0 : ℚ) ≤ (k : ℚ) := by exact_mod_cast hk0
  have hkq : (k : ℚ) ≤ 2 ^ 20 := by exact_mod_cast hk20
  have lo : (k : ℚ) - 1 / 4 ≤ quotient_f32 P S p := by
    have c : 1 - 1 / 2 ^ 22 ≤ ((1 - 1 / (2 : ℚ) ^ 24) ^ 2 / (1 + 1 / (2 : ℚ) ^ 24) ^ 2) := by
      norm_num
    have h3 : (k : ℚ) * (1 - 1 / 2 ^ 22) ≤
        (k : ℚ) * ((1 - 1 / (2 : ℚ) ^ 24) ^ 2 / (1 + 1 / (2 : ℚ) ^ 24) ^ 2) :=
      mul_le_mul_of_nonneg_left c hkq0
    have h4 : (k : ℚ) * (1 / 2 ^ 22) ≤ 2 ^ 20 * (1 / 2 ^ 22) :=
      mul_le_mul_of_nonneg_right hkq (by norm_num)
    have h5 : (2 : ℚ) ^ 20 * (1 / 2 ^ 22) = 1 / 4 := by norm_num
    linarith
  have hi : quotient_f32 P S p ≤ (k : ℚ) + 3 / 8 := by
    have c : ((1 + 1 / (2 : ℚ) ^ 24) ^ 2 / (1 - 1 / (2 : ℚ) ^ 24) ^ 2) ≤ 1 + 1 / 2 ^ 22 + 1 / 2 ^ 40 := by
      norm_num
    have h3 : (k : ℚ) * ((1 + 1 / (2 : ℚ) ^ 24) ^ 2 / (1 - 1 / (2 : ℚ) ^ 24) ^ 2) ≤
        (k : ℚ) * (1 + 1 / 2 ^ 22 + 1 / 2 ^ 40) := mul_le_mul_of_nonneg_left c hkq0
    have h4 : (k : ℚ) * (1 / 2 ^ 22 + 1 / 2 ^ 40) ≤ 2 ^ 20 * (1 / 2 ^ 22 + 1 / 2 ^ 40) :=
      mul_le_mul_of_nonneg_right hkq (by norm_num)
    have h5 : (2 : ℚ) ^ 20 * (1 / 2 ^ 22 + 1 / 2 ^ 40) ≤ 3 / 8 := by norm_num
    linarith
  rw [truncate_of_nonneg hq0]
  unfold residual_f32
  rw [truncate_of_nonneg hq0]
  rcases lt_or_le (quotient_f32 P S p) (k : ℚ) with hlt | hge
  · left
    have hfl : ⌊quotient_f32 P S p⌋ = k - 1 := by
      rw [Int.floor_eq_iff]
      push_cast
      constructor <;> linarith
    have hk1 : 1 ≤ k := by
      by_contra hc
      have : k = 0 := by omega
      rw [this] at hlt
      simp only [Int.cast_zero] at hlt
      linarith
    refine ⟨hfl, ?_⟩
    rw [hfl, f32_intCast (k - 1) (abs_le.mpr ⟨by omega, by omega⟩), ← f32_three_quarters]
    apply f32_mono (by norm_num)
    push_cast
    linarith
  · right
    have hfl : ⌊quotient_f32 P S p⌋ = k := by
      rw [Int.floor_eq_iff]
      constructor <;> linarith
    refine ⟨hfl, ?_⟩
    rw [hfl, f32_intCast k (abs_le.mpr ⟨by omega, by omega⟩), ← f32_three_eighths]
    apply f32_mono (by linarith)
    linarith

theorem exists_neg_of_sum_eq_zero (l : List Int) (h : l.sum = 0) (hpos : ∃ x ∈ l, 0 < x) :
    ∃ y ∈ l, y < 0 := by
  by_contra hcon
  have hall : ∀ y ∈ l, 0 ≤ y := by
    intro y hy
    by_contra hlt
    exact hcon ⟨y, hy, by omega⟩
  have key : ∀ t : List Int, (∀ y ∈ t, 0 ≤ y) → 0 ≤ t.sum ∧ ((∃ x ∈ t, 0 < x) → 0 < t.sum) := by
    intro t
    induction t with
    | nil => intro _; simp
    | cons a t ih =>
      intro ht
      obtain ⟨i1, i2⟩ := ih (fun y hy => ht y (List.mem_cons_of_mem _ hy))
      have ha := ht a (List.mem_cons_self _ _)
      rw [List.sum_cons]
      refine ⟨by omega, ?_⟩
      rintro ⟨x, hx, hx0⟩
      rcases List.mem_cons.mp hx with rfl | hx
      · omega
      · have := i2 ⟨x, hx, hx0⟩
        omega
  have := (key l hall).2 hpos
  omega

theorem exists_pos_of_sum_eq_zero (l : List Int) (h : l.sum = 0) (hneg : ∃ x ∈ l, x < 0) :
    ∃ y ∈ l, 0 < y := by
  have hsum : (l.map (fun x => -x)).sum = 0 := by
    have : ∀ t : List Int, (t.map (fun x => -x)).sum = -t.sum := by
      intro t
      induction t with
      | nil => simp
      | cons a t ih => simp only [List.map_cons, List.sum_cons, ih]; ring
    rw [this, h]; rfl
  obtain ⟨x, hx, hx0⟩ := hneg
  obtain ⟨y, hy, hy0⟩ := exists_neg_of_sum_eq_zero _ hsum
    ⟨-x, List.mem_map_of_mem _ hx, by omega⟩
  obtain ⟨z, hz, rfl⟩ := List.mem_map.mp hy
  exact ⟨z, hz, by omega⟩

theorem seats_view_of_frame_eq (g : Int → Int) {m m' : StateMap}
    (hfr : m'.map frame = m.map frame) (hs : ∀ e ∈ m', e.2.seats = g e.2.population) :
    seats_view m' = m.map (fun e => (e.1, g e.2.population)) := by
  have h1 : seats_view m' = (m'.map frame).map (fun f => (f.1, g f.2.2)) := by
    unfold seats_view
    rw [List.map_map]
    apply List.map_congr_left
    intro e he
    simp [frame, hs e he]
  rw [h1, hfr, List.map_map]
  apply List.map_congr_left
  intro e _
  simp [frame]

theorem forall_population_of_frame_eq (Q : Int → Prop) {m m' : StateMap}
    (h : m'.map frame = m.map frame) (hQ : ∀ e ∈ m, Q e.2.population) :
    ∀ e ∈ m', Q e.2.population := by
  intro e he
  have hmem : frame e ∈ m.map frame := by
    rw [← h]; exact List.mem_map_of_mem frame he
  obtain ⟨e0, he0, hfe⟩ := List.mem_map.mp hmem
  have : e0.2.population = e.2.population := by
    have := congrArg (fun f => f.2.2) hfe
    simpa [frame] using this
  rw [← this]
  exact hQ e0 he0

theorem population_le_total (m : StateMap) (hp : PopulationsNonneg m) :
    ∀ e ∈ m, e.2.population ≤ get_total_population m := by
  rw [get_total_population_eq_sum]
  induction m with
  | nil => intro e he; exact absurd he (List.not_mem_nil _)
  | cons hd rest ih =>
    have hrest : PopulationsNonneg rest := fun e he => hp e (List.mem_cons_of_mem _ he)
    have h0 := hp hd (List.mem_cons_self _ _)
    have hsum : 0 ≤ (rest.map (fun e => e.2.population)).sum := by
      apply List.sum_nonneg
      intro x hx
      obtain ⟨e, he, rfl⟩ := List.mem_map.mp hx
      exact hrest e he
    intro e he
    simp only [List.map_cons, List.sum_cons]
    rcases List.mem_cons.mp he with rfl | he
    · omega
    · have := ih hrest e he
      omega

/-- The integer shares of exactly divisible input add up to `S`. -/
theorem sum_int_share (m : StateMap) (S : Int) (hP : get_total_population m ≠ 0)
    (hdiv : ∀ e ∈ m, get_total_population m ∣ e.2.population * S) :
    (m.map (fun e => e.2.population * S / get_total_population m)).sum = S := by
  set P := get_total_population m with hPdef
  have hex : m.map (fun e => exact_share P S e.2.population) =
      (m.map (fun e => e.2.population * S / P)).map (fun z : Int => (z : ℚ)) := by
    rw [List.map_map]
    apply List.map_congr_left
    intro e he
    rw [exact_share_of_dvd hP (hdiv e he)]
    rfl
  have h := sum_exact_share m S hP hPdef.symm
  rw [hex] at h
  have hc : ∀ l : List Int, (l.map (fun z : Int => (z : ℚ))).sum = ((l.sum : Int) : ℚ) := by
    intro l
    induction l with
    | nil => simp
    | cons a t ih => rw [List.map_cons, List.sum_cons, List.sum_cons, ih, Int.cast_add]
  rw [hc] at h
  exact_mod_cast h

theorem sum_map_sub (a b : String × StateData → Int) (l : StateMap) :
    (l.map (fun e => a e - b e)).sum = (l.map a).sum - (l.map b).sum := by
  induction l with
  | nil => simp
  | cons hd rest ih => simp only [List.map_cons, List.sum_cons, ih]; ring

/-- C4, as the code has it. `hamiltons_method` on exactly divisible input: for
every table of non-negative populations (keys ascending) and `0 < S <= 2^20`
such that `population * S` is divisible by the total population `P > 0` for
every entity, the method returns with exactly `population * S / P` seats for
each entity.  (The first pass alone need not reach `S`: a `float` quotient
can fall short of the integer share, and the remainder loop then runs once for
that entity.) -/
theorem hamiltons_method_divisible_f32 (m : StateMap) (S : Int) (hk : KeysAscending m)
    (hp : PopulationsNonneg m) (hS : 0 < S) (hS20 : S ≤ 2 ^ 20)
    (hP : 0 < get_total_population m)
    (hdiv : ∀ e ∈ m, get_total_population m ∣ e.2.population * S) :
    ∃ m', hamiltons_method_f32 m S = some m' ∧ m'.map frame = m.map frame ∧
      (∀ e ∈ m', e.2.seats = e.2.population * S / get_total_population m) ∧
      seats_view m' = m.map (fun e => (e.1, e.2.population * S / get_total_population m)) := by
  obtain ⟨m', h1, _, h3, h4, h5⟩ := hamilton_f32_spec m S hk hp hS (by omega) hP
  set P := get_total_population m with hPdef
  have hPne : P ≠ 0 := ne_of_gt hP
  have hp' : PopulationsNonneg m' := populationsNonneg_of_frame_eq h4 hp
  have hdiv' : ∀ e ∈ m', P ∣ e.2.population * S :=
    forall_population_of_frame_eq (fun p => P ∣ p * S) h4 hdiv
  have hle' : ∀ e ∈ m', e.2.population ≤ P :=
    forall_population_of_frame_eq (fun p => p ≤ P) h4 (population_le_total m hp)
  have hsumk : (m'.map (fun e => e.2.population * S / P)).sum = S := by
    rw [sum_of_frame_eq (fun p => p * S / P) h4]
    exact sum_int_share m S hPne hdiv
  -- every record is at its share, one below it and unused, or one above it and used
  have hcase : ∀ e ∈ m',
      e.2.seats = e.2.population * S / P ∨
      (e.2.seats = e.2.population * S / P - 1 ∧ e.2.residual ≠ -1 ∧
        3 / 4 ≤ residual_f32 P S e.2.population) ∨
      (e.2.seats = e.2.population * S / P + 1 ∧ e.2.residual = -1 ∧
        residual_f32 P S e.2.population ≤ 3 / 8) := by
    intro e he
    have h0 := hp' e he
    have hk0 : 0 ≤ e.2.population * S / P :=
      Int.ediv_nonneg (Int.mul_nonneg h0 (le_of_lt hS)) (le_of_lt hP)
    have hkS : e.2.population * S / P ≤ S := by
      have : e.2.population * S ≤ P * S :=
        Int.mul_le_mul_of_nonneg_right (hle' e he) (le_of_lt hS)
      calc e.2.population * S / P ≤ P * S / P := Int.ediv_le_ediv hP this
        _ = S := Int.mul_ediv_cancel_left S hPne
    have hshare := exact_share_of_dvd (S := S) hPne (hdiv' e he)
    rcases first_pass_f32_of_int_share hP hS h0 hshare hk0 (by omega) (by omega) with
      ⟨ht, hr⟩ | ⟨ht, hr⟩
    · rcases h3.1 e he with ⟨u1, u2⟩ | ⟨u1, u2⟩
      · right; left
        simp only at u2
        refine ⟨by rw [u2, ht], ?_, hr⟩
        rw [u1]; intro hc; rw [hc] at hr; norm_num at hr
      · left
        simp only at u2
        rw [u2, ht]; ring
    · rcases h3.1 e he with ⟨_, u2⟩ | ⟨u1, u2⟩
      · left
        simp only at u2
        rw [u2, ht]
      · right; right
        simp only at u2
        exact ⟨by rw [u2, ht], u1, hr⟩
  have hsum0 : (m'.map (fun e => e.2.population * S / P - e.2.seats)).sum = 0 := by
    rw [sum_map_sub (fun e => e.2.population * S / P) (fun e => e.2.seats), hsumk,
      ← seat_total_eq_sum, h5]
    ring
  have hbad : ∀ e1 ∈ m', ∀ e2 ∈ m',
      (e1.2.residual = -1 ∧ residual_f32 P S e1.2.population ≤ 3 / 8) →
      (e2.2.residual ≠ -1 ∧ 3 / 4 ≤ residual_f32 P S e2.2.population) → False := by
    intro e1 he1 e2 he2 ⟨a1, a2⟩ ⟨b1, b2⟩
    rcases h3.2 e1 he1 e2 he2 a1 b1 with h | ⟨h, _⟩ <;> linarith
  have hseats : ∀ e ∈ m', e.2.seats = e.2.population * S / P := by
    intro e he
    rcases hcase e he with h | ⟨h, hne, hr⟩ | ⟨h, hu, hr⟩
    · exact h
    · exfalso
      obtain ⟨y, hy, hy0⟩ := exists_neg_of_sum_eq_zero _ hsum0
        ⟨_, List.mem_map_of_mem (fun e => e.2.population * S / P - e.2.seats) he, by omega⟩
      obtain ⟨e', he', rfl⟩ := List.mem_map.mp hy
      rcases hcase e' he' with h' | ⟨h', _, _⟩ | ⟨_, hu', hr'⟩
      · omega
      · omega
      · exact hbad e' he' e he ⟨hu', hr'⟩ ⟨hne, hr⟩
    · exfalso
      obtain ⟨y, hy, hy0⟩ := exists_pos_of_sum_eq_zero _ hsum0
        ⟨_, List.mem_map_of_mem (fun e => e.2.population * S / P - e.2.seats) he, by omega⟩
      obtain ⟨e', he', rfl⟩ := List.mem_map.mp hy
      rcases hcase e' he' with h' | ⟨_, hne', hr'⟩ | ⟨h', _, _⟩
      · omega
      · exact hbad e he e' he' ⟨hu, hr⟩ ⟨hne', hr'⟩
      · omega
  exact ⟨m', h1, h4, hseats, seats_view_of_frame_eq (fun p => p * S / P) h4 hseats⟩

theorem hamiltons_method_divisible_f32_witness :
    KeysAscending scenario_abc ∧ PopulationsNonneg scenario_abc ∧ (0 : Int) < 5 ∧
    (5 : Int) ≤ 2 ^ 20 ∧ 0 < get_total_population scenario_abc ∧
    (∀ e ∈ scenario_abc, get_total_population scenario_abc ∣ e.2.population * 5) ∧
    ∃ m', hamiltons_method_f32 scenario_abc 5 = some m' ∧
      m'.map frame = scenario_abc.map frame ∧
      (∀ e ∈ m', e.2.seats = e.2.population * 5 / get_total_population scenario_abc) ∧
      seats_view m' = [("A", 1), ("B", 1), ("C", 3)] :=
  ⟨scenario_abc_keys, scenario_abc_nonneg, by decide, by decide, by decide, by decide,
    hamiltons_method_divisible_f32 scenario_abc 5 scenario_abc_keys scenario_abc_nonneg
      (by decide) (by decide) (by decide) (by decide)⟩

theorem scenario_unit_first_pass :
    hamilton_first_pass_f32 (quota_f32 1 7) scenario_unit =
      some ([("A", ⟨"A", 1, 6, 2097151 / 2097152⟩)], 6) := by
  have h1 : f32 ((1 : Int) : ℚ) = 1 := by simpa using f32_one
  have h7 : f32 ((7 : Int) : ℚ) = 7 := by simpa using f32_intCast 7 (by decide)
  have h6 : f32 ((6 : Int) : ℚ) = 6 := by simpa using f32_intCast 6 (by decide)
  have e7 : f32 ((1 : ℚ) / 7) = 9586981 / 67108864 := by
    unfold f32
    rw [fp_round_eval_pos 24 (-3) 9586981 (by norm_num) (by norm_num) (by norm_num)
      (by norm_num)]
    norm_num
  have eq : f32 ((1 : ℚ) / (9586981 / 67108864)) = 14680063 / 2097152 := by
    unfold f32
    rw [fp_round_eval_pos 24 2 14680063 (by norm_num) (by norm_num) (by norm_num)
      (by norm_num)]
    norm_num
  have er : f32 ((2097151 : ℚ) / 2097152) = 2097151 / 2097152 := by
    unfold f32
    rw [fp_round_eval_pos 24 (-1) 16777208 (by norm_num) (by norm_num) (by norm_num)
      (by norm_num)]
    norm_num
  have qa : quotient_f32 1 7 1 = 14680063 / 2097152 := by
    unfold quotient_f32
    rw [h1, h7, e7, eq]
  have ta : truncate ((14680063 : ℚ) / 2097152) = 6 := by
    rw [truncate_of_nonneg (by norm_num), Int.floor_eq_iff]; norm_num
  have ra : residual_f32 1 7 1 = 2097151 / 2097152 := by
    unfold residual_f32
    rw [qa, ta, h6]
    have : (14680063 : ℚ) / 2097152 - 6 = 2097151 / 2097152 := by norm_num
    rw [this, er]
  have hfp := hamilton_first_pass_f32_spec (P := 1) (S := 7) (by decide) (by decide)
    scenario_unit
  simp only [scenario_unit, List.map_cons, List.map_nil, qa, ra, ta, List.sum_cons,
    List.sum_nil] at hfp
  rw [scenario_unit, hfp]
  rfl

/-- C4, the claim as stated fails. For the single entity A = 1 and `S = 7`
(`population * S = 7` is divisible by `P = 1`) the `float` quota is
9586981/67108864, just above 1/7, and the `float` quotient 14680063/2097152 is
just below 7: the first pass assigns 6 seats, not 7, and the remainder loop
runs once to hand out the seventh. -/
theorem hamiltons_method_divisible_counterexample :
    (0 : Int) < 7 ∧ get_total_population scenario_unit = 1 ∧
    (∀ e ∈ scenario_unit, get_total_population scenario_unit ∣ e.2.population * 7) ∧
    hamilton_first_pass_f32 (quota_f32 1 7) scenario_unit =
      some ([("A", ⟨"A", 1, 6, 2097151 / 2097152⟩)], 6) ∧
    ((7 : Int) - 6).toNat = 1 ∧
    hamiltons_method_f32 scenario_unit 7 = some [("A", ⟨"A", 1, 7, -1⟩)] := by
  have hP : get_total_population scenario_unit = 1 := by decide
  refine ⟨by decide, hP, by decide, scenario_unit_first_pass, by decide, ?_⟩
  rw [hamiltons_method_f32_of_first_pass scenario_unit 7 _ _
    (by rw [hP]; exact scenario_unit_first_pass)]
  have h1 : ((7 : Int) - 6).toNat = 1 := by decide
  rw [h1]
  norm_num [hamilton_remaining, hamilton_step, scan_max, at_key]

/-! ## The Huntington-Hill method in binary32 -/

theorem f64_sqrt_pos {x : ℚ} (hx : 0 < x) : 0 < f64_sqrt x := fp_sqrt_pos (by decide) hx

theorem f64_sqrt_mono {x y : ℚ} (hx : 0 < x) (hxy : x ≤ y) : f64_sqrt x ≤ f64_sqrt y :=
  fp_sqrt_mono (by decide) hx hxy

/-- The radicand `seats * (seats + 1.0)` as a `double`, for `seats >= 1`: it is
positive and does not decrease with the seats. -/
theorem radicand_f64 {s t : Int} (hs : 1 ≤ s) (hst : s ≤ t) :
    0 < f64 (f64 (s : ℚ) * f64 (f64 (s : ℚ) + 1)) ∧
    f64 (f64 (s : ℚ) * f64 (f64 (s : ℚ) + 1)) ≤ f64 (f64 (t : ℚ) * f64 (f64 (t : ℚ) + 1)) := by
  have h1 : (0 : ℚ) < (s : ℚ) := by exact_mod_cast (by omega : 0 < s)
  have h2 : (s : ℚ) ≤ (t : ℚ) := by exact_mod_cast hst
  have a1 : 0 < f64 (s : ℚ) := f64_pos h1
  have a2 : f64 (s : ℚ) ≤ f64 (t : ℚ) := f64_mono (le_of_lt h1) h2
  have b1 : 0 < f64 (f64 (s : ℚ) + 1) := f64_pos (by linarith)
  have b2 : f64 (f64 (s : ℚ) + 1) ≤ f64 (f64 (t : ℚ) + 1) := f64_mono (by linarith) (by linarith)
  have c1 : 0 < f64 (s : ℚ) * f64 (f64 (s : ℚ) + 1) := mul_pos a1 b1
  have c2 : f64 (s : ℚ) * f64 (f64 (s : ℚ) + 1) ≤ f64 (t : ℚ) * f64 (f64 (t : ℚ) + 1) :=
    mul_le_mul a2 b2 (le_of_lt b1) (le_trans (le_of_lt a1) a2)
  exact ⟨f64_pos c1, f64_mono (le_of_lt c1) c2⟩

theorem priority_f32_nonneg {d : StateData} (hp : 0 ≤ d.population) (hs : 1 ≤ d.seats) :
    0 ≤ priority_f32 d := by
  unfold priority_f32
  have h1 : (0 : ℚ) ≤ (d.population : ℚ) := by exact_mod_cast hp
  have h2 := (radicand_f64 hs (le_refl _)).1
  exact f32_nonneg (f64_nonneg (div_nonneg (f64_nonneg h1) (le_of_lt (f64_sqrt_pos h2))))

theorem priority_f32_pos {d : StateData} (hp : 0 < d.population) (hs : 1 ≤ d.seats) :
    0 < priority_f32 d := by
  unfold priority_f32
  have h1 : (0 : ℚ) < (d.population : ℚ) := by exact_mod_cast hp
  have h2 := (radicand_f64 hs (le_refl _)).1
  exact f32_pos (f64_pos (div_pos (f64_pos h1) (f64_sqrt_pos h2)))

/-- The `float` priority of a non-negative population does not grow with the
seats: every operation that forms it is monotone. -/
theorem priority_f32_antitone {a b : StateData} (hpop : a.population = b.population)
    (hp : 0 ≤ a.population) (hs : 1 ≤ a.seats) (hst : a.seats ≤ b.seats) :
    priority_f32 b ≤ priority_f32 a := by
  unfold priority_f32
  rw [← hpop]
  have h1 : (0 : ℚ) ≤ (a.population : ℚ) := by exact_mod_cast hp
  obtain ⟨r1, r2⟩ := radicand_f64 hs hst
  have s1 := f64_sqrt_pos r1
  have s2 := f64_sqrt_mono r1 r2
  have s3 : 0 < f64_sqrt (f64 (f64 (b.seats : ℚ) * f64 (f64 (b.seats : ℚ) + 1))) :=
    lt_of_lt_of_le s1 s2
  have q : f64 (a.population : ℚ) /
        f64_sqrt (f64 (f64 (b.seats : ℚ) * f64 (f64 (b.seats : ℚ) + 1))) ≤
      f64 (a.population : ℚ) /
        f64_sqrt (f64 (f64 (a.seats : ℚ) * f64 (f64 (a.seats : ℚ) + 1))) :=
    div_le_div_of_nonneg_left (f64_nonneg h1) s1 s2
  have q0 : 0 ≤ f64 (a.population : ℚ) /
      f64_sqrt (f64 (f64 (b.seats : ℚ) * f64 (f64 (b.seats : ℚ) + 1))) :=
    div_nonneg (f64_nonneg h1) (le_of_lt s3)
  exact f32_mono (f64_nonneg q0) (f64_mono q0 q)

/-- One iteration of the loop in binary32, when some priority exceeds the start
value `-1`: the first record of maximal `float` priority gets one more seat. -/
theorem hh_step_f32_split (m : StateMap) (hk : KeysAscending m)
    (hex : ∃ e ∈ m, (-1 : ℚ) < priority_f32 e.2) :
    ∃ l1 k d l2, m = l1 ++ (k, d) :: l2 ∧
      hh_step_f32 m = l1 ++ (k, { d with seats := d.seats + 1 }) :: l2 ∧
      (∀ e ∈ l1, priority_f32 e.2 < priority_f32 d) ∧
      (∀ e ∈ l2, priority_f32 e.2 ≤ priority_f32 d) := by
  rcases scan_max_spec priority_f32 m "" (-1) with
    ⟨hall, _⟩ | ⟨l1, k, d, l2, hm, heq, _, h1, h2⟩
  · obtain ⟨e, he, hlt⟩ := hex
    exact absurd (hall e he) (not_le.mpr hlt)
  · refine ⟨l1, k, d, l2, hm, ?_, h1, h2⟩
    have hk1 : KeysAscending (l1 ++ (k, d) :: l2) := hm ▸ hk
    unfold hh_step_f32
    simp only [heq]
    rw [hm, at_key_of_split l1 k d l2 _ hk1]

/-- One iteration of the loop in binary32 on a non-empty table with
non-negative populations and at least one seat everywhere: an existing record
gets the seat, and the priority condition is kept. -/
theorem hh_step_f32_inv (m : StateMap) (hk : KeysAscending m) (hne : m ≠ [])
    (hp : PopulationsNonneg m) (hs : ∀ e ∈ m, 1 ≤ e.2.seats) (hopt : PriorityOptimal_f32 m) :
    KeysAscending (hh_step_f32 m) ∧ hh_step_f32 m ≠ [] ∧ PopulationsNonneg (hh_step_f32 m) ∧
    (∀ e ∈ hh_step_f32 m, 1 ≤ e.2.seats) ∧ PriorityOptimal_f32 (hh_step_f32 m) ∧
    (hh_step_f32 m).map frame = m.map frame := by
  have hex : ∃ e ∈ m, (-1 : ℚ) < priority_f32 e.2 := by
    obtain ⟨e, he⟩ := List.exists_mem_of_ne_nil m hne
    have := priority_f32_nonneg (hp e he) (hs e he)
    exact ⟨e, he, by linarith⟩
  obtain ⟨l1, k, d, l2, hm, hstep, h1, h2⟩ := hh_step_f32_split m hk hex
  have hk1 : KeysAscending (l1 ++ (k, d) :: l2) := hm ▸ hk
  have hdm : (k, d) ∈ m := by rw [hm]; simp
  have hl1 : ∀ e ∈ l1, e ∈ m := fun e he => by rw [hm]; simp [he]
  have hl2 : ∀ e ∈ l2, e ∈ m := fun e he => by rw [hm]; simp [he]
  have hpd : 0 ≤ d.population := hp (k, d) hdm
  have hsd : 1 ≤ d.seats := hs (k, d) hdm
  have hmax : ∀ e ∈ m, priority_f32 e.2 ≤ priority_f32 d := by
    intro e he
    rw [hm] at he
    rcases List.mem_append.mp he with h | h
    · exact le_of_lt (h1 e h)
    · rcases List.mem_cons.mp h with rfl | h
      · exact le_refl _
      · exact h2 e h
  have hmem : ∀ e ∈ hh_step_f32 m, e ∈ m ∨ e = (k, { d with seats := d.seats + 1 }) := by
    intro e he
    rw [hstep] at he
    rcases List.mem_append.mp he with h | h
    · exact Or.inl (hl1 e h)
    · rcases List.mem_cons.mp h with h | h
      · exact Or.inr h
      · exact Or.inl (hl2 e h)
  have hback : priority_f32 { ({ d with seats := d.seats + 1 } : StateData) with
      seats := d.seats + 1 - 1 } = priority_f32 d := by
    have e1 : d.seats + 1 - 1 = d.seats := by omega
    rw [e1]
  have hdown : priority_f32 ({ d with seats := d.seats + 1 } : StateData) ≤ priority_f32 d :=
    priority_f32_antitone rfl hpd hsd (by simp only; omega)
  refine ⟨?_, ?_, ?_, ?_, ?_, ?_⟩
  · rw [hstep]
    exact keysAscending_of_map_fst_eq (by simp) hk1
  · rw [hstep]; simp
  · intro e he
    rcases hmem e he with h | rfl
    · exact hp e h
    · exact hpd
  · intro e he
    rcases hmem e he with h | rfl
    · exact hs e h
    · simp only; omega
  · intro ei hei ej hej hj2
    rcases hmem ei hei with hi | rfl <;> rcases hmem ej hej with hj | rfl
    · exact hopt ei hi ej hj hj2
    · simp only
      rw [hback]
      exact hmax ei hi
    · exact le_trans hdown (hopt (k, d) hdm ej hj hj2)
    · simp only
      rw [hback]
      exact hdown
  · rw [hstep, hm]; simp [frame]

theorem hh_remaining_f32_inv (rem : Nat) (m : StateMap) (c : Nat) (hk : KeysAscending m)
    (hne : m ≠ []) (hp : PopulationsNonneg m) (hs : ∀ e ∈ m, 1 ≤ e.2.seats)
    (hopt : PriorityOptimal_f32 m) :
    PriorityOptimal_f32 (hh_remaining_f32 rem m c).1 ∧
    (hh_remaining_f32 rem m c).1.map frame = m.map frame ∧
    (∀ e ∈ (hh_remaining_f32 rem m c).1, 1 ≤ e.2.seats) := by
  induction rem generalizing m c with
  | zero => exact ⟨hopt, rfl, hs⟩
  | succ rem ih =>
    obtain ⟨a1, a2, a3, a4, a5, a6⟩ := hh_step_f32_inv m hk hne hp hs hopt
    obtain ⟨b1, b2, b3⟩ := ih (hh_step_f32 m) (c + 1) a1 a2 a3 a4 a5
    simp only [hh_remaining_f32]
    exact ⟨b1, b2.trans a6, b3⟩

/-- C21, as the code has it. The result of `huntington_hill_method` is optimal
for the priorities the code compares: for every non-empty table (keys
ascending, populations non-negative) with entity count `n <= S`, the method
returns without its error report, keeps the entities, and for every pair of
entities `i` and `j` of the final table with `seats_j >= 2` the `float`
priority of `i` at its final seats is at most the `float` priority of `j` at
`seats_j - 1`, each priority being the `double` quotient
`population / sqrt(n * (n + 1.0))` stored in a `float`: no entity's next-seat
priority exceeds the priority at which any entity won its last seat. -/
theorem huntington_hill_priority_optimal_f32 (m : StateMap) (S : Int) (hk : KeysAscending m)
    (hne : m ≠ []) (hp : PopulationsNonneg m) (hn : (m.length : Int) ≤ S) :
    (huntington_hill_method_f32 m S).error_reported = false ∧
    (huntington_hill_method_f32 m S).table.map frame = m.map frame ∧
    (∀ ei ∈ (huntington_hill_method_f32 m S).table,
      ∀ ej ∈ (huntington_hill_method_f32 m S).table, 2 ≤ ej.2.seats →
        priority_f32 ei.2 ≤ priority_f32 { ej.2 with seats := ej.2.seats - 1 }) := by
  have hrem : ¬ S - ((m.map (fun e => (e.1, { e.2 with seats := (1 : Int) }))).length : Int) < 0 := by
    simp only [List.length_map]; omega
  have b1 : KeysAscending (m.map (fun e => (e.1, { e.2 with seats := (1 : Int) }))) :=
    keysAscending_of_map_fst_eq (by simp [List.map_map, Function.comp_def]) hk
  have b2 : m.map (fun e => (e.1, { e.2 with seats := (1 : Int) })) ≠ [] := by
    simpa using hne
  have b3 : PopulationsNonneg (m.map (fun e => (e.1, { e.2 with seats := (1 : Int) }))) := by
    intro e he
    obtain ⟨e0, he0, rfl⟩ := List.mem_map.mp he
    exact hp e0 he0
  have b4 : ∀ e ∈ m.map (fun e => (e.1, { e.2 with seats := (1 : Int) })), 1 ≤ e.2.seats := by
    intro e he
    obtain ⟨e0, _, rfl⟩ := List.mem_map.mp he
    simp
  have b5 : PriorityOptimal_f32 (m.map (fun e => (e.1, { e.2 with seats := (1 : Int) }))) := by
    intro ei _ ej hej hj2
    obtain ⟨e0, _, rfl⟩ := List.mem_map.mp hej
    simp only at hj2
    omega
  obtain ⟨c1, c2, _⟩ := hh_remaining_f32_inv
    (S - ((m.map (fun e => (e.1, { e.2 with seats := (1 : Int) }))).length : Int)).toNat
    (m.map (fun e => (e.1, { e.2 with seats := 1 }))) 0 b1 b2 b3 b4 b5
  have hfr1 : (m.map (fun e => (e.1, { e.2 with seats := (1 : Int) }))).map frame = m.map frame := by
    simp [List.map_map, Function.comp_def, frame]
  simp only [huntington_hill_method_f32, hrem, if_false]
  exact ⟨trivial, c2.trans hfr1, c1⟩

theorem huntington_hill_priority_optimal_f32_witness :
    KeysAscending scenario_rem ∧ scenario_rem ≠ [] ∧ PopulationsNonneg scenario_rem ∧
    ((scenario_rem.length : Int) ≤ 7) ∧
    (huntington_hill_method_f32 scenario_rem 7).error_reported = false ∧
    (huntington_hill_method_f32 scenario_rem 7).table.map frame = scenario_rem.map frame ∧
    (∀ ei ∈ (huntington_hill_method_f32 scenario_rem 7).table,
      ∀ ej ∈ (huntington_hill_method_f32 scenario_rem 7).table, 2 ≤ ej.2.seats →
        priority_f32 ei.2 ≤ priority_f32 { ej.2 with seats := ej.2.seats - 1 }) :=
  ⟨scenario_rem_keys, by decide, scenario_rem_nonneg, by decide,
    huntington_hill_priority_optimal_f32 scenario_rem 7 scenario_rem_keys (by decide)
      scenario_rem_nonneg (by decide)⟩

theorem f64_sqrt_two : f64_sqrt 2 = 6369051672525773 / 4503599627370496 := by
  unfold f64_sqrt
  rw [fp_sqrt_eval_up 53 0 6369051672525772 (by norm_num) (by norm_num) (by norm_num)
    (by norm_num)]
  norm_num

/-- The radicand `1 * (1 + 1.0)` at one seat is the `double` 2. -/
theorem radicand_one : f64 (f64 ((1 : Int) : ℚ) * f64 (f64 ((1 : Int) : ℚ) + 1)) = 2 := by
  have h1 : f64 ((1 : Int) : ℚ) = 1 := by
    rw [f64_intCast 1 (by decide)]; norm_num
  have h2 : f64 (2 : ℚ) = 2 := by
    have := f64_intCast 2 (by decide)
    simpa using this
  rw [h1]
  norm_num
  rw [h2, h2]

theorem priority_f32_close_a : priority_f32 ⟨"A", 30000000, 1, 0⟩ = 21213204 := by
  have hp : f64 ((30000000 : Int) : ℚ) = 30000000 := by
    rw [f64_intCast 30000000 (by decide)]; norm_num
  have hq : f64 ((30000000 : ℚ) / (6369051672525773 / 4503599627370496)) =
      5694375937455093 / 268435456 := by
    unfold f64
    rw [fp_round_eval_pos 53 24 5694375937455093 (by norm_num) (by norm_num) (by norm_num)
      (by norm_num)]
    norm_num
  have hf : f32 ((5694375937455093 : ℚ) / 268435456) = 21213204 := by
    unfold f32
    rw [fp_round_eval_pos 24 24 10606602 (by norm_num) (by norm_num) (by norm_num)
      (by norm_num)]
    norm_num
  unfold priority_f32
  simp only
  rw [radicand_one, f64_sqrt_two, hp, hq, hf]

theorem priority_f32_close_b : priority_f32 ⟨"B", 30000001, 1, 0⟩ = 21213204 := by
  have hp : f64 ((30000001 : Int) : ℚ) = 30000001 := by
    rw [f64_intCast 30000001 (by decide)]; norm_num
  have hq : f64 ((30000001 : ℚ) / (6369051672525773 / 4503599627370496)) =
      711797015908453 / 33554432 := by
    unfold f64
    rw [fp_round_eval_pos 53 24 5694376127267624 (by norm_num) (by norm_num) (by norm_num)
      (by norm_num)]
    norm_num
  have hf : f32 ((711797015908453 : ℚ) / 33554432) = 21213204 := by
    unfold f32
    rw [fp_round_eval_pos 24 24 10606602 (by norm_num) (by norm_num) (by norm_num)
      (by norm_num)]
    norm_num
  unfold priority_f32
  simp only
  rw [radicand_one, f64_sqrt_two, hp, hq, hf]

/-- C21, the claim as stated fails. For A = 30000000, B = 30000001 and `S = 3`
(a non-empty table, entity count 2 <= 3, positive populations) both entities
start at one seat with the same `float` priority 21213204, the `double`
quotients 21213203.43... and 21213204.14... rounding to one `float`; the
strict comparison keeps A, the first, and A gets the third seat.  With
`i = B` (1 seat) and `j = A` (2 seats) the stated inequality
`population_i^2 * (seats_j - 1) * seats_j <= population_j^2 * seats_i * (seats_i + 1)`
reads `30000001^2 * 2 <= 30000000^2 * 2` and is false: the exact next-seat
priority of B exceeds the exact priority at which A won its last seat. -/
theorem huntington_hill_priority_counterexample :
    scenario_close ≠ [] ∧ ((scenario_close.length : Int) ≤ 3) ∧
    (∀ e ∈ scenario_close, 0 < e.2.population) ∧
    (huntington_hill_method_f32 scenario_close 3).error_reported = false ∧
    (huntington_hill_method_f32 scenario_close 3).table =
      [("A", ⟨"A", 30000000, 2, 0⟩), ("B", ⟨"B", 30000001, 1, 0⟩)] ∧
    ¬ PriorityOptimal (huntington_hill_method_f32 scenario_close 3).table := by
  have htab : (huntington_hill_method_f32 scenario_close 3).table =
      [("A", ⟨"A", 30000000, 2, 0⟩), ("B", ⟨"B", 30000001, 1, 0⟩)] := by
    have h1 : ((3 : Int) - 2).toNat = 1 := by decide
    simp only [huntington_hill_method_f32, scenario_close, List.map_cons, List.map_nil,
      List.length_cons, List.length_nil]
    norm_num [h1, hh_remaining_f32, hh_step_f32, scan_max, at_key, priority_f32_close_a,
      priority_f32_close_b]
  refine ⟨by decide, by decide, by decide, ?_, htab, ?_⟩
  · simp [huntington_hill_method_f32, scenario_close]
  · rw [htab]
    intro h
    have := h ("B", ⟨"B", 30000001, 1, 0⟩) (by simp) ("A", ⟨"A", 30000000, 2, 0⟩) (by simp)
      (by decide)
    revert this
    decide

/-! ## The entities of the table in binary32 -/

/-- One iteration of the Huntington-Hill loop in binary32 on a table with a
positive population: an existing record is selected and updated in place. -/
theorem hh_step_f32_frame (m : StateMap) (hk : KeysAscending m)
    (hpos : ∃ e ∈ m, 0 < e.2.population) (hs : ∀ e ∈ m, 1 ≤ e.2.seats) :
    KeysAscending (hh_step_f32 m) ∧ (hh_step_f32 m).map frame = m.map frame ∧
    (∀ e ∈ hh_step_f32 m, 1 ≤ e.2.seats) := by
  have hex : ∃ e ∈ m, (-1 : ℚ) < priority_f32 e.2 := by
    obtain ⟨e, he, hp⟩ := hpos
    have := priority_f32_pos hp (hs e he)
    exact ⟨e, he, by linarith⟩
  obtain ⟨l1, k, d, l2, hm, hstep, _, _⟩ := hh_step_f32_split m hk hex
  have hk1 : KeysAscending (l1 ++ (k, d) :: l2) := hm ▸ hk
  refine ⟨?_, ?_, (at_key_incr m _).2.1 hs⟩
  · rw [hstep]
    exact keysAscending_of_map_fst_eq (by simp) hk1
  · rw [hstep, hm]; simp [frame]

theorem hh_remaining_f32_frame (rem : Nat) (m : StateMap) (c : Nat) (hk : KeysAscending m)
    (hpos : ∃ e ∈ m, 0 < e.2.population) (hs : ∀ e ∈ m, 1 ≤ e.2.seats) :
    (hh_remaining_f32 rem m c).1.map frame = m.map frame := by
  induction rem generalizing m c with
  | zero => simp [hh_remaining_f32]
  | succ rem ih =>
    obtain ⟨a1, a2, a3⟩ := hh_step_f32_frame m hk hpos hs
    have hpos' : ∃ e ∈ hh_step_f32 m, 0 < e.2.population := by
      obtain ⟨e, he, hp⟩ := hpos
      have hmem : frame e ∈ (hh_step_f32 m).map frame := by
        rw [a2]; exact List.mem_map_of_mem frame he
      obtain ⟨e', he', hfe⟩ := List.mem_map.mp hmem
      refine ⟨e', he', ?_⟩
      have : e'.2.population = e.2.population := by
        have := congrArg (fun f => f.2.2) hfe
        simpa [frame] using this
      omega
    simp only [hh_remaining_f32]
    rw [ih (hh_step_f32 m) (c + 1) a1 hpos' a3, a2]

/-- The Huntington-Hill method in binary32 keeps the entities when the total
population is positive, in its error branch too. -/
theorem huntington_hill_f32_frame (m : StateMap) (S : Int) (hk : KeysAscending m)
    (hP : 0 < get_total_population m) :
    (huntington_hill_method_f32 m S).table.map frame = m.map frame := by
  have hfr1 : (m.map (fun e => (e.1, { e.2 with seats := (1 : Int) }))).map frame = m.map frame := by
    simp [List.map_map, Function.comp_def, frame]
  unfold huntington_hill_method_f32
  simp only
  split_ifs with h
  · exact hfr1
  · have hk1 : KeysAscending (m.map (fun e => (e.1, { e.2 with seats := (1 : Int) }))) :=
      keysAscending_of_map_fst_eq (by simp [List.map_map, Function.comp_def]) hk
    obtain ⟨e, he, hp⟩ := exists_positive_population m hP
    rw [hh_remaining_f32_frame _ _ 0 hk1
      ⟨(e.1, { e.2 with seats := 1 }), List.mem_map_of_mem _ he, hp⟩
      (by
        intro e' he'
        obtain ⟨e0, _, rfl⟩ := List.mem_map.mp he'
        simp)]
    exact hfr1

/-- C15, as the code has it. Apportionment only writes `seats` and `residual`:
for every table (keys ascending) with positive total population and `S > 0`,
`huntington_hill_method` returns a table with the same keys, abbreviations and
populations as before, in the same order (it selects an existing entity every
time and never inserts an entry through the map lookup), and so does each of
`jeffersons_method`, `websters_method` and `adams_method` whenever it returns;
`hamiltons_method` does so when the populations are non-negative and
`S <= 2^21`, the range in which the `float` first pass leaves at most one
remaining seat per entity. -/
theorem apportionment_frame_f32 (m : StateMap) (S : Int) (hk : KeysAscending m)
    (hP : 0 < get_total_population m) (hS : 0 < S) :
    (PopulationsNonneg m → S ≤ 2 ^ 21 →
      ∃ m', hamiltons_method_f32 m S = some m' ∧ m'.map frame = m.map frame) ∧
    (huntington_hill_method_f32 m S).table.map frame = m.map frame ∧
    (∀ fuel m', jeffersons_method fuel m S = Except.ok m' → m'.map frame = m.map frame) ∧
    (∀ fuel m', websters_method_f32 fuel m S = Except.ok m' → m'.map frame = m.map frame) ∧
    (∀ fuel m', adams_method_f32 fuel m S = Except.ok m' → m'.map frame = m.map frame) := by
  have key : ∀ (rule : Int → Int → Int) (diff : Int → Int) (fuel : Nat) (m' : StateMap),
      (divisor_method rule diff fuel m S).map Prod.snd = Except.ok m' →
      m'.map frame = m.map frame := by
    intro rule diff fuel m' h
    cases hr : divisor_method rule diff fuel m S with
    | error e => rw [hr] at h; simp [Except.map] at h
    | ok r =>
      obtain ⟨d, m1⟩ := r
      rw [hr] at h
      simp only [Except.map, Except.ok.injEq] at h
      subst h
      exact divisor_method_frame rule diff fuel m S d m1 hr
  refine ⟨?_, huntington_hill_f32_frame m S hk hP,
    fun fuel m' h => key floor_rule jefferson_diff fuel m' h,
    fun fuel m' h => key round_rule_f32 two_way_diff fuel m' h,
    fun fuel m' h => key ceil_rule_f32 two_way_diff fuel m' h⟩
  intro hp hS21
  obtain ⟨m', h1, _, _, h4, _⟩ := hamilton_f32_spec m S hk hp hS hS21 hP
  exact ⟨m', h1, h4⟩

theorem apportionment_frame_f32_witness :
    KeysAscending scenario_rem ∧ 0 < get_total_population scenario_rem ∧ (0 : Int) < 7 ∧
    (PopulationsNonneg scenario_rem → (7 : Int) ≤ 2 ^ 21 →
      ∃ m', hamiltons_method_f32 scenario_rem 7 = some m' ∧
        m'.map frame = scenario_rem.map frame) ∧
    (huntington_hill_method_f32 scenario_rem 7).table.map frame = scenario_rem.map frame ∧
    (∀ fuel m', jeffersons_method fuel scenario_rem 7 = Except.ok m' →
      m'.map frame = scenario_rem.map frame) ∧
    (∀ fuel m', websters_method_f32 fuel scenario_rem 7 = Except.ok m' →
      m'.map frame = scenario_rem.map frame) ∧
    (∀ fuel m', adams_method_f32 fuel scenario_rem 7 = Except.ok m' →
      m'.map frame = scenario_rem.map frame) :=
  ⟨scenario_rem_keys, by decide, by decide,
    apportionment_frame_f32 scenario_rem 7 scenario_rem_keys (by decide) (by decide)⟩

theorem scenario_single_first_pass :
    hamilton_first_pass_f32 (quota_f32 3 33554434) scenario_single =
      some ([("A", ⟨"A", 3, 33554432, 0⟩)], 33554432) := by
  have h3 : f32 ((3 : Int) : ℚ) = 3 := by simpa using f32_intCast 3 (by decide)
  have hq : f32 ((3 : ℚ) / 33554432) = 3 / 33554432 := by
    unfold f32
    rw [fp_round_eval_pos 24 (-24) 12582912 (by norm_num) (by norm_num) (by norm_num)
      (by norm_num)]
    norm_num
  have hd : (3 : ℚ) / (3 / 33554432) = 33554432 := by norm_num
  have qa : quotient_f32 3 33554434 3 = 33554432 := by
    unfold quotient_f32
    rw [h3, f32_big_total, hq, hd, f32_two_pow_25]
  have ta : truncate (33554432 : ℚ) = 33554432 := by
    rw [truncate_of_nonneg (by norm_num), Int.floor_eq_iff]; norm_num
  have hc : ((33554432 : Int) : ℚ) = 33554432 := by norm_num
  have ra : residual_f32 3 33554434 3 = 0 := by
    unfold residual_f32
    rw [qa, ta, hc, f32_two_pow_25, sub_self, f32_zero]
  have hfp := hamilton_first_pass_f32_spec (P := 3) (S := 33554434) (by decide) (by decide)
    scenario_single
  simp only [scenario_single, List.map_cons, List.map_nil, qa, ra, ta, List.sum_cons,
    List.sum_nil] at hfp
  rw [scenario_single, hfp]
  rfl

/-- C15, the claim as stated fails. For the single entity A = 3 and
`S = 33554434` (a non-empty table, positive total population, `S > 0`, entity
count 1 <= S) the conversion `(float)33554434` is 33554432, the `float`
quotient of A is 33554432 with residual 0, and 2 seats remain for one entity:
the second scan of `hamiltons_method` finds no residual above -1, keeps the
empty `best_state`, and the map lookup inserts an entry with the empty id,
which gets the seat.  The returned table has two entries. -/
theorem hamiltons_method_insert_counterexample :
    scenario_single ≠ [] ∧ 0 < get_total_population scenario_single ∧ (0 : Int) < 33554434 ∧
    ((scenario_single.length : Int) ≤ 33554434) ∧
    hamiltons_method_f32 scenario_single 33554434 =
      some [("", ⟨"", 0, 1, -1⟩), ("A", ⟨"A", 3, 33554433, -1⟩)] ∧
    ¬ (∃ m', hamiltons_method_f32 scenario_single 33554434 = some m' ∧
      m'.map frame = scenario_single.map frame) := by
  have hP : get_total_population scenario_single = 3 := by decide
  have hrun : hamiltons_method_f32 scenario_single 33554434 =
      some [("", ⟨"", 0, 1, -1⟩), ("A", ⟨"A", 3, 33554433, -1⟩)] := by
    rw [hamiltons_method_f32_of_first_pass scenario_single 33554434 _ _
      (by rw [hP]; exact scenario_single_first_pass)]
    have h1 : ((33554434 : Int) - 33554432).toNat = 2 := by decide
    have c1 : (("" : String) < "A") := by
      simp only [String.lt_iff_toList_lt]; decide
    rw [h1]
    norm_num [hamilton_remaining, hamilton_step, scan_max, at_key, StateData.empty, c1]
  refine ⟨by decide, by decide, by decide, by decide, hrun, ?_⟩
  rintro ⟨m', h1, h2⟩
  rw [hrun] at h1
  cases h1
  simp [scenario_single, frame] at h2

/-! ## The estimator in binary32 -/

theorem f32_nonpos {x : ℚ} (hx : x ≤ 0) : f32 x ≤ 0 := by
  unfold f32 fp_round
  have h : x / (2 : ℚ) ^ ulp_exponent 24 x ≤ ((0 : Int) : ℚ) := by
    rw [Int.cast_zero]
    exact div_nonpos_of_nonpos_of_nonneg hx (le_of_lt (two_zpow_pos _))
  have h' : round_even (x / (2 : ℚ) ^ ulp_exponent 24 x) ≤ 0 := round_even_le h
  have h'' : ((round_even (x / (2 : ℚ) ^ ulp_exponent 24 x) : Int) : ℚ) ≤ 0 := by
    exact_mod_cast h'
  exact mul_nonpos_of_nonpos_of_nonneg h'' (le_of_lt (two_zpow_pos _))

theorem pos_of_f32_pos {x : ℚ} (h : 0 < f32 x) : 0 < x := by
  by_contra hx
  exact absurd (f32_nonpos (not_lt.mp hx)) (not_le.mpr h)

/-- The `double` literal `0.0001`. -/
theorem f64_cut : f64 (1 / 10000) = 7378697629483821 / 73786976294838206464 := by
  unfold f64
  rw [fp_round_eval_pos 53 (-14) 7378697629483821 (by norm_num) (by norm_num) (by norm_num)
    (by norm_num)]
  norm_num

theorem f64_cut_pos : (0 : ℚ) < f64 (1 / 10000) := f64_pos (by norm_num)

/-- A mask the machine accepts presupposes a total population that converts to
a non-zero `float`. -/
theorem accepted_f32_total_ne_zero {m : StateMap} {mask : Nat} (h : accepted_f32 m mask) :
    f32 (get_total_population m : ℚ) ≠ 0 ∧ get_total_population m ≠ 0 := by
  have h2 : (0 : ℚ) < pop_share_f32 m mask := lt_trans f64_cut_pos h.2
  have h3 : f32 (get_total_population m : ℚ) ≠ 0 := by
    intro h0
    unfold pop_share_f32 share_f32 at h2
    rw [h0, div_zero, f32_zero] at h2
    exact lt_irrefl _ h2
  refine ⟨h3, ?_⟩
  intro h0
  apply h3
  rw [h0, Int.cast_zero, f32_zero]

/-- One sample in binary32, when `total_pop` and `total_seats` are not zero: an
accepted mask with a `float` ratio below the minimum is recorded, anything else
leaves the variables as they are. -/
theorem process_sample_f32_step (m : StateMap) (S : Int) (st : SamplerState) (mask : Nat)
    (hS : S ≠ 0) (hP : get_total_population m ≠ 0) :
    (accepted_f32 m mask ∧ alpha_of_f32 m S mask < st.min_alpha →
      process_sample_f32 (m.map (fun e => e.2.population)) (m.map (fun e => e.2.seats))
        (get_total_population m) S st mask =
      some { min_alpha := alpha_of_f32 m S mask, worst_mask := mask,
             worst_pop_prop := pop_share_f32 m mask,
             worst_seat_prop := seat_share_f32 m S mask }) ∧
    (¬ (accepted_f32 m mask ∧ alpha_of_f32 m S mask < st.min_alpha) →
      process_sample_f32 (m.map (fun e => e.2.population)) (m.map (fun e => e.2.seats))
        (get_total_population m) S st mask = some st) := by
  unfold accepted_f32 alpha_of_f32 seat_share_f32 pop_share_f32 share_f32 process_sample_f32
  simp only [List.length_map]
  constructor
  · rintro ⟨⟨h1, h4⟩, h6⟩
    rw [if_neg h1, if_neg hP, if_pos h4, if_neg hS, if_pos h6]
  · intro h
    by_cases h1 : mask = 0 ∨ mask = 2 ^ m.length - 1
    · rw [if_pos h1]
    · rw [if_neg h1, if_neg hP]
      by_cases h4 : f32 (f32 ((subset_sum mask (m.map (fun e => e.2.population)) : Int) : ℚ) /
          f32 (get_total_population m : ℚ)) > f64 (1 / 10000)
      · rw [if_pos h4, if_neg hS]
        have h6 : ¬ f32 (f32 (f32 ((subset_sum mask (m.map (fun e => e.2.seats)) : Int) : ℚ) /
              f32 (S : ℚ)) /
            f32 (f32 ((subset_sum mask (m.map (fun e => e.2.population)) : Int) : ℚ) /
              f32 (get_total_population m : ℚ))) < st.min_alpha := fun h6 => h ⟨⟨h1, h4⟩, h6⟩
        rw [if_neg h6]
      · rw [if_neg h4]

theorem samplerInv_f32_initial (m : StateMap) (S : Int) :
    SamplerInv_f32 m S [] SamplerState.initial := by
  refine ⟨by simp [SamplerState.initial], ?_, Or.inl rfl⟩
  intro mask hm
  exact absurd hm (List.not_mem_nil _)

theorem process_samples_f32_inv (m : StateMap) (S : Int) (hS : S ≠ 0)
    (hP : get_total_population m ≠ 0) (rest seen : List Nat) (st : SamplerState)
    (hinv : SamplerInv_f32 m S seen st) :
    ∃ st', process_samples_f32 (m.map (fun e => e.2.population)) (m.map (fun e => e.2.seats))
        (get_total_population m) S rest st = some st' ∧
      SamplerInv_f32 m S (seen ++ rest) st' := by
  induction rest generalizing seen st with
  | nil => exact ⟨st, rfl, by simpa using hinv⟩
  | cons mask rest ih =>
    obtain ⟨b1, b2, b3⟩ := hinv
    obtain ⟨s1, s2⟩ := process_sample_f32_step m S st mask hS hP
    have hstep : ∃ st1, process_sample_f32 (m.map (fun e => e.2.population))
        (m.map (fun e => e.2.seats)) (get_total_population m) S st mask = some st1 ∧
        SamplerInv_f32 m S (seen ++ [mask]) st1 := by
      by_cases hc : accepted_f32 m mask ∧ alpha_of_f32 m S mask < st.min_alpha
      · refine ⟨_, s1 hc, ?_, ?_, ?_⟩
        · exact le_trans (le_of_lt hc.2) b1
        · intro mk hmk hacc
          rcases List.mem_append.mp hmk with h | h
          · exact le_trans (le_of_lt hc.2) (b2 mk h hacc)
          · rw [List.mem_singleton.mp h]
        · right
          exact ⟨lt_of_lt_of_le hc.2 b1, by simp, hc.1, rfl, rfl, rfl⟩
      · refine ⟨st, s2 hc, b1, ?_, ?_⟩
        · intro mk hmk hacc
          rcases List.mem_append.mp hmk with h | h
          · exact b2 mk h hacc
          · rw [List.mem_singleton.mp h] at hacc ⊢
            by_contra hlt
            exact hc ⟨hacc, not_le.mp hlt⟩
        · rcases b3 with h | ⟨h1, h2, h3⟩
          · exact Or.inl h
          · exact Or.inr ⟨h1, List.mem_append_left _ h2, h3⟩
    obtain ⟨st1, hp1, hinv1⟩ := hstep
    obtain ⟨st', hp', hinv'⟩ := ih (seen ++ [mask]) st1 hinv1
    refine ⟨st', ?_, by simpa using hinv'⟩
    simp only [process_samples_f32, hp1]
    exact hp'

/-- The estimator in binary32 is the loop on the arrays filled from the table. -/
theorem sample_masks_f32_eq (m : StateMap) (S : Int) (masks : List Nat) :
    sample_masks_f32 m S masks =
      process_samples_f32 (m.map (fun e => e.2.population)) (m.map (fun e => e.2.seats))
        (get_total_population m) S masks SamplerState.initial := rfl

theorem process_samples_f32_nil (pops seats : List Int) (P S : Int) (st : SamplerState) :
    process_samples_f32 pops seats P S [] st = some st := rfl

/-- The loop in binary32 after a sample that returns. -/
theorem process_samples_f32_cons (pops seats : List Int) (P S : Int) (mask : Nat)
    (rest : List Nat) (st st1 : SamplerState)
    (h : process_sample_f32 pops seats P S st mask = some st1) :
    process_samples_f32 pops seats P S (mask :: rest) st =
      process_samples_f32 pops seats P S rest st1 := by
  simp only [process_samples_f32, h]

/-- The estimator in binary32 on a sequence of masks, when `total_pop` and
`total_seats` are not zero: it returns, and its variables are as
`SamplerInv_f32` says. -/
theorem sample_masks_f32_spec (m : StateMap) (S : Int) (hS : S ≠ 0)
    (hP : get_total_population m ≠ 0) (masks : List Nat) :
    ∃ st, sample_masks_f32 m S masks = some st ∧ SamplerInv_f32 m S masks st := by
  obtain ⟨st, h1, h2⟩ := process_samples_f32_inv m S hS hP masks [] SamplerState.initial
    (samplerInv_f32_initial m S)
  exact ⟨st, h1, by simpa using h2⟩

/-- C11, as the code has it. The estimator retains the minimum, capped at 1,
of the ratios it computes, and its witness: for every table, `S > 0` and
sequence of masks of which the code accepts at least one (not empty, not full,
`float` population share above the `double` literal `0.0001`), the estimator
returns; the returned alpha is the minimum of 1 and of the `float` ratios
`seat_proportion / pop_proportion` of the accepted masks of the sequence; and
when it is below 1, the recorded worst mask is an accepted mask of the
sequence, recorded with its `float` population share and seat share, whose
seat share divided by population share, as a `float`, is the returned alpha. -/
theorem sampling_keeps_minimum_f32 (m : StateMap) (S : Int) (masks : List Nat) (hS : 0 < S)
    (hacc : ∃ mask ∈ masks, accepted_f32 m mask) :
    ∃ st, sample_masks_f32 m S masks = some st ∧
      st.min_alpha ≤ 1 ∧
      (∀ mask ∈ masks, accepted_f32 m mask → st.min_alpha ≤ alpha_of_f32 m S mask) ∧
      (st.min_alpha = 1 ∨
        ∃ mask ∈ masks, accepted_f32 m mask ∧ alpha_of_f32 m S mask = st.min_alpha) ∧
      (st.min_alpha < 1 →
        st.worst_mask ∈ masks ∧ accepted_f32 m st.worst_mask ∧
        st.worst_pop_prop = pop_share_f32 m st.worst_mask ∧
        st.worst_seat_prop = seat_share_f32 m S st.worst_mask ∧
        f32 (st.worst_seat_prop / st.worst_pop_prop) = st.min_alpha) := by
  obtain ⟨mask0, _, hacc0⟩ := hacc
  obtain ⟨st, h1, b1, b2, b3⟩ :=
    sample_masks_f32_spec m S (ne_of_gt hS) (accepted_f32_total_ne_zero hacc0).2 masks
  refine ⟨st, h1, b1, b2, ?_, ?_⟩
  · rcases b3 with h | ⟨_, c2, c3, _, _, c6⟩
    · left; rw [h]; rfl
    · right; exact ⟨st.worst_mask, c2, c3, c6.symm⟩
  · intro hlt
    rcases b3 with h | ⟨_, c2, c3, c4, c5, c6⟩
    · rw [h] at hlt
      exact absurd hlt (by simp [SamplerState.initial])
    · refine ⟨c2, c3, c4, c5, ?_⟩
      rw [c4, c5, c6]; rfl

theorem f32_quarter : f32 (1 / 4) = 1 / 4 := by
  unfold f32
  rw [fp_round_eval_pos 24 (-2) 8388608 (by norm_num) (by norm_num) (by norm_num)
    (by norm_num)]
  norm_num

theorem f32_third : f32 (1 / 3) = 11184811 / 33554432 := by
  unfold f32
  rw [fp_round_eval_pos 24 (-2) 11184811 (by norm_num) (by norm_num) (by norm_num)
    (by norm_num)]
  norm_num

/-- The `float` shares and ratios of the two singletons of `scenario_over` at
`S = 4`: every share is exact, the ratio 3 is exact, and the ratio 1/3 is
stored as 11184811/33554432. -/
theorem scenario_over_f32 :
    pop_share_f32 scenario_over 1 = 1 / 4 ∧ seat_share_f32 scenario_over 4 1 = 3 / 4 ∧
    alpha_of_f32 scenario_over 4 1 = 3 ∧
    pop_share_f32 scenario_over 2 = 3 / 4 ∧ seat_share_f32 scenario_over 4 2 = 1 / 4 ∧
    alpha_of_f32 scenario_over 4 2 = 11184811 / 33554432 := by
  have hp1 : subset_sum 1 (scenario_over.map (fun e => e.2.population)) = 100 := by decide
  have hs1 : subset_sum 1 (scenario_over.map (fun e => e.2.seats)) = 3 := by decide
  have hp2 : subset_sum 2 (scenario_over.map (fun e => e.2.population)) = 300 := by decide
  have hs2 : subset_sum 2 (scenario_over.map (fun e => e.2.seats)) = 1 := by decide
  have hP : get_total_population scenario_over = 400 := by decide
  have c1 : f32 ((1 : Int) : ℚ) = 1 := by simpa using f32_one
  have c3 : f32 ((3 : Int) : ℚ) = 3 := by simpa using f32_intCast 3 (by decide)
  have c4 : f32 ((4 : Int) : ℚ) = 4 := by simpa using f32_intCast 4 (by decide)
  have c100 : f32 ((100 : Int) : ℚ) = 100 := by simpa using f32_intCast 100 (by decide)
  have c300 : f32 ((300 : Int) : ℚ) = 300 := by simpa using f32_intCast 300 (by decide)
  have c400 : f32 ((400 : Int) : ℚ) = 400 := by simpa using f32_intCast 400 (by decide)
  have e1 : (100 : ℚ) / 400 = 1 / 4 := by norm_num
  have e2 : (300 : ℚ) / 400 = 3 / 4 := by norm_num
  have a1 : pop_share_f32 scenario_over 1 = 1 / 4 := by
    unfold pop_share_f32 share_f32
    rw [hp1, hP, c100, c400, e1, f32_quarter]
  have a2 : seat_share_f32 scenario_over 4 1 = 3 / 4 := by
    unfold seat_share_f32 share_f32
    rw [hs1, c3, c4, f32_three_quarters]
  have a3 : pop_share_f32 scenario_over 2 = 3 / 4 := by
    unfold pop_share_f32 share_f32
    rw [hp2, hP, c300, c400, e2, f32_three_quarters]
  have a4 : seat_share_f32 scenario_over 4 2 = 1 / 4 := by
    unfold seat_share_f32 share_f32
    rw [hs2, c1, c4, f32_quarter]
  refine ⟨a1, a2, ?_, a3, a4, ?_⟩
  · unfold alpha_of_f32
    rw [a1, a2]
    have e : (3 : ℚ) / 4 / (1 / 4) = ((3 : Int) : ℚ) := by norm_num
    rw [e, c3]
  · unfold alpha_of_f32
    rw [a3, a4]
    have e : (1 : ℚ) / 4 / (3 / 4) = 1 / 3 := by norm_num
    rw [e, f32_third]

theorem scenario_over_accepted_f32 :
    accepted_f32 scenario_over 1 ∧ accepted_f32 scenario_over 2 := by
  obtain ⟨a1, _, _, a3, _, _⟩ := scenario_over_f32
  refine ⟨⟨by decide, ?_⟩, ⟨by decide, ?_⟩⟩
  · rw [a1, f64_cut]; norm_num
  · rw [a3, f64_cut]; norm_num

theorem sampling_keeps_minimum_f32_witness :
    (0 : Int) < 4 ∧ (∃ mask ∈ [1, 2], accepted_f32 scenario_over mask) ∧
    ∃ st, sample_masks_f32 scenario_over 4 [1, 2] = some st ∧
      st.min_alpha ≤ 1 ∧
      (∀ mask ∈ [1, 2], accepted_f32 scenario_over mask →
        st.min_alpha ≤ alpha_of_f32 scenario_over 4 mask) ∧
      (st.min_alpha = 1 ∨
        ∃ mask ∈ [1, 2], accepted_f32 scenario_over mask ∧
          alpha_of_f32 scenario_over 4 mask = st.min_alpha) ∧
      (st.min_alpha < 1 →
        st.worst_mask ∈ [1, 2] ∧ accepted_f32 scenario_over st.worst_mask ∧
        st.worst_pop_prop = pop_share_f32 scenario_over st.worst_mask ∧
        st.worst_seat_prop = seat_share_f32 scenario_over 4 st.worst_mask ∧
        f32 (st.worst_seat_prop / st.worst_pop_prop) = st.min_alpha) :=
  ⟨by decide, ⟨1, by simp, scenario_over_accepted_f32.1⟩,
    sampling_keeps_minimum_f32 scenario_over 4 [1, 2] (by decide)
      ⟨1, by simp, scenario_over_accepted_f32.1⟩⟩

/-- C11, the claim as stated fails. For A (population 100, 3 seats), B
(population 300, 1 seat) and `S = 4`, where every share is a binary32 number:
with the single sampled mask `{A}`, accepted, of ratio 3, the minimum over the
accepted sampled masks is 3, but the estimator returns the initial 1 and its
recorded worst mask is 0, the empty set, which is not an accepted mask; and
with the single sampled mask `{B}`, accepted, of ratio 1/3, the estimator
returns the `float` 11184811/33554432, which is not the ratio 1/3 of its
recorded shares 1/4 and 3/4. -/
theorem sampling_cap_counterexample_f32 :
    (0 : Int) < 4 ∧ accepted scenario_over 1 ∧ alpha_of scenario_over 4 1 = 3 ∧
    sample_masks_f32 scenario_over 4 [1] = some SamplerState.initial ∧
    SamplerState.initial.min_alpha = 1 ∧ SamplerState.initial.worst_mask = 0 ∧
    ¬ accepted scenario_over 0 ∧
    accepted scenario_over 2 ∧ alpha_of scenario_over 4 2 = 1 / 3 ∧
    sample_masks_f32 scenario_over 4 [2] = some ⟨11184811 / 33554432, 2, 3 / 4, 1 / 4⟩ ∧
    (11184811 : ℚ) / 33554432 ≠ 1 / 3 := by
  obtain ⟨a1, a2, a3, a4, a5, a6⟩ := scenario_over_f32
  have hp2 : subset_sum 2 (scenario_over.map (fun e => e.2.population)) = 300 := by decide
  have hs2 : subset_sum 2 (scenario_over.map (fun e => e.2.seats)) = 1 := by decide
  have hP : get_total_population scenario_over = 400 := by decide
  have hps : pop_share scenario_over 2 = 3 / 4 := by
    unfold pop_share; rw [hp2, hP]; norm_num
  have hss : seat_share scenario_over 4 2 = 1 / 4 := by
    unfold seat_share; rw [hs2]; norm_num
  refine ⟨by decide, scenario_over_mask_one.1, scenario_over_mask_one.2, ?_, rfl, rfl, ?_,
    ⟨by decide, by rw [hps]; norm_num⟩, by unfold alpha_of; rw [hps, hss]; norm_num, ?_,
    by norm_num⟩
  · have hstep := (process_sample_f32_step scenario_over 4 SamplerState.initial 1 (by decide)
      (by decide)).2 (by
        rintro ⟨_, h⟩
        rw [a3] at h
        norm_num [SamplerState.initial] at h)
    rw [sample_masks_f32_eq, process_samples_f32_cons _ _ _ _ _ _ _ _ hstep,
      process_samples_f32_nil]
  · intro h
    exact h.1 (Or.inl rfl)
  · have hstep := (process_sample_f32_step scenario_over 4 SamplerState.initial 2 (by decide)
      (by decide)).1 ⟨scenario_over_accepted_f32.2, by
        rw [a6]; norm_num [SamplerState.initial]⟩
    rw [sample_masks_f32_eq, process_samples_f32_cons _ _ _ _ _ _ _ _ hstep,
      process_samples_f32_nil, a4, a5, a6]

/-! ## Two entities in binary32 -/

theorem share_f32_self {x : Int} (h : f32 (x : ℚ) ≠ 0) : share_f32 x x = 1 := by
  unfold share_f32
  rw [div_self h, f32_one]

theorem share_f32_zero (total : Int) : share_f32 0 total = 0 := by
  unfold share_f32
  rw [Int.cast_zero, f32_zero, zero_div, f32_zero]

/-- C12, as the code has it. Two-entity scenario: for a table of exactly two
entities A and B whose seats add up to `S > 0` and whose `float` population
shares `(float)population / total_pop` both exceed the `double` literal
`0.0001`, and every sequence of masks that contains both singletons `{A}`
(mask 1) and `{B}` (mask 2), the estimator returns the minimum of 1 and of the
two `float` ratios `seat_proportion / pop_proportion`, each share and each
ratio rounded to binary32 as the code computes it. -/
theorem two_entity_estimate_f32 (kA kB : String) (dA dB : StateData) (S : Int)
    (masks : List Nat) (hsum : dA.seats + dB.seats = S) (hS : 0 < S)
    (hshA : share_f32 dA.population (dA.population + dB.population) > f64 (1 / 10000))
    (hshB : share_f32 dB.population (dA.population + dB.population) > f64 (1 / 10000))
    (h1 : 1 ∈ masks) (h2 : 2 ∈ masks) :
    ∃ st, sample_masks_f32 [(kA, dA), (kB, dB)] S masks = some st ∧
      st.min_alpha =
        min 1 (min
          (f32 (share_f32 dA.seats S /
            share_f32 dA.population (dA.population + dB.population)))
          (f32 (share_f32 dB.seats S /
            share_f32 dB.population (dA.population + dB.population)))) := by
  set m : StateMap := [(kA, dA), (kB, dB)] with hm
  set P : Int := dA.population + dB.population with hPdef
  have hP : get_total_population m = P := by
    simp [hm, get_total_population, hPdef]
  have hfP : f32 (P : ℚ) ≠ 0 := by
    intro h0
    have h2 : (0 : ℚ) < share_f32 dA.population P := lt_trans f64_cut_pos hshA
    unfold share_f32 at h2
    rw [h0, div_zero, f32_zero] at h2
    exact lt_irrefl _ h2
  have hPne : get_total_population m ≠ 0 := by
    rw [hP]
    intro h0
    apply hfP
    rw [h0, Int.cast_zero, f32_zero]
  have hfS : f32 (S : ℚ) ≠ 0 := ne_of_gt (f32_pos (by exact_mod_cast hS))
  -- the shares of a mask, by its two bits
  have hps : ∀ mask : Nat, pop_share_f32 m mask =
      share_f32 ((if mask &&& (1 <<< 0) ≠ 0 then dA.population else 0) +
        (if mask &&& (1 <<< 1) ≠ 0 then dB.population else 0)) P := by
    intro mask
    unfold pop_share_f32
    rw [hP]
    simp only [hm, List.map_cons, List.map_nil, subset_sum_pair]
  have hss : ∀ mask : Nat, seat_share_f32 m S mask =
      share_f32 ((if mask &&& (1 <<< 0) ≠ 0 then dA.seats else 0) +
        (if mask &&& (1 <<< 1) ≠ 0 then dB.seats else 0)) S := by
    intro mask
    unfold seat_share_f32
    simp only [hm, List.map_cons, List.map_nil, subset_sum_pair]
  have hrA : alpha_of_f32 m S 1 =
      f32 (share_f32 dA.seats S / share_f32 dA.population P) := by
    unfold alpha_of_f32
    rw [hps 1, hss 1]
    simp
  have hrB : alpha_of_f32 m S 2 =
      f32 (share_f32 dB.seats S / share_f32 dB.population P) := by
    unfold alpha_of_f32
    rw [hps 2, hss 2]
    simp
  have hacc1 : accepted_f32 m 1 := by
    refine ⟨by simp [hm], ?_⟩
    rw [hps 1]; simpa using hshA
  have hacc2 : accepted_f32 m 2 := by
    refine ⟨by simp [hm], ?_⟩
    rw [hps 2]; simpa using hshB
  -- every accepted mask has a ratio at least the smallest of 1 and the two
  have hge : ∀ mask : Nat, accepted_f32 m mask →
      min 1 (min (alpha_of_f32 m S 1) (alpha_of_f32 m S 2)) ≤ alpha_of_f32 m S mask := by
    intro mask hacc
    have hpos : (0 : ℚ) < pop_share_f32 m mask := lt_trans f64_cut_pos hacc.2
    have hdef : alpha_of_f32 m S mask =
        f32 (seat_share_f32 m S mask / pop_share_f32 m mask) := rfl
    rw [hps mask] at hpos
    rw [hdef, hps mask, hss mask]
    by_cases b0 : mask &&& (1 <<< 0) ≠ 0 <;> by_cases b1 : mask &&& (1 <<< 1) ≠ 0
    · rw [if_pos b0, if_pos b1, if_pos b0, if_pos b1, hsum, ← hPdef, share_f32_self hfS,
        share_f32_self hfP, div_one, f32_one]
      exact min_le_left _ _
    · rw [if_pos b0, if_neg b1, if_pos b0, if_neg b1, add_zero, add_zero, hrA]
      exact le_trans (min_le_right _ _) (min_le_left _ _)
    · rw [if_neg b0, if_pos b1, if_neg b0, if_pos b1, zero_add, zero_add, hrB]
      exact le_trans (min_le_right _ _) (min_le_right _ _)
    · rw [if_neg b0, if_neg b1, add_zero, share_f32_zero] at hpos
      exact absurd hpos (lt_irrefl _)
  obtain ⟨st, hst, b1, b2, b3⟩ := sample_masks_f32_spec m S (ne_of_gt hS) hPne masks
  refine ⟨st, hst, ?_⟩
  rw [← hrA, ← hrB]
  apply le_antisymm
  · exact le_min b1 (le_min (b2 1 h1 hacc1) (b2 2 h2 hacc2))
  · rcases b3 with h | ⟨_, _, c3, _, _, c6⟩
    · rw [h]
      exact min_le_left _ _
    · rw [c6]
      exact hge st.worst_mask c3

theorem share_f32_over :
    share_f32 100 (100 + 300) = 1 / 4 ∧ share_f32 300 (100 + 300) = 3 / 4 := by
  have c100 : f32 ((100 : Int) : ℚ) = 100 := by simpa using f32_intCast 100 (by decide)
  have c300 : f32 ((300 : Int) : ℚ) = 300 := by simpa using f32_intCast 300 (by decide)
  have c400 : f32 (((100 : Int) + 300 : Int) : ℚ) = 400 := by
    have := f32_intCast 400 (by decide)
    norm_num at this ⊢
    exact this
  have e1 : (100 : ℚ) / 400 = 1 / 4 := by norm_num
  have e2 : (300 : ℚ) / 400 = 3 / 4 := by norm_num
  constructor
  · unfold share_f32
    rw [c100, c400, e1, f32_quarter]
  · unfold share_f32
    rw [c300, c400, e2, f32_three_quarters]

theorem two_entity_estimate_f32_witness :
    ((3 : Int) + 1 = 4) ∧ (0 : Int) < 4 ∧
    (share_f32 100 (100 + 300) > f64 (1 / 10000)) ∧
    (share_f32 300 (100 + 300) > f64 (1 / 10000)) ∧
    (1 ∈ [2, 3, 1]) ∧ (2 ∈ [2, 3, 1]) ∧
    ∃ st, sample_masks_f32 scenario_over 4 [2, 3, 1] = some st ∧
      st.min_alpha =
        min 1 (min (f32 (share_f32 3 4 / share_f32 100 (100 + 300)))
          (f32 (share_f32 1 4 / share_f32 300 (100 + 300)))) :=
  ⟨by decide, by decide, by rw [share_f32_over.1, f64_cut]; norm_num,
    by rw [share_f32_over.2, f64_cut]; norm_num, by simp, by simp,
    two_entity_estimate_f32 "A" "B" ⟨"A", 100, 3, 0⟩ ⟨"B", 300, 1, 0⟩ 4 [2, 3, 1] (by decide)
      (by decide) (by rw [share_f32_over.1, f64_cut]; norm_num)
      (by rw [share_f32_over.2, f64_cut]; norm_num) (by simp) (by simp)⟩

/-- The `float` values of `scenario_cut` at `S = 1`: the share of A is stored
below the `double` literal `0.0001`, and the ratio of B is stored above 1. -/
theorem scenario_cut_f32 :
    pop_share_f32 scenario_cut 1 = 13743895 / 137438953472 ∧
    pop_share_f32 scenario_cut 2 = 8387769 / 8388608 ∧
    alpha_of_f32 scenario_cut 1 2 = 8389447 / 8388608 := by
  have hp1 : subset_sum 1 (scenario_cut.map (fun e => e.2.population)) = 10000 := by decide
  have hp2 : subset_sum 2 (scenario_cut.map (fun e => e.2.population)) = 99989999 := by decide
  have hs2 : subset_sum 2 (scenario_cut.map (fun e => e.2.seats)) = 1 := by decide
  have hP : get_total_population scenario_cut = 99999999 := by decide
  have c1 : f32 ((1 : Int) : ℚ) = 1 := by simpa using f32_one
  have cA : f32 ((10000 : Int) : ℚ) = 10000 := by simpa using f32_intCast 10000 (by decide)
  have cP : f32 ((99999999 : Int) : ℚ) = 100000000 := by
    unfold f32
    rw [fp_round_eval_pos 24 26 12500000 (by norm_num) (by norm_num) (by norm_num)
      (by norm_num)]
    norm_num
  have cB : f32 ((99989999 : Int) : ℚ) = 99990000 := by
    unfold f32
    rw [fp_round_eval_pos 24 26 12498750 (by norm_num) (by norm_num) (by norm_num)
      (by norm_num)]
    norm_num
  have eA : f32 ((10000 : ℚ) / 100000000) = 13743895 / 137438953472 := by
    unfold f32
    rw [fp_round_eval_pos 24 (-14) 13743895 (by norm_num) (by norm_num) (by norm_num)
      (by norm_num)]
    norm_num
  have eB : f32 ((99990000 : ℚ) / 100000000) = 8387769 / 8388608 := by
    unfold f32
    rw [fp_round_eval_pos 24 (-1) 16775538 (by norm_num) (by norm_num) (by norm_num)
      (by norm_num)]
    norm_num
  have eR : f32 ((1 : ℚ) / (8387769 / 8388608)) = 8389447 / 8388608 := by
    unfold f32
    rw [fp_round_eval_pos 24 0 8389447 (by norm_num) (by norm_num) (by norm_num)
      (by norm_num)]
    norm_num
  have a1 : pop_share_f32 scenario_cut 1 = 13743895 / 137438953472 := by
    unfold pop_share_f32 share_f32
    rw [hp1, hP, cA, cP, eA]
  have a2 : pop_share_f32 scenario_cut 2 = 8387769 / 8388608 := by
    unfold pop_share_f32 share_f32
    rw [hp2, hP, cB, cP, eB]
  have a3 : seat_share_f32 scenario_cut 1 2 = 1 := by
    unfold seat_share_f32 share_f32
    rw [hs2, c1, div_one, f32_one]
  refine ⟨a1, a2, ?_⟩
  unfold alpha_of_f32
  rw [a2, a3, eR]

/-- C12, the claim as stated fails. For A (population 10000, 0 seats), B
(population 99989999, 1 seat) and `S = 1` (seats non-negative, adding up to
`S > 0`; both exact population shares above 0.0001, that of A being
10000/99999999) and the masks `{A}`, `{B}`: the code converts the total to the
`float` 100000000 and stores the share of A as 13743895/137438953472, below
the `double` literal `0.0001`, so `{A}` is passed over; the `float` ratio of
`{B}` is above 1; the estimator returns 1, while the stated minimum
`min(seat_share_A/pop_share_A, seat_share_B/pop_share_B)` is 0. -/
theorem two_entity_cut_counterexample :
    (∀ e ∈ scenario_cut, 0 ≤ e.2.seats) ∧ seat_total scenario_cut = 1 ∧ (0 : Int) < 1 ∧
    pop_share scenario_cut 1 > 1 / 10000 ∧ pop_share scenario_cut 2 > 1 / 10000 ∧
    sample_masks_f32 scenario_cut 1 [1, 2] = some SamplerState.initial ∧
    SamplerState.initial.min_alpha = 1 ∧
    min (alpha_of scenario_cut 1 1) (alpha_of scenario_cut 1 2) = 0 := by
  obtain ⟨a1, a2, a3⟩ := scenario_cut_f32
  have hp1 : subset_sum 1 (scenario_cut.map (fun e => e.2.population)) = 10000 := by decide
  have hp2 : subset_sum 2 (scenario_cut.map (fun e => e.2.population)) = 99989999 := by decide
  have hs1 : subset_sum 1 (scenario_cut.map (fun e => e.2.seats)) = 0 := by decide
  have hs2 : subset_sum 2 (scenario_cut.map (fun e => e.2.seats)) = 1 := by decide
  have hP : get_total_population scenario_cut = 99999999 := by decide
  have x1 : pop_share scenario_cut 1 = 10000 / 99999999 := by
    unfold pop_share; rw [hp1, hP]; norm_num
  have x2 : pop_share scenario_cut 2 = 99989999 / 99999999 := by
    unfold pop_share; rw [hp2, hP]; norm_num
  have y1 : alpha_of scenario_cut 1 1 = 0 := by
    unfold alpha_of seat_share; rw [hs1]; norm_num
  have y2 : alpha_of scenario_cut 1 2 = 99999999 / 99989999 := by
    unfold alpha_of seat_share; rw [x2, hs2]; norm_num
  refine ⟨by decide, by decide, by decide, by rw [x1]; norm_num, by rw [x2]; norm_num, ?_, rfl,
    by rw [y1, y2]; norm_num⟩
  have s1 := (process_sample_f32_step scenario_cut 1 SamplerState.initial 1 (by decide)
    (by decide)).2 (by
      rintro ⟨⟨_, h⟩, _⟩
      rw [a1, f64_cut] at h
      norm_num at h)
  have s2 := (process_sample_f32_step scenario_cut 1 SamplerState.initial 2 (by decide)
    (by decide)).2 (by
      rintro ⟨_, h⟩
      rw [a3] at h
      norm_num [SamplerState.initial] at h)
  rw [sample_masks_f32_eq, process_samples_f32_cons _ _ _ _ _ _ _ _ s1,
    process_samples_f32_cons _ _ _ _ _ _ _ _ s2, process_samples_f32_nil]

/-- The cap at 1 in the two-entity result is needed: for A (population
23818217, 460 seats), B (population 29203205, 564 seats) and `S = 1024` the
total 53021422 converts to the `float` 53021424, both `float` population
shares come out below the seat shares, both `float` ratios are
8388609/8388608, above 1, and the estimator returns 1 on the masks `{A}`,
`{B}`. -/
theorem scenario_level_f32 :
    accepted_f32 scenario_level 1 ∧ accepted_f32 scenario_level 2 ∧
    alpha_of_f32 scenario_level 1024 1 = 8388609 / 8388608 ∧
    alpha_of_f32 scenario_level 1024 2 = 8388609 / 8388608 ∧
    sample_masks_f32 scenario_level 1024 [1, 2] = some SamplerState.initial := by
  have hp1 : subset_sum 1 (scenario_level.map (fun e => e.2.population)) = 23818217 := by
    decide
  have hp2 : subset_sum 2 (scenario_level.map (fun e => e.2.population)) = 29203205 := by
    decide
  have hs1 : subset_sum 1 (scenario_level.map (fun e => e.2.seats)) = 460 := by decide
  have hs2 : subset_sum 2 (scenario_level.map (fun e => e.2.seats)) = 564 := by decide
  have hP : get_total_population scenario_level = 53021422 := by decide
  have cS : f32 ((1024 : Int) : ℚ) = 1024 := by simpa using f32_intCast 1024 (by decide)
  have c460 : f32 ((460 : Int) : ℚ) = 460 := by simpa using f32_intCast 460 (by decide)
  have c564 : f32 ((564 : Int) : ℚ) = 564 := by simpa using f32_intCast 564 (by decide)
  have cA : f32 ((23818217 : Int) : ℚ) = 23818216 := by
    have h : round_even ((((23818217 : Int) : ℚ)) /
        (2 : ℚ) ^ ((24 : Int) - (((24 : Nat) : Int) - 1))) = 11909108 := by
      have e : (((23818217 : Int) : ℚ)) / (2 : ℚ) ^ ((24 : Int) - (((24 : Nat) : Int) - 1)) =
          ((11909108 : Int) : ℚ) + 1 / 2 := by norm_num
      rw [e]
      exact round_even_half_even (by decide)
    unfold f32
    rw [fp_round_eval 24 24 11909108 (by norm_num) (by norm_num) h]
    norm_num
  have cB : f32 ((29203205 : Int) : ℚ) = 29203204 := by
    have h : round_even ((((29203205 : Int) : ℚ)) /
        (2 : ℚ) ^ ((24 : Int) - (((24 : Nat) : Int) - 1))) = 14601602 := by
      have e : (((29203205 : Int) : ℚ)) / (2 : ℚ) ^ ((24 : Int) - (((24 : Nat) : Int) - 1)) =
          ((14601602 : Int) : ℚ) + 1 / 2 := by norm_num
      rw [e]
      exact round_even_half_even (by decide)
    unfold f32
    rw [fp_round_eval 24 24 14601602 (by norm_num) (by norm_num) h]
    norm_num
  have cP : f32 ((53021422 : Int) : ℚ) = 53021424 := by
    have h : round_even ((((53021422 : Int) : ℚ)) /
        (2 : ℚ) ^ ((25 : Int) - (((24 : Nat) : Int) - 1))) = 13255355 + 1 := by
      have e : (((53021422 : Int) : ℚ)) / (2 : ℚ) ^ ((25 : Int) - (((24 : Nat) : Int) - 1)) =
          ((13255355 : Int) : ℚ) + 1 / 2 := by norm_num
      rw [e]
      exact round_even_half_odd (by decide)
    unfold f32
    rw [fp_round_eval 24 25 (13255355 + 1) (by norm_num) (by norm_num) h]
    norm_num
  have eA : f32 ((23818216 : ℚ) / 53021424) = 15073279 / 33554432 := by
    unfold f32
    rw [fp_round_eval_pos 24 (-2) 15073279 (by norm_num) (by norm_num) (by norm_num)
      (by norm_num)]
    norm_num
  have eB : f32 ((29203204 : ℚ) / 53021424) = 9240575 / 16777216 := by
    unfold f32
    rw [fp_round_eval_pos 24 (-1) 9240575 (by norm_num) (by norm_num) (by norm_num)
      (by norm_num)]
    norm_num
  have xA : f32 ((460 : ℚ) / 1024) = 115 / 256 := by
    unfold f32
    rw [fp_round_eval_pos 24 (-2) 15073280 (by norm_num) (by norm_num) (by norm_num)
      (by norm_num)]
    norm_num
  have xB : f32 ((564 : ℚ) / 1024) = 141 / 256 := by
    unfold f32
    rw [fp_round_eval_pos 24 (-1) 9240576 (by norm_num) (by norm_num) (by norm_num)
      (by norm_num)]
    norm_num
  have rA : f32 ((115 : ℚ) / 256 / (15073279 / 33554432)) = 8388609 / 8388608 := by
    unfold f32
    rw [fp_round_eval_pos 24 0 8388609 (by norm_num) (by norm_num) (by norm_num)
      (by norm_num)]
    norm_num
  have rB : f32 ((141 : ℚ) / 256 / (9240575 / 16777216)) = 8388609 / 8388608 := by
    unfold f32
    rw [fp_round_eval_pos 24 0 8388609 (by norm_num) (by norm_num) (by norm_num)
      (by norm_num)]
    norm_num
  have a1 : pop_share_f32 scenario_level 1 = 15073279 / 33554432 := by
    unfold pop_share_f32 share_f32
    rw [hp1, hP, cA, cP, eA]
  have a2 : pop_share_f32 scenario_level 2 = 9240575 / 16777216 := by
    unfold pop_share_f32 share_f32
    rw [hp2, hP, cB, cP, eB]
  have b1 : seat_share_f32 scenario_level 1024 1 = 115 / 256 := by
    unfold seat_share_f32 share_f32
    rw [hs1, c460, cS, xA]
  have b2 : seat_share_f32 scenario_level 1024 2 = 141 / 256 := by
    unfold seat_share_f32 share_f32
    rw [hs2, c564, cS, xB]
  have r1 : alpha_of_f32 scenario_level 1024 1 = 8388609 / 8388608 := by
    unfold alpha_of_f32
    rw [a1, b1, rA]
  have r2 : alpha_of_f32 scenario_level 1024 2 = 8388609 / 8388608 := by
    unfold alpha_of_f32
    rw [a2, b2, rB]
  refine ⟨⟨by decide, by rw [a1, f64_cut]; norm_num⟩,
    ⟨by decide, by rw [a2, f64_cut]; norm_num⟩, r1, r2, ?_⟩
  have s1 := (process_sample_f32_step scenario_level 1024 SamplerState.initial 1 (by decide)
    (by decide)).2 (by
      rintro ⟨_, h⟩
      rw [r1] at h
      norm_num [SamplerState.initial] at h)
  have s2 := (process_sample_f32_step scenario_level 1024 SamplerState.initial 2 (by decide)
    (by decide)).2 (by
      rintro ⟨_, h⟩
      rw [r2] at h
      norm_num [SamplerState.initial] at h)
  rw [sample_masks_f32_eq, process_samples_f32_cons _ _ _ _ _ _ _ _ s1,
    process_samples_f32_cons _ _ _ _ _ _ _ _ s2, process_samples_f32_nil]

/-! ## The estimate in binary32 and the exact minimum -/

/-- A `float` share `(float)a / b` of a non-negative part lies within three
roundings of the exact share. -/
theorem share_f32_bounds {a b : Int} (ha : 0 ≤ a) (hb : 0 < b) :
    (a : ℚ) / (b : ℚ) * ((1 - 1 / (2 : ℚ) ^ 24) ^ 2 / (1 + 1 / (2 : ℚ) ^ 24)) ≤ share_f32 a b ∧
    share_f32 a b ≤ (a : ℚ) / (b : ℚ) * ((1 + 1 / (2 : ℚ) ^ 24) ^ 2 / (1 - 1 / (2 : ℚ) ^ 24)) := by
  have h1 : (0 : ℚ) ≤ (a : ℚ) := by exact_mod_cast ha
  have h2 : (0 : ℚ) < (b : ℚ) := by exact_mod_cast hb
  obtain ⟨a1, a2⟩ := f32_bounds h1
  obtain ⟨b1, b2⟩ := f32_bounds (le_of_lt h2)
  have hB : 0 < f32 (b : ℚ) := f32_pos h2
  have hA : 0 ≤ f32 (a : ℚ) := f32_nonneg h1
  have hq : 0 ≤ f32 (a : ℚ) / f32 (b : ℚ) := div_nonneg hA (le_of_lt hB)
  obtain ⟨q1, q2⟩ := f32_bounds hq
  have hm : (0 : ℚ) < 1 - 1 / (2 : ℚ) ^ 24 := by norm_num
  have hpu : (0 : ℚ) < 1 + 1 / (2 : ℚ) ^ 24 := by norm_num
  have lo : (a : ℚ) * (1 - 1 / (2 : ℚ) ^ 24) / ((b : ℚ) * (1 + 1 / (2 : ℚ) ^ 24)) ≤
      f32 (a : ℚ) / f32 (b : ℚ) :=
    div_le_div₀ hA a1 hB b2
  have hi : f32 (a : ℚ) / f32 (b : ℚ) ≤
      (a : ℚ) * (1 + 1 / (2 : ℚ) ^ 24) / ((b : ℚ) * (1 - 1 / (2 : ℚ) ^ 24)) :=
    div_le_div₀ (mul_nonneg h1 (le_of_lt hpu)) a2 (mul_pos h2 hm) b1
  unfold share_f32
  constructor
  · calc (a : ℚ) / (b : ℚ) * ((1 - 1 / (2 : ℚ) ^ 24) ^ 2 / (1 + 1 / (2 : ℚ) ^ 24))
        = (a : ℚ) * (1 - 1 / (2 : ℚ) ^ 24) / ((b : ℚ) * (1 + 1 / (2 : ℚ) ^ 24)) *
            (1 - 1 / (2 : ℚ) ^ 24) := by
          field_simp
          ring
      _ ≤ f32 (a : ℚ) / f32 (b : ℚ) * (1 - 1 / (2 : ℚ) ^ 24) :=
          mul_le_mul_of_nonneg_right lo (le_of_lt hm)
      _ ≤ f32 (f32 (a : ℚ) / f32 (b : ℚ)) := q1
  · calc f32 (f32 (a : ℚ) / f32 (b : ℚ))
        ≤ f32 (a : ℚ) / f32 (b : ℚ) * (1 + 1 / (2 : ℚ) ^ 24) := q2
      _ ≤ (a : ℚ) * (1 + 1 / (2 : ℚ) ^ 24) / ((b : ℚ) * (1 - 1 / (2 : ℚ) ^ 24)) *
            (1 + 1 / (2 : ℚ) ^ 24) := mul_le_mul_of_nonneg_right hi (le_of_lt hpu)
      _ = (a : ℚ) / (b : ℚ) * ((1 + 1 / (2 : ℚ) ^ 24) ^ 2 / (1 - 1 / (2 : ℚ) ^ 24)) := by
          field_simp
          ring

theorem share_f32_pos {a b : Int} (ha : 0 < a) (hb : 0 < b) : 0 < share_f32 a b := by
  unfold share_f32
  exact f32_pos (div_pos (f32_pos (by exact_mod_cast ha)) (f32_pos (by exact_mod_cast hb)))

/-- The `float` ratio of a `float` seat share to a `float` population share is
at least the exact ratio less a relative `2^-21`: seven roundings, each of
relative error at most `2^-24`. -/
theorem ratio_f32_lower {s S p P : Int} (hs : 0 ≤ s) (hS : 0 < S) (hp : 0 < p) (hP : 0 < P) :
    (1 - 1 / (2 : ℚ) ^ 21) * (((s : ℚ) / (S : ℚ)) / ((p : ℚ) / (P : ℚ))) ≤
      f32 (share_f32 s S / share_f32 p P) := by
  have h1 : (0 : ℚ) ≤ (s : ℚ) := by exact_mod_cast hs
  have h2 : (0 : ℚ) < (S : ℚ) := by exact_mod_cast hS
  have h3 : (0 : ℚ) < (p : ℚ) := by exact_mod_cast hp
  have h4 : (0 : ℚ) < (P : ℚ) := by exact_mod_cast hP
  obtain ⟨x1, _⟩ := share_f32_bounds hs hS
  obtain ⟨_, y2⟩ := share_f32_bounds (le_of_lt hp) hP
  have hY : 0 < share_f32 p P := share_f32_pos hp hP
  have hX0 : 0 ≤ (s : ℚ) / (S : ℚ) * ((1 - 1 / (2 : ℚ) ^ 24) ^ 2 / (1 + 1 / (2 : ℚ) ^ 24)) :=
    mul_nonneg (div_nonneg h1 (le_of_lt h2)) (by norm_num)
  have hX : 0 ≤ share_f32 s S := le_trans hX0 x1
  have hq : 0 ≤ share_f32 s S / share_f32 p P := div_nonneg hX (le_of_lt hY)
  obtain ⟨r1, _⟩ := f32_bounds hq
  have hpP : (0 : ℚ) < (p : ℚ) / (P : ℚ) := div_pos h3 h4
  have c : (s : ℚ) / (S : ℚ) * ((1 - 1 / (2 : ℚ) ^ 24) ^ 2 / (1 + 1 / (2 : ℚ) ^ 24)) /
      ((p : ℚ) / (P : ℚ) * ((1 + 1 / (2 : ℚ) ^ 24) ^ 2 / (1 - 1 / (2 : ℚ) ^ 24))) ≤
      share_f32 s S / share_f32 p P :=
    div_le_div₀ hX x1 hY y2
  have ht : (0 : ℚ) ≤ ((s : ℚ) / (S : ℚ)) / ((p : ℚ) / (P : ℚ)) :=
    div_nonneg (div_nonneg h1 (le_of_lt h2)) (le_of_lt hpP)
  have hk : (1 - 1 / (2 : ℚ) ^ 21) ≤
      ((1 - 1 / (2 : ℚ) ^ 24) ^ 2 / (1 + 1 / (2 : ℚ) ^ 24)) /
        ((1 + 1 / (2 : ℚ) ^ 24) ^ 2 / (1 - 1 / (2 : ℚ) ^ 24)) * (1 - 1 / (2 : ℚ) ^ 24) := by
    norm_num
  calc (1 - 1 / (2 : ℚ) ^ 21) * (((s : ℚ) / (S : ℚ)) / ((p : ℚ) / (P : ℚ)))
      ≤ (((1 - 1 / (2 : ℚ) ^ 24) ^ 2 / (1 + 1 / (2 : ℚ) ^ 24)) /
          ((1 + 1 / (2 : ℚ) ^ 24) ^ 2 / (1 - 1 / (2 : ℚ) ^ 24)) * (1 - 1 / (2 : ℚ) ^ 24)) *
          (((s : ℚ) / (S : ℚ)) / ((p : ℚ) / (P : ℚ))) := mul_le_mul_of_nonneg_right hk ht
    _ = (s : ℚ) / (S : ℚ) * ((1 - 1 / (2 : ℚ) ^ 24) ^ 2 / (1 + 1 / (2 : ℚ) ^ 24)) /
          ((p : ℚ) / (P : ℚ) * ((1 + 1 / (2 : ℚ) ^ 24) ^ 2 / (1 - 1 / (2 : ℚ) ^ 24))) *
          (1 - 1 / (2 : ℚ) ^ 24) := by
        field_simp
        ring
    _ ≤ share_f32 s S / share_f32 p P * (1 - 1 / (2 : ℚ) ^ 24) :=
        mul_le_mul_of_nonneg_right c (by norm_num)
    _ ≤ f32 (share_f32 s S / share_f32 p P) := r1

/-- A mask the machine accepts selects a positive population when the total is
positive. -/
theorem accepted_f32_subset_pos (m : StateMap) (mask : Nat) (hP : 0 < get_total_population m)
    (hacc : accepted_f32 m mask) :
    0 < subset_sum mask (m.map (fun e => e.2.population)) := by
  have h2 : (0 : ℚ) < pop_share_f32 m mask := lt_trans f64_cut_pos hacc.2
  unfold pop_share_f32 share_f32 at h2
  have h3 := pos_of_f32_pos h2
  have hPf : 0 < f32 (get_total_population m : ℚ) := f32_pos (by exact_mod_cast hP)
  have h4 := pos_of_f32_pos ((div_pos_iff_of_pos_right hPf).mp h3)
  exact_mod_cast h4

/-- The estimator in binary32 on masks below `2 ^ n` never returns less than
the exact minimum less a relative `2^-21`. -/
theorem sample_masks_f32_ge_exact (m : StateMap) (S : Int) (hn : 2 ≤ m.length)
    (hP : 0 < get_total_population m) (hseats : ∀ e ∈ m, 0 ≤ e.2.seats)
    (hsum : seat_total m = S) (hS : 0 < S) (masks : List Nat)
    (hmasks : ∀ mask ∈ masks, mask < 2 ^ m.length) :
    ∃ st mn, sample_masks_f32 m S masks = some st ∧ exact_min_alpha m S = some mn ∧
      (1 - 1 / (2 : ℚ) ^ 21) * mn ≤ st.min_alpha := by
  obtain ⟨c0, hc0, hle0⟩ := exists_candidate_le_one m S hn hP hseats hsum hS
  obtain ⟨mn, hmn, hmin⟩ := min_of_mem ((candidate_masks m).map (alpha_of m S))
    (alpha_of m S c0) (List.mem_map_of_mem _ hc0)
  obtain ⟨st, hst, _, _, b3⟩ := sample_masks_f32_spec m S (ne_of_gt hS) (ne_of_gt hP) masks
  have hk : (0 : ℚ) ≤ 1 - 1 / (2 : ℚ) ^ 21 := by norm_num
  have hk1 : (1 - 1 / (2 : ℚ) ^ 21) ≤ 1 := by norm_num
  refine ⟨st, mn, hst, hmn, ?_⟩
  rcases b3 with h | ⟨_, c2, c3, _, _, c6⟩
  · rw [h]
    have h1 : mn ≤ 1 := le_trans (hmin _ (List.mem_map_of_mem _ hc0)) hle0
    have h2 : (1 - 1 / (2 : ℚ) ^ 21) * mn ≤ 1 * 1 := by
      rcases le_or_lt 0 mn with h0 | h0
      · exact mul_le_mul hk1 h1 h0 (by norm_num)
      · have : (1 - 1 / (2 : ℚ) ^ 21) * mn ≤ 0 :=
          mul_nonpos_of_nonneg_of_nonpos hk (le_of_lt h0)
        linarith
    simpa [SamplerState.initial] using h2
  · rw [c6]
    have hsp := accepted_f32_subset_pos m st.worst_mask hP c3
    have hss : 0 ≤ subset_sum st.worst_mask (m.map (fun e => e.2.seats)) := by
      unfold subset_sum
      refine (subset_sum_from_bounds st.worst_mask 0 (m.map (fun e => e.2.seats)) ?_).1
      intro v hv
      obtain ⟨e, he, rfl⟩ := List.mem_map.mp hv
      exact hseats e he
    have hcand : st.worst_mask ∈ candidate_masks m := by
      unfold candidate_masks
      rw [List.mem_filter, List.mem_range]
      refine ⟨hmasks _ c2, ?_⟩
      rw [decide_eq_true_eq]
      exact ⟨fun h => c3.1 (Or.inl h), fun h => c3.1 (Or.inr h), hsp⟩
    have hge := hmin _ (List.mem_map_of_mem (alpha_of m S) hcand)
    have hlow := ratio_f32_lower hss hS hsp hP
    calc (1 - 1 / (2 : ℚ) ^ 21) * mn
        ≤ (1 - 1 / (2 : ℚ) ^ 21) * alpha_of m S st.worst_mask :=
          mul_le_mul_of_nonneg_left hge hk
      _ ≤ alpha_of_f32 m S st.worst_mask := hlow

/-- C13, as the code has it. The estimate undershoots the exact minimum by at
most a relative `2^-21`: for every table with between 2 and 62 entities,
positive total population and non-negative seats that add up to `S > 0`, the
exact minimum of `seat_share / pop_share` over all non-empty, non-full subsets
with positive population exists, and the `float` alpha the estimator returns is
at least `(1 - 2^-21)` times that minimum, for every sequence of masks below
`2 ^ n`, for the first overload of `calculate_alpha_sampling` whatever the
random values and the sample count, and for the masks drawn with any inclusion
test, that of the threshold overload among them. -/
theorem sampling_near_exact_minimum_f32 (m : StateMap) (S : Int) (hn : 2 ≤ m.length)
    (_hn62 : m.length ≤ 62) (hP : 0 < get_total_population m)
    (hseats : ∀ e ∈ m, 0 ≤ e.2.seats) (hsum : seat_total m = S) (hS : 0 < S) :
    (∀ masks : List Nat, (∀ mask ∈ masks, mask < 2 ^ m.length) →
      ∃ st mn, sample_masks_f32 m S masks = some st ∧ exact_min_alpha m S = some mn ∧
        (1 - 1 / (2 : ℚ) ^ 21) * mn ≤ st.min_alpha) ∧
    (∀ (rand : Nat → Nat) (num_samples : Nat), ∃ alpha mn,
      calculate_alpha_sampling_f32 m S rand num_samples = some alpha ∧
      exact_min_alpha m S = some mn ∧ (1 - 1 / (2 : ℚ) ^ 21) * mn ≤ alpha) ∧
    (∀ (included : Nat → Bool) (rand : Nat → Nat) (num_samples : Nat), ∃ st mn,
      sample_masks_f32 m S (drawn_masks included rand m.length num_samples) = some st ∧
      exact_min_alpha m S = some mn ∧ (1 - 1 / (2 : ℚ) ^ 21) * mn ≤ st.min_alpha) := by
  refine ⟨sample_masks_f32_ge_exact m S hn hP hseats hsum hS, ?_, ?_⟩
  · intro rand num_samples
    obtain ⟨st, mn, h1, h2, h3⟩ := sample_masks_f32_ge_exact m S hn hP hseats hsum hS
      (drawn_masks uniform_included rand m.length num_samples)
      (drawn_masks_lt uniform_included rand m.length num_samples)
    exact ⟨st.min_alpha, mn, by simp [calculate_alpha_sampling_f32, h1], h2, h3⟩
  · intro included rand num_samples
    exact sample_masks_f32_ge_exact m S hn hP hseats hsum hS
      (drawn_masks included rand m.length num_samples)
      (drawn_masks_lt included rand m.length num_samples)

theorem sampling_near_exact_minimum_f32_witness :
    2 ≤ scenario_over.length ∧ scenario_over.length ≤ 62 ∧
    0 < get_total_population scenario_over ∧
    (∀ e ∈ scenario_over, 0 ≤ e.2.seats) ∧ seat_total scenario_over = 4 ∧
    (0 : Int) < 4 ∧
    (∃ st mn, sample_masks_f32 scenario_over 4 [1, 2, 3] = some st ∧
      exact_min_alpha scenario_over 4 = some mn ∧
      (1 - 1 / (2 : ℚ) ^ 21) * mn ≤ st.min_alpha) ∧
    (∃ alpha mn,
      calculate_alpha_sampling_f32 scenario_over 4 (fun k => k * k + k / 3) 10 = some alpha ∧
      exact_min_alpha scenario_over 4 = some mn ∧ (1 - 1 / (2 : ℚ) ^ 21) * mn ≤ alpha) :=
  have h := sampling_near_exact_minimum_f32 scenario_over 4 (by decide) (by decide)
    (by decide) (by decide) (by decide) (by decide)
  ⟨by decide, by decide, by decide, by decide, by decide, by decide,
    h.1 [1, 2, 3] (by decide), h.2.1 (fun k => k * k + k / 3) 10⟩

theorem f32_half : f32 (1 / 2) = 1 / 2 := by
  unfold f32
  rw [fp_round_eval_pos 24 (-1) 8388608 (by norm_num) (by norm_num) (by norm_num)
    (by norm_num)]
  norm_num

/-- The `float` values of the mask `{A}` of `scenario_sevens` at `S = 20`: the
seat share 7/20 is stored as 11744051/33554432, just below it, and the ratio
to the share 1/2 is 11744051/16777216. -/
theorem scenario_sevens_f32 :
    pop_share_f32 scenario_sevens 1 = 1 / 2 ∧
    seat_share_f32 scenario_sevens 20 1 = 11744051 / 33554432 ∧
    alpha_of_f32 scenario_sevens 20 1 = 11744051 / 16777216 := by
  have hp1 : subset_sum 1 (scenario_sevens.map (fun e => e.2.population)) = 1 := by decide
  have hs1 : subset_sum 1 (scenario_sevens.map (fun e => e.2.seats)) = 7 := by decide
  have hP : get_total_population scenario_sevens = 2 := by decide
  have c1 : f32 ((1 : Int) : ℚ) = 1 := by simpa using f32_one
  have c2 : f32 ((2 : Int) : ℚ) = 2 := by simpa using f32_intCast 2 (by decide)
  have c7 : f32 ((7 : Int) : ℚ) = 7 := by simpa using f32_intCast 7 (by decide)
  have c20 : f32 ((20 : Int) : ℚ) = 20 := by simpa using f32_intCast 20 (by decide)
  have e7 : f32 ((7 : ℚ) / 20) = 11744051 / 33554432 := by
    unfold f32
    rw [fp_round_eval_pos 24 (-2) 11744051 (by norm_num) (by norm_num) (by norm_num)
      (by norm_num)]
    norm_num
  have er : f32 ((11744051 : ℚ) / 33554432 / (1 / 2)) = 11744051 / 16777216 := by
    unfold f32
    rw [fp_round_eval_pos 24 (-1) 11744051 (by norm_num) (by norm_num) (by norm_num)
      (by norm_num)]
    norm_num
  have a1 : pop_share_f32 scenario_sevens 1 = 1 / 2 := by
    unfold pop_share_f32 share_f32
    rw [hp1, hP, c1, c2, f32_half]
  have a2 : seat_share_f32 scenario_sevens 20 1 = 11744051 / 33554432 := by
    unfold seat_share_f32 share_f32
    rw [hs1, c7, c20, e7]
  refine ⟨a1, a2, ?_⟩
  unfold alpha_of_f32
  rw [a1, a2, er]

/-- C13, the claim as stated fails. For A (population 1, 7 seats), B
(population 1, 13 seats) and `S = 20` (two entities, positive total population,
non-negative seats adding up to `S > 0`) the exact minimum of
`seat_share / pop_share` over the two proper subsets is 7/10, that of `{A}`.
On the sampled mask `{A}` the code stores the seat share 7/20 as the `float`
11744051/33554432 and returns the ratio 11744051/16777216, which is 0.69999999
and below the exact minimum 7/10. -/
theorem sampling_undershoot_counterexample :
    2 ≤ scenario_sevens.length ∧ scenario_sevens.length ≤ 62 ∧
    0 < get_total_population scenario_sevens ∧
    (∀ e ∈ scenario_sevens, 0 ≤ e.2.seats) ∧ seat_total scenario_sevens = 20 ∧
    (0 : Int) < 20 ∧
    exact_min_alpha scenario_sevens 20 = some (7 / 10) ∧
    sample_masks_f32 scenario_sevens 20 [1] =
      some ⟨11744051 / 16777216, 1, 1 / 2, 11744051 / 33554432⟩ ∧
    (11744051 : ℚ) / 16777216 < 7 / 10 := by
  obtain ⟨a1, a2, a3⟩ := scenario_sevens_f32
  have hp1 : subset_sum 1 (scenario_sevens.map (fun e => e.2.population)) = 1 := by decide
  have hs1 : subset_sum 1 (scenario_sevens.map (fun e => e.2.seats)) = 7 := by decide
  have hp2 : subset_sum 2 (scenario_sevens.map (fun e => e.2.population)) = 1 := by decide
  have hs2 : subset_sum 2 (scenario_sevens.map (fun e => e.2.seats)) = 13 := by decide
  have hP : get_total_population scenario_sevens = 2 := by decide
  have hc : candidate_masks scenario_sevens = [1, 2] := by decide
  have x1 : alpha_of scenario_sevens 20 1 = 7 / 10 := by
    unfold alpha_of seat_share pop_share; rw [hp1, hs1, hP]; norm_num
  have x2 : alpha_of scenario_sevens 20 2 = 13 / 10 := by
    unfold alpha_of seat_share pop_share; rw [hp2, hs2, hP]; norm_num
  refine ⟨by decide, by decide, by decide, by decide, by decide, by decide, ?_, ?_,
    by norm_num⟩
  · unfold exact_min_alpha
    rw [hc]
    simp only [List.map_cons, List.map_nil, x1, x2, List.min?_cons', List.foldl_cons,
      List.foldl_nil]
    norm_num
  · have hacc : accepted_f32 scenario_sevens 1 :=
      ⟨by decide, by rw [a1, f64_cut]; norm_num⟩
    have hstep := (process_sample_f32_step scenario_sevens 20 SamplerState.initial 1
      (by decide) (by decide)).1 ⟨hacc, by rw [a3]; norm_num [SamplerState.initial]⟩
    rw [sample_masks_f32_eq, process_samples_f32_cons _ _ _ _ _ _ _ _ hstep,
      process_samples_f32_nil, a1, a2, a3]

end Apportion
